import Mathlib

/-!
# Verification of a propositional / first-order logic engine

Shallow embedding of the repository's code:
* `propositions/syntax.py`   — propositional formulas and variable substitution
* `propositions/semantics.py` — evaluation, model enumeration, synthesis
* `propositions/proofs.py`   — inference rules, specialization, proofs, validity checker
* `propositions/deduction.py` — proof maneuvers (corollary, combination, deduction theorem)
* `propositions/tautology.py` — the tautology prover
* `predicates/syntax.py`     — first-order terms/formulas, substitution, skeletons

Python dictionaries are embedded as association lists with insertion-order
semantics (assignment to an existing key updates in place, new keys are
appended); Python sets are embedded as lists used only through membership;
Python `int` line citations are embedded as `Nat` (the checker rejects any
citation that is not a smaller index of a previous line).  Structural equality
on the inductive syntax trees corresponds to the source's string-based
`__eq__`, since the canonical printer is injective on trees.
-/

namespace Propositions

/-- Binary operators of propositional formulas: the source's
`is_binary` set, i.e. &, |, ->, +, <->, -&, -|. -/
inductive BinOp where
  | and
  | or
  | imp
  | xor
  | iff
  | nand
  | nor
deriving DecidableEq, Repr

/-- Propositional `Formula` from `propositions/syntax.py`: a root which is a
variable name, a constant `T`/`F`, a unary operator with one operand, or a
binary operator with two operands. -/
inductive Formula where
  | var (name : String)
  | const (b : Bool)
  | neg (first : Formula)
  | bin (op : BinOp) (first second : Formula)
deriving DecidableEq, Repr

instance : Inhabited Formula := ⟨Formula.var "p"⟩

/-- Add a string to a set-of-strings embedded as a duplicate-free list
(`set.add`). -/
def setAdd (acc : List String) (v : String) : List String :=
  if v ∈ acc then acc else acc ++ [v]

/-- `Formula.find_variables`: accumulate all variable names of the formula. -/
def Formula.find_variables : Formula → List String → List String
  | Formula.const _, acc => acc
  | Formula.var v, acc => setAdd acc v
  | Formula.neg f, acc => f.find_variables acc
  | Formula.bin _ f g, acc => g.find_variables (f.find_variables acc)

/-- `Formula.variables()`: all variable names of the formula (a Python set,
embedded as a duplicate-free list). -/
def Formula.variablesOf (f : Formula) : List String :=
  f.find_variables []

/-- `Formula.substitute_variables`: replace each variable that is a key of the
map by the mapped formula (simultaneously, never re-substituting). -/
def Formula.substitute_variables (f : Formula) (m : List (String × Formula)) :
    Formula :=
  match f with
  | Formula.var v =>
    match m.lookup v with
    | some g => g
    | none => Formula.var v
  | Formula.const b => Formula.const b
  | Formula.neg g => Formula.neg (g.substitute_variables m)
  | Formula.bin op g h =>
    Formula.bin op (g.substitute_variables m) (h.substitute_variables m)

/-- A model (`Model = Mapping[str, bool]`): a Python dict embedded as an
association list in insertion order. -/
def Model : Type := List (String × Bool)

instance : DecidableEq Model := by
  unfold Model
  infer_instance

/-- Python dict assignment `d[k] = v`: update the value at the first
occurrence of the key, keeping its position, or append a new entry. -/
def dictSet (d : List (String × Bool)) (k : String) (v : Bool) :
    List (String × Bool) :=
  match d with
  | [] => [(k, v)]
  | (k0, v0) :: rest =>
    if k0 = k then (k0, v) :: rest else (k0, v0) :: dictSet rest k v

/-- `evaluate(formula, model)` from `propositions/semantics.py`.  A variable
missing from the model (a `KeyError` in Python, excluded by the function's
precondition) evaluates to `false`. -/
def evaluate (f : Formula) (m : Model) : Bool :=
  match f with
  | Formula.var v => ((m : List (String × Bool)).lookup v).getD false
  | Formula.const b => b
  | Formula.neg g => ! evaluate g m
  | Formula.bin BinOp.or g h => evaluate g m || evaluate h m
  | Formula.bin BinOp.and g h => evaluate g m && evaluate h m
  | Formula.bin BinOp.imp g h => !evaluate g m || evaluate h m
  | Formula.bin BinOp.nor g h => !(evaluate g m || evaluate h m)
  | Formula.bin BinOp.nand g h => !(evaluate g m && evaluate h m)
  | Formula.bin BinOp.xor g h => xor (evaluate g m) (evaluate h m)
  | Formula.bin BinOp.iff g h => evaluate g m == evaluate h m

/-- `itertools.product([False, True], repeat = n)`, in the order produced by
`itertools.product`: the first coordinate varies slowest. -/
def boolTuples : Nat → List (List Bool)
  | 0 => [[]]
  | n + 1 =>
    (boolTuples n).map (fun t => false :: t) ++
      (boolTuples n).map (fun t => true :: t)

/-- Build the dict of one model of `all_models`: assign each variable in list
order to the corresponding component of the combination. -/
def buildModel (vars : List String) (combi : List Bool) : Model :=
  (vars.zip combi).foldl (fun d p => dictSet d p.1 p.2) []

/-- `all_models(variables)` from `propositions/semantics.py`. -/
def all_models (vars : List String) : List Model :=
  (boolTuples vars.length).map (buildModel vars)

/-- `truth_values(formula, models)`. -/
def truth_values (f : Formula) (models : List Model) : List Bool :=
  models.map (evaluate f)

/-- `is_tautology(formula)`. -/
def is_tautology (f : Formula) : Bool :=
  (truth_values f (all_models f.variablesOf)).all (fun v => v)

/-- `is_satisfiable(formula)`. -/
def is_satisfiable (f : Formula) : Bool :=
  (truth_values f (all_models f.variablesOf)).any (fun v => v)

/-- `__create_dnf__`: right-nested conjunction of a non-empty list of
formulas (the empty list is an `IndexError` in Python, excluded by use). -/
def create_dnf : List Formula → Formula
  | [] => default
  | [f] => f
  | f :: rest => Formula.bin BinOp.and f (create_dnf rest)

/-- `__create_cnf__`: right-nested disjunction of a non-empty list of
formulas. -/
def create_cnf : List Formula → Formula
  | [] => default
  | [f] => f
  | f :: rest => Formula.bin BinOp.or f (create_cnf rest)

/-- `synthesize_for_model(model)`: conjunction over the model's keys, in
insertion order, of the variable if true and its negation if false. -/
def synthesize_for_model (m : Model) : Formula :=
  create_dnf ((m : List (String × Bool)).map
    (fun p => if p.2 then Formula.var p.1 else Formula.neg (Formula.var p.1)))

/-- `synthesize(variables, values)` from `propositions/semantics.py`. -/
def synthesize (vars : List String) (values : List Bool) : Formula :=
  let options := all_models vars
  let forms := (values.zip options).filterMap
    (fun p => if p.1 then some (synthesize_for_model p.2) else none)
  if values.any (fun v => v) then create_cnf forms
  else
    Formula.bin BinOp.and (Formula.var (vars.headD "p"))
      (Formula.neg (Formula.var (vars.headD "p")))

/-! ## Properties of `boolTuples` (the `itertools.product` enumeration) -/

theorem length_of_mem_boolTuples {n : Nat} {bs : List Bool}
    (h : bs ∈ boolTuples n) : bs.length = n := by
  induction n generalizing bs with
  | zero =>
    simp [boolTuples] at h
    simp [h]
  | succ n ih =>
    simp [boolTuples] at h
    rcases h with ⟨t, ht, rfl⟩ | ⟨t, ht, rfl⟩ <;> simp [ih ht]

theorem length_boolTuples (n : Nat) : (boolTuples n).length = 2 ^ n := by
  induction n with
  | zero => simp [boolTuples]
  | succ n ih => simp [boolTuples, ih, Nat.pow_succ]; ring

theorem mem_boolTuples_of_length {n : Nat} {bs : List Bool}
    (h : bs.length = n) : bs ∈ boolTuples n := by
  induction n generalizing bs with
  | zero => simp [boolTuples, List.length_eq_zero.mp h]
  | succ n ih =>
    match bs, h with
    | false :: t, h =>
      rw [boolTuples]
      exact List.mem_append_left _ (List.mem_map_of_mem _ (ih (by simpa using h)))
    | true :: t, h =>
      rw [boolTuples]
      exact List.mem_append_right _ (List.mem_map_of_mem _ (ih (by simpa using h)))

theorem boolTuples_pairwise_lex (n : Nat) :
    (boolTuples n).Pairwise (List.Lex (fun a b : Bool => a < b)) := by
  induction n with
  | zero => simp [boolTuples]
  | succ n ih =>
    rw [boolTuples, List.pairwise_append]
    refine ⟨?_, ?_, ?_⟩
    · exact (List.pairwise_map).2 (ih.imp (fun h => List.Lex.cons h))
    · exact (List.pairwise_map).2 (ih.imp (fun h => List.Lex.cons h))
    · intro a ha b hb
      simp only [List.mem_map] at ha hb
      obtain ⟨t1, _, rfl⟩ := ha
      obtain ⟨t2, _, rfl⟩ := hb
      exact List.Lex.rel (by simp)

theorem lex_lt_irrefl (a : List Bool) : ¬ List.Lex (fun a b : Bool => a < b) a a := by
  intro h
  induction a with
  | nil => cases h
  | cons b t ih =>
    cases h with
    | cons h => exact ih h
    | rel h => exact lt_irrefl b h

theorem boolTuples_nodup (n : Nat) : (boolTuples n).Nodup := by
  refine (boolTuples_pairwise_lex n).imp (fun {a b} hab => ?_)
  intro h
  subst h
  exact lex_lt_irrefl a hab

/-! ## `all_models` on duplicate-free variable lists -/

theorem dictSet_append_fresh (d : List (String × Bool)) (k : String) (v : Bool)
    (h : k ∉ d.map Prod.fst) : dictSet d k v = d ++ [(k, v)] := by
  induction d with
  | nil => rfl
  | cons p rest ih =>
    simp only [List.map_cons, List.mem_cons] at h
    push_neg at h
    simp [dictSet, Ne.symm h.1, ih h.2]

theorem foldl_dictSet_fresh (ps : List (String × Bool)) :
    ∀ d, (ps.map Prod.fst).Nodup → (∀ p ∈ ps, p.1 ∉ d.map Prod.fst) →
    ps.foldl (fun d p => dictSet d p.1 p.2) d = d ++ ps := by
  induction ps with
  | nil =>
    intro d _ _
    simp
  | cons p rest ih =>
    intro d hnd hdisj
    simp only [List.map_cons, List.nodup_cons] at hnd
    have hfresh : p.1 ∉ d.map Prod.fst := hdisj p (List.mem_cons_self _ _)
    have step : dictSet d p.1 p.2 = d ++ [p] := by
      simpa using dictSet_append_fresh d p.1 p.2 hfresh
    have hdisj2 : ∀ q ∈ rest, q.1 ∉ (d ++ [p]).map Prod.fst := by
      intro q hq
      simp only [List.map_append, List.mem_append, List.map_cons, List.map_nil,
        List.mem_singleton]
      push_neg
      exact ⟨hdisj q (List.mem_cons_of_mem _ hq),
        fun hqp => hnd.1 (hqp ▸ List.mem_map_of_mem Prod.fst hq)⟩
    rw [List.foldl_cons, step, ih (d ++ [p]) hnd.2 hdisj2, List.append_assoc]
    rfl

theorem buildModel_eq_zip (vars : List String) (c : List Bool)
    (hlen : c.length = vars.length) (h : vars.Nodup) :
    buildModel vars c = vars.zip c := by
  have h1 : ((vars.zip c).map Prod.fst).Nodup := by
    rw [List.map_fst_zip vars c (le_of_eq hlen.symm)]
    exact h
  have h2 : ∀ p ∈ vars.zip c, p.1 ∉ ([] : List (String × Bool)).map Prod.fst := by
    simp
  unfold buildModel
  simpa using foldl_dictSet_fresh (vars.zip c) [] h1 h2

theorem all_models_eq_zip (vars : List String) (h : vars.Nodup) :
    all_models vars = (boolTuples vars.length).map (fun bs => vars.zip bs) := by
  unfold all_models
  exact List.map_congr_left
    (fun c hc => buildModel_eq_zip vars c (length_of_mem_boolTuples hc) h)

theorem map_fst_of_mem_all_models (vars : List String) (h : vars.Nodup)
    (m : Model) (hm : m ∈ all_models vars) :
    (m : List (String × Bool)).map Prod.fst = vars := by
  rw [all_models_eq_zip vars h] at hm
  simp only [List.mem_map] at hm
  obtain ⟨bs, hbs, rfl⟩ := hm
  exact List.map_fst_zip vars bs (le_of_eq (length_of_mem_boolTuples hbs).symm)

theorem all_models_nodup (vars : List String) (h : vars.Nodup) :
    (all_models vars).Nodup := by
  rw [all_models_eq_zip vars h]
  refine List.Nodup.map_on ?_ (boolTuples_nodup vars.length)
  intro b1 h1 b2 h2 hzip
  have e1 : (vars.zip b1).map Prod.snd = b1 :=
    List.map_snd_zip vars b1 (le_of_eq (length_of_mem_boolTuples h1))
  have e2 : (vars.zip b2).map Prod.snd = b2 :=
    List.map_snd_zip vars b2 (le_of_eq (length_of_mem_boolTuples h2))
  rw [← e1, ← e2, hzip]

theorem all_models_pairwise_lex (vars : List String) (h : vars.Nodup) :
    (all_models vars).Pairwise
      (fun m1 m2 : Model => List.Lex (fun a b : Bool => a < b)
        ((m1 : List (String × Bool)).map Prod.snd)
        ((m2 : List (String × Bool)).map Prod.snd)) := by
  rw [all_models_eq_zip vars h]
  rw [List.pairwise_map]
  refine List.Pairwise.imp_of_mem ?_ (boolTuples_pairwise_lex vars.length)
  intro b1 b2 h1 h2 hlex
  rw [List.map_snd_zip vars b1 (le_of_eq (length_of_mem_boolTuples h1)),
    List.map_snd_zip vars b2 (le_of_eq (length_of_mem_boolTuples h2))]
  exact hlex

/-- C8: for every list of distinct variables, `all_models` yields exactly the
`2 ^ n` total assignments over those variables (every model assigns exactly
the given variables in order, every combination of values occurs, and no model
repeats), in lexicographic order where `False` precedes `True` and the first
variable is most significant; in particular `all_models ["p", "q"]` is exactly
the four models `p:F,q:F`, `p:F,q:T`, `p:T,q:F`, `p:T,q:T` in that order. -/
theorem claim_C8 (vars : List String) (h : vars.Nodup) :
    (all_models vars).length = 2 ^ vars.length ∧
    (∀ m ∈ all_models vars, (m : List (String × Bool)).map Prod.fst = vars) ∧
    (∀ bs : List Bool, bs.length = vars.length → vars.zip bs ∈ all_models vars) ∧
    (all_models vars).Nodup ∧
    (all_models vars).Pairwise
      (fun m1 m2 : Model => List.Lex (fun a b : Bool => a < b)
        ((m1 : List (String × Bool)).map Prod.snd)
        ((m2 : List (String × Bool)).map Prod.snd)) ∧
    all_models ["p", "q"] =
      [[("p", false), ("q", false)], [("p", false), ("q", true)],
        [("p", true), ("q", false)], [("p", true), ("q", true)]] := by
  refine ⟨?_, ?_, ?_, all_models_nodup vars h, all_models_pairwise_lex vars h, ?_⟩
  · rw [all_models_eq_zip vars h, List.length_map, length_boolTuples]
  · exact fun m hm => map_fst_of_mem_all_models vars h m hm
  · intro bs hbs
    rw [all_models_eq_zip vars h]
    exact List.mem_map_of_mem _ (mem_boolTuples_of_length hbs)
  · rfl

/-- Witness for C8 at the concrete input `["p", "q"]`. -/
theorem claim_C8_witness :
    (["p", "q"] : List String).Nodup ∧
    (all_models ["p", "q"]).length = 2 ^ 2 ∧
    all_models ["p", "q"] =
      [[("p", false), ("q", false)], [("p", false), ("q", true)],
        [("p", true), ("q", false)], [("p", true), ("q", true)]] :=
  ⟨by decide, (claim_C8 ["p", "q"] (by decide)).1,
    (claim_C8 ["p", "q"] (by decide)).2.2.2.2.2⟩

/-! ## Evaluation of synthesized formulas -/

theorem create_cnf_eval (l : List Formula) (hl : l ≠ []) (m : Model) :
    evaluate (create_cnf l) m = l.any (fun f => evaluate f m) := by
  induction l with
  | nil => exact absurd rfl hl
  | cons f rest ih =>
    cases rest with
    | nil => simp [create_cnf]
    | cons g rest2 =>
      have : create_cnf (f :: g :: rest2) =
          Formula.bin BinOp.or f (create_cnf (g :: rest2)) := rfl
      rw [this]
      simp [evaluate, ih (by simp)]

theorem create_dnf_eval (l : List Formula) (hl : l ≠ []) (m : Model) :
    evaluate (create_dnf l) m = l.all (fun f => evaluate f m) := by
  induction l with
  | nil => exact absurd rfl hl
  | cons f rest ih =>
    cases rest with
    | nil => simp [create_dnf]
    | cons g rest2 =>
      have : create_dnf (f :: g :: rest2) =
          Formula.bin BinOp.and f (create_dnf (g :: rest2)) := rfl
      rw [this]
      simp [evaluate, ih (by simp)]

theorem eval_literal (v : String) (b : Bool) (m : Model) :
    evaluate (if b then Formula.var v else Formula.neg (Formula.var v)) m =
      (((m : List (String × Bool)).lookup v).getD false == b) := by
  cases b <;> simp [evaluate]

theorem lookup_zip_nodup (vars : List String) (c : List Bool)
    (h : vars.Nodup) (hlen : c.length = vars.length) (k : Nat)
    (hk : k < vars.length) :
    (vars.zip c).lookup (vars.get ⟨k, hk⟩) =
      some (c.get ⟨k, by omega⟩) := by
  induction vars generalizing c k with
  | nil => exact absurd hk (by simp)
  | cons v vs ih =>
    match c with
    | b :: c2 =>
      simp only [List.nodup_cons] at h
      match k with
      | 0 => simp [List.zip_cons_cons, List.lookup]
      | k + 1 =>
        have hk2 : k < vs.length := by simpa using hk
        have hne : vs.get ⟨k, hk2⟩ ≠ v := fun hc => h.1 (hc ▸ List.get_mem vs k hk2)
        have hbeq : (vs.get ⟨k, hk2⟩ == v) = false := by simpa using hne
        simp only [List.zip_cons_cons, List.lookup, List.get_cons_succ, hbeq]
        exact ih c2 h.2 (by simpa using hlen) k hk2

theorem clause_eval (vars : List String) (c c2 : List Bool)
    (h : vars.Nodup) (hc : c.length = vars.length)
    (hc2 : c2.length = vars.length) (hne : vars ≠ []) :
    evaluate (synthesize_for_model (vars.zip c)) (vars.zip c2) = (c == c2) := by
  have hzne : (vars.zip c).map
      (fun p => if p.2 then Formula.var p.1 else Formula.neg (Formula.var p.1)) ≠ [] := by
    simp only [ne_eq, List.map_eq_nil_iff, List.zip_eq_nil_iff, not_or]
    exact ⟨hne, fun hcn => hne (by
      have h2 := hc
      rw [hcn] at h2
      exact List.length_eq_zero.mp h2.symm)⟩
  unfold synthesize_for_model
  rw [create_dnf_eval _ hzne]
  by_cases hceq : c = c2
  · subst hceq
    rw [beq_self_eq_true]
    rw [List.all_eq_true]
    intro f hf
    rw [List.mem_map] at hf
    obtain ⟨p, hp, rfl⟩ := hf
    rw [List.mem_iff_get] at hp
    obtain ⟨⟨k, hk⟩, rfl⟩ := hp
    have hkv : k < vars.length := by
      have h3 := hk
      simp only [List.length_zip] at h3
      omega
    rw [List.get_zip, eval_literal]
    simp only
    rw [lookup_zip_nodup vars c h hc k hkv]
    simp
  · have hB : (c == c2) = false := by simpa using hceq
    rw [hB]
    rw [List.all_eq_false]
    have hlen12 : c.length = c2.length := by omega
    have hdiff : ∃ k : Nat, ∃ hkc : k < c.length,
        c.get ⟨k, hkc⟩ ≠ c2.get ⟨k, by omega⟩ := by
      by_contra hall
      push_neg at hall
      exact hceq (List.ext_get hlen12 (fun k h1 h2 => hall k h1))
    obtain ⟨k, hkc, hkne⟩ := hdiff
    have hkv : k < vars.length := by omega
    have hkz : k < (vars.zip c).length := by
      simp only [List.length_zip]
      omega
    refine ⟨(fun p => if p.2 then Formula.var p.1
      else Formula.neg (Formula.var p.1)) ((vars.zip c).get ⟨k, hkz⟩),
      List.mem_map_of_mem _ (List.get_mem _ _ _), ?_⟩
    rw [List.get_zip, eval_literal]
    simp only
    rw [lookup_zip_nodup vars c2 h hc2 k hkv]
    simp only [Option.getD_some]
    simpa using fun hcc => hkne (by simpa using hcc.symm)

theorem synthesize_truth (vars : List String) (vals : List Bool)
    (h1 : vars ≠ []) (h2 : vars.Nodup) (h3 : vals.length = 2 ^ vars.length) :
    truth_values (synthesize vars vals) (all_models vars) = vals := by
  have hopts : all_models vars =
      (boolTuples vars.length).map (fun bs => vars.zip bs) :=
    all_models_eq_zip vars h2
  have hlopts : (all_models vars).length = 2 ^ vars.length := by
    rw [hopts, List.length_map, length_boolTuples]
  have hlv : vals.length = (all_models vars).length := by omega
  apply List.ext_get
  · simp only [truth_values, List.length_map]
    omega
  intro k hk1 hk2
  have hkT : k < (boolTuples vars.length).length := by
    rw [length_boolTuples]
    simp only [truth_values, List.length_map] at hk1
    omega
  have hkM : k < (all_models vars).length := by
    simp only [truth_values, List.length_map] at hk1
    exact hk1
  have hmodel : (all_models vars).get ⟨k, hkM⟩ =
      vars.zip ((boolTuples vars.length).get ⟨k, hkT⟩) := by
    have := hopts
    rw [List.get_of_eq this]
    simp
  have hTV : (truth_values (synthesize vars vals) (all_models vars)).get ⟨k, hk1⟩ =
      evaluate (synthesize vars vals) ((all_models vars).get ⟨k, hkM⟩) := by
    simp [truth_values]
  rw [hTV, hmodel]
  by_cases hany : vals.any (fun v => v) = true
  · have hsyn : synthesize vars vals = create_cnf
        ((vals.zip (all_models vars)).filterMap
          (fun p => if p.1 then some (synthesize_for_model p.2) else none)) := by
      simp only [synthesize]
      rw [if_pos hany]
    rw [hsyn]
    set forms := (vals.zip (all_models vars)).filterMap
      (fun p => if p.1 then some (synthesize_for_model p.2) else none) with hforms
    obtain ⟨j, hj, hvj⟩ : ∃ j, ∃ hj : j < vals.length,
        vals.get ⟨j, hj⟩ = true := by
      rw [List.any_eq_true] at hany
      obtain ⟨b, hb, hbt⟩ := hany
      rw [List.mem_iff_get] at hb
      obtain ⟨⟨j, hj⟩, rfl⟩ := hb
      exact ⟨j, hj, by simpa using hbt⟩
    have hmemzip : ∀ i (hi : i < vals.length),
        (vals.get ⟨i, hi⟩, (all_models vars).get ⟨i, by omega⟩) ∈
          vals.zip (all_models vars) := by
      intro i hi
      have hiz : i < (vals.zip (all_models vars)).length := by
        simp only [List.length_zip]
        omega
      have : (vals.zip (all_models vars)).get ⟨i, hiz⟩ =
          (vals.get ⟨i, hi⟩, (all_models vars).get ⟨i, by omega⟩) := by
        simp [List.get_zip]
      rw [← this]
      exact List.get_mem _ _ _
    have hformsne : forms ≠ [] := by
      have hmem : synthesize_for_model ((all_models vars).get ⟨j, by omega⟩) ∈
          forms := by
        rw [hforms, List.mem_filterMap]
        exact ⟨_, hmemzip j hj, by rw [if_pos hvj]⟩
      exact List.ne_nil_of_mem hmem
    rw [create_cnf_eval forms hformsne]
    by_cases hvk : vals.get ⟨k, hk2⟩ = true
    · have hkv : k < vals.length := hk2
      have hclause : synthesize_for_model
          (vars.zip ((boolTuples vars.length).get ⟨k, hkT⟩)) ∈ forms := by
        rw [hforms, List.mem_filterMap]
        refine ⟨(vals.get ⟨k, hkv⟩, (all_models vars).get ⟨k, by omega⟩),
          hmemzip k hkv, ?_⟩
        rw [if_pos hvk]
        rw [hmodel]
      have heval : evaluate (synthesize_for_model
          (vars.zip ((boolTuples vars.length).get ⟨k, hkT⟩)))
          (vars.zip ((boolTuples vars.length).get ⟨k, hkT⟩)) = true := by
        rw [clause_eval vars _ _ h2
          (length_of_mem_boolTuples (List.get_mem _ _ _))
          (length_of_mem_boolTuples (List.get_mem _ _ _)) h1]
        exact beq_self_eq_true _
      rw [hvk, List.any_eq_true]
      exact ⟨_, hclause, heval⟩
    · have hvkf : vals.get ⟨k, hk2⟩ = false := by
        cases hx : vals.get ⟨k, hk2⟩
        · rfl
        · exact absurd hx hvk
      rw [hvkf, List.any_eq_false]
      intro clause hclause
      rw [hforms, List.mem_filterMap] at hclause
      obtain ⟨p, hpmem, hpeq⟩ := hclause
      rw [List.mem_iff_get] at hpmem
      obtain ⟨⟨i, hiz⟩, hpget⟩ := hpmem
      have hiv : i < vals.length := by
        simp only [List.length_zip] at hiz
        omega
      have hpfst : p.1 = vals.get ⟨i, hiv⟩ := by
        rw [← hpget]
        simp [List.get_zip]
      have hpsnd : p.2 = (all_models vars).get ⟨i, by omega⟩ := by
        rw [← hpget]
        simp [List.get_zip]
      by_cases hp1 : p.1 = true
      · rw [hp1] at hpeq
        simp only [if_true, Option.some.injEq] at hpeq
        have hmi : (all_models vars).get ⟨i, by omega⟩ =
            vars.zip ((boolTuples vars.length).get ⟨i, by
              rw [length_boolTuples]; omega⟩) := by
          rw [List.get_of_eq hopts]
          simp
        rw [← hpeq, hpsnd, hmi]
        rw [clause_eval vars _ _ h2
          (length_of_mem_boolTuples (List.get_mem _ _ _))
          (length_of_mem_boolTuples (List.get_mem _ _ _)) h1]
        by_contra hbeq
        have hik : i = k := by
          have heqT : (boolTuples vars.length).get ⟨i, by
              rw [length_boolTuples]; omega⟩ =
              (boolTuples vars.length).get ⟨k, hkT⟩ := by simpa using hbeq
          have hfin := ((boolTuples_nodup vars.length).get_inj_iff).mp heqT
          exact congrArg Fin.val hfin
        subst hik
        rw [hpfst] at hp1
        rw [hvkf] at hp1
        exact Bool.false_ne_true hp1
      · rw [Bool.not_eq_true] at hp1
        rw [hp1] at hpeq
        simp at hpeq
  · rw [Bool.not_eq_true] at hany
    have hsyn : synthesize vars vals =
        Formula.bin BinOp.and (Formula.var (vars.headD "p"))
          (Formula.neg (Formula.var (vars.headD "p"))) := by
      simp only [synthesize]
      rw [if_neg (by rw [hany]; exact Bool.false_ne_true)]
    rw [hsyn]
    have hvf : vals.get ⟨k, hk2⟩ = false := by
      rw [List.any_eq_false] at hany
      have hmem := hany _ (List.get_mem vals k hk2)
      simpa using hmem
    rw [hvf]
    simp [evaluate]

/-- C7 (counterexample): the claim fails as stated, because it quantifies over
every non-empty variable list; with the duplicated list `["p", "p"]` and the
value sequence `[T, F, F, F]` of length `2 ^ 2`, the synthesized formula does
not reproduce the values over `all_models ["p", "p"]`. -/
theorem claim_C7_counterexample :
    (["p", "p"] : List String) ≠ [] ∧
    ([true, false, false, false] : List Bool).length =
      2 ^ (["p", "p"] : List String).length ∧
    truth_values (synthesize ["p", "p"] [true, false, false, false])
      (all_models ["p", "p"]) ≠ [true, false, false, false] := by
  refine ⟨by decide, by decide, by decide⟩

/-- C7 (amended): for every non-empty list of *distinct* variables `V` and
every boolean sequence `vals` of length `2 ^ |V|` (in `all_models V` order),
`truth_values (synthesize V vals) (all_models V) = vals`; and whenever every
entry of `vals` is false, `synthesize` returns the fixed unsatisfiable formula
`(x & ~x)` built from the first variable of `V`. -/
theorem claim_C7 (vars : List String) (vals : List Bool) (h1 : vars ≠ [])
    (h2 : vars.Nodup) (h3 : vals.length = 2 ^ vars.length) :
    truth_values (synthesize vars vals) (all_models vars) = vals ∧
    (vals.any (fun v => v) = false →
      synthesize vars vals =
        Formula.bin BinOp.and (Formula.var (vars.headD "p"))
          (Formula.neg (Formula.var (vars.headD "p")))) := by
  refine ⟨synthesize_truth vars vals h1 h2 h3, fun hf => ?_⟩
  simp only [synthesize]
  rw [if_neg (by rw [hf]; exact Bool.false_ne_true)]

/-- Witness for the amended C7 at `V = ["p", "q"]`, `vals = [T, T, T, F]`. -/
theorem claim_C7_witness :
    (["p", "q"] : List String) ≠ [] ∧ (["p", "q"] : List String).Nodup ∧
    ([true, true, true, false] : List Bool).length =
      2 ^ (["p", "q"] : List String).length ∧
    truth_values (synthesize ["p", "q"] [true, true, true, false])
      (all_models ["p", "q"]) = [true, true, true, false] :=
  ⟨by decide, by decide, by decide,
    (claim_C7 ["p", "q"] [true, true, true, false]
      (by decide) (by decide) (by decide)).1⟩

/-! ## Inference rules and specialization (`propositions/proofs.py`) -/

/-- A specialization map (`SpecializationMap`): a Python dict from variable
names to formulas, embedded as an association list in insertion order. -/
def SMap : Type := List (String × Formula)

instance : DecidableEq SMap := by
  unfold SMap
  infer_instance

/-- `InferenceRule`: zero or more assumption formulas and a conclusion. -/
structure InferenceRule where
  assumptions : List Formula
  conclusion : Formula
deriving DecidableEq, Repr

/-- `InferenceRule.specialize`: substitute the map simultaneously in all
assumptions and in the conclusion. -/
def InferenceRule.specialize (r : InferenceRule) (m : SMap) : InferenceRule :=
  ⟨r.assumptions.map (fun a => a.substitute_variables m),
    r.conclusion.substitute_variables m⟩

/-- First loop of `merge_specialization_maps`: scan the first map; a key also
present in the second map with a different value aborts with `none`. -/
def mergeScan (m1 m2 : List (String × Formula)) :
    Option (List (String × Formula)) :=
  match m1 with
  | [] => some []
  | (k, v) :: rest =>
    match m2.lookup k with
    | some v2 =>
      if v = v2 then (mergeScan rest m2).map (fun t => (k, v) :: t) else none
    | none => (mergeScan rest m2).map (fun t => (k, v) :: t)

/-- `InferenceRule.merge_specialization_maps`. -/
def merge_specialization_maps (m1 m2 : Option SMap) : Option SMap :=
  match m1, m2 with
  | none, _ => none
  | _, none => none
  | some l1, some l2 =>
    match mergeScan l1 l2 with
    | none => none
    | some part1 =>
      some ((part1 ++ l2.filter (fun p => (l1.lookup p.1).isNone) : List (String × Formula)))

/-- `InferenceRule.formula_specialization_map`: minimal map by which `general`
specializes to `special`, or `none`. -/
def formula_specialization_map : Formula → Formula → Option SMap
  | Formula.var v, s => some [(v, s)]
  | Formula.const b, s =>
    match s with
    | Formula.const b2 => if b = b2 then some ([] : List (String × Formula)) else none
    | _ => none
  | Formula.neg g, s =>
    match s with
    | Formula.neg s1 => formula_specialization_map g s1
    | _ => none
  | Formula.bin op g h, s =>
    match s with
    | Formula.bin op2 s1 s2 =>
      if op = op2 then
        merge_specialization_maps (formula_specialization_map g s1)
          (formula_specialization_map h s2)
      else none
    | _ => none

/-- `InferenceRule.specialization_map`: merge the per-assumption maps (in
order) and the conclusion map. -/
def InferenceRule.specialization_map (r inst : InferenceRule) : Option SMap :=
  if r.assumptions.length = inst.assumptions.length then
    merge_specialization_maps
      ((r.assumptions.zip inst.assumptions).foldl
        (fun acc p => merge_specialization_maps acc
          (formula_specialization_map p.1 p.2))
        (some ([] : List (String × Formula))))
      (formula_specialization_map r.conclusion inst.conclusion)
  else none

/-- `InferenceRule.is_specialization_of`. -/
def InferenceRule.is_specialization_of (inst general : InferenceRule) : Bool :=
  (general.specialization_map inst).isSome

/-! ## Proofs and the validity checker (`propositions/proofs.py`) -/

/-- `Proof.Line`: a formula, either an assumption line (no justification) or a
derived line citing an allowed rule and indices of earlier lines. -/
structure Line where
  formula : Formula
  justification : Option (InferenceRule × List Nat)
deriving DecidableEq, Repr

instance : Inhabited Line := ⟨⟨default, none⟩⟩

/-- `Proof.Line.is_assumption`. -/
def Line.is_assumption (l : Line) : Bool := l.justification.isNone

/-- `Proof`: a statement, a set of allowed rules (a frozenset, embedded as a
list used only through membership), and a sequence of lines. -/
structure Proof where
  statement : InferenceRule
  rules : List InferenceRule
  lines : List Line
deriving DecidableEq, Repr

/-- `Proof.rule_for_line`: the rule whose assumptions are the formulas of the
cited lines (in citation order) and whose conclusion is the line's formula;
`none` for an assumption line. -/
def Proof.rule_for_line (p : Proof) (i : Nat) : Option InferenceRule :=
  match (p.lines.getD i default).justification with
  | none => none
  | some (_, cits) =>
    some ⟨cits.map (fun c => (p.lines.getD c default).formula),
      (p.lines.getD i default).formula⟩

/-- `Proof.is_line_valid`: an assumption line is valid iff its formula is a
declared assumption; a derived line is valid iff its rule is allowed, all
cited indices are smaller than the line's own index, and the rule built by
`rule_for_line` is a specialization of the cited rule. -/
def Proof.is_line_valid (p : Proof) (i : Nat) : Bool :=
  match (p.lines.getD i default).justification with
  | none => decide ((p.lines.getD i default).formula ∈ p.statement.assumptions)
  | some (r, cits) =>
    if ¬ (r ∈ p.rules) then false
    else if cits.any (fun c => decide (i ≤ c)) then false
    else
      match p.rule_for_line i with
      | some inf => inf.is_specialization_of r
      | none => false

/-- `Proof.is_valid`, with the Python behavior made explicit: `none` models
the `IndexError` raised by `self.lines[-1]` on a proof with no lines (the
line loop checks nothing in that case), otherwise `some` of the result. -/
def Proof.is_valid? (p : Proof) : Option Bool :=
  if ¬ ((List.range p.lines.length).all (fun i => p.is_line_valid i)) then
    some false
  else
    match p.lines.getLast? with
    | none => none
    | some l => some (decide (l.formula = p.statement.conclusion))

/-- `proof.is_valid() == True` on the non-crashing path. -/
def Proof.is_valid_b (p : Proof) : Bool := p.is_valid? = some true

/-! ## C2: specification-side reading of the validity checker -/

/-- Specification-side validity of a line, written from the spec's words: an
assumption line is valid iff its formula is literally one of the statement's
declared assumptions; a derived line is valid iff its cited rule is in the
allowed rule set, every cited index is strictly less than the line's own
index, and the inference rule pairing the cited lines' formulas (in citation
order) with this line's formula is a specialization of the cited rule. -/
def LineValidSpec (p : Proof) (i : Nat) : Prop :=
  match (p.lines.getD i default).justification with
  | none => (p.lines.getD i default).formula ∈ p.statement.assumptions
  | some (r, cits) =>
    r ∈ p.rules ∧ (∀ c ∈ cits, c < i) ∧
    InferenceRule.is_specialization_of
      ⟨cits.map (fun c => (p.lines.getD c default).formula),
        (p.lines.getD i default).formula⟩ r = true

theorem rule_for_line_of_justification (p : Proof) (i : Nat)
    (r : InferenceRule) (cits : List Nat)
    (hj : (p.lines.getD i default).justification = some (r, cits)) :
    p.rule_for_line i =
      some ⟨cits.map (fun c => (p.lines.getD c default).formula),
        (p.lines.getD i default).formula⟩ := by
  unfold Proof.rule_for_line
  rw [hj]

theorem is_line_valid_iff (p : Proof) (i : Nat) :
    p.is_line_valid i = true ↔ LineValidSpec p i := by
  unfold Proof.is_line_valid LineValidSpec
  cases hj : (p.lines.getD i default).justification with
  | none => simp
  | some rc =>
    obtain ⟨r, cits⟩ := rc
    simp only
    rw [rule_for_line_of_justification p i r cits hj]
    by_cases hr : r ∈ p.rules
    · rw [if_neg (not_not_intro hr)]
      by_cases hc : cits.any (fun c => decide (i ≤ c)) = true
      · rw [if_pos hc]
        simp only [Bool.false_eq_true, false_iff]
        intro hrhs
        obtain ⟨_, hlt, _⟩ := hrhs
        rw [List.any_eq_true] at hc
        obtain ⟨c, hcm, hci⟩ := hc
        have h1 : i ≤ c := of_decide_eq_true hci
        have h2 : c < i := hlt c hcm
        omega
      · rw [if_neg hc]
        have hall : ∀ c ∈ cits, c < i := by
          intro c hcm
          by_contra hlt
          exact hc (List.any_eq_true.mpr ⟨c, hcm, by simpa using Nat.le_of_not_lt hlt⟩)
        constructor
        · intro hspec
          exact ⟨hr, hall, hspec⟩
        · intro hrhs
          exact hrhs.2.2
    · rw [if_pos hr]
      simp [hr]

theorem is_valid_iff (p : Proof) (h : p.lines ≠ []) :
    p.is_valid? = some true ↔
      ((∀ i, i < p.lines.length → LineValidSpec p i) ∧
        (p.lines.getLast h).formula = p.statement.conclusion) := by
  unfold Proof.is_valid?
  by_cases hall : (List.range p.lines.length).all (fun i => p.is_line_valid i) = true
  · rw [if_neg (not_not_intro hall)]
    rw [List.getLast?_eq_getLast p.lines h]
    simp only [Option.some.injEq, decide_eq_true_eq]
    constructor
    · intro hlast
      refine ⟨?_, hlast⟩
      intro i hi
      rw [← is_line_valid_iff]
      rw [List.all_eq_true] at hall
      exact hall i (List.mem_range.mpr hi)
    · exact fun hx => hx.2
  · rw [if_pos hall]
    simp only [Option.some.injEq, Bool.false_eq_true, false_iff, not_and]
    intro hspec
    exfalso
    apply hall
    rw [List.all_eq_true]
    intro i hi
    rw [is_line_valid_iff]
    exact hspec i (List.mem_range.mp hi)

/-- C2: a line justified as an assumption is valid iff its formula is a
declared assumption; a derived line is valid iff its cited rule is allowed,
every cited index is strictly smaller than the line's own index, and the rule
built from the cited lines' formulas (in citation order) with the line's
formula as conclusion specializes the cited rule; and `is_valid` returns
`True` iff every line is valid and the last line's formula equals the
statement's conclusion. -/
theorem claim_C2 (p : Proof) :
    (∀ i, i < p.lines.length → (p.is_line_valid i = true ↔ LineValidSpec p i)) ∧
    (∀ h : p.lines ≠ [],
      (p.is_valid? = some true ↔
        ((∀ i, i < p.lines.length → LineValidSpec p i) ∧
          (p.lines.getLast h).formula = p.statement.conclusion))) :=
  ⟨fun i _ => is_line_valid_iff p i, fun h => is_valid_iff p h⟩

/-- A small concrete proof of `q` from `[p, p -> q]` by modus ponens, used to
witness C2. -/
def mpExampleProof : Proof :=
  ⟨⟨[Formula.var "p", Formula.bin BinOp.imp (Formula.var "p") (Formula.var "q")],
      Formula.var "q"⟩,
    [⟨[Formula.var "p",
        Formula.bin BinOp.imp (Formula.var "p") (Formula.var "q")],
      Formula.var "q"⟩],
    [⟨Formula.var "p", none⟩,
      ⟨Formula.bin BinOp.imp (Formula.var "p") (Formula.var "q"), none⟩,
      ⟨Formula.var "q",
        some (⟨[Formula.var "p",
          Formula.bin BinOp.imp (Formula.var "p") (Formula.var "q")],
          Formula.var "q"⟩, [0, 1])⟩]⟩

/-- Witness for C2 at a concrete three-line modus-ponens proof. -/
theorem claim_C2_witness :
    mpExampleProof.lines ≠ [] ∧
    (mpExampleProof.is_valid? = some true ↔
      ((∀ i, i < mpExampleProof.lines.length → LineValidSpec mpExampleProof i) ∧
        (mpExampleProof.lines.getLast (by decide)).formula =
          mpExampleProof.statement.conclusion)) :=
  ⟨by decide, (claim_C2 mpExampleProof).2 (by decide)⟩

/-- C10: `is_valid` on a proof with no lines does not return `False` — the
final-line access fails (modeled by `none`); on any proof with at least one
line it returns a boolean. -/
theorem claim_C10 (p : Proof) :
    (p.lines = [] → p.is_valid? = none) ∧
    (p.lines ≠ [] → ∃ b, p.is_valid? = some b) := by
  constructor
  · intro hnil
    unfold Proof.is_valid?
    rw [hnil]
    simp
  · intro hne
    unfold Proof.is_valid?
    by_cases hall : (List.range p.lines.length).all (fun i => p.is_line_valid i) = true
    · rw [if_neg (not_not_intro hall)]
      rw [List.getLast?_eq_getLast p.lines hne]
      exact ⟨_, rfl⟩
    · rw [if_pos hall]
      exact ⟨false, rfl⟩

/-- Witness for C10: the concrete zero-line proof crashes (`none`), and the
concrete modus-ponens proof returns a boolean. -/
theorem claim_C10_witness :
    (Proof.mk ⟨[], Formula.var "p"⟩ [] []).is_valid? = none ∧
    ∃ b, mpExampleProof.is_valid? = some b :=
  ⟨(claim_C10 ⟨⟨[], Formula.var "p"⟩, [], []⟩).1 rfl,
    (claim_C10 mpExampleProof).2 (by decide)⟩

/-! ## The axiom catalogue (`propositions/axiomatic_systems.py`)

The repository's `axiomatic_systems.py` is not among the provided sources;
only its callers are.  The rules below are modelled from the spec, which gives
each schema's shape (§4.7, §4.8 and §6 of the specification). -/

/-- `Formula('->', a, b)`: implication shorthand. -/
def fimp (a b : Formula) : Formula := Formula.bin BinOp.imp a b

/-- Modelled from the spec: `MP`, modus ponens, the only allowed rule with
assumptions — from `p` and `(p->q)` conclude `q`. -/
def MP : InferenceRule :=
  ⟨[Formula.var "p", fimp (Formula.var "p") (Formula.var "q")], Formula.var "q"⟩

/-- Modelled from the spec: `I0`, the self-implication schema `(p->p)`. -/
def I0 : InferenceRule := ⟨[], fimp (Formula.var "p") (Formula.var "p")⟩

/-- Modelled from the spec: `I1`, the identity-lifting schema `(q->(p->q))`. -/
def I1 : InferenceRule :=
  ⟨[], fimp (Formula.var "q") (fimp (Formula.var "p") (Formula.var "q"))⟩

/-- Modelled from the spec: `D`, the distribution schema
`((p->(q->r)) -> ((p->q)->(p->r)))`. -/
def D : InferenceRule :=
  ⟨[], fimp (fimp (Formula.var "p") (fimp (Formula.var "q") (Formula.var "r")))
    (fimp (fimp (Formula.var "p") (Formula.var "q"))
      (fimp (Formula.var "p") (Formula.var "r")))⟩

/-- Modelled from the spec: `I2`, the schema `(~p->(p->q))` used to lift a
false antecedent. -/
def I2 : InferenceRule :=
  ⟨[], fimp (Formula.neg (Formula.var "p"))
    (fimp (Formula.var "p") (Formula.var "q"))⟩

/-- Modelled from the spec: `N`, the negation-elimination schema
`((~q->~p)->(p->q))`. -/
def N : InferenceRule :=
  ⟨[], fimp (fimp (Formula.neg (Formula.var "q")) (Formula.neg (Formula.var "p")))
    (fimp (Formula.var "p") (Formula.var "q"))⟩

/-- Modelled from the spec: `NI`, the schema `(p->(~q->~(p->q)))` used to
prove a false implication's negation. -/
def NI : InferenceRule :=
  ⟨[], fimp (Formula.var "p") (fimp (Formula.neg (Formula.var "q"))
    (Formula.neg (fimp (Formula.var "p") (Formula.var "q"))))⟩

/-- Modelled from the spec: `NN`, the double-negation schema `(p->~~p)`. -/
def NN : InferenceRule :=
  ⟨[], fimp (Formula.var "p") (Formula.neg (Formula.neg (Formula.var "p")))⟩

/-- Modelled from the spec: `R`, the excluded-middle/case-split schema
`((q->p)->((~q->p)->p))`. -/
def R : InferenceRule :=
  ⟨[], fimp (fimp (Formula.var "q") (Formula.var "p"))
    (fimp (fimp (Formula.neg (Formula.var "q")) (Formula.var "p"))
      (Formula.var "p"))⟩

/-- Modelled from the spec: `AXIOMATIC_SYSTEM`, the fixed rule set used by
the tautology prover. -/
def AXIOMATIC_SYSTEM : List InferenceRule := [MP, I0, I1, D, I2, N, NI, NN, R]

/-! ## `remove_assumption` (`propositions/deduction.py`) -/

/-- One iteration of the `remove_assumption` loop: process original line
`p.2` (at original index `p.1`), extending the accumulated new lines and the
original-index-to-new-index map. -/
def remove_assumption_step (pf : Proof) (phi : Formula)
    (acc : List Line × List Nat) (p : Nat × Line) : List Line × List Nat :=
  let index := p.1
  let line := p.2
  if line.formula = phi then
    (acc.1 ++ (if index ≠ 0 then [⟨fimp phi phi, some (I0, [])⟩] else []),
      acc.2 ++ [0])
  else
    match line.justification with
    | none =>
      let n := acc.1.length
      (acc.1 ++ [line,
        ⟨fimp line.formula (fimp phi line.formula), some (I1, [])⟩,
        ⟨fimp phi line.formula, some (MP, [n, n + 1])⟩],
        acc.2 ++ [n + 2])
    | some (r, cits) =>
      if cits.isEmpty then
        let n := acc.1.length
        (acc.1 ++ [line,
          ⟨fimp line.formula (fimp phi line.formula), some (I1, [])⟩,
          ⟨fimp phi line.formula, some (MP, [n, n + 1])⟩],
          acc.2 ++ [n + 2])
      else
        let psi1 := (pf.lines.getD (cits.getD 0 0) default).formula
        let first_part := fimp phi line.formula
        let scd_part := fimp (fimp phi psi1) first_part
        let d_scd := fimp phi (fimp psi1 line.formula)
        let n := acc.1.length
        (acc.1 ++ [⟨fimp d_scd scd_part, some (D, [])⟩,
          ⟨scd_part, some (MP, [acc.2.getD (cits.getD 1 0) 0, n])⟩,
          ⟨first_part, some (MP, [acc.2.getD (cits.getD 0 0) 0, n + 1])⟩],
          acc.2 ++ [n + 2])

/-- `remove_assumption(proof)` from `propositions/deduction.py` (the
deduction theorem).  The working assumption is the statement's last declared
assumption; the returned statement drops every assumption equal to it. -/
def remove_assumption (pf : Proof) : Proof :=
  let phi := (pf.statement.assumptions.getLast?).getD default
  let res := pf.lines.enum.foldl (remove_assumption_step pf phi)
    ([⟨fimp phi phi, some (I0, [])⟩], [])
  ⟨⟨pf.statement.assumptions.filter (fun a => ¬ (a = phi)),
      fimp phi pf.statement.conclusion⟩,
    pf.rules ++ [I0, I1, MP, D], res.1⟩

/-! ## Shape lemmas for specializations of the modelled axioms -/

theorem spec_I0 (a : Formula) :
    InferenceRule.is_specialization_of ⟨[], fimp a a⟩ I0 = true := by
  simp [InferenceRule.is_specialization_of, InferenceRule.specialization_map, I0,
    formula_specialization_map, merge_specialization_maps, mergeScan, fimp, List.lookup]
theorem spec_I1 (a b : Formula) :
    InferenceRule.is_specialization_of ⟨[], fimp b (fimp a b)⟩ I1 = true := by
  simp [InferenceRule.is_specialization_of, InferenceRule.specialization_map, I1,
    formula_specialization_map, merge_specialization_maps, mergeScan, fimp, List.lookup]
theorem spec_D (a b c : Formula) :
    InferenceRule.is_specialization_of
      ⟨[], fimp (fimp a (fimp b c)) (fimp (fimp a b) (fimp a c))⟩ D = true := by
  simp [InferenceRule.is_specialization_of, InferenceRule.specialization_map, D,
    formula_specialization_map, merge_specialization_maps, mergeScan, fimp, List.lookup]
theorem spec_I2 (a b : Formula) :
    InferenceRule.is_specialization_of
      ⟨[], fimp (Formula.neg a) (fimp a b)⟩ I2 = true := by
  simp [InferenceRule.is_specialization_of, InferenceRule.specialization_map, I2,
    formula_specialization_map, merge_specialization_maps, mergeScan, fimp, List.lookup]
theorem spec_NI (a b : Formula) :
    InferenceRule.is_specialization_of
      ⟨[], fimp a (fimp (Formula.neg b) (Formula.neg (fimp a b)))⟩ NI = true := by
  simp [InferenceRule.is_specialization_of, InferenceRule.specialization_map, NI,
    formula_specialization_map, merge_specialization_maps, mergeScan, fimp, List.lookup]
theorem spec_NN (a : Formula) :
    InferenceRule.is_specialization_of
      ⟨[], fimp a (Formula.neg (Formula.neg a))⟩ NN = true := by
  simp [InferenceRule.is_specialization_of, InferenceRule.specialization_map, NN,
    formula_specialization_map, merge_specialization_maps, mergeScan, fimp, List.lookup]
theorem spec_R (a b : Formula) :
    InferenceRule.is_specialization_of
      ⟨[], fimp (fimp b a) (fimp (fimp (Formula.neg b) a) a)⟩ R = true := by
  simp [InferenceRule.is_specialization_of, InferenceRule.specialization_map, R,
    formula_specialization_map, merge_specialization_maps, mergeScan, fimp, List.lookup]
theorem spec_MP (a b : Formula) :
    InferenceRule.is_specialization_of ⟨[a, fimp a b], b⟩ MP = true := by
  simp [InferenceRule.is_specialization_of, InferenceRule.specialization_map, MP,
    formula_specialization_map, merge_specialization_maps, mergeScan, fimp, List.lookup]

theorem spec_MP_shape (A B C : Formula)
    (h : InferenceRule.is_specialization_of ⟨[A, B], C⟩ MP = true) :
    B = fimp A C := by
  cases B with
  | var v =>
    simp [InferenceRule.is_specialization_of, InferenceRule.specialization_map, MP,
      formula_specialization_map, merge_specialization_maps, mergeScan, fimp,
      List.lookup] at h
  | const b =>
    simp [InferenceRule.is_specialization_of, InferenceRule.specialization_map, MP,
      formula_specialization_map, merge_specialization_maps, mergeScan, fimp,
      List.lookup] at h
  | neg g =>
    simp [InferenceRule.is_specialization_of, InferenceRule.specialization_map, MP,
      formula_specialization_map, merge_specialization_maps, mergeScan, fimp,
      List.lookup] at h
  | bin op B1 B2 =>
    cases op <;>
      simp [InferenceRule.is_specialization_of, InferenceRule.specialization_map, MP,
        formula_specialization_map, merge_specialization_maps, mergeScan, fimp,
        List.lookup] at h
    split_ifs at h with h1
    · simp [merge_specialization_maps, mergeScan, List.lookup] at h
      split_ifs at h with h2
      · simp [fimp, h1, h2]
      · simp at h
    · simp at h
theorem spec_length (inst R0 : InferenceRule)
    (h : InferenceRule.is_specialization_of inst R0 = true) :
    inst.assumptions.length = R0.assumptions.length := by
  unfold InferenceRule.is_specialization_of InferenceRule.specialization_map at h
  by_cases hl : R0.assumptions.length = inst.assumptions.length
  · omega
  · rw [if_neg hl] at h
    simp at h

/-! ## Locality of line validity, and validity under appending lines -/

theorem rule_for_line_congr (p q : Proof) (i : Nat)
    (hi : p.lines.getD i default = q.lines.getD i default)
    (hc : ∀ c : Nat, c < i →
      p.lines.getD c default = q.lines.getD c default)
    (hlt : ∀ r cits, (q.lines.getD i default).justification = some (r, cits) →
      ∀ c ∈ cits, c < i) :
    p.rule_for_line i = q.rule_for_line i := by
  unfold Proof.rule_for_line
  rw [hi]
  cases hj : (q.lines.getD i default).justification with
  | none => rfl
  | some rc =>
    obtain ⟨r, cits⟩ := rc
    simp only [Option.some.injEq, InferenceRule.mk.injEq]
    refine ⟨List.map_congr_left ?_, trivial⟩
    intro c hcm
    rw [hc c (hlt r cits hj c hcm)]

theorem is_line_valid_congr (p q : Proof) (i : Nat)
    (hs : p.statement.assumptions = q.statement.assumptions)
    (hr : p.rules = q.rules)
    (hl : ∀ j : Nat, j ≤ i → p.lines.getD j default = q.lines.getD j default) :
    p.is_line_valid i = q.is_line_valid i := by
  have hline : p.lines.getD i default = q.lines.getD i default := hl i le_rfl
  unfold Proof.is_line_valid
  rw [hline, hs, hr]
  cases hj : (q.lines.getD i default).justification with
  | none => rfl
  | some rc =>
    obtain ⟨r, cits⟩ := rc
    simp only
    by_cases hm : r ∈ q.rules
    · rw [if_neg (not_not_intro hm), if_neg (not_not_intro hm)]
      by_cases hany : cits.any (fun c => decide (i ≤ c)) = true
      · rw [if_pos hany, if_pos hany]
      · rw [if_neg hany, if_neg hany]
        have hfl : p.rule_for_line i = q.rule_for_line i := by
          refine rule_for_line_congr p q i hline (fun c hc => hl c (le_of_lt hc)) ?_
          intro r2 cits2 hj2 c hcm
          rw [hj] at hj2
          obtain ⟨rfl, rfl⟩ : r = r2 ∧ cits = cits2 := by
            have := Option.some.inj hj2
            exact ⟨congrArg Prod.fst this, congrArg Prod.snd this⟩
          by_contra hge
          exact hany (List.any_eq_true.mpr
            ⟨c, hcm, by simpa using Nat.le_of_not_lt hge⟩)
        rw [hfl]
    · rw [if_pos hm, if_pos hm]

theorem is_line_valid_append (stmt : InferenceRule) (rules : List InferenceRule)
    (ls ext : List Line) (i : Nat) (hi : i < ls.length) :
    (Proof.mk stmt rules (ls ++ ext)).is_line_valid i =
      (Proof.mk stmt rules ls).is_line_valid i := by
  refine is_line_valid_congr _ _ i rfl rfl ?_
  intro j hj
  simp only
  rw [List.getD_eq_getElem?_getD, List.getD_eq_getElem?_getD,
    List.getElem?_append_left (by omega)]

/-- All lines of a line list are valid relative to a statement and rule set. -/
def linesOK (stmt : InferenceRule) (rules : List InferenceRule)
    (ls : List Line) : Prop :=
  ∀ i : Nat, i < ls.length →
    (Proof.mk stmt rules ls).is_line_valid i = true

theorem linesOK_append (stmt : InferenceRule) (rules : List InferenceRule)
    (ls ext : List Line) (hok : linesOK stmt rules ls)
    (hnew : ∀ i : Nat, ls.length ≤ i → i < ls.length + ext.length →
      (Proof.mk stmt rules (ls ++ ext)).is_line_valid i = true) :
    linesOK stmt rules (ls ++ ext) := by
  intro i hi
  by_cases hcase : i < ls.length
  · rw [is_line_valid_append stmt rules ls ext i hcase]
    exact hok i hcase
  · exact hnew i (by omega) (by simpa using hi)

theorem lineValidSpec_assumption (p : Proof) (i : Nat) (f : Formula)
    (hline : p.lines.getD i default = ⟨f, none⟩)
    (hmem : f ∈ p.statement.assumptions) : p.is_line_valid i = true := by
  rw [is_line_valid_iff]
  unfold LineValidSpec
  rw [hline]
  exact hmem

theorem lineValidSpec_derived (p : Proof) (i : Nat) (f : Formula)
    (r : InferenceRule) (cits : List Nat)
    (hline : p.lines.getD i default = ⟨f, some (r, cits)⟩)
    (hr : r ∈ p.rules) (hlt : ∀ c ∈ cits, c < i)
    (hspec : InferenceRule.is_specialization_of
      ⟨cits.map (fun c => (p.lines.getD c default).formula), f⟩ r = true) :
    p.is_line_valid i = true := by
  rw [is_line_valid_iff]
  unfold LineValidSpec
  rw [hline]
  exact ⟨hr, hlt, hspec⟩

theorem lineValidSpec_derived_inv (p : Proof) (i : Nat)
    (r : InferenceRule) (cits : List Nat)
    (hline : (p.lines.getD i default).justification = some (r, cits))
    (hvalid : p.is_line_valid i = true) :
    r ∈ p.rules ∧ (∀ c ∈ cits, c < i) ∧
      InferenceRule.is_specialization_of
        ⟨cits.map (fun c => (p.lines.getD c default).formula),
          (p.lines.getD i default).formula⟩ r = true := by
  rw [is_line_valid_iff] at hvalid
  unfold LineValidSpec at hvalid
  rw [hline] at hvalid
  exact hvalid

theorem lineValidSpec_assumption_inv (p : Proof) (i : Nat)
    (hline : (p.lines.getD i default).justification = none)
    (hvalid : p.is_line_valid i = true) :
    (p.lines.getD i default).formula ∈ p.statement.assumptions := by
  rw [is_line_valid_iff] at hvalid
  unfold LineValidSpec at hvalid
  rw [hline] at hvalid
  exact hvalid

theorem valid_lines_ne_nil (p : Proof) (h : p.is_valid? = some true) :
    p.lines ≠ [] := by
  intro hnil
  unfold Proof.is_valid? at h
  rw [hnil] at h
  simp at h

theorem valid_spec (p : Proof) (h : p.is_valid? = some true) :
    (∀ i : Nat, i < p.lines.length → p.is_line_valid i = true) ∧
      (p.lines.getLast?.getD default).formula = p.statement.conclusion := by
  have hne := valid_lines_ne_nil p h
  rw [is_valid_iff p hne] at h
  refine ⟨?_, ?_⟩
  · intro i hi
    rw [is_line_valid_iff]
    exact h.1 i hi
  · rw [List.getLast?_eq_getLast p.lines hne]
    exact h.2

theorem getD_append_at (ls ext : List Line) (i : Nat) (hi : i < ext.length) :
    (ls ++ ext).getD (ls.length + i) default = ext.getD i default := by
  rw [List.getD_eq_getElem?_getD, List.getElem?_append_right (by omega)]
  simp [List.getD_eq_getElem?_getD]

theorem getLast?_append3 (ls : List Line) (x y z : Line) :
    (ls ++ [x, y, z]).getLast? = some z := by
  have h : ls ++ [x, y, z] = (ls ++ [x, y]) ++ [z] := by simp
  rw [h, List.getLast?_concat]

theorem getLast?_append1 (ls : List Line) (x : Line) :
    (ls ++ [x]).getLast? = some x := List.getLast?_concat ls

theorem linesOK_append3 (stmt : InferenceRule) (rules : List InferenceRule)
    (ls : List Line) (x y z : Line)
    (hok : linesOK stmt rules ls)
    (hx : (Proof.mk stmt rules (ls ++ [x, y, z])).is_line_valid ls.length = true)
    (hy : (Proof.mk stmt rules (ls ++ [x, y, z])).is_line_valid (ls.length + 1) = true)
    (hz : (Proof.mk stmt rules (ls ++ [x, y, z])).is_line_valid (ls.length + 2) = true) :
    linesOK stmt rules (ls ++ [x, y, z]) := by
  refine linesOK_append stmt rules ls [x, y, z] hok ?_
  intro i hge hlt
  have hcase : i = ls.length ∨ i = ls.length + 1 ∨ i = ls.length + 2 := by
    simp only [List.length_cons, List.length_nil] at hlt
    omega
  rcases hcase with rfl | rfl | rfl
  · exact hx
  · exact hy
  · exact hz

/-- Generic invariant lemma for a fold over `List.enumFrom`. -/
theorem foldl_enumFrom_inv {α State : Type} [Inhabited α]
    {P : Nat → State → Prop} (full : List α)
    (step : State → (Nat × α) → State)
    (hstep : ∀ (k : Nat) (st : State), k < full.length → P k st →
      P (k + 1) (step st (k, full.getD k default))) :
    ∀ (suffix : List α) (i : Nat) (st : State),
      i + suffix.length = full.length →
      (∀ j : Nat, j < suffix.length →
        suffix.getD j default = full.getD (i + j) default) →
      P i st →
      P full.length ((suffix.enumFrom i).foldl step st) := by
  intro suffix
  induction suffix with
  | nil =>
    intro i st hlen _ hP
    simp only [List.length_nil, Nat.add_zero] at hlen
    subst hlen
    simpa using hP
  | cons a rest ih =>
    intro i st hlen hget hP
    have ha : a = full.getD i default := by
      have := hget 0 (by simp)
      simpa using this
    have hstep2 : P (i + 1) (step st (i, full.getD i default)) :=
      hstep i st (by simp at hlen; omega) hP
    have hfold : ((a :: rest).enumFrom i).foldl step st =
        (rest.enumFrom (i + 1)).foldl step (step st (i, a)) := rfl
    rw [hfold, ha]
    refine ih (i + 1) (step st (i, full.getD i default)) ?_ ?_ hstep2
    · simp only [List.length_cons] at hlen
      omega
    · intro j hj
      have := hget (j + 1) (by simp; omega)
      simpa [Nat.add_assoc, Nat.add_comm 1 j] using this

theorem foldl_enum_inv {α State : Type} [Inhabited α]
    {P : Nat → State → Prop} (full : List α)
    (step : State → (Nat × α) → State)
    (hstep : ∀ (k : Nat) (st : State), k < full.length → P k st →
      P (k + 1) (step st (k, full.getD k default)))
    (st0 : State) (hinit : P 0 st0) :
    P full.length (full.enum.foldl step st0) := by
  have h := foldl_enumFrom_inv full step hstep full 0 st0 (by simp) ?_ hinit
  · exact h
  · intro j hj
    simp

/-! ## Correctness of `remove_assumption` (the deduction theorem) -/

/-- The statement built by `remove_assumption`. -/
def raStmt (pf : Proof) (phi : Formula) : InferenceRule :=
  ⟨pf.statement.assumptions.filter (fun a => ¬ (a = phi)),
    fimp phi pf.statement.conclusion⟩

/-- The rule set built by `remove_assumption`. -/
def raRules (pf : Proof) : List InferenceRule := pf.rules ++ [I0, I1, MP, D]

/-- Invariant of the `remove_assumption` loop after processing the first `k`
original lines: the index map has one entry per processed line, pointing at a
line of the new proof whose formula is `phi -> (original formula)`; all new
lines are valid; the first new line is the initial `I0` line; and the last
new line is `phi -> (formula of the last processed line)`. -/
def raInv (pf : Proof) (phi : Formula) (k : Nat)
    (st : List Line × List Nat) : Prop :=
  st.2.length = k ∧
  1 ≤ st.1.length ∧
  st.1.getD 0 default = ⟨fimp phi phi, some (I0, [])⟩ ∧
  (∀ j : Nat, j < k → st.2.getD j 0 < st.1.length ∧
    (st.1.getD (st.2.getD j 0) default).formula =
      fimp phi ((pf.lines.getD j default).formula)) ∧
  linesOK (raStmt pf phi) (raRules pf) st.1 ∧
  (st.1.getLast?.getD default).formula =
    fimp phi (if k = 0 then phi else (pf.lines.getD (k - 1) default).formula)

theorem I0_mem_raRules (pf : Proof) : I0 ∈ raRules pf := by
  unfold raRules
  simp

theorem I1_mem_raRules (pf : Proof) : I1 ∈ raRules pf := by
  unfold raRules
  simp

theorem MP_mem_raRules (pf : Proof) : MP ∈ raRules pf := by
  unfold raRules
  simp

theorem D_mem_raRules (pf : Proof) : D ∈ raRules pf := by
  unfold raRules
  simp

theorem raInv_init (pf : Proof) (phi : Formula) :
    raInv pf phi 0 ([⟨fimp phi phi, some (I0, [])⟩], []) := by
  refine ⟨rfl, by simp, rfl, by simp, ?_, by simp⟩
  intro i hi
  simp only [List.length_singleton] at hi
  have hi0 : i = 0 := by omega
  subst hi0
  refine lineValidSpec_derived _ 0 (fimp phi phi) I0 [] rfl
    (I0_mem_raRules pf) (by simp) ?_
  exact spec_I0 phi

theorem raLift_block (stmt : InferenceRule) (rules : List InferenceRule)
    (ls : List Line) (phi f : Formula) (x : Line) (hxf : x.formula = f)
    (hI1 : I1 ∈ rules) (hMP : MP ∈ rules)
    (hok : linesOK stmt rules ls)
    (hx : (Proof.mk stmt rules
      (ls ++ [x, ⟨fimp f (fimp phi f), some (I1, [])⟩,
        ⟨fimp phi f, some (MP, [ls.length, ls.length + 1])⟩])).is_line_valid
        ls.length = true) :
    linesOK stmt rules (ls ++ [x, ⟨fimp f (fimp phi f), some (I1, [])⟩,
      ⟨fimp phi f, some (MP, [ls.length, ls.length + 1])⟩]) := by
  set y : Line := ⟨fimp f (fimp phi f), some (I1, [])⟩ with hy
  set z : Line := ⟨fimp phi f, some (MP, [ls.length, ls.length + 1])⟩ with hz
  have hget0 : (ls ++ [x, y, z]).getD ls.length default = x := by
    simpa using getD_append_at ls [x, y, z] 0 (by simp)
  have hget1 : (ls ++ [x, y, z]).getD (ls.length + 1) default = y := by
    simpa using getD_append_at ls [x, y, z] 1 (by simp)
  have hget2 : (ls ++ [x, y, z]).getD (ls.length + 2) default = z := by
    simpa using getD_append_at ls [x, y, z] 2 (by simp)
  refine linesOK_append3 stmt rules ls x y z hok hx ?_ ?_
  · refine lineValidSpec_derived _ (ls.length + 1) y.formula I1 []
      (by rw [hget1]) hI1 (by simp) ?_
    exact spec_I1 phi f
  · refine lineValidSpec_derived _ (ls.length + 2) z.formula MP
      [ls.length, ls.length + 1] (by rw [hget2]) hMP ?_ ?_
    · intro c hc
      simp only [List.mem_cons, List.mem_singleton] at hc
      rcases hc with rfl | rfl | hc
      · omega
      · omega
      · simp at hc
    · simp only [List.map_cons, List.map_nil, hget0, hget1, hxf]
      exact spec_MP f (fimp phi f)

theorem getD_append_idx {α : Type} (ls ext : List α) (d : α) (i : Nat)
    (hi : i < ext.length) : (ls ++ ext).getD (ls.length + i) d = ext.getD i d := by
  rw [List.getD_eq_getElem?_getD, List.getElem?_append_right (by omega)]
  simp [List.getD_eq_getElem?_getD]

theorem getD_app3_0 {A : Type} [Inhabited A] (ls : List A) (x y z : A) :
    (ls ++ [x, y, z]).getD ls.length default = x := by
  simpa using getD_append_idx ls [x, y, z] default 0 (by simp)

theorem getD_app3_1 {A : Type} [Inhabited A] (ls : List A) (x y z : A) :
    (ls ++ [x, y, z]).getD (ls.length + 1) default = y := by
  simpa using getD_append_idx ls [x, y, z] default 1 (by simp)

theorem getD_app3_2 {A : Type} [Inhabited A] (ls : List A) (x y z : A) :
    (ls ++ [x, y, z]).getD (ls.length + 2) default = z := by
  simpa using getD_append_idx ls [x, y, z] default 2 (by simp)

theorem getD_app1_0 {A : Type} [Inhabited A] (ls : List A) (x : A) :
    (ls ++ [x]).getD ls.length default = x := by
  simpa using getD_append_idx ls [x] default 0 (by simp)

theorem getD_nat_app1 (mp : List Nat) (idx : Nat) :
    (mp ++ [idx]).getD mp.length 0 = idx := by
  simpa using getD_append_idx mp [idx] 0 0 (by simp)

theorem raD_block (stmt : InferenceRule) (rules : List InferenceRule)
    (ls : List Line) (phi F0 lf : Formula) (m0 m1 : Nat)
    (hD : D ∈ rules) (hMP : MP ∈ rules)
    (hm0 : m0 < ls.length) (hm1 : m1 < ls.length)
    (hf0 : (ls.getD m0 default).formula = fimp phi F0)
    (hf1 : (ls.getD m1 default).formula = fimp phi (fimp F0 lf))
    (hok : linesOK stmt rules ls) :
    linesOK stmt rules (ls ++
      [⟨fimp (fimp phi (fimp F0 lf)) (fimp (fimp phi F0) (fimp phi lf)),
          some (D, [])⟩,
        ⟨fimp (fimp phi F0) (fimp phi lf), some (MP, [m1, ls.length])⟩,
        ⟨fimp phi lf, some (MP, [m0, ls.length + 1])⟩]) := by
  set x : Line := ⟨fimp (fimp phi (fimp F0 lf)) (fimp (fimp phi F0) (fimp phi lf)),
    some (D, [])⟩ with hx
  set y : Line := ⟨fimp (fimp phi F0) (fimp phi lf), some (MP, [m1, ls.length])⟩
    with hy
  set z : Line := ⟨fimp phi lf, some (MP, [m0, ls.length + 1])⟩ with hz
  have hget0 : (ls ++ [x, y, z]).getD ls.length default = x := by
    simpa using getD_append_idx ls [x, y, z] default 0 (by simp)
  have hget1 : (ls ++ [x, y, z]).getD (ls.length + 1) default = y := by
    simpa using getD_append_idx ls [x, y, z] default 1 (by simp)
  have hgm0 : (ls ++ [x, y, z]).getD m0 default = ls.getD m0 default :=
    List.getD_append ls [x, y, z] default m0 hm0
  have hgm1 : (ls ++ [x, y, z]).getD m1 default = ls.getD m1 default :=
    List.getD_append ls [x, y, z] default m1 hm1
  refine linesOK_append3 stmt rules ls x y z hok ?_ ?_ ?_
  · refine lineValidSpec_derived _ ls.length x.formula D [] (by rw [hget0]) hD
      (by simp) ?_
    exact spec_D phi F0 lf
  · refine lineValidSpec_derived _ (ls.length + 1) y.formula MP [m1, ls.length]
      (by rw [hget1]) hMP ?_ ?_
    · intro c hc
      simp only [List.mem_cons, List.mem_singleton] at hc
      rcases hc with rfl | rfl | hc
      · omega
      · omega
      · simp at hc
    · simp only [List.map_cons, List.map_nil, hget0, hgm1, hf1]
      exact spec_MP (fimp phi (fimp F0 lf)) (fimp (fimp phi F0) (fimp phi lf))
  · refine lineValidSpec_derived _ (ls.length + 2) z.formula MP
      [m0, ls.length + 1] (by
        rw [show (ls ++ [x, y, z]).getD (ls.length + 2) default = z from by
          simpa using getD_append_idx ls [x, y, z] default 2 (by simp)]) hMP ?_ ?_
    · intro c hc
      simp only [List.mem_cons, List.mem_singleton] at hc
      rcases hc with rfl | rfl | hc
      · omega
      · omega
      · simp at hc
    · simp only [List.map_cons, List.map_nil, hget1, hgm0, hf0]
      exact spec_MP (fimp phi F0) (fimp phi lf)

theorem ra_step_phi (pf : Proof) (phi : Formula) (ls : List Line)
    (mp : List Nat) (k : Nat) (line : Line) (h : line.formula = phi) :
    remove_assumption_step pf phi (ls, mp) (k, line) =
      (ls ++ (if k ≠ 0 then [⟨fimp phi phi, some (I0, [])⟩] else []),
        mp ++ [0]) := by
  unfold remove_assumption_step
  simp [h]

theorem ra_step_lift (pf : Proof) (phi : Formula) (ls : List Line)
    (mp : List Nat) (k : Nat) (line : Line) (hne : ¬ line.formula = phi)
    (hj : line.justification = none ∨
      ∃ r : InferenceRule, line.justification = some (r, [])) :
    remove_assumption_step pf phi (ls, mp) (k, line) =
      (ls ++ [line,
        ⟨fimp line.formula (fimp phi line.formula), some (I1, [])⟩,
        ⟨fimp phi line.formula, some (MP, [ls.length, ls.length + 1])⟩],
        mp ++ [ls.length + 2]) := by
  unfold remove_assumption_step
  rcases hj with hj | ⟨r, hj⟩ <;> simp [hne, hj]

theorem ra_step_cits (pf : Proof) (phi : Formula) (ls : List Line)
    (mp : List Nat) (k : Nat) (line : Line) (hne : ¬ line.formula = phi)
    (r : InferenceRule) (c0 : Nat) (crest : List Nat)
    (hj : line.justification = some (r, c0 :: crest)) :
    remove_assumption_step pf phi (ls, mp) (k, line) =
      (ls ++ [⟨fimp
          (fimp phi (fimp ((pf.lines.getD c0 default).formula) line.formula))
          (fimp (fimp phi ((pf.lines.getD c0 default).formula))
            (fimp phi line.formula)), some (D, [])⟩,
        ⟨fimp (fimp phi ((pf.lines.getD c0 default).formula))
            (fimp phi line.formula),
          some (MP, [mp.getD (crest.getD 0 0) 0, ls.length])⟩,
        ⟨fimp phi line.formula,
          some (MP, [mp.getD c0 0, ls.length + 1])⟩],
        mp ++ [ls.length + 2]) := by
  unfold remove_assumption_step
  simp [hne, hj]

theorem raMap_extend (pf : Proof) (phi : Formula) (ls ext : List Line)
    (mp : List Nat) (k newIdx : Nat) (hmaplen : mp.length = k)
    (hmap : ∀ j : Nat, j < k → mp.getD j 0 < ls.length ∧
      (ls.getD (mp.getD j 0) default).formula =
        fimp phi ((pf.lines.getD j default).formula))
    (hnew : newIdx < (ls ++ ext).length ∧
      ((ls ++ ext).getD newIdx default).formula =
        fimp phi ((pf.lines.getD k default).formula)) :
    ∀ j : Nat, j < k + 1 → (mp ++ [newIdx]).getD j 0 < (ls ++ ext).length ∧
      ((ls ++ ext).getD ((mp ++ [newIdx]).getD j 0) default).formula =
        fimp phi ((pf.lines.getD j default).formula) := by
  intro j hj
  by_cases hjk : j < k
  · obtain ⟨hb, hf⟩ := hmap j hjk
    have hgm : (mp ++ [newIdx]).getD j 0 = mp.getD j 0 :=
      List.getD_append mp [newIdx] 0 j (by omega)
    rw [hgm, List.getD_append ls ext default _ hb]
    refine ⟨?_, hf⟩
    rw [List.length_append]
    omega
  · have hjeq : j = k := by omega
    subst hjeq
    have h2 := getD_nat_app1 mp newIdx
    rw [hmaplen] at h2
    rw [h2]
    exact hnew

theorem raInv_lift_branch (pf : Proof) (phi : Formula) (k : Nat)
    (ls : List Line) (mp : List Nat) (hmaplen : mp.length = k)
    (hlen1 : 1 ≤ ls.length)
    (hhead : ls.getD 0 default = ⟨fimp phi phi, some (I0, [])⟩)
    (hmap : ∀ j : Nat, j < k → mp.getD j 0 < ls.length ∧
      (ls.getD (mp.getD j 0) default).formula =
        fimp phi ((pf.lines.getD j default).formula))
    (hok : linesOK (raStmt pf phi) (raRules pf) ls)
    (hxvalid : (Proof.mk (raStmt pf phi) (raRules pf)
      (ls ++ [pf.lines.getD k default,
        ⟨fimp ((pf.lines.getD k default).formula)
          (fimp phi ((pf.lines.getD k default).formula)), some (I1, [])⟩,
        ⟨fimp phi ((pf.lines.getD k default).formula),
          some (MP, [ls.length, ls.length + 1])⟩])).is_line_valid
        ls.length = true) :
    raInv pf phi (k + 1)
      (ls ++ [pf.lines.getD k default,
        ⟨fimp ((pf.lines.getD k default).formula)
          (fimp phi ((pf.lines.getD k default).formula)), some (I1, [])⟩,
        ⟨fimp phi ((pf.lines.getD k default).formula),
          some (MP, [ls.length, ls.length + 1])⟩],
        mp ++ [ls.length + 2]) := by
  have hoknew := raLift_block (raStmt pf phi) (raRules pf) ls phi
    ((pf.lines.getD k default).formula) (pf.lines.getD k default) rfl
    (I1_mem_raRules pf) (MP_mem_raRules pf) hok hxvalid
  refine ⟨by simp [hmaplen], ?_, ?_, ?_, hoknew, ?_⟩
  · rw [List.length_append]
    omega
  · rw [List.getD_append ls _ default 0 (by omega)]
    exact hhead
  · refine raMap_extend pf phi ls _ mp k (ls.length + 2) hmaplen hmap ⟨?_, ?_⟩
    · rw [List.length_append]
      simp only [List.length_cons, List.length_nil]
      omega
    · rw [getD_app3_2]
  · rw [getLast?_append3]
    simp only [Option.getD_some]
    rw [if_neg (by omega)]
    simp only [Nat.add_sub_cancel]

theorem raInv_step (pf : Proof) (phi : Formula)
    (hrules : ∀ r ∈ pf.rules, r = MP ∨ r.assumptions = [])
    (k : Nat) (hk : k < pf.lines.length)
    (hlv : pf.is_line_valid k = true)
    (st : List Line × List Nat) (hinv : raInv pf phi k st) :
    raInv pf phi (k + 1)
      (remove_assumption_step pf phi st (k, pf.lines.getD k default)) := by
  obtain ⟨ls, mp⟩ := st
  obtain ⟨hmaplen, hlen1, hhead, hmap, hok, hlast⟩ := hinv
  simp only at hmaplen hlen1 hhead hmap hok hlast
  by_cases hphi : (pf.lines.getD k default).formula = phi
  · rw [ra_step_phi pf phi ls mp k _ hphi]
    by_cases hk0 : k = 0
    · subst hk0
      rw [if_neg (by simp)]
      refine ⟨by simp [hmaplen], by simpa using hlen1, by simpa using hhead,
        ?_, by simpa using hok, ?_⟩
      · intro j hj
        have hj0 : j = 0 := by omega
        subst hj0
        have hgm : (mp ++ [0]).getD 0 0 = 0 := by
          have h0 : mp = [] := List.length_eq_zero.mp hmaplen
          rw [h0]
          rfl
        simp only [hgm, List.append_nil]
        refine ⟨by omega, ?_⟩
        rw [hhead, hphi]
      · simp only [List.append_nil, hlast]
        rw [hphi]
        simp
    · rw [if_pos hk0]
      refine ⟨by simp [hmaplen], ?_, ?_, ?_, ?_, ?_⟩
      · rw [List.length_append]
        omega
      · rw [List.getD_append ls _ default 0 (by omega)]
        exact hhead
      · refine raMap_extend pf phi ls _ mp k 0 hmaplen hmap ⟨?_, ?_⟩
        · rw [List.length_append]
          omega
        · rw [List.getD_append ls _ default 0 (by omega), hhead, hphi]
      · refine linesOK_append _ _ ls _ hok ?_
        intro i hge hlt
        have hieq : i = ls.length := by
          simp only [List.length_cons, List.length_nil] at hlt
          omega
        subst hieq
        refine lineValidSpec_derived _ ls.length (fimp phi phi) I0 []
          (by rw [getD_app1_0]) (I0_mem_raRules pf) (by simp) ?_
        exact spec_I0 phi
      · rw [getLast?_append1]
        simp only [Option.getD_some]
        rw [if_neg (by omega)]
        simp only [Nat.add_sub_cancel]
        rw [hphi]
  · cases hjcase : (pf.lines.getD k default).justification with
    | none =>
      rw [ra_step_lift pf phi ls mp k _ hphi (Or.inl hjcase)]
      have hmem : (pf.lines.getD k default).formula ∈ pf.statement.assumptions :=
        lineValidSpec_assumption_inv pf k hjcase hlv
      have hmem2 : (pf.lines.getD k default).formula ∈
          (raStmt pf phi).assumptions := by
        unfold raStmt
        simp only
        rw [List.mem_filter]
        exact ⟨hmem, by simpa using hphi⟩
      refine raInv_lift_branch pf phi k ls mp hmaplen hlen1 hhead hmap hok ?_
      refine lineValidSpec_assumption _ ls.length
        ((pf.lines.getD k default).formula) ?_ hmem2
      rw [getD_app3_0]
      rw [← hjcase]
    | some rc =>
      obtain ⟨r, cits⟩ := rc
      obtain ⟨hrmem, hclt, hspec⟩ :=
        lineValidSpec_derived_inv pf k r cits hjcase hlv
      cases hcits0 : cits with
      | nil =>
        subst hcits0
        rw [ra_step_lift pf phi ls mp k _ hphi (Or.inr ⟨r, hjcase⟩)]
        refine raInv_lift_branch pf phi k ls mp hmaplen hlen1 hhead hmap hok ?_
        refine lineValidSpec_derived _ ls.length
          ((pf.lines.getD k default).formula) r [] ?_
          (by unfold raRules; exact List.mem_append_left _ hrmem)
          (by simp) ?_
        · rw [getD_app3_0]
          rw [← hjcase]
        · exact hspec
      | cons c0 crest =>
        subst hcits0
        rw [ra_step_cits pf phi ls mp k _ hphi r c0 crest hjcase]
        have hrMP : r = MP := by
          rcases hrules r hrmem with h | h
          · exact h
          · exfalso
            have hl := spec_length _ r hspec
            rw [h] at hl
            simp at hl
        subst hrMP
        have hlen2 : (c0 :: crest).length = 2 := by
          have hl := spec_length _ MP hspec
          simpa [MP] using hl
        obtain ⟨c1, hc1⟩ : ∃ c1, crest = [c1] := by
          match crest, hlen2 with
          | [c1], _ => exact ⟨c1, rfl⟩
        subst hc1
        have hshape : (pf.lines.getD c1 default).formula =
            fimp ((pf.lines.getD c0 default).formula)
              ((pf.lines.getD k default).formula) :=
          spec_MP_shape _ _ _ (by simpa using hspec)
        have hc0k : c0 < k := hclt c0 (by simp)
        have hc1k : c1 < k := hclt c1 (by simp)
        obtain ⟨hb0, hf0⟩ := hmap c0 hc0k
        obtain ⟨hb1, hf1⟩ := hmap c1 hc1k
        have hoknew := raD_block (raStmt pf phi) (raRules pf) ls phi
          ((pf.lines.getD c0 default).formula)
          ((pf.lines.getD k default).formula)
          (mp.getD c0 0) (mp.getD c1 0)
          (D_mem_raRules pf) (MP_mem_raRules pf) hb0 hb1 hf0
          (by rw [hf1, hshape]) hok
        refine ⟨by simp [hmaplen], ?_, ?_, ?_, ?_, ?_⟩
        · rw [List.length_append]
          omega
        · rw [List.getD_append ls _ default 0 (by omega)]
          exact hhead
        · refine raMap_extend pf phi ls _ mp k (ls.length + 2) hmaplen hmap
            ⟨?_, ?_⟩
          · rw [List.length_append]
            simp only [List.length_cons, List.length_nil]
            omega
          · rw [getD_app3_2]
        · simpa using hoknew
        · rw [getLast?_append3]
          simp only [Option.getD_some]
          rw [if_neg (by omega)]
          simp only [Nat.add_sub_cancel]

theorem is_valid_of (q : Proof)
    (hok : ∀ i : Nat, i < q.lines.length → q.is_line_valid i = true)
    (hne : q.lines ≠ [])
    (hlast : (q.lines.getLast?.getD default).formula = q.statement.conclusion) :
    q.is_valid? = some true := by
  rw [is_valid_iff q hne]
  refine ⟨?_, ?_⟩
  · intro i hi
    rw [← is_line_valid_iff]
    exact hok i hi
  · rw [List.getLast?_eq_getLast q.lines hne, Option.getD_some] at hlast
    exact hlast

theorem getD_last_of_ne_nil (l : List Line) (h : l ≠ []) :
    l.getD (l.length - 1) default = l.getLast?.getD default := by
  rw [List.getLast?_eq_getLast l h, Option.getD_some, List.getLast_eq_get]
  rw [List.getD_eq_getElem?_getD, List.getElem?_eq_getElem (by
    have := List.length_pos.mpr h
    omega)]
  simp

theorem remove_assumption_def (pf : Proof) :
    remove_assumption pf =
      ⟨raStmt pf ((pf.statement.assumptions.getLast?).getD default),
        raRules pf,
        (pf.lines.enum.foldl (remove_assumption_step pf
          ((pf.statement.assumptions.getLast?).getD default))
          ([⟨fimp ((pf.statement.assumptions.getLast?).getD default)
            ((pf.statement.assumptions.getLast?).getD default),
            some (I0, [])⟩], [])).1⟩ := by
  unfold remove_assumption raStmt raRules
  rfl

theorem remove_assumption_correct0 (pf : Proof)
    (hvalid : pf.is_valid? = some true)
    (hrules : ∀ r ∈ pf.rules, r = MP ∨ r.assumptions = []) :
    (remove_assumption pf).is_valid? = some true ∧
    (remove_assumption pf).statement =
      raStmt pf ((pf.statement.assumptions.getLast?).getD default) := by
  have hlinesne : pf.lines ≠ [] := valid_lines_ne_nil pf hvalid
  obtain ⟨hall, hlastf⟩ := valid_spec pf hvalid
  have hfold : raInv pf ((pf.statement.assumptions.getLast?).getD default)
      pf.lines.length
      (pf.lines.enum.foldl (remove_assumption_step pf
        ((pf.statement.assumptions.getLast?).getD default))
        ([⟨fimp ((pf.statement.assumptions.getLast?).getD default)
          ((pf.statement.assumptions.getLast?).getD default),
          some (I0, [])⟩], [])) := by
    refine foldl_enum_inv pf.lines _ ?_ _ (raInv_init pf _)
    intro k st hk hP
    exact raInv_step pf _ hrules k hk (hall k hk) st hP
  obtain ⟨hmaplen, hlen1, hhead, hmap, hok, hlast⟩ := hfold
  rw [remove_assumption_def pf]
  refine ⟨?_, rfl⟩
  refine is_valid_of _ ?_ ?_ ?_
  · intro i hi
    exact hok i hi
  · simp only
    exact List.length_pos.mp (by omega)
  · simp only
    have hlenpos : 0 < pf.lines.length := List.length_pos.mpr hlinesne
    rw [hlast, if_neg (by omega)]
    unfold raStmt
    simp only
    rw [getD_last_of_ne_nil pf.lines hlinesne, hlastf]

theorem remove_assumption_correct (pf : Proof)
    (hvalid : pf.is_valid? = some true)
    (hassum : pf.statement.assumptions ≠ [])
    (hrules : ∀ r ∈ pf.rules, r = MP ∨ r.assumptions = []) :
    (remove_assumption pf).is_valid? = some true ∧
    (remove_assumption pf).statement =
      ⟨pf.statement.assumptions.filter
          (fun a => ¬ (a = pf.statement.assumptions.getLast hassum)),
        fimp (pf.statement.assumptions.getLast hassum)
          pf.statement.conclusion⟩ := by
  have h0 := remove_assumption_correct0 pf hvalid hrules
  have hphi : (pf.statement.assumptions.getLast?).getD default =
      pf.statement.assumptions.getLast hassum := by
    rw [List.getLast?_eq_getLast _ hassum, Option.getD_some]
  refine ⟨h0.1, ?_⟩
  rw [h0.2]
  unfold raStmt
  rw [hphi]

/-- A proof of `p` from the duplicated assumption list `[p, p]`. -/
def dupProof : Proof :=
  ⟨⟨[Formula.var "p", Formula.var "p"], Formula.var "p"⟩, [],
    [⟨Formula.var "p", none⟩]⟩

/-- C5 (counterexample): `remove_assumption` drops *every* occurrence of the
last assumption, not just the last one.  On a valid proof of `p` from the
assumptions `[p, p]` (no rules, so vacuously assumptionless-or-MP), the
returned statement has no assumptions at all, instead of the remaining
assumption list `[p]` that the claim requires. -/
theorem claim_C5_counterexample :
    dupProof.is_valid? = some true ∧
    dupProof.statement.assumptions ≠ [] ∧
    (∀ r ∈ dupProof.rules, r = MP ∨ r.assumptions = []) ∧
    (remove_assumption dupProof).statement ≠
      ⟨[Formula.var "p"], fimp (Formula.var "p") (Formula.var "p")⟩ := by
  refine ⟨by decide, by decide, by decide, by decide⟩

/-- C5 (amended): for every valid proof of a conclusion `C` whose declared
assumption list is non-empty with last element `phi`, via rules that are
assumptionless except perhaps `MP`, `remove_assumption` returns a valid proof
whose statement has conclusion `(phi->C)` and as assumptions the declared
assumptions with every occurrence equal to `phi` removed (in order) — which
equals "all assumptions except the last one" whenever `phi` does not also
occur earlier in the list. -/
theorem claim_C5 (pf : Proof) (hvalid : pf.is_valid? = some true)
    (hassum : pf.statement.assumptions ≠ [])
    (hrules : ∀ r ∈ pf.rules, r = MP ∨ r.assumptions = []) :
    (remove_assumption pf).is_valid? = some true ∧
    (remove_assumption pf).statement =
      ⟨pf.statement.assumptions.filter
          (fun a => ¬ (a = pf.statement.assumptions.getLast hassum)),
        fimp (pf.statement.assumptions.getLast hassum)
          pf.statement.conclusion⟩ :=
  remove_assumption_correct pf hvalid hassum hrules

/-- Witness for the amended C5 at the concrete modus-ponens proof: removing
its last assumption `(p->q)` yields a valid proof. -/
theorem claim_C5_witness :
    mpExampleProof.is_valid? = some true ∧
    mpExampleProof.statement.assumptions ≠ [] ∧
    (∀ r ∈ mpExampleProof.rules, r = MP ∨ r.assumptions = []) ∧
    (remove_assumption mpExampleProof).is_valid? = some true :=
  ⟨by decide, by decide, by decide,
    (claim_C5 mpExampleProof (by decide) (by decide) (by decide)).1⟩

/-! ## Sorted key lists (`sorted(model)` in Python) -/

/-- Insert into a sorted list of strings (ascending). -/
def insertSorted (x : String) : List String → List String
  | [] => [x]
  | y :: rest => if x ≤ y then x :: y :: rest else y :: insertSorted x rest

/-- Insertion sort on strings: `sorted(...)` in Python. -/
def sortStrings : List String → List String
  | [] => []
  | x :: rest => insertSorted x (sortStrings rest)

theorem mem_insertSorted (x v : String) (l : List String) :
    v ∈ insertSorted x l ↔ v = x ∨ v ∈ l := by
  induction l with
  | nil => simp [insertSorted]
  | cons y rest ih =>
    unfold insertSorted
    by_cases h : x ≤ y
    · rw [if_pos h]
      simp
    · rw [if_neg h]
      simp only [List.mem_cons, ih]
      tauto

theorem mem_sortStrings (v : String) (l : List String) :
    v ∈ sortStrings l ↔ v ∈ l := by
  induction l with
  | nil => simp [sortStrings]
  | cons x rest ih =>
    unfold sortStrings
    rw [mem_insertSorted]
    simp [ih]

theorem insertSorted_sorted (x : String) (l : List String)
    (h : l.Pairwise (fun a b => a ≤ b)) :
    (insertSorted x l).Pairwise (fun a b => a ≤ b) := by
  induction l with
  | nil => simp [insertSorted]
  | cons y rest ih =>
    rw [List.pairwise_cons] at h
    unfold insertSorted
    by_cases hxy : x ≤ y
    · rw [if_pos hxy]
      rw [List.pairwise_cons]
      refine ⟨?_, List.pairwise_cons.mpr h⟩
      intro b hb
      rcases List.mem_cons.mp hb with rfl | hb2
      · exact hxy
      · exact le_trans hxy (h.1 b hb2)
    · rw [if_neg hxy]
      rw [List.pairwise_cons]
      refine ⟨?_, ih h.2⟩
      intro b hb
      rw [mem_insertSorted] at hb
      rcases hb with rfl | hb2
      · exact le_of_not_le hxy
      · exact h.1 b hb2

theorem sortStrings_sorted (l : List String) :
    (sortStrings l).Pairwise (fun a b => a ≤ b) := by
  induction l with
  | nil => simp [sortStrings]
  | cons x rest ih => exact insertSorted_sorted x (sortStrings rest) ih

theorem insertSorted_nodup (x : String) (l : List String)
    (hx : x ∉ l) (h : l.Nodup) : (insertSorted x l).Nodup := by
  induction l with
  | nil => simp [insertSorted]
  | cons y rest ih =>
    simp only [List.mem_cons, not_or] at hx
    rw [List.nodup_cons] at h
    unfold insertSorted
    by_cases hxy : x ≤ y
    · rw [if_pos hxy]
      rw [List.nodup_cons, List.nodup_cons]
      exact ⟨by simp [hx.1, hx.2], h.1, h.2⟩
    · rw [if_neg hxy]
      rw [List.nodup_cons]
      refine ⟨?_, ih hx.2 h.2⟩
      rw [mem_insertSorted]
      push_neg
      exact ⟨fun hyx => hx.1 hyx.symm, h.1⟩

theorem sortStrings_nodup (l : List String) (h : l.Nodup) :
    (sortStrings l).Nodup := by
  induction l with
  | nil => simp [sortStrings]
  | cons x rest ih =>
    rw [List.nodup_cons] at h
    unfold sortStrings
    refine insertSorted_nodup x (sortStrings rest) ?_ (ih h.2)
    rw [mem_sortStrings]
    exact h.1

theorem insertSorted_append_big (x v : String) (l : List String)
    (hxv : x < v) :
    insertSorted x (l ++ [v]) = insertSorted x l ++ [v] := by
  induction l with
  | nil =>
    simp only [List.nil_append, insertSorted]
    rw [if_pos (le_of_lt hxv)]
    rfl
  | cons y rest ih =>
    simp only [List.cons_append, insertSorted]
    by_cases hxy : x ≤ y
    · rw [if_pos hxy, if_pos hxy]
      simp
    · rw [if_neg hxy, if_neg hxy]
      simp only [List.append_eq]
      rw [ih]
      simp

theorem sortStrings_append_big (l : List String) (v : String)
    (h : ∀ k ∈ l, k < v) :
    sortStrings (l ++ [v]) = sortStrings l ++ [v] := by
  induction l with
  | nil => rfl
  | cons x rest ih =>
    rw [List.cons_append]
    unfold sortStrings
    rw [ih (fun k hk => h k (List.mem_cons_of_mem x hk))]
    exact insertSorted_append_big x v (sortStrings rest)
      (h x (List.mem_cons_self x rest))

/-! ## Variable collection lemmas -/

theorem mem_find_variables (f : Formula) (acc : List String) (v : String) :
    v ∈ f.find_variables acc ↔ v ∈ acc ∨ v ∈ f.variablesOf := by
  induction f generalizing acc with
  | var w =>
    unfold Formula.variablesOf Formula.find_variables setAdd
    by_cases h : w ∈ acc
    · rw [if_pos h]
      simp only [if_neg (List.not_mem_nil w), List.nil_append]
      constructor
      · intro hv
        exact Or.inl hv
      · intro hv
        rcases hv with hv | hv
        · exact hv
        · rw [List.mem_singleton] at hv
          rw [hv]
          exact h
    · rw [if_neg h]
      simp only [if_neg (List.not_mem_nil w), List.nil_append]
      simp
  | const b => simp [Formula.variablesOf, Formula.find_variables]
  | neg g ih =>
    unfold Formula.variablesOf Formula.find_variables
    exact ih acc
  | bin op g h ihg ihh =>
    unfold Formula.variablesOf Formula.find_variables
    rw [ihh, ihg, ihh (g.find_variables []), ihg []]
    simp only [List.not_mem_nil, false_or]
    tauto

theorem find_variables_nodup (f : Formula) (acc : List String)
    (h : acc.Nodup) : (f.find_variables acc).Nodup := by
  induction f generalizing acc with
  | var w =>
    unfold Formula.find_variables setAdd
    by_cases hw : w ∈ acc
    · rw [if_pos hw]
      exact h
    · rw [if_neg hw]
      simp [List.nodup_append, h, hw]
  | const b => exact h
  | neg g ih => exact ih acc h
  | bin op g h2 ihg ihh => exact ihh _ (ihg acc h)

theorem variablesOf_nodup (f : Formula) : f.variablesOf.Nodup :=
  find_variables_nodup f [] (by simp)

theorem mem_variablesOf_neg (f : Formula) (v : String) :
    v ∈ (Formula.neg f).variablesOf ↔ v ∈ f.variablesOf := by
  unfold Formula.variablesOf
  rw [show (Formula.neg f).find_variables [] = f.find_variables [] from rfl]

theorem mem_variablesOf_bin (op : BinOp) (g h : Formula) (v : String) :
    v ∈ (Formula.bin op g h).variablesOf ↔
      v ∈ g.variablesOf ∨ v ∈ h.variablesOf := by
  unfold Formula.variablesOf
  rw [show (Formula.bin op g h).find_variables [] =
    h.find_variables (g.find_variables []) from rfl]
  rw [mem_find_variables]
  unfold Formula.variablesOf
  tauto

/-! ## Evaluation only depends on the variables of the formula -/

theorem evaluate_congr (f : Formula) (m1 m2 : Model)
    (h : ∀ v ∈ f.variablesOf,
      ((m1 : List (String × Bool)).lookup v).getD false =
        ((m2 : List (String × Bool)).lookup v).getD false) :
    evaluate f m1 = evaluate f m2 := by
  induction f with
  | var w =>
    unfold evaluate
    exact h w (by unfold Formula.variablesOf Formula.find_variables setAdd; simp)
  | const b => rfl
  | neg g ih =>
    unfold evaluate
    rw [ih (fun v hv => h v ((mem_variablesOf_neg g v).mpr hv))]
  | bin op g g2 ihg ihh =>
    have e1 := ihg (fun v hv => h v ((mem_variablesOf_bin op g g2 v).mpr (Or.inl hv)))
    have e2 := ihh (fun v hv => h v ((mem_variablesOf_bin op g g2 v).mpr (Or.inr hv)))
    cases op <;> (unfold evaluate; rw [e1, e2])

/-! ## The tautology prover (`propositions/tautology.py` together with
`prove_corollary` and `combine_proofs` from `propositions/deduction.py`) -/

/-- Python attribute `formula.first` (defined for unary and binary roots; the
identity on other formulas, which the callers never access). -/
def Formula.first : Formula → Formula
  | Formula.neg f => f
  | Formula.bin _ f _ => f
  | f => f

/-- Python attribute `formula.second` (defined for binary roots; the identity
on other formulas, which the callers never access). -/
def Formula.second : Formula → Formula
  | Formula.bin _ _ g => g
  | f => f

/-- `formulae_capturing_model(model)`: the literal of each model variable, in
alphabetical order of variable name. -/
def formulae_capturing_model (m : Model) : List Formula :=
  (sortStrings ((m : List (String × Bool)).map Prod.fst)).map (fun v =>
    if ((m : List (String × Bool)).lookup v).getD false then Formula.var v
    else Formula.neg (Formula.var v))

/-- `prove_corollary(antecedent_proof, consequent, conditional)` from
`propositions/deduction.py`: append a specialized instance of the conditional
and an `MP` line, and extend the rule set by `MP` and the conditional. -/
def prove_corollary (ap : Proof) (consequent : Formula)
    (conditional : InferenceRule) : Proof :=
  let my_map := (formula_specialization_map conditional.conclusion.second
    consequent).getD []
  ⟨⟨ap.statement.assumptions, consequent⟩,
    ap.rules ++ [MP, conditional],
    ap.lines ++
      [⟨(conditional.specialize my_map).conclusion, some (conditional, [])⟩,
       ⟨consequent, some (MP, [ap.lines.length - 1, ap.lines.length])⟩]⟩

/-- The inner loop of `combine_proofs`: a copied line of the second proof has
each citation shifted by `num + 1`. -/
def shiftLine (num : Nat) (l : Line) : Line :=
  match l.justification with
  | none => l
  | some (r, cs) => ⟨l.formula, some (r, cs.map (fun c => c + num + 1))⟩

/-- `combine_proofs(antecedent1_proof, antecedent2_proof, consequent,
double_conditional)` from `propositions/deduction.py`.  The returned rule set
is the union of the two proofs' rule sets plus the double conditional; `MP`
is *not* added by this function. -/
def combine_proofs (a1 a2 : Proof) (consequent : Formula)
    (dc : InferenceRule) : Proof :=
  let my_map := (merge_specialization_maps
    (formula_specialization_map dc.conclusion.first a1.statement.conclusion)
    (formula_specialization_map dc.conclusion.second.second consequent)).getD []
  let specC := (dc.specialize my_map).conclusion
  let lines1 := a1.lines ++ [⟨specC, some (dc, [])⟩]
  let num := lines1.length - 1
  let lines3 := (lines1 ++ a2.lines.map (shiftLine num)) ++
    [⟨specC.second, some (MP, [num - 1, num])⟩]
  let num2 := lines3.length - 1
  ⟨⟨a1.statement.assumptions, consequent⟩,
    a1.rules ++ a2.rules ++ [dc],
    lines3 ++ [⟨specC.second.second, some (MP, [num2 - 1, num2])⟩]⟩

/-- Structural size of a formula, the termination measure of
`prove_in_model`. -/
def Formula.fsize : Formula → Nat
  | Formula.var _ => 1
  | Formula.const _ => 1
  | Formula.neg f => f.fsize + 1
  | Formula.bin _ f g => f.fsize + g.fsize + 2

theorem fsize_pos (f : Formula) : 1 ≤ f.fsize := by
  cases f <;> simp only [Formula.fsize] <;> omega

/-- `prove_in_model(formula, model)` from `propositions/tautology.py`.  The
`const` case is unreachable under the function's precondition (the formula
has no constants; Python would raise there) and is modelled by a junk empty
proof. -/
def prove_in_model (formula : Formula) (m : Model) : Proof :=
  let model_use := formulae_capturing_model m
  match formula with
  | Formula.var v =>
    if Formula.var v ∈ model_use then
      ⟨⟨model_use, Formula.var v⟩, AXIOMATIC_SYSTEM, [⟨Formula.var v, none⟩]⟩
    else
      ⟨⟨model_use, Formula.neg (Formula.var v)⟩, AXIOMATIC_SYSTEM,
        [⟨Formula.neg (Formula.var v), none⟩]⟩
  | Formula.neg (Formula.var v) =>
    if ((m : List (String × Bool)).lookup v).getD false then
      ⟨⟨model_use, Formula.neg (Formula.neg (Formula.var v))⟩,
        AXIOMATIC_SYSTEM,
        [⟨Formula.var v, none⟩,
         ⟨fimp (Formula.var v) (Formula.neg (Formula.neg (Formula.var v))),
           some (NN, [])⟩,
         ⟨Formula.neg (Formula.neg (Formula.var v)), some (MP, [0, 1])⟩]⟩
    else
      ⟨⟨model_use, Formula.neg (Formula.var v)⟩, AXIOMATIC_SYSTEM,
        [⟨Formula.neg (Formula.var v), none⟩]⟩
  | Formula.neg f =>
    let my_proof := prove_in_model f m
    if evaluate (Formula.neg f) m = true then my_proof
    else prove_corollary my_proof (Formula.neg (Formula.neg f)) NN
  | Formula.bin op f g =>
    if evaluate (Formula.bin op f g) m = true ∧ evaluate f m = false then
      prove_corollary (prove_in_model (Formula.neg f) m) (Formula.bin op f g) I2
    else if evaluate (Formula.bin op f g) m = true ∧ evaluate g m = true then
      prove_corollary (prove_in_model g m) (Formula.bin op f g) I1
    else
      combine_proofs (prove_in_model f m) (prove_in_model g m)
        (Formula.neg (Formula.bin op f g)) NI
  | Formula.const b =>
    ⟨⟨model_use, Formula.const b⟩, AXIOMATIC_SYSTEM, []⟩
termination_by formula.fsize
decreasing_by
  all_goals simp only [Formula.fsize]
  all_goals omega

/-- `reduce_assumption(proof_from_affirmation, proof_from_negation)` from
`propositions/tautology.py`. -/
def reduce_assumption (pa pn : Proof) : Proof :=
  combine_proofs (remove_assumption pa) (remove_assumption pn)
    pn.statement.conclusion R

/-- The variables of `t` still missing from the model, in alphabetical
order: the recursive case of `prove_tautology` picks the head of this
list. -/
def missingVars (t : Formula) (m : Model) : List String :=
  (sortStrings t.variablesOf).filter
    (fun v => ¬ (v ∈ (m : List (String × Bool)).map Prod.fst))

theorem missingVars_head_fresh (t : Formula) (m : Model) (v : String)
    (rest : List String) (hm : missingVars t m = v :: rest) :
    v ∉ (m : List (String × Bool)).map Prod.fst := by
  have hv : v ∈ missingVars t m := by
    rw [hm]
    exact List.mem_cons_self v rest
  unfold missingVars at hv
  rw [List.mem_filter] at hv
  simpa using hv.2

theorem missingVars_nodup (t : Formula) (m : Model) :
    (missingVars t m).Nodup := by
  unfold missingVars
  exact List.Nodup.filter _ (sortStrings_nodup _ (variablesOf_nodup t))

theorem missingVars_dictSet (t : Formula) (m : Model) (v : String) (b : Bool)
    (rest : List String) (hm : missingVars t m = v :: rest) :
    missingVars t (dictSet m v b) = rest := by
  have hfresh := missingVars_head_fresh t m v rest hm
  have hset := dictSet_append_fresh m v b hfresh
  have hnd : (missingVars t m).Nodup := missingVars_nodup t m
  rw [hm, List.nodup_cons] at hnd
  have hstep : missingVars t (dictSet m v b) =
      (missingVars t m).filter (fun w => ¬ (w = v)) := by
    unfold missingVars
    rw [hset, List.filter_filter]
    refine List.filter_congr ?_
    intro w _
    simp only [List.map_append, List.map_cons, List.map_nil, List.mem_append,
      List.mem_singleton, decide_not]
    rcases Decidable.em (w = v) with hwv | hwv <;>
      rcases Decidable.em (w ∈ (m : List (String × Bool)).map Prod.fst)
        with hwm | hwm <;>
      simp [hwv, hwm]
  rw [hstep, hm, List.filter_cons]
  have hvv : (decide (¬ (v = v))) = false := by simp
  rw [if_neg (by simp)]
  refine List.filter_eq_self.mpr ?_
  intro w hw
  simp only [decide_not, Bool.not_eq_true', decide_eq_false_iff_not]
  intro hwv
  exact hnd.1 (hwv ▸ hw)

/-- `prove_tautology(tautology, model)` from `propositions/tautology.py`:
when no variable of the tautology is missing from the model, delegate to
`prove_in_model`; otherwise the loop over the sorted variables returns at
the alphabetically first missing variable, recursing with it set to `True`
and to `False` and combining the two proofs with `reduce_assumption`. -/
def prove_tautology (t : Formula) (m : Model) : Proof :=
  match hm : missingVars t m with
  | [] => prove_in_model t m
  | v :: _ =>
    reduce_assumption (prove_tautology t (dictSet m v true))
      (prove_tautology t (dictSet m v false))
termination_by (missingVars t m).length
decreasing_by
  · rw [missingVars_dictSet t m v _ _ hm, hm]
    simp
  · rw [missingVars_dictSet t m v _ _ hm, hm]
    simp

/-- The precondition of the tautology claim: the formula contains no
constants and no operators beyond implication and negation. -/
def onlyImpNeg : Formula → Bool
  | Formula.var _ => true
  | Formula.const _ => false
  | Formula.neg f => onlyImpNeg f
  | Formula.bin BinOp.imp f g => onlyImpNeg f && onlyImpNeg g
  | Formula.bin _ _ _ => false

/-! ## Validity of `prove_corollary` -/

theorem getD_append_lt (ls ext : List Line) (i : Nat) (hi : i < ls.length) :
    (ls ++ ext).getD i default = ls.getD i default := by
  rw [List.getD_eq_getElem?_getD, List.getD_eq_getElem?_getD,
    List.getElem?_append_left hi]

theorem getD_app2_0 {A : Type} [Inhabited A] (ls : List A) (x y : A) :
    (ls ++ [x, y]).getD ls.length default = x := by
  simpa using getD_append_idx ls [x, y] default 0 (by simp)

theorem getD_app2_1 {A : Type} [Inhabited A] (ls : List A) (x y : A) :
    (ls ++ [x, y]).getD (ls.length + 1) default = y := by
  simpa using getD_append_idx ls [x, y] default 1 (by simp)

theorem getLast?_append2 (ls : List Line) (x y : Line) :
    (ls ++ [x, y]).getLast? = some y := by
  have h : ls ++ [x, y] = (ls ++ [x]) ++ [y] := by simp
  rw [h, List.getLast?_concat]

/-- Line validity is monotone under enlarging the rule set, keeping the
assumptions and the line prefix. -/
theorem is_line_valid_mono (p q : Proof) (i : Nat)
    (hs : p.statement.assumptions = q.statement.assumptions)
    (hr : ∀ r ∈ p.rules, r ∈ q.rules)
    (hl : ∀ j : Nat, j ≤ i → p.lines.getD j default = q.lines.getD j default)
    (h : p.is_line_valid i = true) : q.is_line_valid i = true := by
  have hline : q.lines.getD i default = p.lines.getD i default :=
    (hl i le_rfl).symm
  rw [is_line_valid_iff] at h ⊢
  unfold LineValidSpec at h ⊢
  rw [hline, ← hs]
  cases hj : (p.lines.getD i default).justification with
  | none =>
    rw [hj] at h
    simp only
    exact h
  | some rc =>
    obtain ⟨r, cits⟩ := rc
    rw [hj] at h
    simp only at h ⊢
    obtain ⟨h1, h2, h3⟩ := h
    refine ⟨hr r h1, h2, ?_⟩
    have hmap : cits.map (fun c => (q.lines.getD c default).formula) =
        cits.map (fun c => (p.lines.getD c default).formula) :=
      List.map_congr_left (fun c hc => by rw [← hl c (le_of_lt (h2 c hc))])
    rw [hmap]
    exact h3

theorem prove_corollary_def (ap : Proof) (c : Formula)
    (cond : InferenceRule) :
    prove_corollary ap c cond =
      ⟨⟨ap.statement.assumptions, c⟩,
        ap.rules ++ [MP, cond],
        ap.lines ++
          [⟨(cond.specialize ((formula_specialization_map
              cond.conclusion.second c).getD [])).conclusion,
            some (cond, [])⟩,
           ⟨c, some (MP, [ap.lines.length - 1, ap.lines.length])⟩]⟩ := rfl

theorem prove_corollary_valid (ap : Proof) (c : Formula)
    (cond : InferenceRule)
    (hvalid : ap.is_valid? = some true)
    (hshape : (cond.specialize ((formula_specialization_map
      cond.conclusion.second c).getD [])).conclusion
        = fimp ap.statement.conclusion c)
    (hspec : InferenceRule.is_specialization_of
      ⟨[], fimp ap.statement.conclusion c⟩ cond = true) :
    (prove_corollary ap c cond).is_valid? = some true := by
  have hne := valid_lines_ne_nil ap hvalid
  obtain ⟨hall, hlast⟩ := valid_spec ap hvalid
  have hnpos : 0 < ap.lines.length := List.length_pos.mpr hne
  rw [prove_corollary_def, hshape]
  refine is_valid_of _ ?_ ?_ ?_
  · intro i hi
    simp only [List.length_append, List.length_cons, List.length_nil] at hi
    by_cases hio : i < ap.lines.length
    · refine is_line_valid_mono ap _ i rfl ?_ ?_ (hall i hio)
      · intro r hr
        simp only [List.mem_append]
        exact Or.inl hr
      · intro j hj
        simp only
        rw [getD_append_lt ap.lines _ j (by omega)]
    · rcases (by omega : i = ap.lines.length ∨ i = ap.lines.length + 1)
        with rfl | rfl
      · refine lineValidSpec_derived _ _ (fimp ap.statement.conclusion c)
          cond [] ?_ ?_ ?_ ?_
        · simp only
          exact getD_app2_0 ap.lines _ _
        · simp only [List.mem_append]
          exact Or.inr (by simp)
        · intro c2 hc2
          simp at hc2
        · simp only [List.map_nil]
          exact hspec
      · refine lineValidSpec_derived _ _ c MP
          [ap.lines.length - 1, ap.lines.length] ?_ ?_ ?_ ?_
        · simp only
          exact getD_app2_1 ap.lines _ _
        · simp only [List.mem_append]
          exact Or.inr (by simp)
        · intro c2 hc2
          simp only [List.mem_cons, List.mem_singleton] at hc2
          rcases hc2 with rfl | hc2
          · omega
          · simp only [List.not_mem_nil, or_false] at hc2
            omega
        · simp only [List.map_cons, List.map_nil]
          have e1 : ((ap.lines ++
              ([⟨fimp ap.statement.conclusion c, some (cond, [])⟩,
               ⟨c, some (MP, [ap.lines.length - 1, ap.lines.length])⟩] :
                List Line)).getD
                (ap.lines.length - 1) default).formula
              = ap.statement.conclusion := by
            rw [getD_append_lt ap.lines _ _ (by omega),
              getD_last_of_ne_nil ap.lines hne]
            exact hlast
          have e2 : ((ap.lines ++
              ([⟨fimp ap.statement.conclusion c, some (cond, [])⟩,
               ⟨c, some (MP, [ap.lines.length - 1, ap.lines.length])⟩] :
                List Line)).getD
                ap.lines.length default).formula
              = fimp ap.statement.conclusion c := by
            rw [getD_app2_0 ap.lines _ _]
          rw [e1, e2]
          exact spec_MP ap.statement.conclusion c
  · simp
  · simp only
    rw [getLast?_append2]
    simp

/-! ## Validity of `combine_proofs` -/

/-- The conclusion of the specialized double conditional placed by
`combine_proofs`. -/
def cpConc (a1 : Proof) (c : Formula) (dc : InferenceRule) : Formula :=
  InferenceRule.conclusion (dc.specialize ((merge_specialization_maps
    (formula_specialization_map dc.conclusion.first a1.statement.conclusion)
    (formula_specialization_map dc.conclusion.second.second c)).getD []))

theorem shiftLine_formula (num : Nat) (l : Line) :
    (shiftLine num l).formula = l.formula := by
  unfold shiftLine
  cases l.justification with
  | none => rfl
  | some rc => rfl

theorem getD_map_lt (f : Line → Line) (l : List Line) (k : Nat)
    (hk : k < l.length) :
    (l.map f).getD k default = f (l.getD k default) := by
  rw [List.getD_eq_getElem?_getD, List.getD_eq_getElem?_getD,
    List.getElem?_map, List.getElem?_eq_getElem hk]
  simp

theorem combine_proofs_eq (a1 a2 : Proof) (c : Formula) (dc : InferenceRule) :
    combine_proofs a1 a2 c dc =
      ⟨⟨a1.statement.assumptions, c⟩,
        a1.rules ++ a2.rules ++ [dc],
        ((a1.lines ++ [⟨cpConc a1 c dc, some (dc, [])⟩])
            ++ a2.lines.map (shiftLine a1.lines.length)) ++
          [⟨(cpConc a1 c dc).second,
              some (MP, [a1.lines.length - 1, a1.lines.length])⟩,
           ⟨(cpConc a1 c dc).second.second,
              some (MP, [a1.lines.length + (a2.lines.length + 1 + 1) - 1 - 1,
                a1.lines.length + (a2.lines.length + 1 + 1) - 1])⟩]⟩ := by
  unfold combine_proofs cpConc
  simp only [List.length_append, List.length_cons, List.length_nil,
    List.length_map, Nat.add_sub_cancel, List.append_assoc, List.cons_append,
    List.nil_append, Nat.zero_add]

theorem fimp_second (a b : Formula) : (fimp a b).second = b := rfl

/-- A line of the second proof, copied with citations shifted by `num + 1`
and placed after a prefix of length `num + 1`, stays valid. -/
theorem shifted_block_valid (a2 : Proof) (stmt : InferenceRule)
    (RS : List InferenceRule) (A tail : List Line) (num k : Nat)
    (hA : A.length = num + 1)
    (hk : k < a2.lines.length)
    (hassum : a2.statement.assumptions = stmt.assumptions)
    (hrules : ∀ r ∈ a2.rules, r ∈ RS)
    (hvalid2 : a2.is_line_valid k = true) :
    Proof.is_line_valid
      (Proof.mk stmt RS ((A ++ a2.lines.map (shiftLine num)) ++ tail))
      (A.length + k) = true := by
  have hgetD : ∀ j : Nat, j < a2.lines.length →
      ((A ++ a2.lines.map (shiftLine num)) ++ tail).getD (A.length + j)
          default
        = shiftLine num (a2.lines.getD j default) := by
    intro j hj
    rw [getD_append_lt _ tail _ (by
      simp only [List.length_append, List.length_map]
      omega)]
    rw [getD_append_at A _ j (by simpa using hj), getD_map_lt _ _ j hj]
  cases hline2 : a2.lines.getD k default with
  | mk f j =>
    cases j with
    | none =>
      have hmem := lineValidSpec_assumption_inv a2 k (by rw [hline2]) hvalid2
      rw [hline2] at hmem
      rw [hassum] at hmem
      refine lineValidSpec_assumption
        (Proof.mk stmt RS ((A ++ a2.lines.map (shiftLine num)) ++ tail))
        (A.length + k) f ?_ ?_
      · simp only
        rw [hgetD k hk, hline2]
        rfl
      · simpa using hmem
    | some rc =>
      obtain ⟨r, cs⟩ := rc
      obtain ⟨hr2, hlt2, hspec2⟩ :=
        lineValidSpec_derived_inv a2 k r cs (by rw [hline2]) hvalid2
      refine lineValidSpec_derived
        (Proof.mk stmt RS ((A ++ a2.lines.map (shiftLine num)) ++ tail))
        (A.length + k) f r
        (cs.map (fun c2 => c2 + num + 1)) ?_ ?_ ?_ ?_
      · simp only
        rw [hgetD k hk, hline2]
        rfl
      · simpa using hrules r hr2
      · intro c2 hc2
        simp only [List.mem_map] at hc2
        obtain ⟨c0, hc0, rfl⟩ := hc2
        have := hlt2 c0 hc0
        omega
      · simp only
        rw [List.map_map]
        have hmapeq : cs.map ((fun c2 =>
            (((A ++ a2.lines.map (shiftLine num)) ++ tail).getD c2
              default).formula) ∘ (fun c2 => c2 + num + 1))
            = cs.map (fun c2 => (a2.lines.getD c2 default).formula) := by
          refine List.map_congr_left ?_
          intro c0 hc0
          simp only [Function.comp_apply]
          have hc0k : c0 < a2.lines.length := lt_trans (hlt2 c0 hc0) hk
          have he : c0 + num + 1 = A.length + c0 := by omega
          rw [he, hgetD c0 hc0k, shiftLine_formula]
        rw [hmapeq]
        rw [hline2] at hspec2
        exact hspec2

theorem combine_proofs_valid (a1 a2 : Proof) (c : Formula)
    (dc : InferenceRule)
    (h1 : a1.is_valid? = some true) (h2 : a2.is_valid? = some true)
    (hassum : a2.statement.assumptions = a1.statement.assumptions)
    (hMP : MP ∈ a1.rules)
    (hshape : cpConc a1 c dc
      = fimp a1.statement.conclusion (fimp a2.statement.conclusion c))
    (hspec : InferenceRule.is_specialization_of
      ⟨[], fimp a1.statement.conclusion (fimp a2.statement.conclusion c)⟩ dc
        = true) :
    (combine_proofs a1 a2 c dc).is_valid? = some true := by
  have hne1 := valid_lines_ne_nil a1 h1
  have hne2 := valid_lines_ne_nil a2 h2
  obtain ⟨hall1, hlast1⟩ := valid_spec a1 h1
  obtain ⟨hall2, hlast2⟩ := valid_spec a2 h2
  have hn1 : 0 < a1.lines.length := List.length_pos.mpr hne1
  have hn2 : 0 < a2.lines.length := List.length_pos.mpr hne2
  rw [combine_proofs_eq, hshape, fimp_second, fimp_second]
  refine is_valid_of _ ?_ ?_ ?_
  · intro i hi
    simp only [List.length_append, List.length_cons, List.length_nil,
      List.length_map] at hi
    by_cases hiA : i < a1.lines.length
    · refine is_line_valid_mono a1 _ i rfl ?_ ?_ (hall1 i hiA)
      · intro r hr
        simp only [List.mem_append]
        exact Or.inl (Or.inl hr)
      · intro j hj
        simp only
        rw [getD_append_lt _ _ j (by
          simp only [List.length_append, List.length_cons, List.length_nil,
            List.length_map]
          omega)]
        rw [getD_append_lt _ _ j (by
          simp only [List.length_append, List.length_cons, List.length_nil]
          omega)]
        rw [getD_append_lt _ _ j (by omega)]
    · by_cases hiL1 : i = a1.lines.length
      · subst hiL1
        refine lineValidSpec_derived _ _
          (fimp a1.statement.conclusion (fimp a2.statement.conclusion c))
          dc [] ?_ ?_ ?_ ?_
        · simp only
          rw [getD_append_lt _ _ _ (by
            simp only [List.length_append, List.length_cons, List.length_nil,
              List.length_map]
            omega)]
          rw [getD_append_lt _ _ _ (by
            simp only [List.length_append, List.length_cons, List.length_nil]
            omega)]
          exact getD_app1_0 a1.lines _
        · simp only [List.mem_append]
          exact Or.inr (by simp)
        · intro c2 hc2
          simp at hc2
        · simp only [List.map_nil]
          exact hspec
      · by_cases hiB : i < a1.lines.length + 1 + a2.lines.length
        · have hi2 : i = List.length (a1.lines ++
              [(⟨fimp a1.statement.conclusion
                  (fimp a2.statement.conclusion c),
                some (dc, [])⟩ : Line)]) + (i - a1.lines.length - 1) := by
            simp only [List.length_append, List.length_cons, List.length_nil]
            omega
          rw [hi2]
          refine shifted_block_valid a2 _ _ _ _ a1.lines.length _ ?_ ?_
            hassum ?_ (hall2 _ (by omega))
          · simp
          · omega
          · intro r hr
            simp only [List.mem_append]
            exact Or.inl (Or.inr hr)
        · have hABlen : ((a1.lines ++
              [(⟨fimp a1.statement.conclusion
                  (fimp a2.statement.conclusion c), some (dc, [])⟩ : Line)]) ++
                a2.lines.map (shiftLine a1.lines.length)).length
              = a1.lines.length + 1 + a2.lines.length := by
            simp only [List.length_append, List.length_cons, List.length_nil,
              List.length_map]
          by_cases hiL2 : i = a1.lines.length + 1 + a2.lines.length
          · subst hiL2
            refine lineValidSpec_derived _ _
              (fimp a2.statement.conclusion c) MP
              [a1.lines.length - 1, a1.lines.length] ?_ ?_ ?_ ?_
            · simp only
              rw [show a1.lines.length + 1 + a2.lines.length
                  = ((a1.lines ++
                    [(⟨fimp a1.statement.conclusion
                        (fimp a2.statement.conclusion c),
                      some (dc, [])⟩ : Line)]) ++
                    a2.lines.map (shiftLine a1.lines.length)).length
                from hABlen.symm]
              exact getD_app2_0 _ _ _
            · simp only [List.mem_append]
              exact Or.inl (Or.inl hMP)
            · intro c2 hc2
              simp only [List.mem_cons, List.mem_singleton,
                List.not_mem_nil, or_false] at hc2
              rcases hc2 with rfl | rfl <;> omega
            · simp only [List.map_cons, List.map_nil]
              have e1 : (((a1.lines ++
                  [(⟨fimp a1.statement.conclusion
                      (fimp a2.statement.conclusion c),
                    some (dc, [])⟩ : Line)] ++
                    a2.lines.map (shiftLine a1.lines.length)) ++
                  [(⟨fimp a2.statement.conclusion c,
                      some (MP, [a1.lines.length - 1, a1.lines.length])⟩ :
                        Line),
                   (⟨c, some (MP,
                      [a1.lines.length + (a2.lines.length + 1 + 1) - 1 - 1,
                       a1.lines.length + (a2.lines.length + 1 + 1) - 1])⟩ :
                        Line)]).getD (a1.lines.length - 1) default).formula
                  = a1.statement.conclusion := by
                rw [getD_append_lt _ _ _ (by
                  simp only [List.length_append, List.length_cons,
                    List.length_nil, List.length_map]
                  omega)]
                rw [getD_append_lt _ _ _ (by
                  simp only [List.length_append, List.length_cons,
                    List.length_nil]
                  omega)]
                rw [getD_append_lt _ _ _ (by omega)]
                rw [getD_last_of_ne_nil a1.lines hne1]
                exact hlast1
              have e2 : (((a1.lines ++
                  [(⟨fimp a1.statement.conclusion
                      (fimp a2.statement.conclusion c),
                    some (dc, [])⟩ : Line)] ++
                    a2.lines.map (shiftLine a1.lines.length)) ++
                  [(⟨fimp a2.statement.conclusion c,
                      some (MP, [a1.lines.length - 1, a1.lines.length])⟩ :
                        Line),
                   (⟨c, some (MP,
                      [a1.lines.length + (a2.lines.length + 1 + 1) - 1 - 1,
                       a1.lines.length + (a2.lines.length + 1 + 1) - 1])⟩ :
                        Line)]).getD a1.lines.length default).formula
                  = fimp a1.statement.conclusion
                      (fimp a2.statement.conclusion c) := by
                rw [getD_append_lt _ _ _ (by
                  simp only [List.length_append, List.length_cons,
                    List.length_nil, List.length_map]
                  omega)]
                rw [getD_append_lt _ _ _ (by
                  simp only [List.length_append, List.length_cons,
                    List.length_nil]
                  omega)]
                rw [getD_app1_0 a1.lines _]
              simp only [List.append_assoc] at e1 e2 ⊢
              rw [e1, e2]
              exact spec_MP a1.statement.conclusion
                (fimp a2.statement.conclusion c)
          · -- the final MP line
            have hi3 : i = a1.lines.length + 1 + a2.lines.length + 1 := by
              omega
            subst hi3
            have ea : a1.lines.length + (a2.lines.length + 1 + 1) - 1 - 1
                = a1.lines.length + a2.lines.length := by omega
            have eb : a1.lines.length + (a2.lines.length + 1 + 1) - 1
                = a1.lines.length + 1 + a2.lines.length := by omega
            rw [ea, eb]
            refine lineValidSpec_derived _ _ c MP
              [a1.lines.length + a2.lines.length,
               a1.lines.length + 1 + a2.lines.length] ?_ ?_ ?_ ?_
            · simp only
              rw [show a1.lines.length + 1 + a2.lines.length + 1
                  = ((a1.lines ++
                    [(⟨fimp a1.statement.conclusion
                        (fimp a2.statement.conclusion c),
                      some (dc, [])⟩ : Line)]) ++
                    a2.lines.map (shiftLine a1.lines.length)).length + 1
                from by rw [hABlen]]
              exact getD_app2_1 _ _ _
            · simp only [List.mem_append]
              exact Or.inl (Or.inl hMP)
            · intro c2 hc2
              simp only [List.mem_cons, List.mem_singleton,
                List.not_mem_nil, or_false] at hc2
              rcases hc2 with rfl | rfl <;> omega
            · simp only [List.map_cons, List.map_nil]
              have e1 : (((a1.lines ++
                  [(⟨fimp a1.statement.conclusion
                      (fimp a2.statement.conclusion c),
                    some (dc, [])⟩ : Line)] ++
                    a2.lines.map (shiftLine a1.lines.length)) ++
                  [(⟨fimp a2.statement.conclusion c,
                      some (MP, [a1.lines.length - 1, a1.lines.length])⟩ :
                        Line),
                   (⟨c, some (MP,
                      [a1.lines.length + a2.lines.length,
                       a1.lines.length + 1 + a2.lines.length])⟩ :
                        Line)]).getD
                    (a1.lines.length + a2.lines.length) default).formula
                  = a2.statement.conclusion := by
                rw [getD_append_lt _ _ _ (by
                  simp only [List.length_append, List.length_cons,
                    List.length_nil, List.length_map]
                  omega)]
                have hsplit : a1.lines.length + a2.lines.length
                    = (a1.lines ++
                      [(⟨fimp a1.statement.conclusion
                          (fimp a2.statement.conclusion c),
                        some (dc, [])⟩ : Line)]).length +
                      (a2.lines.length - 1) := by
                  simp only [List.length_append, List.length_cons,
                    List.length_nil]
                  omega
                rw [hsplit, getD_append_at _ _ _ (by
                  simp only [List.length_map]
                  omega)]
                rw [getD_map_lt _ _ _ (by omega), shiftLine_formula,
                  getD_last_of_ne_nil a2.lines hne2]
                exact hlast2
              have e2 : (((a1.lines ++
                  [(⟨fimp a1.statement.conclusion
                      (fimp a2.statement.conclusion c),
                    some (dc, [])⟩ : Line)] ++
                    a2.lines.map (shiftLine a1.lines.length)) ++
                  [(⟨fimp a2.statement.conclusion c,
                      some (MP, [a1.lines.length - 1, a1.lines.length])⟩ :
                        Line),
                   (⟨c, some (MP,
                      [a1.lines.length + a2.lines.length,
                       a1.lines.length + 1 + a2.lines.length])⟩ :
                        Line)]).getD
                    (a1.lines.length + 1 + a2.lines.length) default).formula
                  = fimp a2.statement.conclusion c := by
                rw [show a1.lines.length + 1 + a2.lines.length
                    = ((a1.lines ++
                      [(⟨fimp a1.statement.conclusion
                          (fimp a2.statement.conclusion c),
                        some (dc, [])⟩ : Line)]) ++
                      a2.lines.map (shiftLine a1.lines.length)).length
                  from hABlen.symm]
                rw [getD_app2_0 _ _ _]
              simp only [List.append_assoc] at e1 e2 ⊢
              rw [e1, e2]
              exact spec_MP a2.statement.conclusion c
  · simp
  · simp only
    rw [getLast?_append2]
    simp

/-! ## Lookup and capture-list lemmas -/

theorem lookup_some_mem_keys (l : List (String × Bool)) (v : String)
    (b : Bool) (h : l.lookup v = some b) : v ∈ l.map Prod.fst := by
  induction l with
  | nil => simp [List.lookup] at h
  | cons p rest ih =>
    obtain ⟨k, w⟩ := p
    by_cases hv : v = k
    · simp [hv]
    · simp only [List.map_cons, List.mem_cons]
      right
      apply ih
      have hbeq : (v == k) = false := by simp [hv]
      simpa [List.lookup, hbeq] using h

theorem lookup_isSome_of_mem_keys (l : List (String × Bool)) (v : String)
    (h : v ∈ l.map Prod.fst) : ∃ b, l.lookup v = some b := by
  induction l with
  | nil => simp at h
  | cons p rest ih =>
    obtain ⟨k, w⟩ := p
    by_cases hv : v = k
    · exact ⟨w, by simp [List.lookup, hv]⟩
    · simp only [List.map_cons, List.mem_cons] at h
      rcases h with rfl | h2
      · exact absurd rfl hv
      · obtain ⟨b, hb⟩ := ih h2
        have hbeq : (v == k) = false := by simp [hv]
        exact ⟨b, by simpa [List.lookup, hbeq] using hb⟩

theorem lookup_append_left (l1 l2 : List (String × Bool)) (v : String)
    (h : v ∈ l1.map Prod.fst) : (l1 ++ l2).lookup v = l1.lookup v := by
  induction l1 with
  | nil => simp at h
  | cons p rest ih =>
    obtain ⟨k, w⟩ := p
    by_cases hv : v = k
    · simp [List.lookup, hv]
    · simp only [List.map_cons, List.mem_cons] at h
      rcases h with rfl | h2
      · exact absurd rfl hv
      · have hbeq : (v == k) = false := by simp [hv]
        simp [List.lookup, hbeq, ih h2]

theorem lookup_append_right (l1 l2 : List (String × Bool)) (v : String)
    (h : v ∉ l1.map Prod.fst) : (l1 ++ l2).lookup v = l2.lookup v := by
  induction l1 with
  | nil => simp
  | cons p rest ih =>
    obtain ⟨k, w⟩ := p
    simp only [List.map_cons, List.mem_cons] at h
    push_neg at h
    have hbeq : (v == k) = false := by simp [h.1]
    simp [List.lookup, hbeq, ih h.2]

theorem var_mem_capture (m : Model) (v : String) :
    Formula.var v ∈ formulae_capturing_model m ↔
      (m : List (String × Bool)).lookup v = some true := by
  unfold formulae_capturing_model
  rw [List.mem_map]
  constructor
  · rintro ⟨x, hx, heq⟩
    by_cases hb : ((m : List (String × Bool)).lookup x).getD false = true
    · rw [if_pos hb] at heq
      have hxv : x = v := by injection heq
      rw [← hxv]
      cases hl : (m : List (String × Bool)).lookup x with
      | none => rw [hl] at hb; simp at hb
      | some b =>
        rw [hl] at hb
        simp only [Option.getD_some] at hb
        rw [hb]
    · rw [if_neg hb] at heq
      cases heq
  · intro hl
    have hmem : v ∈ (m : List (String × Bool)).map Prod.fst :=
      lookup_some_mem_keys _ v true hl
    refine ⟨v, (mem_sortStrings v _).mpr hmem, ?_⟩
    rw [hl]
    simp

theorem negvar_mem_capture (m : Model) (v : String) :
    Formula.neg (Formula.var v) ∈ formulae_capturing_model m ↔
      (m : List (String × Bool)).lookup v = some false := by
  unfold formulae_capturing_model
  rw [List.mem_map]
  constructor
  · rintro ⟨x, hx, heq⟩
    by_cases hb : ((m : List (String × Bool)).lookup x).getD false = true
    · rw [if_pos hb] at heq
      cases heq
    · rw [if_neg hb] at heq
      have hxv : x = v := by
        injection heq with h1
        injection h1
      rw [← hxv]
      have hmem : x ∈ (m : List (String × Bool)).map Prod.fst :=
        (mem_sortStrings x _).mp hx
      obtain ⟨b, hlb⟩ := lookup_isSome_of_mem_keys _ x hmem
      cases b with
      | false => exact hlb
      | true =>
        rw [hlb] at hb
        simp at hb
  · intro hl
    have hmem : v ∈ (m : List (String × Bool)).map Prod.fst :=
      lookup_some_mem_keys _ v false hl
    refine ⟨v, (mem_sortStrings v _).mpr hmem, ?_⟩
    rw [hl]
    simp

theorem capture_shape (m : Model) (f : Formula)
    (hf : f ∈ formulae_capturing_model m) :
    ∃ x, x ∈ (m : List (String × Bool)).map Prod.fst ∧
      (f = Formula.var x ∨ f = Formula.neg (Formula.var x)) := by
  unfold formulae_capturing_model at hf
  rw [List.mem_map] at hf
  obtain ⟨x, hx, rfl⟩ := hf
  refine ⟨x, (mem_sortStrings x _).mp hx, ?_⟩
  by_cases hb : ((m : List (String × Bool)).lookup x).getD false = true
  · rw [if_pos hb]
    exact Or.inl rfl
  · rw [if_neg hb]
    exact Or.inr rfl

theorem capture_append_big (l : List (String × Bool)) (v : String) (b : Bool)
    (hfresh : v ∉ l.map Prod.fst)
    (hbig : ∀ k ∈ l.map Prod.fst, k < v) :
    formulae_capturing_model (l ++ [(v, b)]) =
      formulae_capturing_model l ++
        [if b then Formula.var v else Formula.neg (Formula.var v)] := by
  unfold formulae_capturing_model
  have hkeys : List.map Prod.fst (l ++ [(v, b)])
      = l.map Prod.fst ++ [v] := by simp
  rw [hkeys, sortStrings_append_big _ v hbig, List.map_append]
  congr 1
  · refine List.map_congr_left ?_
    intro x hx
    have hxk : x ∈ l.map Prod.fst := (mem_sortStrings x _).mp hx
    rw [lookup_append_left _ _ x hxk]
  · simp only [List.map_cons, List.map_nil]
    rw [lookup_append_right _ _ v hfresh]
    simp [List.lookup]

theorem capture_dictSet_big (m : Model) (v : String) (b : Bool)
    (hfresh : v ∉ (m : List (String × Bool)).map Prod.fst)
    (hbig : ∀ k ∈ (m : List (String × Bool)).map Prod.fst, k < v) :
    formulae_capturing_model (dictSet m v b) =
      formulae_capturing_model m ++
        [if b then Formula.var v else Formula.neg (Formula.var v)] := by
  rw [dictSet_append_fresh m v b hfresh]
  exact capture_append_big m v b hfresh hbig

theorem capture_no_lit (m : Model) (v : String)
    (hfresh : v ∉ (m : List (String × Bool)).map Prod.fst) :
    ∀ f ∈ formulae_capturing_model m,
      f ≠ Formula.var v ∧ f ≠ Formula.neg (Formula.var v) := by
  intro f hf
  obtain ⟨x, hxk, hshape⟩ := capture_shape m f hf
  have hxv : x ≠ v := fun h => hfresh (h ▸ hxk)
  rcases hshape with rfl | rfl
  · constructor
    · intro h
      cases h
      exact hxv rfl
    · intro h
      cases h
  · constructor
    · intro h
      cases h
    · intro h
      cases h
      exact hxv rfl

/-! ## Shape lemmas for the specialized axiom instances placed by
`prove_corollary` and `combine_proofs` -/

theorem NN_shape (A : Formula) :
    (NN.specialize ((formula_specialization_map NN.conclusion.second
      (Formula.neg (Formula.neg A))).getD [])).conclusion
      = fimp A (Formula.neg (Formula.neg A)) := by
  simp [NN, InferenceRule.specialize, formula_specialization_map,
    merge_specialization_maps, mergeScan, fimp, Formula.second,
    Formula.substitute_variables, List.lookup]

theorem I1_shape (A B : Formula) :
    (I1.specialize ((formula_specialization_map I1.conclusion.second
      (fimp A B)).getD [])).conclusion
      = fimp B (fimp A B) := by
  simp [I1, InferenceRule.specialize, formula_specialization_map,
    merge_specialization_maps, mergeScan, fimp, Formula.second,
    Formula.substitute_variables, List.lookup]

theorem I2_shape (A B : Formula) :
    (I2.specialize ((formula_specialization_map I2.conclusion.second
      (fimp A B)).getD [])).conclusion
      = fimp (Formula.neg A) (fimp A B) := by
  simp [I2, InferenceRule.specialize, formula_specialization_map,
    merge_specialization_maps, mergeScan, fimp, Formula.second,
    Formula.substitute_variables, List.lookup]

theorem NI_shape (A B : Formula) :
    (NI.specialize ((merge_specialization_maps
      (formula_specialization_map NI.conclusion.first A)
      (formula_specialization_map NI.conclusion.second.second
        (Formula.neg (fimp A B)))).getD [])).conclusion
      = fimp A (fimp (Formula.neg B) (Formula.neg (fimp A B))) := by
  simp [NI, InferenceRule.specialize, formula_specialization_map,
    merge_specialization_maps, mergeScan, fimp, Formula.first,
    Formula.second, Formula.substitute_variables, List.lookup]

theorem R_shape (A C : Formula) :
    InferenceRule.conclusion (R.specialize ((merge_specialization_maps
      (formula_specialization_map R.conclusion.first (fimp A C))
      (formula_specialization_map R.conclusion.second.second C)).getD []))
      = fimp (fimp A C) (fimp (fimp (Formula.neg A) C) C) := by
  simp [R, InferenceRule.specialize, formula_specialization_map,
    merge_specialization_maps, mergeScan, fimp, Formula.first,
    Formula.second, Formula.substitute_variables, List.lookup]

theorem MP_mem_AX : MP ∈ AXIOMATIC_SYSTEM := by
  simp [AXIOMATIC_SYSTEM]

theorem AX_assumptionless : ∀ r ∈ AXIOMATIC_SYSTEM,
    r = MP ∨ r.assumptions = [] := by
  decide

/-! ## Case-by-case unfolding of `prove_in_model` -/

theorem prove_in_model_var (v : String) (m : Model) :
    prove_in_model (Formula.var v) m =
      (if Formula.var v ∈ formulae_capturing_model m then
        ⟨⟨formulae_capturing_model m, Formula.var v⟩, AXIOMATIC_SYSTEM,
          [⟨Formula.var v, none⟩]⟩
      else
        ⟨⟨formulae_capturing_model m, Formula.neg (Formula.var v)⟩,
          AXIOMATIC_SYSTEM, [⟨Formula.neg (Formula.var v), none⟩]⟩) := by
  rw [prove_in_model]

theorem prove_in_model_negvar (v : String) (m : Model) :
    prove_in_model (Formula.neg (Formula.var v)) m =
      (if ((m : List (String × Bool)).lookup v).getD false then
        ⟨⟨formulae_capturing_model m,
            Formula.neg (Formula.neg (Formula.var v))⟩,
          AXIOMATIC_SYSTEM,
          [⟨Formula.var v, none⟩,
           ⟨fimp (Formula.var v) (Formula.neg (Formula.neg (Formula.var v))),
             some (NN, [])⟩,
           ⟨Formula.neg (Formula.neg (Formula.var v)), some (MP, [0, 1])⟩]⟩
      else
        ⟨⟨formulae_capturing_model m, Formula.neg (Formula.var v)⟩,
          AXIOMATIC_SYSTEM, [⟨Formula.neg (Formula.var v), none⟩]⟩) := by
  rw [prove_in_model]

theorem prove_in_model_negneg (g : Formula) (m : Model) :
    prove_in_model (Formula.neg (Formula.neg g)) m =
      (if evaluate (Formula.neg (Formula.neg g)) m = true then
        prove_in_model (Formula.neg g) m
      else prove_corollary (prove_in_model (Formula.neg g) m)
        (Formula.neg (Formula.neg (Formula.neg g))) NN) := by
  rw [prove_in_model]
  intro v h
  exact Formula.noConfusion h

theorem prove_in_model_negbin (op : BinOp) (g h : Formula) (m : Model) :
    prove_in_model (Formula.neg (Formula.bin op g h)) m =
      (if evaluate (Formula.neg (Formula.bin op g h)) m = true then
        prove_in_model (Formula.bin op g h) m
      else prove_corollary (prove_in_model (Formula.bin op g h) m)
        (Formula.neg (Formula.neg (Formula.bin op g h))) NN) := by
  rw [prove_in_model]
  intro v hveq
  exact Formula.noConfusion hveq

theorem prove_in_model_const (b : Bool) (m : Model) :
    prove_in_model (Formula.const b) m =
      ⟨⟨formulae_capturing_model m, Formula.const b⟩, AXIOMATIC_SYSTEM, []⟩ := by
  rw [prove_in_model]

theorem prove_in_model_negconst (b : Bool) (m : Model) :
    prove_in_model (Formula.neg (Formula.const b)) m =
      (if evaluate (Formula.neg (Formula.const b)) m = true then
        prove_in_model (Formula.const b) m
      else prove_corollary (prove_in_model (Formula.const b) m)
        (Formula.neg (Formula.neg (Formula.const b))) NN) := by
  rw [prove_in_model]
  intro v hveq
  exact Formula.noConfusion hveq

theorem prove_in_model_bin (op : BinOp) (g h : Formula) (m : Model) :
    prove_in_model (Formula.bin op g h) m =
      (if evaluate (Formula.bin op g h) m = true ∧ evaluate g m = false then
        prove_corollary (prove_in_model (Formula.neg g) m)
          (Formula.bin op g h) I2
      else if evaluate (Formula.bin op g h) m = true ∧ evaluate h m = true
      then
        prove_corollary (prove_in_model h m) (Formula.bin op g h) I1
      else
        combine_proofs (prove_in_model g m) (prove_in_model h m)
          (Formula.neg (Formula.bin op g h)) NI) := by
  cases g with
  | var v => conv_lhs => rw [prove_in_model]
  | const b => conv_lhs => rw [prove_in_model]
  | neg g2 => conv_lhs => rw [prove_in_model]
  | bin op2 g2 h2 => conv_lhs => rw [prove_in_model]

/-! ## Packaged correctness of the two proof-combination maneuvers -/

theorem prove_corollary_correct (ap : Proof) (c : Formula)
    (cond : InferenceRule) (asm : List Formula) (aC : Formula)
    (hstmt : ap.statement = ⟨asm, aC⟩)
    (hvalid : ap.is_valid? = some true)
    (hshape : (cond.specialize ((formula_specialization_map
      cond.conclusion.second c).getD [])).conclusion = fimp aC c)
    (hspec : InferenceRule.is_specialization_of ⟨[], fimp aC c⟩ cond = true)
    (hMP : MP ∈ ap.rules) (hAX : ∀ r ∈ ap.rules, r ∈ AXIOMATIC_SYSTEM)
    (hcond : cond ∈ AXIOMATIC_SYSTEM) :
    (prove_corollary ap c cond).is_valid? = some true ∧
    (prove_corollary ap c cond).statement = ⟨asm, c⟩ ∧
    MP ∈ (prove_corollary ap c cond).rules ∧
    (∀ r ∈ (prove_corollary ap c cond).rules, r ∈ AXIOMATIC_SYSTEM) := by
  have hconc : ap.statement.conclusion = aC := by rw [hstmt]
  refine ⟨?_, ?_, ?_, ?_⟩
  · refine prove_corollary_valid ap c cond hvalid ?_ ?_
    · rw [hconc]
      exact hshape
    · rw [hconc]
      exact hspec
  · rw [prove_corollary_def]
    simp only
    rw [hstmt]
  · rw [prove_corollary_def]
    simp only [List.mem_append]
    exact Or.inr (by simp)
  · rw [prove_corollary_def]
    intro r hr
    simp only [List.mem_append, List.mem_cons, List.mem_singleton] at hr
    rcases hr with hr | hr | hr
    · exact hAX r hr
    · rw [hr]
      exact MP_mem_AX
    · simp only [List.not_mem_nil, or_false] at hr
      rw [hr]
      exact hcond

theorem combine_proofs_correct (a1 a2 : Proof) (c : Formula)
    (dc : InferenceRule) (asm : List Formula) (a1C a2C : Formula)
    (hstmt1 : a1.statement = ⟨asm, a1C⟩)
    (hstmt2 : a2.statement = ⟨asm, a2C⟩)
    (h1 : a1.is_valid? = some true) (h2 : a2.is_valid? = some true)
    (hMP : MP ∈ a1.rules)
    (hshape : InferenceRule.conclusion
      (dc.specialize ((merge_specialization_maps
        (formula_specialization_map dc.conclusion.first a1C)
        (formula_specialization_map dc.conclusion.second.second c)).getD []))
        = fimp a1C (fimp a2C c))
    (hspec : InferenceRule.is_specialization_of
      ⟨[], fimp a1C (fimp a2C c)⟩ dc = true)
    (hAX1 : ∀ r ∈ a1.rules, r ∈ AXIOMATIC_SYSTEM)
    (hAX2 : ∀ r ∈ a2.rules, r ∈ AXIOMATIC_SYSTEM)
    (hdc : dc ∈ AXIOMATIC_SYSTEM) :
    (combine_proofs a1 a2 c dc).is_valid? = some true ∧
    (combine_proofs a1 a2 c dc).statement = ⟨asm, c⟩ ∧
    MP ∈ (combine_proofs a1 a2 c dc).rules ∧
    (∀ r ∈ (combine_proofs a1 a2 c dc).rules, r ∈ AXIOMATIC_SYSTEM) := by
  have hc1 : a1.statement.conclusion = a1C := by rw [hstmt1]
  have hc2 : a2.statement.conclusion = a2C := by rw [hstmt2]
  have ha1 : a1.statement.assumptions = asm := by rw [hstmt1]
  have ha2 : a2.statement.assumptions = asm := by rw [hstmt2]
  refine ⟨?_, ?_, ?_, ?_⟩
  · refine combine_proofs_valid a1 a2 c dc h1 h2 (by rw [ha1, ha2]) hMP ?_ ?_
    · unfold cpConc
      rw [hc1, hc2]
      exact hshape
    · rw [hc1, hc2]
      exact hspec
  · rw [combine_proofs_eq]
    simp only
    rw [ha1]
  · rw [combine_proofs_eq]
    simp only [List.mem_append]
    exact Or.inl (Or.inl hMP)
  · rw [combine_proofs_eq]
    intro r hr
    simp only [List.mem_append, List.mem_singleton] at hr
    rcases hr with (hr | hr) | hr
    · exact hAX1 r hr
    · exact hAX2 r hr
    · rw [hr]
      exact hdc

/-! ## Correctness of `prove_in_model` -/

/-- The documented conclusion of `prove_in_model`: the formula itself when it
holds in the model, its negation otherwise. -/
def pim_concl (f : Formula) (m : Model) : Formula :=
  if evaluate f m = true then f else Formula.neg f

theorem pim_var_correct (v : String) (m : Model)
    (hvars : v ∈ (m : List (String × Bool)).map Prod.fst) :
    (prove_in_model (Formula.var v) m).is_valid? = some true ∧
    (prove_in_model (Formula.var v) m).statement =
      ⟨formulae_capturing_model m, pim_concl (Formula.var v) m⟩ ∧
    MP ∈ (prove_in_model (Formula.var v) m).rules ∧
    (∀ r ∈ (prove_in_model (Formula.var v) m).rules,
      r ∈ AXIOMATIC_SYSTEM) := by
  obtain ⟨b, hl⟩ := lookup_isSome_of_mem_keys _ v hvars
  rw [prove_in_model_var]
  cases b with
  | true =>
    have hmem : Formula.var v ∈ formulae_capturing_model m :=
      (var_mem_capture m v).mpr hl
    have he : evaluate (Formula.var v) m = true := by
      unfold evaluate
      rw [hl]
      rfl
    have hc : pim_concl (Formula.var v) m = Formula.var v := by
      unfold pim_concl
      rw [if_pos he]
    rw [if_pos hmem, hc]
    refine ⟨?_, rfl, ?_, ?_⟩
    · refine is_valid_of _ ?_ (by simp) (by simp)
      intro i hi
      simp only [List.length_cons, List.length_nil] at hi
      have hi0 : i = 0 := by omega
      subst hi0
      refine lineValidSpec_assumption _ 0 (Formula.var v) rfl ?_
      simpa using hmem
    · exact MP_mem_AX
    · intro r hr
      exact hr
  | false =>
    have hmemn : Formula.neg (Formula.var v) ∈ formulae_capturing_model m :=
      (negvar_mem_capture m v).mpr hl
    have hnot : Formula.var v ∉ formulae_capturing_model m := by
      intro hmem
      have h2 := (var_mem_capture m v).mp hmem
      rw [hl] at h2
      cases h2
    have he : evaluate (Formula.var v) m = false := by
      unfold evaluate
      rw [hl]
      rfl
    have hc : pim_concl (Formula.var v) m = Formula.neg (Formula.var v) := by
      unfold pim_concl
      rw [if_neg (by rw [he]; intro h2; cases h2)]
    rw [if_neg hnot, hc]
    refine ⟨?_, rfl, ?_, ?_⟩
    · refine is_valid_of _ ?_ (by simp) (by simp)
      intro i hi
      simp only [List.length_cons, List.length_nil] at hi
      have hi0 : i = 0 := by omega
      subst hi0
      refine lineValidSpec_assumption _ 0 (Formula.neg (Formula.var v))
        rfl ?_
      simpa using hmemn
    · exact MP_mem_AX
    · intro r hr
      exact hr

theorem pim_negvar_correct (v : String) (m : Model)
    (hvars : v ∈ (m : List (String × Bool)).map Prod.fst) :
    (prove_in_model (Formula.neg (Formula.var v)) m).is_valid? = some true ∧
    (prove_in_model (Formula.neg (Formula.var v)) m).statement =
      ⟨formulae_capturing_model m, pim_concl (Formula.neg (Formula.var v)) m⟩ ∧
    MP ∈ (prove_in_model (Formula.neg (Formula.var v)) m).rules ∧
    (∀ r ∈ (prove_in_model (Formula.neg (Formula.var v)) m).rules,
      r ∈ AXIOMATIC_SYSTEM) := by
  obtain ⟨b, hl⟩ := lookup_isSome_of_mem_keys _ v hvars
  rw [prove_in_model_negvar]
  cases b with
  | true =>
    have hmem : Formula.var v ∈ formulae_capturing_model m :=
      (var_mem_capture m v).mpr hl
    have hcond : ((m : List (String × Bool)).lookup v).getD false = true := by
      rw [hl]
      rfl
    have he : evaluate (Formula.neg (Formula.var v)) m = false := by
      simp [evaluate, hl]
    have hc : pim_concl (Formula.neg (Formula.var v)) m =
        Formula.neg (Formula.neg (Formula.var v)) := by
      unfold pim_concl
      rw [if_neg (by rw [he]; intro h2; cases h2)]
    rw [if_pos hcond, hc]
    refine ⟨?_, rfl, ?_, ?_⟩
    · refine is_valid_of _ ?_ (by simp) (by simp)
      intro i hi
      simp only [List.length_cons, List.length_nil] at hi
      have hi3 : i = 0 ∨ i = 1 ∨ i = 2 := by omega
      rcases hi3 with rfl | rfl | rfl
      · refine lineValidSpec_assumption _ 0 (Formula.var v) rfl ?_
        simpa using hmem
      · refine lineValidSpec_derived _ 1
          (fimp (Formula.var v) (Formula.neg (Formula.neg (Formula.var v))))
          NN [] rfl ?_ ?_ ?_
        · simp [AXIOMATIC_SYSTEM]
        · intro c2 hc2
          simp at hc2
        · simpa using spec_NN (Formula.var v)
      · refine lineValidSpec_derived _ 2
          (Formula.neg (Formula.neg (Formula.var v)))
          MP [0, 1] rfl ?_ ?_ ?_
        · simp [AXIOMATIC_SYSTEM]
        · intro c2 hc2
          simp only [List.mem_cons, List.mem_singleton, List.not_mem_nil,
            or_false] at hc2
          rcases hc2 with rfl | rfl <;> omega
        · simpa using spec_MP (Formula.var v)
            (Formula.neg (Formula.neg (Formula.var v)))
    · exact MP_mem_AX
    · intro r hr
      exact hr
  | false =>
    have hmemn : Formula.neg (Formula.var v) ∈ formulae_capturing_model m :=
      (negvar_mem_capture m v).mpr hl
    have hcond : ¬ (((m : List (String × Bool)).lookup v).getD false = true)
        := by
      rw [hl]
      intro h2
      cases h2
    have he : evaluate (Formula.neg (Formula.var v)) m = true := by
      simp [evaluate, hl]
    have hc : pim_concl (Formula.neg (Formula.var v)) m =
        Formula.neg (Formula.var v) := by
      unfold pim_concl
      rw [if_pos he]
    rw [if_neg hcond, hc]
    refine ⟨?_, rfl, ?_, ?_⟩
    · refine is_valid_of _ ?_ (by simp) (by simp)
      intro i hi
      simp only [List.length_cons, List.length_nil] at hi
      have hi0 : i = 0 := by omega
      subst hi0
      refine lineValidSpec_assumption _ 0 (Formula.neg (Formula.var v))
        rfl ?_
      simpa using hmemn
    · exact MP_mem_AX
    · intro r hr
      exact hr

theorem evaluate_neg (g : Formula) (m : Model) :
    evaluate (Formula.neg g) m = ! evaluate g m := rfl

theorem evaluate_imp (g h : Formula) (m : Model) :
    evaluate (Formula.bin BinOp.imp g h) m =
      (! evaluate g m || evaluate h m) := rfl

theorem mem_variablesOf_var (v : String) :
    v ∈ (Formula.var v).variablesOf := by
  unfold Formula.variablesOf Formula.find_variables setAdd
  simp

theorem prove_in_model_correct : ∀ (N : Nat) (f : Formula) (m : Model),
    f.fsize ≤ N → onlyImpNeg f = true →
    (∀ v ∈ f.variablesOf, v ∈ (m : List (String × Bool)).map Prod.fst) →
    (prove_in_model f m).is_valid? = some true ∧
    (prove_in_model f m).statement =
      ⟨formulae_capturing_model m, pim_concl f m⟩ ∧
    MP ∈ (prove_in_model f m).rules ∧
    (∀ r ∈ (prove_in_model f m).rules, r ∈ AXIOMATIC_SYSTEM) := by
  intro N
  induction N with
  | zero =>
    intro f m hN _ _
    exact absurd hN (by
      have := fsize_pos f
      omega)
  | succ n ih =>
    intro f m hN hops hvars
    cases f with
    | var v => exact pim_var_correct v m (hvars v (mem_variablesOf_var v))
    | const b => simp [onlyImpNeg] at hops
    | neg g =>
      cases g with
      | var v =>
        exact pim_negvar_correct v m (hvars v (by
          rw [mem_variablesOf_neg]
          exact mem_variablesOf_var v))
      | const b => simp [onlyImpNeg] at hops
      | neg g2 =>
        have hops2 : onlyImpNeg (Formula.neg g2) = true := hops
        have hvars2 : ∀ v ∈ (Formula.neg g2).variablesOf,
            v ∈ (m : List (String × Bool)).map Prod.fst := by
          intro v hv
          refine hvars v ?_
          rw [mem_variablesOf_neg]
          exact hv
        have hN2 : (Formula.neg g2).fsize ≤ n := by
          simp only [Formula.fsize] at hN ⊢
          omega
        obtain ⟨ihv, ihs, ihMP, ihAX⟩ :=
          ih (Formula.neg g2) m hN2 hops2 hvars2
        rw [prove_in_model_negneg]
        by_cases hev : evaluate (Formula.neg (Formula.neg g2)) m = true
        · rw [if_pos hev]
          have hev2 : evaluate (Formula.neg g2) m = false := by
            rw [evaluate_neg (Formula.neg g2)] at hev
            simpa using hev
          have hcsub : pim_concl (Formula.neg g2) m =
              Formula.neg (Formula.neg g2) := by
            unfold pim_concl
            rw [if_neg (by
              rw [hev2]
              intro h2
              cases h2)]
          have hcf : pim_concl (Formula.neg (Formula.neg g2)) m =
              Formula.neg (Formula.neg g2) := by
            unfold pim_concl
            rw [if_pos hev]
          refine ⟨ihv, ?_, ihMP, ihAX⟩
          rw [ihs, hcsub, hcf]
        · rw [if_neg hev]
          have hev2 : evaluate (Formula.neg g2) m = true := by
            rw [evaluate_neg (Formula.neg g2)] at hev
            simpa using hev
          have hcsub : pim_concl (Formula.neg g2) m = Formula.neg g2 := by
            unfold pim_concl
            rw [if_pos hev2]
          obtain ⟨v1, s1, m1, x1⟩ := prove_corollary_correct
            (prove_in_model (Formula.neg g2) m)
            (Formula.neg (Formula.neg (Formula.neg g2))) NN
            (formulae_capturing_model m) (Formula.neg g2)
            (by rw [ihs, hcsub]) ihv (NN_shape (Formula.neg g2))
            (spec_NN (Formula.neg g2)) ihMP ihAX
            (by simp [AXIOMATIC_SYSTEM])
          have hcf : pim_concl (Formula.neg (Formula.neg g2)) m =
              Formula.neg (Formula.neg (Formula.neg g2)) := by
            unfold pim_concl
            rw [if_neg hev]
          refine ⟨v1, ?_, m1, x1⟩
          rw [s1, hcf]
      | bin op2 g2 h2 =>
        have hops2 : onlyImpNeg (Formula.bin op2 g2 h2) = true := hops
        have hvars2 : ∀ v ∈ (Formula.bin op2 g2 h2).variablesOf,
            v ∈ (m : List (String × Bool)).map Prod.fst := by
          intro v hv
          refine hvars v ?_
          rw [mem_variablesOf_neg]
          exact hv
        have hN2 : (Formula.bin op2 g2 h2).fsize ≤ n := by
          simp only [Formula.fsize] at hN ⊢
          omega
        obtain ⟨ihv, ihs, ihMP, ihAX⟩ :=
          ih (Formula.bin op2 g2 h2) m hN2 hops2 hvars2
        rw [prove_in_model_negbin]
        by_cases hev : evaluate (Formula.neg (Formula.bin op2 g2 h2)) m
            = true
        · rw [if_pos hev]
          have hev2 : evaluate (Formula.bin op2 g2 h2) m = false := by
            rw [evaluate_neg (Formula.bin op2 g2 h2)] at hev
            simpa using hev
          have hcsub : pim_concl (Formula.bin op2 g2 h2) m =
              Formula.neg (Formula.bin op2 g2 h2) := by
            unfold pim_concl
            rw [if_neg (by
              rw [hev2]
              intro h2
              cases h2)]
          have hcf : pim_concl (Formula.neg (Formula.bin op2 g2 h2)) m =
              Formula.neg (Formula.bin op2 g2 h2) := by
            unfold pim_concl
            rw [if_pos hev]
          refine ⟨ihv, ?_, ihMP, ihAX⟩
          rw [ihs, hcsub, hcf]
        · rw [if_neg hev]
          have hev2 : evaluate (Formula.bin op2 g2 h2) m = true := by
            rw [evaluate_neg (Formula.bin op2 g2 h2)] at hev
            simpa using hev
          have hcsub : pim_concl (Formula.bin op2 g2 h2) m =
              Formula.bin op2 g2 h2 := by
            unfold pim_concl
            rw [if_pos hev2]
          obtain ⟨v1, s1, m1, x1⟩ := prove_corollary_correct
            (prove_in_model (Formula.bin op2 g2 h2) m)
            (Formula.neg (Formula.neg (Formula.bin op2 g2 h2))) NN
            (formulae_capturing_model m) (Formula.bin op2 g2 h2)
            (by rw [ihs, hcsub]) ihv (NN_shape (Formula.bin op2 g2 h2))
            (spec_NN (Formula.bin op2 g2 h2)) ihMP ihAX
            (by simp [AXIOMATIC_SYSTEM])
          have hcf : pim_concl (Formula.neg (Formula.bin op2 g2 h2)) m =
              Formula.neg (Formula.neg (Formula.bin op2 g2 h2)) := by
            unfold pim_concl
            rw [if_neg hev]
          refine ⟨v1, ?_, m1, x1⟩
          rw [s1, hcf]
    | bin op g2 h2 =>
      cases op with
      | and => simp [onlyImpNeg] at hops
      | or => simp [onlyImpNeg] at hops
      | xor => simp [onlyImpNeg] at hops
      | iff => simp [onlyImpNeg] at hops
      | nand => simp [onlyImpNeg] at hops
      | nor => simp [onlyImpNeg] at hops
      | imp =>
        have hopsg : onlyImpNeg g2 = true ∧ onlyImpNeg h2 = true := by
          simpa [onlyImpNeg, Bool.and_eq_true] using hops
        have hvg : ∀ v ∈ g2.variablesOf,
            v ∈ (m : List (String × Bool)).map Prod.fst := fun v hv =>
          hvars v ((mem_variablesOf_bin BinOp.imp g2 h2 v).mpr (Or.inl hv))
        have hvh : ∀ v ∈ h2.variablesOf,
            v ∈ (m : List (String × Bool)).map Prod.fst := fun v hv =>
          hvars v ((mem_variablesOf_bin BinOp.imp g2 h2 v).mpr (Or.inr hv))
        have hvng : ∀ v ∈ (Formula.neg g2).variablesOf,
            v ∈ (m : List (String × Bool)).map Prod.fst := by
          intro v hv
          refine hvg v ?_
          rw [← mem_variablesOf_neg g2 v]
          exact hv
        have hposg := fsize_pos g2
        have hposh := fsize_pos h2
        have hNg : g2.fsize ≤ n := by
          simp only [Formula.fsize] at hN
          omega
        have hNh : h2.fsize ≤ n := by
          simp only [Formula.fsize] at hN
          omega
        have hNng : (Formula.neg g2).fsize ≤ n := by
          simp only [Formula.fsize] at hN ⊢
          omega
        rw [prove_in_model_bin]
        by_cases hc1 : evaluate (Formula.bin BinOp.imp g2 h2) m = true ∧
            evaluate g2 m = false
        · rw [if_pos hc1]
          obtain ⟨ihv, ihs, ihMP, ihAX⟩ :=
            ih (Formula.neg g2) m hNng hopsg.1 hvng
          have hevng : evaluate (Formula.neg g2) m = true := by
            rw [evaluate_neg, hc1.2]
            rfl
          have hcsub : pim_concl (Formula.neg g2) m = Formula.neg g2 := by
            unfold pim_concl
            rw [if_pos hevng]
          obtain ⟨v1, s1, m1, x1⟩ := prove_corollary_correct
            (prove_in_model (Formula.neg g2) m)
            (Formula.bin BinOp.imp g2 h2) I2
            (formulae_capturing_model m) (Formula.neg g2)
            (by rw [ihs, hcsub]) ihv (I2_shape g2 h2)
            (spec_I2 g2 h2) ihMP ihAX (by simp [AXIOMATIC_SYSTEM])
          have hcf : pim_concl (Formula.bin BinOp.imp g2 h2) m =
              Formula.bin BinOp.imp g2 h2 := by
            unfold pim_concl
            rw [if_pos hc1.1]
          refine ⟨v1, ?_, m1, x1⟩
          rw [s1, hcf]
        · rw [if_neg hc1]
          by_cases hc2 : evaluate (Formula.bin BinOp.imp g2 h2) m = true ∧
              evaluate h2 m = true
          · rw [if_pos hc2]
            obtain ⟨ihv, ihs, ihMP, ihAX⟩ := ih h2 m hNh hopsg.2 hvh
            have hcsub : pim_concl h2 m = h2 := by
              unfold pim_concl
              rw [if_pos hc2.2]
            obtain ⟨v1, s1, m1, x1⟩ := prove_corollary_correct
              (prove_in_model h2 m) (Formula.bin BinOp.imp g2 h2) I1
              (formulae_capturing_model m) h2
              (by rw [ihs, hcsub]) ihv (I1_shape g2 h2)
              (spec_I1 g2 h2) ihMP ihAX (by simp [AXIOMATIC_SYSTEM])
            have hcf : pim_concl (Formula.bin BinOp.imp g2 h2) m =
                Formula.bin BinOp.imp g2 h2 := by
              unfold pim_concl
              rw [if_pos hc2.1]
            refine ⟨v1, ?_, m1, x1⟩
            rw [s1, hcf]
          · rw [if_neg hc2]
            have hevg : evaluate g2 m = true := by
              by_contra hg
              have hg2 : evaluate g2 m = false := by simpa using hg
              refine hc1 ⟨?_, hg2⟩
              rw [evaluate_imp, hg2]
              rfl
            have hevh : evaluate h2 m = false := by
              by_contra hh
              have hh2 : evaluate h2 m = true := by simpa using hh
              refine hc2 ⟨?_, hh2⟩
              rw [evaluate_imp, hh2]
              simp
            have hevf : evaluate (Formula.bin BinOp.imp g2 h2) m = false
                := by
              rw [evaluate_imp, hevg, hevh]
              rfl
            obtain ⟨v1, s1, m1, x1⟩ := ih g2 m hNg hopsg.1 hvg
            obtain ⟨v2, s2, m2, x2⟩ := ih h2 m hNh hopsg.2 hvh
            have hcg : pim_concl g2 m = g2 := by
              unfold pim_concl
              rw [if_pos hevg]
            have hch : pim_concl h2 m = Formula.neg h2 := by
              unfold pim_concl
              rw [if_neg (by
                rw [hevh]
                intro h3
                cases h3)]
            obtain ⟨cv, cs, cm, cx⟩ := combine_proofs_correct
              (prove_in_model g2 m) (prove_in_model h2 m)
              (Formula.neg (Formula.bin BinOp.imp g2 h2)) NI
              (formulae_capturing_model m) g2 (Formula.neg h2)
              (by rw [s1, hcg]) (by rw [s2, hch]) v1 v2 m1
              (NI_shape g2 h2) (spec_NI g2 h2) x1 x2
              (by simp [AXIOMATIC_SYSTEM])
            have hcf : pim_concl (Formula.bin BinOp.imp g2 h2) m =
                Formula.neg (Formula.bin BinOp.imp g2 h2) := by
              unfold pim_concl
              rw [if_neg (by
                rw [hevf]
                intro h3
                cases h3)]
            refine ⟨cv, ?_, cm, cx⟩
            rw [cs, hcf]

/-! ## Correctness of `reduce_assumption` and `prove_tautology` -/

theorem I0_mem_AX : I0 ∈ AXIOMATIC_SYSTEM := by simp [AXIOMATIC_SYSTEM]
theorem I1_mem_AX : I1 ∈ AXIOMATIC_SYSTEM := by simp [AXIOMATIC_SYSTEM]
theorem D_mem_AX : D ∈ AXIOMATIC_SYSTEM := by simp [AXIOMATIC_SYSTEM]
theorem R_mem_AX : R ∈ AXIOMATIC_SYSTEM := by simp [AXIOMATIC_SYSTEM]

theorem remove_assumption_rules (pf : Proof) :
    (remove_assumption pf).rules = raRules pf := by
  rw [remove_assumption_def]

theorem raRules_sub_AX (pf : Proof)
    (hAX : ∀ r ∈ pf.rules, r ∈ AXIOMATIC_SYSTEM) :
    ∀ r ∈ raRules pf, r ∈ AXIOMATIC_SYSTEM := by
  intro r hr
  unfold raRules at hr
  simp only [List.mem_append, List.mem_cons, List.mem_singleton,
    List.not_mem_nil, or_false] at hr
  rcases hr with hr | rfl | rfl | rfl | rfl
  · exact hAX r hr
  · exact I0_mem_AX
  · exact I1_mem_AX
  · exact MP_mem_AX
  · exact D_mem_AX

theorem MP_mem_raRules_gen (pf : Proof) : MP ∈ raRules pf := by
  unfold raRules
  simp

theorem reduce_assumption_correct (pa pn : Proof) (asm : List Formula)
    (phi C : Formula)
    (hsa : pa.statement = ⟨asm ++ [phi], C⟩)
    (hsn : pn.statement = ⟨asm ++ [Formula.neg phi], C⟩)
    (hva : pa.is_valid? = some true) (hvn : pn.is_valid? = some true)
    (hAXa : ∀ r ∈ pa.rules, r ∈ AXIOMATIC_SYSTEM)
    (hAXn : ∀ r ∈ pn.rules, r ∈ AXIOMATIC_SYSTEM)
    (hnophi : ∀ f ∈ asm, ¬ (f = phi))
    (hnonphi : ∀ f ∈ asm, ¬ (f = Formula.neg phi)) :
    (reduce_assumption pa pn).is_valid? = some true ∧
    (reduce_assumption pa pn).statement = ⟨asm, C⟩ ∧
    MP ∈ (reduce_assumption pa pn).rules ∧
    (∀ r ∈ (reduce_assumption pa pn).rules, r ∈ AXIOMATIC_SYSTEM) := by
  have hrulesa : ∀ r ∈ pa.rules, r = MP ∨ r.assumptions = [] :=
    fun r hr => AX_assumptionless r (hAXa r hr)
  have hrulesn : ∀ r ∈ pn.rules, r = MP ∨ r.assumptions = [] :=
    fun r hr => AX_assumptionless r (hAXn r hr)
  obtain ⟨rav, ras⟩ := remove_assumption_correct0 pa hva hrulesa
  obtain ⟨rnv, rns⟩ := remove_assumption_correct0 pn hvn hrulesn
  have hphiA : ((pa.statement.assumptions.getLast?).getD default) = phi := by
    rw [hsa]
    simp only
    rw [List.getLast?_concat]
    rfl
  have hphiN : ((pn.statement.assumptions.getLast?).getD default) =
      Formula.neg phi := by
    rw [hsn]
    simp only
    rw [List.getLast?_concat]
    rfl
  rw [hphiA] at ras
  rw [hphiN] at rns
  unfold raStmt at ras rns
  rw [hsa] at ras
  rw [hsn] at rns
  simp only at ras rns
  have hfa : (asm ++ [phi]).filter (fun a => ¬ (a = phi)) = asm := by
    rw [List.filter_append]
    have h1 : asm.filter (fun a => ¬ (a = phi)) = asm :=
      List.filter_eq_self.mpr (fun f hf => by simpa using hnophi f hf)
    have h2 : [phi].filter (fun a => ¬ (a = phi)) = [] := by simp
    rw [h1, h2, List.append_nil]
  have hfn : (asm ++ [Formula.neg phi]).filter
      (fun a => ¬ (a = Formula.neg phi)) = asm := by
    rw [List.filter_append]
    have h1 : asm.filter (fun a => ¬ (a = Formula.neg phi)) = asm :=
      List.filter_eq_self.mpr (fun f hf => by simpa using hnonphi f hf)
    have h2 : [Formula.neg phi].filter
        (fun a => ¬ (a = Formula.neg phi)) = [] := by simp
    rw [h1, h2, List.append_nil]
  rw [hfa] at ras
  rw [hfn] at rns
  have hcn : pn.statement.conclusion = C := by rw [hsn]
  unfold reduce_assumption
  rw [hcn]
  exact combine_proofs_correct (remove_assumption pa) (remove_assumption pn)
    C R asm (fimp phi C) (fimp (Formula.neg phi) C)
    ras rns rav rnv
    (by rw [remove_assumption_rules]; exact MP_mem_raRules_gen pa)
    (R_shape phi C) (spec_R C phi)
    (by rw [remove_assumption_rules]; exact raRules_sub_AX pa hAXa)
    (by rw [remove_assumption_rules]; exact raRules_sub_AX pn hAXn)
    R_mem_AX

/-- The semantic reading of `is_tautology`: true in every model covering the
variables. -/
theorem tautProp_of_is_tautology (t : Formula) (h : is_tautology t = true) :
    ∀ m : Model,
      (∀ v ∈ t.variablesOf, v ∈ (m : List (String × Bool)).map Prod.fst) →
      evaluate t m = true := by
  intro m hm
  have hnd := variablesOf_nodup t
  have hc : (t.variablesOf.map (fun v =>
      ((m : List (String × Bool)).lookup v).getD false)).length
      = t.variablesOf.length := by simp
  have hmem : (t.variablesOf.map fun v =>
      ((m : List (String × Bool)).lookup v).getD false) ∈
      boolTuples t.variablesOf.length := mem_boolTuples_of_length hc
  have hmm : buildModel t.variablesOf (t.variablesOf.map fun v =>
      ((m : List (String × Bool)).lookup v).getD false) ∈
      all_models t.variablesOf := by
    unfold all_models
    exact List.mem_map_of_mem _ hmem
  unfold is_tautology truth_values at h
  rw [List.all_eq_true] at h
  have h2 := h _ (List.mem_map_of_mem (evaluate t) hmm)
  have hcong : evaluate t m = evaluate t
      (buildModel t.variablesOf (t.variablesOf.map fun v =>
        ((m : List (String × Bool)).lookup v).getD false)) := by
    refine evaluate_congr t m _ ?_
    intro v hv
    rw [buildModel_eq_zip _ _ hc hnd]
    obtain ⟨⟨k, hk⟩, hvk⟩ := List.mem_iff_get.mp hv
    have hzip := lookup_zip_nodup t.variablesOf
      (t.variablesOf.map fun v =>
        ((m : List (String × Bool)).lookup v).getD false)
      hnd hc k hk
    rw [hvk] at hzip
    rw [hzip]
    have hgetmap : (t.variablesOf.map fun v =>
        ((m : List (String × Bool)).lookup v).getD false).get
          ⟨k, by simpa using hk⟩
        = ((m : List (String × Bool)).lookup
            (t.variablesOf.get ⟨k, hk⟩)).getD false := by
      simp
    rw [hgetmap, hvk]
    simp
  rw [hcong]
  exact h2

theorem prove_tautology_base (t : Formula) (m : Model)
    (hm : missingVars t m = []) :
    prove_tautology t m = prove_in_model t m := by
  rw [prove_tautology]
  split
  · rfl
  · rename_i v tail heq
    rw [hm] at heq
    cases heq

theorem prove_tautology_step (t : Formula) (m : Model) (v : String)
    (rest : List String) (hm : missingVars t m = v :: rest) :
    prove_tautology t m =
      reduce_assumption (prove_tautology t (dictSet m v true))
        (prove_tautology t (dictSet m v false)) := by
  rw [prove_tautology]
  split
  · rename_i heq
    rw [hm] at heq
    cases heq
  · rename_i v2 tail heq
    rw [hm] at heq
    injection heq with h1 h2
    rw [h1]

theorem prove_tautology_correct : ∀ (N : Nat) (t : Formula) (m : Model),
    (missingVars t m).length ≤ N →
    onlyImpNeg t = true →
    (∀ m2 : Model,
      (∀ v ∈ t.variablesOf, v ∈ (m2 : List (String × Bool)).map Prod.fst) →
      evaluate t m2 = true) →
    ((m : List (String × Bool)).map Prod.fst).Nodup →
    (∀ k ∈ (m : List (String × Bool)).map Prod.fst,
      ∀ w ∈ missingVars t m, k < w) →
    (prove_tautology t m).is_valid? = some true ∧
    (prove_tautology t m).statement = ⟨formulae_capturing_model m, t⟩ ∧
    MP ∈ (prove_tautology t m).rules ∧
    (∀ r ∈ (prove_tautology t m).rules, r ∈ AXIOMATIC_SYSTEM) := by
  intro N
  induction N with
  | zero =>
    intro t m hN hops htaut hnd horder
    have hmv : missingVars t m = [] := by
      have hl : (missingVars t m).length = 0 := by omega
      exact List.length_eq_zero.mp hl
    have hvars : ∀ w ∈ t.variablesOf,
        w ∈ (m : List (String × Bool)).map Prod.fst := by
      intro w hw
      by_contra hnk
      have hwm : w ∈ missingVars t m := by
        unfold missingVars
        rw [List.mem_filter]
        exact ⟨(mem_sortStrings w _).mpr hw, by simpa using hnk⟩
      rw [hmv] at hwm
      simp at hwm
    have heval : evaluate t m = true := htaut m hvars
    rw [prove_tautology_base t m hmv]
    obtain ⟨pv, ps, pm, px⟩ :=
      prove_in_model_correct t.fsize t m le_rfl hops hvars
    refine ⟨pv, ?_, pm, px⟩
    rw [ps]
    have hpc : pim_concl t m = t := by
      unfold pim_concl
      rw [if_pos heval]
    rw [hpc]
  | succ n ih =>
    intro t m hN hops htaut hnd horder
    cases hmv : missingVars t m with
    | nil =>
      have hvars : ∀ w ∈ t.variablesOf,
          w ∈ (m : List (String × Bool)).map Prod.fst := by
        intro w hw
        by_contra hnk
        have hwm : w ∈ missingVars t m := by
          unfold missingVars
          rw [List.mem_filter]
          exact ⟨(mem_sortStrings w _).mpr hw, by simpa using hnk⟩
        rw [hmv] at hwm
        simp at hwm
      have heval : evaluate t m = true := htaut m hvars
      rw [prove_tautology_base t m hmv]
      obtain ⟨pv, ps, pm, px⟩ :=
        prove_in_model_correct t.fsize t m le_rfl hops hvars
      refine ⟨pv, ?_, pm, px⟩
      rw [ps]
      have hpc : pim_concl t m = t := by
        unfold pim_concl
        rw [if_pos heval]
      rw [hpc]
    | cons v rest =>
      have hfresh := missingVars_head_fresh t m v rest hmv
      have hvmem : v ∈ t.variablesOf := by
        have hv : v ∈ missingVars t m := by
          rw [hmv]
          exact List.mem_cons_self v rest
        unfold missingVars at hv
        rw [List.mem_filter] at hv
        exact (mem_sortStrings v _).mp hv.1
      have hbig : ∀ k ∈ (m : List (String × Bool)).map Prod.fst, k < v :=
        fun k hk => horder k hk v (by
          rw [hmv]
          exact List.mem_cons_self v rest)
      have hrestlt : ∀ w ∈ rest, v < w := by
        have hsorted : (missingVars t m).Pairwise (fun a b => a ≤ b) := by
          unfold missingVars
          exact List.Pairwise.filter _ (sortStrings_sorted _)
        have hndm : (missingVars t m).Nodup := missingVars_nodup t m
        rw [hmv, List.pairwise_cons] at hsorted
        rw [hmv, List.nodup_cons] at hndm
        intro w hw
        refine lt_of_le_of_ne (hsorted.1 w hw) ?_
        intro hvw
        exact hndm.1 (hvw ▸ hw)
      -- shared facts for both extensions
      have hsub : ∀ b : Bool,
          ∀ k ∈ ((dictSet m v b : List (String × Bool)).map Prod.fst),
          ∀ w ∈ missingVars t (dictSet m v b), k < w := by
        intro b k hk w hw
        rw [missingVars_dictSet t m v b rest hmv] at hw
        rw [dictSet_append_fresh m v b hfresh] at hk
        simp only [List.map_append, List.map_cons, List.map_nil,
          List.mem_append, List.mem_singleton] at hk
        rcases hk with hk | rfl
        · exact horder k hk w (by
            rw [hmv]
            exact List.mem_cons_of_mem v hw)
        · exact hrestlt w hw
      have hnd2 : ∀ b : Bool,
          ((dictSet m v b : List (String × Bool)).map Prod.fst).Nodup := by
        intro b
        rw [dictSet_append_fresh m v b hfresh]
        simp only [List.map_append, List.map_cons, List.map_nil]
        rw [List.nodup_append]
        refine ⟨hnd, by simp, ?_⟩
        intro k hk
        simp only [List.mem_singleton]
        intro hkv
        exact hfresh (hkv ▸ hk)
      have hlen2 : ∀ b : Bool,
          (missingVars t (dictSet m v b)).length ≤ n := by
        intro b
        rw [missingVars_dictSet t m v b rest hmv]
        rw [hmv] at hN
        simp only [List.length_cons] at hN
        omega
      obtain ⟨av, as2, am, ax⟩ := ih t (dictSet m v true)
        (hlen2 true) hops htaut (hnd2 true) (hsub true)
      obtain ⟨nv, ns2, nm, nx⟩ := ih t (dictSet m v false)
        (hlen2 false) hops htaut (hnd2 false) (hsub false)
      have hcapT : formulae_capturing_model (dictSet m v true) =
          formulae_capturing_model m ++ [Formula.var v] := by
        rw [capture_dictSet_big m v true hfresh hbig]
        simp
      have hcapF : formulae_capturing_model (dictSet m v false) =
          formulae_capturing_model m ++ [Formula.neg (Formula.var v)] := by
        rw [capture_dictSet_big m v false hfresh hbig]
        simp
      rw [prove_tautology_step t m v rest hmv]
      refine reduce_assumption_correct
        (prove_tautology t (dictSet m v true))
        (prove_tautology t (dictSet m v false))
        (formulae_capturing_model m) (Formula.var v) t
        (by rw [as2, hcapT]) (by rw [ns2, hcapF]) av nv ax nx ?_ ?_
      · intro f hf
        exact (capture_no_lit m v hfresh f hf).1
      · intro f hf
        exact (capture_no_lit m v hfresh f hf).2

/-- C1: for every tautology over only implication and negation,
`prove_tautology` applied with the empty model returns a proof that the
checker accepts and whose statement is the assumptionless rule concluding
the tautology itself. -/
theorem claim_C1 (t : Formula) (hops : onlyImpNeg t = true)
    (htaut : is_tautology t = true) :
    (prove_tautology t []).is_valid? = some true ∧
    (prove_tautology t []).statement = ⟨[], t⟩ := by
  have h := prove_tautology_correct (missingVars t []).length t []
    le_rfl hops (tautProp_of_is_tautology t htaut) (by simp) (by simp)
  exact ⟨h.1, by
    rw [h.2.1]
    rfl⟩

/-- Witness for C1 at the concrete tautology `(p->p)`. -/
theorem claim_C1_witness :
    onlyImpNeg (fimp (Formula.var "p") (Formula.var "p")) = true ∧
    is_tautology (fimp (Formula.var "p") (Formula.var "p")) = true ∧
    ((prove_tautology (fimp (Formula.var "p") (Formula.var "p"))
        []).is_valid? = some true ∧
      (prove_tautology (fimp (Formula.var "p") (Formula.var "p"))
        []).statement = ⟨[], fimp (Formula.var "p") (Formula.var "p")⟩) :=
  ⟨by decide, by decide, claim_C1 _ (by decide) (by decide)⟩

/-! ## First-order terms and formulas (`predicates/syntax.py`)

Exceptions are embedded as `Except String`: `Except.error name` models
`raise ForbiddenVariableError(name)`.  Python sets are embedded as
duplicate-free lists used only through membership, and dicts as association
lists used only through `lookup`. -/

/-- `s[0]` on a string (the names tested are non-empty; the default is a
character belonging to no name class). -/
def strHead (s : String) : Char := s.data.headD ' '

/-- ASCII alphanumeric character (the name alphabets of the code are
ASCII). -/
def charIsAlnum (c : Char) : Bool :=
  decide (('0' ≤ c ∧ c ≤ '9') ∨ ('a' ≤ c ∧ c ≤ 'z') ∨ ('A' ≤ c ∧ c ≤ 'Z'))

/-- Python `str.isalnum()`. -/
def isAlnumStr (s : String) : Bool :=
  decide (s.data ≠ []) && s.data.all charIsAlnum

/-- `is_constant(s)` from `predicates/syntax.py`. -/
def is_constant (s : String) : Bool :=
  decide (((('0' ≤ strHead s ∧ strHead s ≤ '9') ∨
    ('a' ≤ strHead s ∧ strHead s ≤ 'd')) ∧ isAlnumStr s = true) ∨ s = "_")

/-- `is_variable(s)` from `predicates/syntax.py`. -/
def is_variable (s : String) : Bool :=
  decide (('u' ≤ strHead s ∧ strHead s ≤ 'z') ∧ isAlnumStr s = true)

/-- `is_function(s)` from `predicates/syntax.py`. -/
def is_function (s : String) : Bool :=
  decide (('f' ≤ strHead s ∧ strHead s ≤ 't') ∧ isAlnumStr s = true)

/-- A first-order `Term`: a constant or variable name, or a function name
with arguments (the two constructor forms of the Python class). -/
inductive PTerm where
  | leaf (root : String)
  | func (root : String) (args : List PTerm)

/-- `term.root`. -/
def PTerm.rootOf : PTerm → String
  | PTerm.leaf r => r
  | PTerm.func r _ => r

/-- `term.arguments` (empty for a leaf, which Python never queries). -/
def PTerm.argsOf : PTerm → List PTerm
  | PTerm.leaf _ => []
  | PTerm.func _ args => args

mutual
def PTerm.psize : PTerm → Nat
  | PTerm.leaf _ => 1
  | PTerm.func _ args => 1 + psizeList args
def psizeList : List PTerm → Nat
  | [] => 0
  | t :: rest => PTerm.psize t + psizeList rest
end

theorem psize_pos (t : PTerm) : 1 ≤ t.psize := by
  cases t <;> simp only [PTerm.psize] <;> omega

mutual
def PTerm.reprT : PTerm → String
  | PTerm.leaf r => r
  | PTerm.func r args => r ++ "(" ++ reprArgs args ++ ")"
def reprArgs : List PTerm → String
  | [] => ""
  | [t] => PTerm.reprT t
  | t :: rest => PTerm.reprT t ++ "," ++ reprArgs rest
end

theorem psizeList_argsOf_lt (t : PTerm) :
    psizeList (PTerm.argsOf t) < PTerm.psize t := by
  cases t <;> simp only [PTerm.argsOf, PTerm.psize, psizeList] <;> omega

theorem psize_head_le (a : PTerm) (rest : List PTerm) :
    PTerm.psize a ≤ psizeList (a :: rest) := by
  induction rest with
  | nil => simp only [psizeList]; omega
  | cons b r ih => simp only [psizeList] at ih ⊢; omega

theorem psizeList_rest_lt (a : PTerm) (rest : List PTerm) :
    psizeList rest < psizeList (a :: rest) := by
  simp only [psizeList]
  have := psize_pos a
  omega

theorem psize_first_lt (a first : PTerm) (rest : List PTerm)
    (ha : PTerm.argsOf a = first :: rest) :
    PTerm.psize first < PTerm.psize a := by
  cases a with
  | leaf r => simp [PTerm.argsOf] at ha
  | func r args =>
    simp only [PTerm.argsOf] at ha
    subst ha
    simp only [PTerm.psize, psizeList]
    have := psize_head_le first rest
    simp only [psizeList] at this
    omega

theorem check_all_dec (t : PTerm) :
    5 * psizeList (PTerm.argsOf t) + 4 < 5 * PTerm.psize t + 1 := by
  cases t <;> simp only [PTerm.argsOf, PTerm.psize, psizeList] <;> omega

theorem checkArgs_dec1 (a : PTerm) (r : List PTerm) :
    5 * PTerm.psize a + 3 < 5 * psizeList (a :: r) + 4 := by
  have := psize_head_le a r
  omega

theorem checkArgs_dec2 (a : PTerm) (r : List PTerm) :
    5 * psizeList r + 4 < 5 * psizeList (a :: r) + 4 := by
  have := psizeList_rest_lt a r
  omega

theorem chase_dec (a first : PTerm) (rest : List PTerm)
    (ha : PTerm.argsOf a = first :: rest) :
    5 * PTerm.psize first + 2 < 5 * PTerm.psize a + 2 := by
  have := psize_first_lt a first rest ha
  omega

mutual
/-- `Term.__check_all` from `predicates/syntax.py`, faithfully including
its control flow: for each argument of the checked term, walk down the
chain of first arguments while the current node is a function (recursing
into `__check_all` only when the first argument *prints* as a function
name, which a parenthesised application never does), and test only the
final node's string representation against the forbidden set.  Returns
the raised variable name, or `none`. -/
def check_all (t : PTerm) (forb : List String) : Option String :=
  checkArgs (PTerm.argsOf t) forb
termination_by 5 * PTerm.psize t + 1
decreasing_by
  exact check_all_dec t
def checkArgs (l : List PTerm) (forb : List String) : Option String :=
  match l with
  | [] => none
  | arg :: rest =>
    match checkOneArg arg forb with
    | some e => some e
    | none => checkArgs rest forb
termination_by 5 * psizeList l + 4
decreasing_by
  · exact checkArgs_dec1 _ _
  · exact checkArgs_dec2 _ _
def checkOneArg (arg : PTerm) (forb : List String) : Option String :=
  if is_function (PTerm.rootOf arg) then chaseLoop arg forb
  else if PTerm.reprT arg ∈ forb then some (PTerm.reprT arg) else none
termination_by 5 * PTerm.psize arg + 3
decreasing_by
  omega
def chaseLoop (a : PTerm) (forb : List String) : Option String :=
  match ha : PTerm.argsOf a with
  | [] => none
  | first :: rest =>
    if is_function (PTerm.reprT first) then
      match check_all a forb with
      | some e => some e
      | none => if PTerm.reprT a ∈ forb then some (PTerm.reprT a) else none
    else
      if is_function (PTerm.rootOf first) then chaseLoop first forb
      else if PTerm.reprT first ∈ forb then some (PTerm.reprT first)
      else none
termination_by 5 * PTerm.psize a + 2
decreasing_by
  · omega
  · exact chase_dec _ _ _ ha
end

mutual
def PTerm.beqT : PTerm → PTerm → Bool
  | PTerm.leaf r, PTerm.leaf r2 => r == r2
  | PTerm.func r a1, PTerm.func r2 a2 => r == r2 && beqListT a1 a2
  | _, _ => false
def beqListT : List PTerm → List PTerm → Bool
  | [], [] => true
  | t :: r, t2 :: r2 => PTerm.beqT t t2 && beqListT r r2
  | _, _ => false
end

theorem beqT_iff : ∀ (n : Nat),
    (∀ a b : PTerm, PTerm.psize a ≤ n → (PTerm.beqT a b = true ↔ a = b)) ∧
    (∀ l1 l2 : List PTerm, psizeList l1 ≤ n →
      (beqListT l1 l2 = true ↔ l1 = l2)) := by
  intro n
  induction n with
  | zero =>
    constructor
    · intro a b ha
      exact absurd ha (by
        have := psize_pos a
        omega)
    · intro l1 l2 hl
      cases l1 with
      | nil =>
        cases l2 with
        | nil => simp [beqListT]
        | cons x r => simp [beqListT]
      | cons x r =>
        exact absurd hl (by
          simp only [psizeList]
          have := psize_pos x
          omega)
  | succ n ih =>
    constructor
    · intro a b ha
      cases a with
      | leaf r =>
        cases b with
        | leaf r2 => simp [PTerm.beqT]
        | func r2 a2 => simp [PTerm.beqT]
      | func r a1 =>
        cases b with
        | leaf r2 => simp [PTerm.beqT]
        | func r2 a2 =>
          simp only [PTerm.beqT, Bool.and_eq_true, beq_iff_eq,
            PTerm.func.injEq]
          constructor
          · rintro ⟨rfl, h2⟩
            refine ⟨rfl, ?_⟩
            exact (ih.2 a1 a2 (by
              simp only [PTerm.psize] at ha
              omega)).mp h2
          · rintro ⟨rfl, rfl⟩
            exact ⟨rfl, (ih.2 a1 a1 (by
              simp only [PTerm.psize] at ha
              omega)).mpr rfl⟩
    · intro l1 l2 hl
      cases l1 with
      | nil =>
        cases l2 with
        | nil => simp [beqListT]
        | cons x r => simp [beqListT]
      | cons x r =>
        cases l2 with
        | nil => simp [beqListT]
        | cons x2 r2 =>
          simp only [beqListT, Bool.and_eq_true, List.cons.injEq]
          have hx : PTerm.psize x ≤ n + 1 := by
            simp only [psizeList] at hl
            have := psizeList_rest_lt x r
            omega
          have hr : psizeList r ≤ n := by
            simp only [psizeList] at hl
            have := psize_pos x
            omega
          rw [(ih.2 r r2 hr)]
          constructor
          · rintro ⟨h1, rfl⟩
            have hx2 : PTerm.psize x ≤ n ∨ PTerm.psize x = n + 1 := by
              omega
            rcases hx2 with hx2 | hx2
            · exact ⟨(ih.1 x x2 hx2).mp h1, rfl⟩
            · -- re-run the same argument at level n+1 via structure
              cases x with
              | leaf rr =>
                cases x2 with
                | leaf rr2 =>
                  simp only [PTerm.beqT, beq_iff_eq] at h1
                  exact ⟨by rw [h1], rfl⟩
                | func rr2 aa2 => simp [PTerm.beqT] at h1
              | func rr aa1 =>
                cases x2 with
                | leaf rr2 => simp [PTerm.beqT] at h1
                | func rr2 aa2 =>
                  simp only [PTerm.beqT, Bool.and_eq_true, beq_iff_eq]
                    at h1
                  obtain ⟨rfl, h3⟩ := h1
                  refine ⟨?_, rfl⟩
                  have haa : psizeList aa1 ≤ n := by
                    simp only [PTerm.psize] at hx2
                    omega
                  rw [(ih.2 aa1 aa2 haa).mp h3]
          · rintro ⟨rfl, rfl⟩
            refine ⟨?_, rfl⟩
            cases x with
            | leaf rr => simp [PTerm.beqT]
            | func rr aa1 =>
              simp only [PTerm.beqT, Bool.and_eq_true, beq_iff_eq]
              refine ⟨by trivial, ?_⟩
              have haa : psizeList aa1 ≤ n := by
                simp only [psizeList, PTerm.psize] at hl
                omega
              exact (ih.2 aa1 aa1 haa).mpr rfl

instance : DecidableEq PTerm := fun a b =>
  decidable_of_iff (PTerm.beqT a b = true)
    ((beqT_iff (PTerm.psize a)).1 a b le_rfl)

theorem substArgs_dec1 (a : PTerm) (r : List PTerm) :
    3 * PTerm.psize a + 1 < 3 * psizeList (a :: r) + 2 := by
  have := psize_head_le a r
  omega

theorem substArgs_dec2 (a : PTerm) (r : List PTerm) :
    3 * psizeList r + 2 < 3 * psizeList (a :: r) + 2 := by
  have := psizeList_rest_lt a r
  omega

theorem subst_dec (t : PTerm) :
    3 * psizeList (PTerm.argsOf t) + 2 < 3 * PTerm.psize t + 1 := by
  cases t <;> simp only [PTerm.argsOf, PTerm.psize, psizeList] <;> omega

mutual
/-- `Term.substitute` from `predicates/syntax.py`.  `Except.error name`
models `raise ForbiddenVariableError(name)`.  The fall-through for a root
that is neither a constant, a variable nor a function name (where Python
returns `None`) is modelled by returning the term unchanged; it is
unreachable for well-formed terms. -/
def PTerm.substitute (t : PTerm) (map : List (String × PTerm))
    (forb : List String) : Except String PTerm :=
  if is_constant (PTerm.rootOf t) || is_variable (PTerm.rootOf t) then
    match map.lookup (PTerm.rootOf t) with
    | some to_replace =>
      if is_function (PTerm.rootOf to_replace) then
        match check_all to_replace forb with
        | some e => Except.error e
        | none => Except.ok to_replace
      else if PTerm.reprT to_replace ∈ forb then
        Except.error (PTerm.reprT to_replace)
      else Except.ok to_replace
    | none => Except.ok t
  else if is_function (PTerm.rootOf t) then
    match substArgs (PTerm.argsOf t) map forb with
    | Except.error e => Except.error e
    | Except.ok args2 => Except.ok (PTerm.func (PTerm.rootOf t) args2)
  else Except.ok t
termination_by 3 * PTerm.psize t + 1
decreasing_by
  exact subst_dec t
def substArgs (l : List PTerm) (map : List (String × PTerm))
    (forb : List String) : Except String (List PTerm) :=
  match l with
  | [] => Except.ok []
  | a :: rest =>
    match PTerm.substitute a map forb with
    | Except.error e => Except.error e
    | Except.ok a2 =>
      match substArgs rest map forb with
      | Except.error e => Except.error e
      | Except.ok r2 => Except.ok (a2 :: r2)
termination_by 3 * psizeList l + 2
decreasing_by
  · exact substArgs_dec1 _ _
  · exact substArgs_dec2 _ _
end

mutual
/-- `Term.__helper_variables__`: accumulate the variable names of a term
into a set (embedded as a duplicate-free list). -/
def PTerm.varsAux : PTerm → List String → List String
  | PTerm.leaf r, acc =>
    if is_constant r then acc
    else if is_variable r then setAdd acc r
    else acc
  | PTerm.func r args, acc =>
    if is_constant r then acc
    else if is_variable r then setAdd acc r
    else varsListAux args acc
def varsListAux : List PTerm → List String → List String
  | [], acc => acc
  | t :: rest, acc => varsListAux rest (PTerm.varsAux t acc)
end

/-- `Term.variables()`. -/
def PTerm.varsOf (t : PTerm) : List String := t.varsAux []

/-- Set union of two sets-as-lists (`s1.union(s2)` / `s1.update(s2)`). -/
def listUnion (l1 l2 : List String) : List String := l2.foldl setAdd l1

/-- A first-order `Formula`: equality, a relation applied to terms, a unary
operator, a binary operator, or a quantification (the constructor forms of
the Python class). -/
inductive PFormula where
  | eq (t1 t2 : PTerm)
  | rel (name : String) (args : List PTerm)
  | unary (f : PFormula)
  | binary (op : String) (f g : PFormula)
  | quant (q : String) (v : String) (p : PFormula)
deriving DecidableEq

/-- The characters of a quantified variable name, as one-character strings:
Python's `for var in self.variable` iterates over the characters of the
name. -/
def charStrings (v : String) : List String :=
  v.data.map (fun c => String.mk [c])

/-- `Formula.__helper_variables__` (note the quantifier case adds the
*characters* of the quantified variable name). -/
def PFormula.varsAuxF : PFormula → List String → List String
  | PFormula.eq t1 t2, acc => PTerm.varsAux t2 (PTerm.varsAux t1 acc)
  | PFormula.rel _ args, acc =>
    args.foldl (fun a t => PTerm.varsAux t a) acc
  | PFormula.unary f, acc => f.varsAuxF acc
  | PFormula.binary _ f g, acc => g.varsAuxF (f.varsAuxF acc)
  | PFormula.quant _ v p, acc =>
    p.varsAuxF ((charStrings v).foldl setAdd acc)

/-- `Formula.variables()`. -/
def PFormula.varsOfF (φ : PFormula) : List String := φ.varsAuxF []

/-- `Formula.free_variables()` (the quantifier case removes the characters
of the quantified variable name). -/
def PFormula.freeVars : PFormula → List String
  | PFormula.eq t1 t2 => listUnion (PTerm.varsOf t1) (PTerm.varsOf t2)
  | PFormula.rel _ args =>
    args.foldl (fun acc t => listUnion acc (PTerm.varsOf t)) []
  | PFormula.unary f => f.freeVars
  | PFormula.binary _ f g => listUnion f.freeVars g.freeVars
  | PFormula.quant _ v p =>
    p.freeVars.filter (fun x => ¬ (x ∈ charStrings v))

/-- `Formula.substitute` from `predicates/syntax.py`.  In the quantifier
case the forbidden set grows by every variable of the formula that is not
free in it, and the substitution map is restricted to the free variables
of the formula plus all constant keys; the Python first branch (a root
that is a constant, variable or function name) is unreachable for
formulas and therefore omitted. -/
def PFormula.substitute (φ : PFormula) (map : List (String × PTerm))
    (forb : List String) : Except String PFormula :=
  match φ with
  | PFormula.eq t1 t2 =>
    match PTerm.substitute t1 map forb with
    | Except.error e => Except.error e
    | Except.ok s1 =>
      match PTerm.substitute t2 map forb with
      | Except.error e => Except.error e
      | Except.ok s2 => Except.ok (PFormula.eq s1 s2)
  | PFormula.rel name args =>
    match substArgs args map forb with
    | Except.error e => Except.error e
    | Except.ok args2 => Except.ok (PFormula.rel name args2)
  | PFormula.unary f =>
    match f.substitute map forb with
    | Except.error e => Except.error e
    | Except.ok f2 => Except.ok (PFormula.unary f2)
  | PFormula.binary op f g =>
    match f.substitute map forb with
    | Except.error e => Except.error e
    | Except.ok f2 =>
      match g.substitute map forb with
      | Except.error e => Except.error e
      | Except.ok g2 => Except.ok (PFormula.binary op f2 g2)
  | PFormula.quant q v p =>
    let free := (PFormula.quant q v p).freeVars
    let varsF := (PFormula.quant q v p).varsOfF
    let forbids := forb ++ varsF.filter (fun x => ¬ (x ∈ free))
    let new_dict :=
      (varsF.filter (fun x => x ∈ free ∧ (map.lookup x).isSome)).map
        (fun x => (x, (map.lookup x).getD (PTerm.leaf ""))) ++
      map.filter (fun pr => is_constant pr.1)
    match p.substitute new_dict forbids with
    | Except.error e => Except.error e
    | Except.ok p2 => Except.ok (PFormula.quant q v p2)

/-! ## Soundness of the raised variable name -/

theorem check_sound : ∀ n : Nat,
    (∀ (t : PTerm) (forb : List String) (e : String),
      5 * PTerm.psize t + 1 ≤ n → check_all t forb = some e → e ∈ forb) ∧
    (∀ (l : List PTerm) (forb : List String) (e : String),
      5 * psizeList l + 4 ≤ n → checkArgs l forb = some e → e ∈ forb) ∧
    (∀ (a : PTerm) (forb : List String) (e : String),
      5 * PTerm.psize a + 3 ≤ n → checkOneArg a forb = some e → e ∈ forb) ∧
    (∀ (a : PTerm) (forb : List String) (e : String),
      5 * PTerm.psize a + 2 ≤ n → chaseLoop a forb = some e → e ∈ forb) := by
  intro n
  induction n with
  | zero =>
    refine ⟨?_, ?_, ?_, ?_⟩ <;> intro x forb e hn _ <;>
      exact absurd hn (by
        first
          | (have hq := psize_pos x
             omega)
          | omega)
  | succ n ih =>
    obtain ⟨ih1, ih2, ih3, ih4⟩ := ih
    refine ⟨?_, ?_, ?_, ?_⟩
    · intro t forb e hn h
      rw [check_all] at h
      refine ih2 _ forb e ?_ h
      have := check_all_dec t
      omega
    · intro l forb e hn h
      cases l with
      | nil =>
        rw [checkArgs] at h
        exact Option.noConfusion h
      | cons arg rest =>
        rw [checkArgs] at h
        cases hh : checkOneArg arg forb with
        | some e2 =>
          rw [hh] at h
          simp only [Option.some.injEq] at h
          subst h
          refine ih3 arg forb e2 ?_ hh
          have := checkArgs_dec1 arg rest
          omega
        | none =>
          rw [hh] at h
          refine ih2 rest forb e ?_ h
          have := checkArgs_dec2 arg rest
          omega
    · intro a forb e hn h
      rw [checkOneArg] at h
      by_cases h1 : is_function (PTerm.rootOf a) = true
      · rw [if_pos h1] at h
        exact ih4 a forb e (by omega) h
      · rw [if_neg h1] at h
        by_cases h2 : PTerm.reprT a ∈ forb
        · rw [if_pos h2] at h
          simp only [Option.some.injEq] at h
          subst h
          exact h2
        · rw [if_neg h2] at h
          exact Option.noConfusion h
    · intro a forb e hn h
      rw [chaseLoop] at h
      split at h
      · exact Option.noConfusion h
      · rename_i first rest ha
        by_cases h1 : is_function (PTerm.reprT first) = true
        · rw [if_pos h1] at h
          cases hca : check_all a forb with
          | some e2 =>
            rw [hca] at h
            simp only [Option.some.injEq] at h
            subst h
            exact ih1 a forb e2 (by omega) hca
          | none =>
            rw [hca] at h
            by_cases h5 : PTerm.reprT a ∈ forb
            · rw [if_pos h5] at h
              simp only [Option.some.injEq] at h
              subst h
              exact h5
            · rw [if_neg h5] at h
              exact Option.noConfusion h
        · rw [if_neg h1] at h
          by_cases h2 : is_function (PTerm.rootOf first) = true
          · rw [if_pos h2] at h
            refine ih4 first forb e ?_ h
            have := chase_dec a first rest ha
            omega
          · rw [if_neg h2] at h
            by_cases h3 : PTerm.reprT first ∈ forb
            · rw [if_pos h3] at h
              simp only [Option.some.injEq] at h
              subst h
              exact h3
            · rw [if_neg h3] at h
              exact Option.noConfusion h

theorem check_all_sound (t : PTerm) (forb : List String) (e : String)
    (h : check_all t forb = some e) : e ∈ forb :=
  (check_sound (5 * PTerm.psize t + 1)).1 t forb e le_rfl h

theorem subst_sound : ∀ n : Nat,
    (∀ (t : PTerm) (map : List (String × PTerm)) (forb : List String)
      (e : String), 3 * PTerm.psize t + 1 ≤ n →
      PTerm.substitute t map forb = Except.error e → e ∈ forb) ∧
    (∀ (l : List PTerm) (map : List (String × PTerm)) (forb : List String)
      (e : String), 3 * psizeList l + 2 ≤ n →
      substArgs l map forb = Except.error e → e ∈ forb) := by
  intro n
  induction n with
  | zero =>
    constructor <;> intro x map forb e hn _ <;>
      exact absurd hn (by
        first
          | (have hq := psize_pos x
             omega)
          | omega)
  | succ n ih =>
    obtain ⟨ih1, ih2⟩ := ih
    constructor
    · intro t map forb e hn h
      rw [PTerm.substitute] at h
      by_cases h1 : (is_constant (PTerm.rootOf t) ||
          is_variable (PTerm.rootOf t)) = true
      · rw [if_pos h1] at h
        cases hl : List.lookup (PTerm.rootOf t) map with
        | some to_replace =>
          rw [hl] at h
          simp only at h
          by_cases h3 : is_function (PTerm.rootOf to_replace) = true
          · rw [if_pos h3] at h
            cases hca : check_all to_replace forb with
            | some e2 =>
              rw [hca] at h
              simp only [Except.error.injEq] at h
              subst h
              exact check_all_sound to_replace forb e2 hca
            | none =>
              rw [hca] at h
              exact Except.noConfusion h
          · rw [if_neg h3] at h
            by_cases h4 : PTerm.reprT to_replace ∈ forb
            · rw [if_pos h4] at h
              simp only [Except.error.injEq] at h
              subst h
              exact h4
            · rw [if_neg h4] at h
              exact Except.noConfusion h
        | none =>
          rw [hl] at h
          exact Except.noConfusion h
      · rw [if_neg h1] at h
        by_cases h2 : is_function (PTerm.rootOf t) = true
        · rw [if_pos h2] at h
          cases hs : substArgs (PTerm.argsOf t) map forb with
          | error e2 =>
            rw [hs] at h
            simp only [Except.error.injEq] at h
            subst h
            refine ih2 _ map forb e2 ?_ hs
            have := subst_dec t
            omega
          | ok args2 =>
            rw [hs] at h
            exact Except.noConfusion h
        · rw [if_neg h2] at h
          exact Except.noConfusion h
    · intro l map forb e hn h
      cases l with
      | nil =>
        rw [substArgs] at h
        exact Except.noConfusion h
      | cons a rest =>
        rw [substArgs] at h
        cases hs : PTerm.substitute a map forb with
        | error e2 =>
          rw [hs] at h
          simp only [Except.error.injEq] at h
          subst h
          refine ih1 a map forb e2 ?_ hs
          have := substArgs_dec1 a rest
          omega
        | ok a2 =>
          rw [hs] at h
          cases hr : substArgs rest map forb with
          | error e2 =>
            rw [hr] at h
            simp only [Except.error.injEq] at h
            subst h
            refine ih2 rest map forb e2 ?_ hr
            have := substArgs_dec2 a rest
            omega
          | ok r2 =>
            rw [hr] at h
            exact Except.noConfusion h

theorem PTerm.substituteT_sound (t : PTerm) (map : List (String × PTerm))
    (forb : List String) (e : String)
    (h : PTerm.substitute t map forb = Except.error e) : e ∈ forb :=
  (subst_sound (3 * PTerm.psize t + 1)).1 t map forb e le_rfl h

theorem substArgs_sound (l : List PTerm) (map : List (String × PTerm))
    (forb : List String) (e : String)
    (h : substArgs l map forb = Except.error e) : e ∈ forb :=
  (subst_sound (3 * psizeList l + 2)).2 l map forb e le_rfl h

/-- A variable name has an occurrence in the formula that a quantifier makes
non-free: somewhere in the formula there is a (sub)formula in whose variable
set it appears but in whose free-variable set it does not. -/
def capturable (φ : PFormula) (e : String) : Bool :=
  match φ with
  | PFormula.eq _ _ => false
  | PFormula.rel _ _ => false
  | PFormula.unary f => capturable f e
  | PFormula.binary _ f g => capturable f e || capturable g e
  | PFormula.quant q v p =>
    (decide (e ∈ (PFormula.quant q v p).varsOfF) &&
      decide (¬ (e ∈ (PFormula.quant q v p).freeVars))) || capturable p e

theorem PFormula.substituteF_sound (φ : PFormula) :
    ∀ (map : List (String × PTerm)) (forb : List String) (e : String),
    φ.substitute map forb = Except.error e →
    e ∈ forb ∨ capturable φ e = true := by
  induction φ with
  | eq t1 t2 =>
    intro map forb e h
    rw [PFormula.substitute] at h
    cases h1 : PTerm.substitute t1 map forb with
    | error e2 =>
      rw [h1] at h
      simp only [Except.error.injEq] at h
      subst h
      exact Or.inl (PTerm.substituteT_sound t1 map forb e2 h1)
    | ok s1 =>
      rw [h1] at h
      cases h2 : PTerm.substitute t2 map forb with
      | error e2 =>
        rw [h2] at h
        simp only [Except.error.injEq] at h
        subst h
        exact Or.inl (PTerm.substituteT_sound t2 map forb e2 h2)
      | ok s2 =>
        rw [h2] at h
        exact Except.noConfusion h
  | rel name args =>
    intro map forb e h
    rw [PFormula.substitute] at h
    cases h1 : substArgs args map forb with
    | error e2 =>
      rw [h1] at h
      simp only [Except.error.injEq] at h
      subst h
      exact Or.inl (substArgs_sound args map forb e2 h1)
    | ok args2 =>
      rw [h1] at h
      exact Except.noConfusion h
  | unary f ihf =>
    intro map forb e h
    rw [PFormula.substitute] at h
    cases h1 : f.substitute map forb with
    | error e2 =>
      rw [h1] at h
      simp only [Except.error.injEq] at h
      subst h
      rcases ihf map forb e2 h1 with hc | hc
      · exact Or.inl hc
      · exact Or.inr (by
          unfold capturable
          exact hc)
    | ok f2 =>
      rw [h1] at h
      exact Except.noConfusion h
  | binary op f g ihf ihg =>
    intro map forb e h
    rw [PFormula.substitute] at h
    cases h1 : f.substitute map forb with
    | error e2 =>
      rw [h1] at h
      simp only [Except.error.injEq] at h
      subst h
      rcases ihf map forb e2 h1 with hc | hc
      · exact Or.inl hc
      · refine Or.inr ?_
        unfold capturable
        rw [hc]
        simp
    | ok f2 =>
      rw [h1] at h
      cases h2 : g.substitute map forb with
      | error e2 =>
        rw [h2] at h
        simp only [Except.error.injEq] at h
        subst h
        rcases ihg map forb e2 h2 with hc | hc
        · exact Or.inl hc
        · refine Or.inr ?_
          unfold capturable
          rw [hc]
          simp
      | ok g2 =>
        rw [h2] at h
        exact Except.noConfusion h
  | quant q v p ihp =>
    intro map forb e h
    rw [PFormula.substitute] at h
    cases h1 : p.substitute
        ((((PFormula.quant q v p).varsOfF).filter (fun x =>
            x ∈ (PFormula.quant q v p).freeVars ∧
              (map.lookup x).isSome)).map
          (fun x => (x, (map.lookup x).getD (PTerm.leaf ""))) ++
          map.filter (fun pr => is_constant pr.1))
        (forb ++ ((PFormula.quant q v p).varsOfF).filter (fun x =>
          ¬ (x ∈ (PFormula.quant q v p).freeVars))) with
    | error e2 =>
      rw [h1] at h
      simp only [Except.error.injEq] at h
      subst h
      rcases ihp _ _ e2 h1 with hc | hc
      · rw [List.mem_append] at hc
        rcases hc with hc | hc
        · exact Or.inl hc
        · refine Or.inr ?_
          rw [List.mem_filter] at hc
          unfold capturable
          simp only [Bool.or_eq_true, Bool.and_eq_true, decide_eq_true_eq]
          exact Or.inl ⟨hc.1, by simpa using hc.2⟩
      · refine Or.inr ?_
        unfold capturable
        simp only [Bool.or_eq_true]
        exact Or.inr hc
    | ok p2 =>
      rw [h1] at h
      exact Except.noConfusion h

/-- C4 (counterexample): the capture check of `substitute` only inspects,
for each argument of a substituted function term, the leftmost leaf of its
chain of first arguments.  A forbidden variable sitting as a second argument
of a *nested* function application escapes the check entirely: substituting
`c ↦ f(g(x,y))` into `x=c` with forbidden set `{y}` succeeds, although the
substituted term contains the forbidden variable `y`, contradicting the
claimed "raises exactly when" characterization. -/
theorem claim_C4_counterexample :
    PFormula.substitute (PFormula.eq (PTerm.leaf "x") (PTerm.leaf "c"))
      [("c", PTerm.func "f" [PTerm.func "g" [PTerm.leaf "x", PTerm.leaf "y"]])]
      ["y"]
      = Except.ok (PFormula.eq (PTerm.leaf "x")
          (PTerm.func "f"
            [PTerm.func "g" [PTerm.leaf "x", PTerm.leaf "y"]])) ∧
    "y" ∈ PTerm.varsOf
      (PTerm.func "f" [PTerm.func "g" [PTerm.leaf "x", PTerm.leaf "y"]]) ∧
    "y" ∈ (["y"] : List String) := by
  refine ⟨?_, ?_, ?_⟩
  · simp [PFormula.substitute, PTerm.substitute, substArgs, check_all,
      checkArgs, checkOneArg, chaseLoop, is_constant, is_variable,
      is_function, strHead, isAlnumStr, charIsAlnum, PTerm.reprT, reprArgs,
      PTerm.rootOf, PTerm.argsOf, List.lookup]
  · simp [PTerm.varsOf, PTerm.varsAux, varsListAux, setAdd, is_constant,
      is_variable, strHead, isAlnumStr, charIsAlnum]
  · simp

/-- C4 (amended): whenever first-order substitution raises
`ForbiddenVariableError(e)`, the offending name `e` is either listed in the
forbidden set or has an occurrence in the formula that a quantifier makes
non-free (a potential capture); and the documented concrete example holds:
substituting `{c: plus(d,y)}` into `Ay[x=c]` with an empty forbidden set
raises `ForbiddenVariableError("y")`.  (The converse of the first part —
that every forbidden or capturable variable of a substituted term triggers
the error — is refuted by the counterexample.) -/
theorem claim_C4 (φ : PFormula) (map : List (String × PTerm))
    (forb : List String) (e : String)
    (herr : φ.substitute map forb = Except.error e) :
    (e ∈ forb ∨ capturable φ e = true) ∧
    PFormula.substitute (PFormula.quant "A" "y"
        (PFormula.eq (PTerm.leaf "x") (PTerm.leaf "c")))
      [("c", PTerm.func "plus" [PTerm.leaf "d", PTerm.leaf "y"])] []
      = Except.error "y" := by
  refine ⟨PFormula.substituteF_sound φ map forb e herr, ?_⟩
  simp [PFormula.substitute, PTerm.substitute, substArgs, check_all,
    checkArgs, checkOneArg, chaseLoop, is_constant, is_variable,
    is_function, strHead, isAlnumStr, charIsAlnum, PTerm.reprT, reprArgs,
    PTerm.rootOf, PTerm.argsOf, List.lookup, PFormula.freeVars,
    PFormula.varsOfF, PFormula.varsAuxF, PTerm.varsOf, PTerm.varsAux,
    varsListAux, setAdd, listUnion, charStrings]

/-- Witness for C4 at a concrete erroring substitution: substituting
`c ↦ y` into `c=c` with forbidden set `{y}` raises
`ForbiddenVariableError("y")`. -/
theorem claim_C4_witness :
    ("y" ∈ (["y"] : List String) ∨
      capturable (PFormula.eq (PTerm.leaf "c") (PTerm.leaf "c")) "y"
        = true) ∧
    PFormula.substitute (PFormula.quant "A" "y"
        (PFormula.eq (PTerm.leaf "x") (PTerm.leaf "c")))
      [("c", PTerm.func "plus" [PTerm.leaf "d", PTerm.leaf "y"])] []
      = Except.error "y" :=
  claim_C4 (PFormula.eq (PTerm.leaf "c") (PTerm.leaf "c"))
    [("c", PTerm.leaf "y")] ["y"] "y" (by
      simp [PFormula.substitute, PTerm.substitute, is_constant, is_variable,
        is_function, strHead, isAlnumStr, charIsAlnum, PTerm.reprT,
        PTerm.rootOf, List.lookup])

/-! ## The propositional skeleton bridge (`predicates/syntax.py`)

`fresh_variable_name_generator` lives in `logic_utils.py`, which is not in
the source tree.  Modelled from the spec: it yields a fresh, never-repeating
variable name on each `next(...)` call; we model it as an injective name
function `gen : Nat → String` together with an explicit call counter. -/

/-- The propositional binary operator named by a first-order binary root. -/
def binOpOfString (s : String) : BinOp :=
  if s = "&" then BinOp.and else if s = "|" then BinOp.or else BinOp.imp

/-- The root string of a propositional binary operator (onto the three
first-order binary roots). -/
def stringOfBinOp : BinOp → String
  | BinOp.and => "&"
  | BinOp.or => "|"
  | BinOp.imp => "->"
  | _ => ""

/-- The atom case of `Formula.__helper_skeleton`: scan the map in insertion
order for a key already mapping to this subformula; otherwise draw the next
fresh name and append the new entry. -/
def skelAtom (gen : Nat → String) (φ : PFormula)
    (dic : List (String × PFormula)) (n : Nat) :
    Formula × List (String × PFormula) × Nat :=
  match dic.find? (fun kv => kv.2 = φ) with
  | some kv => (Formula.var kv.1, dic, n)
  | none => (Formula.var (gen n), dic ++ [(gen n, φ)], n + 1)

/-- `Formula.__helper_skeleton`, with the generator call counter made
explicit. -/
def helper_skeleton (gen : Nat → String) :
    PFormula → List (String × PFormula) → Nat →
    Formula × List (String × PFormula) × Nat
  | PFormula.eq t1 t2, dic, n => skelAtom gen (PFormula.eq t1 t2) dic n
  | PFormula.rel r as, dic, n => skelAtom gen (PFormula.rel r as) dic n
  | PFormula.quant q v p, dic, n =>
    skelAtom gen (PFormula.quant q v p) dic n
  | PFormula.binary op f g, dic, n =>
    match helper_skeleton gen f dic n with
    | (left, dicL, n1) =>
      match helper_skeleton gen g dicL n1 with
      | (right, dicR, n2) =>
        (Formula.bin (binOpOfString op) left right, dicR, n2)
  | PFormula.unary f, dic, n =>
    match helper_skeleton gen f dic n with
    | (form, dicN, n1) => (Formula.neg form, dicN, n1)

/-- `Formula.propositional_skeleton()`. -/
def propositional_skeleton (gen : Nat → String) (f : PFormula) :
    Formula × List (String × PFormula) × Nat :=
  helper_skeleton gen f [] 0

/-- `Formula.from_propositional_skeleton`: the `KeyError` on a missing atom
and the `None` fall-through on a constant root are modelled with a junk
formula; both are unreachable in the round trip. -/
def from_propositional_skeleton (skeleton : Formula)
    (map : List (String × PFormula)) : PFormula :=
  match skeleton with
  | Formula.var v =>
    (map.lookup v).getD (PFormula.eq (PTerm.leaf "") (PTerm.leaf ""))
  | Formula.bin op l r =>
    PFormula.binary (stringOfBinOp op) (from_propositional_skeleton l map)
      (from_propositional_skeleton r map)
  | Formula.neg f => PFormula.unary (from_propositional_skeleton f map)
  | Formula.const _ => PFormula.eq (PTerm.leaf "") (PTerm.leaf "")

/-- Binary roots of a first-order formula outside quantified atoms are among
the three operators accepted by the Python constructor. -/
def PFormula.wfOps : PFormula → Bool
  | PFormula.eq _ _ => true
  | PFormula.rel _ _ => true
  | PFormula.unary f => f.wfOps
  | PFormula.binary op f g =>
    (decide (op = "&") || decide (op = "|") || decide (op = "->")) &&
      f.wfOps && g.wfOps
  | PFormula.quant _ _ _ => true

theorem glookup_append_left {β : Type} (l1 l2 : List (String × β))
    (v : String) (h : v ∈ l1.map Prod.fst) :
    (l1 ++ l2).lookup v = l1.lookup v := by
  induction l1 with
  | nil => simp at h
  | cons p rest ih =>
    obtain ⟨k, w⟩ := p
    by_cases hv : v = k
    · simp [List.lookup, hv]
    · simp only [List.map_cons, List.mem_cons] at h
      rcases h with rfl | h2
      · exact absurd rfl hv
      · have hbeq : (v == k) = false := by simp [hv]
        simp [List.lookup, hbeq, ih h2]

theorem glookup_append_right {β : Type} (l1 l2 : List (String × β))
    (v : String) (h : v ∉ l1.map Prod.fst) :
    (l1 ++ l2).lookup v = l2.lookup v := by
  induction l1 with
  | nil => simp
  | cons p rest ih =>
    obtain ⟨k, w⟩ := p
    simp only [List.map_cons, List.mem_cons] at h
    push_neg at h
    have hbeq : (v == k) = false := by simp [h.1]
    simp [List.lookup, hbeq, ih h.2]

theorem glookup_of_mem_nodup {β : Type} (l : List (String × β))
    (k : String) (v : β) (hnd : (l.map Prod.fst).Nodup)
    (hm : (k, v) ∈ l) : l.lookup k = some v := by
  induction l with
  | nil => simp at hm
  | cons p rest ih =>
    obtain ⟨k2, w2⟩ := p
    simp only [List.map_cons, List.nodup_cons] at hnd
    rcases List.mem_cons.mp hm with heq | hm2
    · obtain ⟨rfl, rfl⟩ : k2 = k ∧ w2 = v := by
        have h1 := congrArg Prod.fst heq
        have h2 := congrArg Prod.snd heq
        exact ⟨h1.symm, h2.symm⟩
      simp [List.lookup]
    · have hk : k ≠ k2 := by
        intro hkk
        exact hnd.1 (hkk ▸ List.mem_map_of_mem Prod.fst hm2)
      have hbeq : (k == k2) = false := by simp [hk]
      simp [List.lookup, hbeq, ih hnd.2 hm2]

theorem range'_app (s a b : Nat) :
    List.range' s a ++ List.range' (s + a) b = List.range' s (a + b) := by
  induction a generalizing s with
  | zero => simp
  | succ a ih =>
    rw [List.range'_succ]
    rw [show s + (a + 1) = (s + 1) + a by omega]
    rw [List.cons_append, ih (s + 1)]
    rw [show a + 1 + b = (a + b) + 1 by omega, List.range'_succ]

theorem mem_range'_bounds (a : Nat) : ∀ (s m : Nat),
    m ∈ List.range' s a → s ≤ m ∧ m < s + a := by
  induction a with
  | zero => intro s m h; simp at h
  | succ a ih =>
    intro s m h
    rw [List.range'_succ] at h
    rcases List.mem_cons.mp h with rfl | h2
    · omega
    · have := ih (s + 1) m h2
      omega

theorem range'_split (n X Y : Nat) (h1 : n ≤ X) (h2 : X ≤ Y) :
    List.range' n (X - n) ++ List.range' X (Y - X) =
      List.range' n (Y - n) := by
  have happ := range'_app n (X - n) (Y - X)
  rw [show n + (X - n) = X by omega] at happ
  rw [happ, show (X - n) + (Y - X) = Y - n by omega]

theorem skelAtom_correct (gen : Nat → String)
    (hinj : ∀ i j : Nat, gen i = gen j → i = j) (φ : PFormula)
    (dic : List (String × PFormula)) (n : Nat)
    (hkeys : ∀ k2 ∈ dic.map Prod.fst, ∃ j, j < n ∧ k2 = gen j)
    (hnd1 : (dic.map Prod.fst).Nodup)
    (hnd2 : (dic.map Prod.snd).Nodup) :
    n ≤ (skelAtom gen φ dic n).2.2 ∧
    (skelAtom gen φ dic n).2.1.map Prod.fst =
      dic.map Prod.fst ++
        (List.range' n ((skelAtom gen φ dic n).2.2 - n)).map gen ∧
    ((skelAtom gen φ dic n).2.1.map Prod.fst).Nodup ∧
    ((skelAtom gen φ dic n).2.1.map Prod.snd).Nodup ∧
    (∃ ext0, (skelAtom gen φ dic n).2.1 = dic ++ ext0) ∧
    (∀ ext2 : List (String × PFormula),
      from_propositional_skeleton (skelAtom gen φ dic n).1
        ((skelAtom gen φ dic n).2.1 ++ ext2) = φ) := by
  cases hf : dic.find? (fun kv => kv.2 = φ) with
  | some kv =>
    have hres : skelAtom gen φ dic n = (Formula.var kv.1, dic, n) := by
      unfold skelAtom
      rw [hf]
    rw [hres]
    have hkv : kv ∈ dic := List.mem_of_find?_eq_some hf
    have hpv : kv.2 = φ := by
      have := List.find?_some hf
      simpa using this
    refine ⟨le_rfl, by simp, hnd1, hnd2, ⟨[], by simp⟩, ?_⟩
    intro ext2
    unfold from_propositional_skeleton
    rw [glookup_append_left dic ext2 kv.1
      (List.mem_map_of_mem Prod.fst hkv)]
    rw [glookup_of_mem_nodup dic kv.1 kv.2 hnd1 (by
      rw [Prod.mk.eta]
      exact hkv)]
    rw [Option.getD_some, hpv]
  | none =>
    have hres : skelAtom gen φ dic n =
        (Formula.var (gen n), dic ++ [(gen n, φ)], n + 1) := by
      unfold skelAtom
      rw [hf]
    rw [hres]
    have hfresh : gen n ∉ dic.map Prod.fst := by
      intro hmem
      obtain ⟨j, hj, hje⟩ := hkeys (gen n) hmem
      have := hinj n j hje
      omega
    have hnotval : φ ∉ dic.map Prod.snd := by
      intro hmem
      rw [List.mem_map] at hmem
      obtain ⟨x, hx, hxe⟩ := hmem
      have := List.find?_eq_none.mp hf x hx
      simp [hxe] at this
    refine ⟨Nat.le_succ n, ?_, ?_, ?_, ⟨[(gen n, φ)], rfl⟩, ?_⟩
    · simp only [List.map_append, List.map_cons, List.map_nil,
        Nat.add_sub_cancel_left]
      rw [List.range'_one]
      simp
    · simp only [List.map_append, List.map_cons, List.map_nil]
      rw [List.nodup_append]
      exact ⟨hnd1, by simp, by
        intro k2 hk2
        simp only [List.mem_singleton]
        intro hke
        exact hfresh (hke ▸ hk2)⟩
    · simp only [List.map_append, List.map_cons, List.map_nil]
      rw [List.nodup_append]
      exact ⟨hnd2, by simp, by
        intro v2 hv2
        simp only [List.mem_singleton]
        intro hve
        exact hnotval (hve ▸ hv2)⟩
    · intro ext2
      unfold from_propositional_skeleton
      have hmem2 : gen n ∈ (dic ++ [(gen n, φ)]).map Prod.fst := by
        simp
      rw [glookup_append_left _ ext2 (gen n) hmem2]
      rw [glookup_append_right dic _ (gen n) hfresh]
      simp [List.lookup]

theorem helper_skeleton_correct (gen : Nat → String)
    (hinj : ∀ i j : Nat, gen i = gen j → i = j) :
    ∀ (f : PFormula) (dic : List (String × PFormula)) (n : Nat),
    f.wfOps = true →
    (∀ k2 ∈ dic.map Prod.fst, ∃ j, j < n ∧ k2 = gen j) →
    (dic.map Prod.fst).Nodup →
    (dic.map Prod.snd).Nodup →
    n ≤ (helper_skeleton gen f dic n).2.2 ∧
    (helper_skeleton gen f dic n).2.1.map Prod.fst =
      dic.map Prod.fst ++
        (List.range' n ((helper_skeleton gen f dic n).2.2 - n)).map gen ∧
    ((helper_skeleton gen f dic n).2.1.map Prod.fst).Nodup ∧
    ((helper_skeleton gen f dic n).2.1.map Prod.snd).Nodup ∧
    (∃ ext0, (helper_skeleton gen f dic n).2.1 = dic ++ ext0) ∧
    (∀ ext2 : List (String × PFormula),
      from_propositional_skeleton (helper_skeleton gen f dic n).1
        ((helper_skeleton gen f dic n).2.1 ++ ext2) = f) := by
  intro f
  induction f with
  | eq t1 t2 =>
    intro dic n _ hkeys hnd1 hnd2
    exact skelAtom_correct gen hinj (PFormula.eq t1 t2) dic n hkeys hnd1 hnd2
  | rel r as =>
    intro dic n _ hkeys hnd1 hnd2
    exact skelAtom_correct gen hinj (PFormula.rel r as) dic n hkeys hnd1 hnd2
  | quant q v p ihp =>
    intro dic n _ hkeys hnd1 hnd2
    exact skelAtom_correct gen hinj (PFormula.quant q v p) dic n hkeys
      hnd1 hnd2
  | unary f ihf =>
    intro dic n hwf hkeys hnd1 hnd2
    have hstep : helper_skeleton gen (PFormula.unary f) dic n =
        (Formula.neg (helper_skeleton gen f dic n).1,
          (helper_skeleton gen f dic n).2) := rfl
    rw [hstep]
    obtain ⟨c1, c2, c3, c4, c5, c6⟩ := ihf dic n hwf hkeys hnd1 hnd2
    refine ⟨c1, c2, c3, c4, c5, ?_⟩
    intro ext2
    unfold from_propositional_skeleton
    rw [c6 ext2]
  | binary op f g ihf ihg =>
    intro dic n hwf hkeys hnd1 hnd2
    have hop : op = "&" ∨ op = "|" ∨ op = "->" := by
      simp only [PFormula.wfOps, Bool.and_eq_true, Bool.or_eq_true,
        decide_eq_true_eq] at hwf
      tauto
    have hwff : f.wfOps = true := by
      simp only [PFormula.wfOps, Bool.and_eq_true] at hwf
      exact hwf.1.2
    have hwfg : g.wfOps = true := by
      simp only [PFormula.wfOps, Bool.and_eq_true] at hwf
      exact hwf.2
    obtain ⟨c1, c2, c3, c4, c5, c6⟩ := ihf dic n hwff hkeys hnd1 hnd2
    have hkeys2 : ∀ k2 ∈ (helper_skeleton gen f dic n).2.1.map Prod.fst,
        ∃ j, j < (helper_skeleton gen f dic n).2.2 ∧ k2 = gen j := by
      intro k2 hk2
      rw [c2] at hk2
      rcases List.mem_append.mp hk2 with hk | hk
      · obtain ⟨j, hj, hje⟩ := hkeys k2 hk
        exact ⟨j, by omega, hje⟩
      · rw [List.mem_map] at hk
        obtain ⟨j, hj, hje⟩ := hk
        have := mem_range'_bounds _ _ _ hj
        exact ⟨j, by omega, hje.symm⟩
    obtain ⟨d1, d2, d3, d4, d5, d6⟩ :=
      ihg (helper_skeleton gen f dic n).2.1
        (helper_skeleton gen f dic n).2.2 hwfg hkeys2 c3 c4
    have hstep : helper_skeleton gen (PFormula.binary op f g) dic n =
        (Formula.bin (binOpOfString op) (helper_skeleton gen f dic n).1
          (helper_skeleton gen g (helper_skeleton gen f dic n).2.1
            (helper_skeleton gen f dic n).2.2).1,
          (helper_skeleton gen g (helper_skeleton gen f dic n).2.1
            (helper_skeleton gen f dic n).2.2).2) := rfl
    rw [hstep]
    simp only
    refine ⟨le_trans c1 d1, ?_, d3, d4, ?_, ?_⟩
    · rw [d2, c2, List.append_assoc, ← List.map_append]
      rw [range'_split n (helper_skeleton gen f dic n).2.2
        (helper_skeleton gen g (helper_skeleton gen f dic n).2.1
          (helper_skeleton gen f dic n).2.2).2.2 c1 d1]
    · obtain ⟨e1, he1⟩ := c5
      obtain ⟨e2, he2⟩ := d5
      exact ⟨e1 ++ e2, by rw [he2, he1, List.append_assoc]⟩
    · intro ext2
      unfold from_propositional_skeleton
      have hops : stringOfBinOp (binOpOfString op) = op := by
        rcases hop with rfl | rfl | rfl <;>
          simp [binOpOfString, stringOfBinOp]
      rw [hops, d6 ext2]
      obtain ⟨e2, he2⟩ := d5
      rw [he2, List.append_assoc, c6 (e2 ++ ext2)]

/-- C9: with any injective fresh-name supply (modelled from the spec, since
`logic_utils.fresh_variable_name_generator` is not in the source tree),
`from_propositional_skeleton` inverts `propositional_skeleton` exactly; the
atoms of the returned map are the fresh names in generation order (assigned
left-to-right); and no first-order subformula receives two different atoms
(syntactically identical repeated subformulas reuse the same atom). -/
theorem claim_C9 (gen : Nat → String)
    (hinj : ∀ i j : Nat, gen i = gen j → i = j)
    (f : PFormula) (hwf : f.wfOps = true) :
    from_propositional_skeleton (propositional_skeleton gen f).1
      (propositional_skeleton gen f).2.1 = f ∧
    (propositional_skeleton gen f).2.1.map Prod.fst =
      (List.range' 0 (propositional_skeleton gen f).2.2).map gen ∧
    ((propositional_skeleton gen f).2.1.map Prod.snd).Nodup := by
  obtain ⟨c1, c2, c3, c4, c5, c6⟩ :=
    helper_skeleton_correct gen hinj f [] 0 hwf (by simp) (by simp)
      (by simp)
  unfold propositional_skeleton
  refine ⟨?_, ?_, c4⟩
  · have h6 := c6 []
    simpa using h6
  · simpa using c2

/-- Witness for C9 with the fresh names `z`, `zz`, `zzz`, … and the formula
`x=x & x=x` (whose two identical atoms must share one fresh name). -/
theorem claim_C9_witness :
    from_propositional_skeleton
      (propositional_skeleton (fun k => String.mk (List.replicate (k + 1) 'z'))
        (PFormula.binary "&" (PFormula.eq (PTerm.leaf "x") (PTerm.leaf "x"))
          (PFormula.eq (PTerm.leaf "x") (PTerm.leaf "x")))).1
      (propositional_skeleton (fun k => String.mk (List.replicate (k + 1) 'z'))
        (PFormula.binary "&" (PFormula.eq (PTerm.leaf "x") (PTerm.leaf "x"))
          (PFormula.eq (PTerm.leaf "x") (PTerm.leaf "x")))).2.1
      = PFormula.binary "&" (PFormula.eq (PTerm.leaf "x") (PTerm.leaf "x"))
          (PFormula.eq (PTerm.leaf "x") (PTerm.leaf "x")) ∧
    (propositional_skeleton (fun k => String.mk (List.replicate (k + 1) 'z'))
        (PFormula.binary "&" (PFormula.eq (PTerm.leaf "x") (PTerm.leaf "x"))
          (PFormula.eq (PTerm.leaf "x") (PTerm.leaf "x")))).2.1.map Prod.fst =
      (List.range' 0 (propositional_skeleton
          (fun k => String.mk (List.replicate (k + 1) 'z'))
          (PFormula.binary "&" (PFormula.eq (PTerm.leaf "x") (PTerm.leaf "x"))
            (PFormula.eq (PTerm.leaf "x") (PTerm.leaf "x")))).2.2).map
        (fun k => String.mk (List.replicate (k + 1) 'z')) ∧
    ((propositional_skeleton (fun k => String.mk (List.replicate (k + 1) 'z'))
        (PFormula.binary "&" (PFormula.eq (PTerm.leaf "x") (PTerm.leaf "x"))
          (PFormula.eq (PTerm.leaf "x") (PTerm.leaf "x")))).2.1.map
        Prod.snd).Nodup :=
  claim_C9 (fun k => String.mk (List.replicate (k + 1) 'z'))
    (by
      intro i j h
      have h2 : List.replicate (i + 1) 'z' = List.replicate (j + 1) 'z' := by
        have := congrArg String.data h
        simpa using this
      have h3 := congrArg List.length h2
      simp only [List.length_replicate] at h3
      omega)
    (PFormula.binary "&" (PFormula.eq (PTerm.leaf "x") (PTerm.leaf "x"))
      (PFormula.eq (PTerm.leaf "x") (PTerm.leaf "x")))
    (by decide)

/-! ## Specialization machinery:
soundness and completeness of `specialization_map` -/

theorem glookup_mem {β : Type} (l : List (String × β)) (k : String) (v : β)
    (h : l.lookup k = some v) : (k, v) ∈ l := by
  induction l with
  | nil => simp [List.lookup] at h
  | cons p rest ih =>
    obtain ⟨k2, w2⟩ := p
    by_cases hk : k = k2
    · subst hk
      simp only [List.lookup, beq_self_eq_true] at h
      obtain rfl : w2 = v := by
        cases h
        rfl
      exact List.mem_cons_self _ _
    · have hbeq : (k == k2) = false := by simp [hk]
      simp only [List.lookup, hbeq] at h
      exact List.mem_cons_of_mem _ (ih h)

theorem glookup_isSome_of_mem_keys {β : Type} (l : List (String × β))
    (k : String) (h : k ∈ l.map Prod.fst) : ∃ v, l.lookup k = some v := by
  induction l with
  | nil => simp at h
  | cons p rest ih =>
    obtain ⟨k2, w2⟩ := p
    by_cases hk : k = k2
    · subst hk
      exact ⟨w2, by simp [List.lookup]⟩
    · simp only [List.map_cons, List.mem_cons] at h
      rcases h with rfl | h2
      · exact absurd rfl hk
      · have hbeq : (k == k2) = false := by simp [hk]
        obtain ⟨v, hv⟩ := ih h2
        exact ⟨v, by simp [List.lookup, hbeq, hv]⟩

theorem mem_keys_of_glookup {β : Type} (l : List (String × β)) (k : String)
    (v : β) (h : l.lookup k = some v) : k ∈ l.map Prod.fst :=
  List.mem_map_of_mem Prod.fst (glookup_mem l k v h)

theorem glookup_filter_key {β : Type} (l : List (String × β))
    (P : String × β → Bool) (k : String)
    (h : ∀ v : β, P (k, v) = true) :
    (l.filter P).lookup k = l.lookup k := by
  induction l with
  | nil => simp
  | cons p rest ih =>
    obtain ⟨k2, w2⟩ := p
    by_cases hk : k = k2
    · subst hk
      rw [List.filter_cons, if_pos (h w2)]
      simp [List.lookup]
    · have hbeq : (k == k2) = false := by simp [hk]
      rw [List.filter_cons]
      by_cases hp : P (k2, w2) = true
      · rw [if_pos hp]
        simp [List.lookup, hbeq, ih]
      · rw [if_neg hp]
        simp [List.lookup, hbeq, ih]

theorem lookup_map_value {β γ : Type} (F : β → γ) (l : List (String × β))
    (k : String) :
    (l.map (fun kv => (kv.1, F kv.2))).lookup k = (l.lookup k).map F := by
  induction l with
  | nil => simp
  | cons p rest ih =>
    obtain ⟨k2, w2⟩ := p
    by_cases hk : k = k2
    · subst hk
      simp [List.lookup]
    · have hbeq : (k == k2) = false := by simp [hk]
      simp [List.lookup, hbeq, ih]

theorem substitute_variables_congr (f : Formula) (m1 m2 : SMap)
    (h : ∀ v ∈ f.variablesOf,
      (m1 : List (String × Formula)).lookup v =
        (m2 : List (String × Formula)).lookup v) :
    f.substitute_variables m1 = f.substitute_variables m2 := by
  induction f with
  | var w =>
    unfold Formula.substitute_variables
    rw [h w (mem_variablesOf_var w)]
  | const b => rfl
  | neg g ih =>
    unfold Formula.substitute_variables
    rw [ih (fun v hv => h v ((mem_variablesOf_neg g v).mpr hv))]
  | bin op g g2 ihg ihh =>
    unfold Formula.substitute_variables
    rw [ihg (fun v hv => h v ((mem_variablesOf_bin op g g2 v).mpr
      (Or.inl hv)))]
    rw [ihh (fun v hv => h v ((mem_variablesOf_bin op g g2 v).mpr
      (Or.inr hv)))]

theorem mergeScan_self (m1 m2 l : List (String × Formula))
    (h : mergeScan m1 m2 = some l) : l = m1 := by
  induction m1 generalizing l with
  | nil =>
    unfold mergeScan at h
    cases h
    rfl
  | cons p rest ih =>
    obtain ⟨k, v⟩ := p
    unfold mergeScan at h
    cases hl : List.lookup k m2 with
    | some v2 =>
      rw [hl] at h
      simp only at h
      split_ifs at h with hv
      · cases hrest : mergeScan rest m2 with
        | some t =>
          rw [hrest] at h
          simp only [Option.map_some'] at h
          cases h
          rw [ih t hrest]
        | none =>
          rw [hrest] at h
          simp at h
    | none =>
      rw [hl] at h
      simp only at h
      cases hrest : mergeScan rest m2 with
      | some t =>
        rw [hrest] at h
        simp only [Option.map_some'] at h
        cases h
        rw [ih t hrest]
      | none =>
        rw [hrest] at h
        simp at h

theorem mergeScan_consistent (m1 m2 : List (String × Formula))
    (hs : (mergeScan m1 m2).isSome) :
    ∀ k v1, (k, v1) ∈ m1 → ∀ v2, m2.lookup k = some v2 → v1 = v2 := by
  induction m1 with
  | nil => intro k v1 h; simp at h
  | cons p rest ih =>
    obtain ⟨k0, v0⟩ := p
    intro k v1 hm v2 hl
    unfold mergeScan at hs
    rcases List.mem_cons.mp hm with heq | hm2
    · obtain ⟨rfl, rfl⟩ : k0 = k ∧ v0 = v1 := by
        have h1 := congrArg Prod.fst heq
        have h2 := congrArg Prod.snd heq
        exact ⟨h1.symm, h2.symm⟩
      rw [hl] at hs
      simp only at hs
      by_cases hv : v0 = v2
      · exact hv
      · rw [if_neg hv] at hs
        simp at hs
    · have hs2 : (mergeScan rest m2).isSome := by
        cases hl0 : List.lookup k0 m2 with
        | some w =>
          rw [hl0] at hs
          simp only at hs
          by_cases hv : v0 = w
          · rw [if_pos hv] at hs
            simpa using hs
          · rw [if_neg hv] at hs
            simp at hs
        | none =>
          rw [hl0] at hs
          simp only at hs
          simpa using hs
      exact ih hs2 k v1 hm2 v2 hl

theorem merge_eq (m1 m2 mm : List (String × Formula))
    (h : merge_specialization_maps (some m1) (some m2) = some mm) :
    (mergeScan m1 m2).isSome ∧
    mm = m1 ++ m2.filter (fun p => (List.lookup p.1 m1).isNone) := by
  unfold merge_specialization_maps at h
  simp only at h
  cases hscan : mergeScan m1 m2 with
  | none =>
    rw [hscan] at h
    simp at h
  | some part1 =>
    rw [hscan] at h
    simp only at h
    have hp : part1 = m1 := mergeScan_self m1 m2 part1 hscan
    subst hp
    simp only [Option.some.injEq] at h
    exact ⟨by simp, h.symm⟩

theorem merge_lookup_left (m1 m2 mm : List (String × Formula))
    (h : merge_specialization_maps (some m1) (some m2) = some mm)
    (k : String) (hk : k ∈ m1.map Prod.fst) :
    mm.lookup k = m1.lookup k := by
  obtain ⟨_, heq⟩ := merge_eq m1 m2 mm h
  rw [heq]
  exact glookup_append_left m1 _ k hk

theorem merge_lookup_right (m1 m2 mm : List (String × Formula))
    (h : merge_specialization_maps (some m1) (some m2) = some mm)
    (k : String) (v : Formula) (hk : m2.lookup k = some v) :
    mm.lookup k = some v := by
  obtain ⟨hscan, heq⟩ := merge_eq m1 m2 mm h
  by_cases hm1 : k ∈ m1.map Prod.fst
  · rw [merge_lookup_left m1 m2 mm h k hm1]
    obtain ⟨v1, hv1⟩ := glookup_isSome_of_mem_keys m1 k hm1
    rw [hv1]
    rw [mergeScan_consistent m1 m2 hscan k v1 (glookup_mem m1 k v1 hv1)
      v hk]
  · rw [heq, glookup_append_right m1 _ k hm1]
    rw [glookup_filter_key m2 _ k (by
      intro w
      have hnone : List.lookup k m1 = none := by
        cases hl : List.lookup k m1 with
        | none => rfl
        | some w2 => exact absurd (mem_keys_of_glookup m1 k w2 hl) hm1
      simp [hnone])]
    exact hk

theorem merge_mem_sub (m1 m2 mm : List (String × Formula))
    (h : merge_specialization_maps (some m1) (some m2) = some mm)
    (k : String) (v : Formula) (hm : (k, v) ∈ mm) :
    (k, v) ∈ m1 ∨ (k, v) ∈ m2 := by
  obtain ⟨_, heq⟩ := merge_eq m1 m2 mm h
  rw [heq] at hm
  rcases List.mem_append.mp hm with hm | hm
  · exact Or.inl hm
  · exact Or.inr (List.mem_of_mem_filter hm)

theorem merge_keys_super (m1 m2 mm : List (String × Formula))
    (h : merge_specialization_maps (some m1) (some m2) = some mm)
    (k : String) (hk : k ∈ m1.map Prod.fst ∨ k ∈ m2.map Prod.fst) :
    k ∈ mm.map Prod.fst := by
  rcases hk with hk | hk
  · obtain ⟨v, hv⟩ := glookup_isSome_of_mem_keys m1 k hk
    refine mem_keys_of_glookup mm k v ?_
    rw [merge_lookup_left m1 m2 mm h k hk]
    exact hv
  · obtain ⟨v, hv⟩ := glookup_isSome_of_mem_keys m2 k hk
    exact mem_keys_of_glookup mm k v (merge_lookup_right m1 m2 mm h k v hv)

theorem mergeScan_succeeds (m2 : List (String × Formula)) :
    ∀ (m1 : List (String × Formula)),
    (∀ k v1, (k, v1) ∈ m1 → ∀ v2, m2.lookup k = some v2 → v1 = v2) →
    (mergeScan m1 m2).isSome := by
  intro m1
  induction m1 with
  | nil => intro _; simp [mergeScan]
  | cons p rest ih =>
    obtain ⟨k0, v0⟩ := p
    intro hcons
    unfold mergeScan
    have hrest := ih (fun k v1 hm v2 hl =>
      hcons k v1 (List.mem_cons_of_mem _ hm) v2 hl)
    cases hl : List.lookup k0 m2 with
    | some w =>
      simp only
      rw [if_pos (hcons k0 v0 (List.mem_cons_self _ _) w hl)]
      cases hscan : mergeScan rest m2 with
      | some t => simp [hscan]
      | none => rw [hscan] at hrest; simp at hrest
    | none =>
      simp only
      cases hscan : mergeScan rest m2 with
      | some t => simp [hscan]
      | none => rw [hscan] at hrest; simp at hrest

theorem merge_succeeds (σ m1 m2 : List (String × Formula))
    (h1 : ∀ k v, (k, v) ∈ m1 → σ.lookup k = some v)
    (h2 : ∀ k v, (k, v) ∈ m2 → σ.lookup k = some v) :
    ∃ mm : List (String × Formula),
      merge_specialization_maps (some m1) (some m2) = some mm ∧
      (∀ k v, (k, v) ∈ mm → σ.lookup k = some v) := by
  have hcons : ∀ k v1, (k, v1) ∈ m1 → ∀ v2, m2.lookup k = some v2 →
      v1 = v2 := by
    intro k v1 hm v2 hl
    have e1 := h1 k v1 hm
    have e2 := h2 k v2 (glookup_mem m2 k v2 hl)
    rw [e1] at e2
    cases e2
    rfl
  have hscan := mergeScan_succeeds m2 m1 hcons
  cases hs : mergeScan m1 m2 with
  | none => rw [hs] at hscan; simp at hscan
  | some part1 =>
    have hp : part1 = m1 := mergeScan_self m1 m2 part1 hs
    rw [hp] at hs
    refine ⟨m1 ++ m2.filter (fun p => (List.lookup p.1 m1).isNone), ?_, ?_⟩
    · unfold merge_specialization_maps
      simp only
      rw [hs]
    · intro k v hm
      rcases List.mem_append.mp hm with hm | hm
      · exact h1 k v hm
      · exact h2 k v (List.mem_of_mem_filter hm)

theorem variablesOf_var_eq (v : String) :
    (Formula.var v).variablesOf = [v] := by
  unfold Formula.variablesOf Formula.find_variables setAdd
  simp

theorem variablesOf_const_eq (b : Bool) :
    (Formula.const b).variablesOf = [] := rfl

theorem fsm_sound : ∀ (p f : Formula) (m : List (String × Formula)),
    formula_specialization_map p f = some m →
    f = p.substitute_variables m ∧
    ∀ v ∈ p.variablesOf, v ∈ m.map Prod.fst := by
  intro p
  induction p with
  | var v =>
    intro f m h
    simp only [formula_specialization_map, Option.some.injEq] at h
    subst h
    refine ⟨?_, ?_⟩
    · simp [Formula.substitute_variables, List.lookup]
    · intro w hw
      rw [variablesOf_var_eq] at hw
      simp only [List.mem_singleton] at hw
      subst hw
      simp
  | const b =>
    intro f m h
    cases f with
    | const b2 =>
      simp only [formula_specialization_map] at h
      split_ifs at h with hb
      subst hb
      simp only [Option.some.injEq] at h
      subst h
      exact ⟨rfl, by simp [variablesOf_const_eq]⟩
    | var w => simp [formula_specialization_map] at h
    | neg g => simp [formula_specialization_map] at h
    | bin op g g2 => simp [formula_specialization_map] at h
  | neg g ih =>
    intro f m h
    cases f with
    | neg f1 =>
      simp only [formula_specialization_map] at h
      obtain ⟨he, hc⟩ := ih f1 m h
      refine ⟨?_, ?_⟩
      · show Formula.neg f1 = Formula.neg (g.substitute_variables m)
        rw [← he]
      · intro v hv
        exact hc v ((mem_variablesOf_neg g v).mp hv)
    | var w => simp [formula_specialization_map] at h
    | const b2 => simp [formula_specialization_map] at h
    | bin op g1 g2 => simp [formula_specialization_map] at h
  | bin op g g2 ihg ihh =>
    intro f m h
    cases f with
    | bin op2 s1 s2 =>
      simp only [formula_specialization_map] at h
      split_ifs at h with hop
      subst hop
      cases hg : formula_specialization_map g s1 with
      | none =>
        rw [hg] at h
        simp [merge_specialization_maps] at h
      | some m1 =>
        cases hg2 : formula_specialization_map g2 s2 with
        | none =>
          rw [hg, hg2] at h
          simp [merge_specialization_maps] at h
        | some m2 =>
          rw [hg, hg2] at h
          obtain ⟨he1, hc1⟩ := ihg s1 m1 hg
          obtain ⟨he2, hc2⟩ := ihh s2 m2 hg2
          have hs1 : g.substitute_variables m = s1 := by
            rw [he1]
            refine substitute_variables_congr g m m1 ?_
            intro v hv
            exact merge_lookup_left m1 m2 m h v (hc1 v hv)
          have hs2 : g2.substitute_variables m = s2 := by
            rw [he2]
            refine substitute_variables_congr g2 m m2 ?_
            intro v hv
            obtain ⟨w, hw⟩ :=
              glookup_isSome_of_mem_keys m2 v (hc2 v hv)
            rw [hw, merge_lookup_right m1 m2 m h v w hw]
          refine ⟨?_, ?_⟩
          · show Formula.bin op s1 s2 =
              Formula.bin op (g.substitute_variables m)
                (g2.substitute_variables m)
            rw [hs1, hs2]
          · intro v hv
            rcases (mem_variablesOf_bin op g g2 v).mp hv with hv | hv
            · exact merge_keys_super m1 m2 m h v (Or.inl (hc1 v hv))
            · exact merge_keys_super m1 m2 m h v (Or.inr (hc2 v hv))
    | var w => simp [formula_specialization_map] at h
    | const b2 => simp [formula_specialization_map] at h
    | neg g1 => simp [formula_specialization_map] at h

theorem fsm_complete : ∀ (p : Formula) (σ : List (String × Formula)),
    (∀ v ∈ p.variablesOf, ∃ w, σ.lookup v = some w) →
    ∃ m : List (String × Formula),
      formula_specialization_map p (p.substitute_variables σ) = some m ∧
      ∀ k v, (k, v) ∈ m → σ.lookup k = some v := by
  intro p
  induction p with
  | var v =>
    intro σ hcov
    obtain ⟨w, hw⟩ := hcov v (mem_variablesOf_var v)
    refine ⟨[(v, w)], ?_, ?_⟩
    · have hsub : (Formula.var v).substitute_variables σ = w := by
        unfold Formula.substitute_variables
        rw [hw]
      rw [hsub]
      rfl
    · intro k u hm
      simp only [List.mem_singleton, Prod.mk.injEq] at hm
      obtain ⟨rfl, rfl⟩ := hm
      exact hw
  | const b =>
    intro σ hcov
    refine ⟨[], ?_, ?_⟩
    · show formula_specialization_map (Formula.const b) (Formula.const b) =
        some []
      simp [formula_specialization_map]
    · intro k u hm
      simp at hm
  | neg g ih =>
    intro σ hcov
    obtain ⟨m, hm, hsub⟩ := ih σ (fun v hv =>
      hcov v ((mem_variablesOf_neg g v).mpr hv))
    exact ⟨m, hm, hsub⟩
  | bin op g g2 ihg ihh =>
    intro σ hcov
    obtain ⟨m1, hm1, hsub1⟩ := ihg σ (fun v hv =>
      hcov v ((mem_variablesOf_bin op g g2 v).mpr (Or.inl hv)))
    obtain ⟨m2, hm2, hsub2⟩ := ihh σ (fun v hv =>
      hcov v ((mem_variablesOf_bin op g g2 v).mpr (Or.inr hv)))
    obtain ⟨mm, hmerge, hsub⟩ := merge_succeeds σ m1 m2 hsub1 hsub2
    refine ⟨mm, ?_, hsub⟩
    show formula_specialization_map (Formula.bin op g g2)
      (Formula.bin op (g.substitute_variables σ)
        (g2.substitute_variables σ)) = some mm
    simp only [formula_specialization_map, if_pos rfl]
    rw [hm1, hm2]
    exact hmerge

theorem lookup_map_subst (σ m : List (String × Formula)) (k : String) :
    (m.map (fun kv => (kv.1, kv.2.substitute_variables σ))).lookup k =
      (m.lookup k).map (fun g => g.substitute_variables σ) := by
  induction m with
  | nil => simp
  | cons p rest ih =>
    obtain ⟨k2, w2⟩ := p
    by_cases hk : k = k2
    · subst hk
      simp [List.lookup]
    · have hbeq : (k == k2) = false := by simp [hk]
      simp [List.lookup, hbeq, ih]

theorem substitute_variables_comp (f : Formula)
    (m σ : List (String × Formula))
    (hcov : ∀ v ∈ f.variablesOf, v ∈ m.map Prod.fst) :
    (f.substitute_variables m).substitute_variables σ =
      f.substitute_variables
        (m.map (fun kv => (kv.1, kv.2.substitute_variables σ))) := by
  induction f with
  | var v =>
    obtain ⟨g, hg⟩ :=
      glookup_isSome_of_mem_keys m v (hcov v (mem_variablesOf_var v))
    have h1 : (Formula.var v).substitute_variables m = g := by
      unfold Formula.substitute_variables
      rw [hg]
    have h2 : (Formula.var v).substitute_variables
        (m.map (fun kv => (kv.1, kv.2.substitute_variables σ))) =
        g.substitute_variables σ := by
      have e1 : (Formula.var v).substitute_variables
          (m.map (fun kv => (kv.1, kv.2.substitute_variables σ))) =
          match (m.map
            (fun kv => (kv.1, kv.2.substitute_variables σ))).lookup v with
          | some t => t
          | none => Formula.var v := rfl
      rw [e1, lookup_map_subst σ m v, hg]
      simp only [Option.map_some']
    rw [h1, h2]
  | const b => rfl
  | neg g ih =>
    show Formula.neg ((g.substitute_variables m).substitute_variables σ) = _
    rw [ih (fun v hv => hcov v ((mem_variablesOf_neg g v).mpr hv))]
    rfl
  | bin op g g2 ihg ihh =>
    show Formula.bin op ((g.substitute_variables m).substitute_variables σ)
      ((g2.substitute_variables m).substitute_variables σ) = _
    rw [ihg (fun v hv => hcov v ((mem_variablesOf_bin op g g2 v).mpr
      (Or.inl hv)))]
    rw [ihh (fun v hv => hcov v ((mem_variablesOf_bin op g g2 v).mpr
      (Or.inr hv)))]
    rfl

theorem merge_none_left (x : Option SMap) :
    merge_specialization_maps none x = none := by
  cases x <;> rfl

theorem merge_none_right (x : Option SMap) :
    merge_specialization_maps x none = none := by
  cases x <;> rfl

theorem fold_merge_none (l : List (Formula × Formula)) :
    l.foldl (fun acc p => merge_specialization_maps acc
      (formula_specialization_map p.1 p.2)) none = none := by
  induction l with
  | nil => rfl
  | cons pr rest ih =>
    show List.foldl _ (merge_specialization_maps none
      (formula_specialization_map pr.1 pr.2)) rest = none
    have hstep : merge_specialization_maps none
        (formula_specialization_map pr.1 pr.2) = none := merge_none_left _
    rw [hstep]
    exact ih

theorem fold_merge_sound :
    ∀ (l : List (Formula × Formula)) (macc mf : List (String × Formula)),
    l.foldl (fun acc p => merge_specialization_maps acc
      (formula_specialization_map p.1 p.2)) (some macc) = some mf →
    (∀ k ∈ macc.map Prod.fst,
      (mf : List (String × Formula)).lookup k = macc.lookup k) ∧
    (∀ k ∈ macc.map Prod.fst, k ∈ mf.map Prod.fst) ∧
    (∀ pr ∈ l, pr.2 = pr.1.substitute_variables mf ∧
      ∀ v ∈ pr.1.variablesOf, v ∈ mf.map Prod.fst) := by
  intro l
  induction l with
  | nil =>
    intro macc mf h
    simp only [List.foldl_nil, Option.some.injEq] at h
    subst h
    exact ⟨fun k _ => rfl, fun k hk => hk, fun pr hpr => absurd hpr
      (List.not_mem_nil pr)⟩
  | cons pr rest ih =>
    intro macc mf h
    rw [List.foldl_cons] at h
    cases hfsm : formula_specialization_map pr.1 pr.2 with
    | none =>
      rw [hfsm] at h
      have hnone : merge_specialization_maps (some macc) none = none := rfl
      rw [hnone, fold_merge_none] at h
      simp at h
    | some mp =>
      rw [hfsm] at h
      cases hstep : merge_specialization_maps (some macc) (some mp) with
      | none =>
        rw [hstep, fold_merge_none] at h
        simp at h
      | some mnext =>
        rw [hstep] at h
        obtain ⟨hpre, hkeys, hpairs⟩ := ih mnext mf h
        have hlift : ∀ k ∈ mp.map Prod.fst,
            (mf : List (String × Formula)).lookup k =
              (mp : List (String × Formula)).lookup k ∧
            k ∈ mf.map Prod.fst := by
          intro k hk
          obtain ⟨w, hw⟩ := glookup_isSome_of_mem_keys mp k hk
          have h1 : (mnext : List (String × Formula)).lookup k = some w :=
            merge_lookup_right macc mp mnext hstep k w hw
          have hk2 : k ∈ mnext.map Prod.fst := mem_keys_of_glookup _ k w h1
          refine ⟨?_, hkeys k hk2⟩
          rw [hpre k hk2, h1, hw]
        have hmacc : ∀ k ∈ macc.map Prod.fst,
            (mf : List (String × Formula)).lookup k = macc.lookup k ∧
            k ∈ mf.map Prod.fst := by
          intro k hk
          have h1 : (mnext : List (String × Formula)).lookup k =
              macc.lookup k := merge_lookup_left macc mp mnext hstep k hk
          obtain ⟨w, hw⟩ := glookup_isSome_of_mem_keys macc k hk
          have hk2 : k ∈ mnext.map Prod.fst := by
            refine mem_keys_of_glookup _ k w ?_
            rw [h1, hw]
          refine ⟨?_, hkeys k hk2⟩
          rw [hpre k hk2, h1]
        refine ⟨fun k hk => (hmacc k hk).1, fun k hk => (hmacc k hk).2, ?_⟩
        intro q hq
        rcases List.mem_cons.mp hq with rfl | hq2
        · obtain ⟨he, hc⟩ := fsm_sound q.1 q.2 mp hfsm
          refine ⟨?_, fun v hv => (hlift v (hc v hv)).2⟩
          rw [he]
          refine substitute_variables_congr q.1 mp mf ?_
          intro v hv
          exact ((hlift v (hc v hv)).1).symm
        · exact hpairs q hq2

theorem fold_merge_complete (σ : List (String × Formula)) :
    ∀ (l : List Formula),
    (∀ a ∈ l, ∀ v ∈ a.variablesOf, ∃ w, σ.lookup v = some w) →
    ∀ macc : List (String × Formula),
    (∀ k v, (k, v) ∈ macc → σ.lookup k = some v) →
    ∃ mf : List (String × Formula),
      (l.map (fun a => (a, a.substitute_variables σ))).foldl
        (fun acc p => merge_specialization_maps acc
          (formula_specialization_map p.1 p.2)) (some macc) = some mf ∧
      (∀ k v, (k, v) ∈ mf → σ.lookup k = some v) := by
  intro l
  induction l with
  | nil =>
    intro _ macc hmacc
    exact ⟨macc, rfl, hmacc⟩
  | cons a rest ih =>
    intro hcov macc hmacc
    obtain ⟨mp, hfsm, hmp⟩ := fsm_complete a σ
      (hcov a (List.mem_cons_self _ _))
    obtain ⟨mnext, hmerge, hnext⟩ := merge_succeeds σ macc mp hmacc hmp
    obtain ⟨mf, hfold, hmf⟩ := ih
      (fun b hb => hcov b (List.mem_cons_of_mem _ hb)) mnext hnext
    refine ⟨mf, ?_, hmf⟩
    simp only [List.map_cons, List.foldl_cons]
    rw [hfsm, hmerge]
    exact hfold

theorem zip_pairs_eq_map {α β : Type} (F : α → β) :
    ∀ (l1 : List α) (l2 : List β), l1.length = l2.length →
    (∀ pr ∈ l1.zip l2, pr.2 = F pr.1) → l2 = l1.map F := by
  intro l1
  induction l1 with
  | nil =>
    intro l2 hlen _
    cases l2 with
    | nil => rfl
    | cons b bs => simp at hlen
  | cons a as ih =>
    intro l2 hlen hp
    cases l2 with
    | nil => simp at hlen
    | cons b bs =>
      have h1 : b = F a := hp (a, b) (by simp [List.zip_cons_cons])
      have h2 : bs = as.map F := by
        refine ih bs (by simpa using hlen) ?_
        intro q hq
        exact hp q (by simp [List.zip_cons_cons, hq])
      rw [List.map_cons, h1, h2]

theorem zip_self_map {α β : Type} (F : α → β) :
    ∀ (l : List α), l.zip (l.map F) = l.map (fun a => (a, F a)) := by
  intro l
  induction l with
  | nil => rfl
  | cons a as ih => simp [List.zip_cons_cons, ih]

theorem specialization_map_sound (r inst : InferenceRule)
    (mm : List (String × Formula))
    (h : r.specialization_map inst = some mm) :
    inst = r.specialize mm ∧
    (∀ a ∈ r.assumptions, ∀ v ∈ a.variablesOf, v ∈ mm.map Prod.fst) ∧
    (∀ v ∈ r.conclusion.variablesOf, v ∈ mm.map Prod.fst) := by
  unfold InferenceRule.specialization_map at h
  by_cases hlen : r.assumptions.length = inst.assumptions.length
  · rw [if_pos hlen] at h
    cases hfold : (r.assumptions.zip inst.assumptions).foldl
        (fun acc p => merge_specialization_maps acc
          (formula_specialization_map p.1 p.2))
        (some ([] : List (String × Formula))) with
    | none =>
      rw [hfold] at h
      have hnone : merge_specialization_maps none
          (formula_specialization_map r.conclusion inst.conclusion) =
          none := merge_none_left _
      rw [hnone] at h
      simp at h
    | some mfold =>
      rw [hfold] at h
      cases hc : formula_specialization_map r.conclusion inst.conclusion with
      | none =>
        rw [hc] at h
        have hnone : merge_specialization_maps (some mfold) none =
            none := rfl
        rw [hnone] at h
        simp at h
      | some mc =>
        rw [hc] at h
        obtain ⟨_, _, hpairs⟩ := fold_merge_sound _ [] mfold hfold
        obtain ⟨hce, hcc⟩ := fsm_sound r.conclusion inst.conclusion mc hc
        have hliftA : ∀ k ∈ mfold.map Prod.fst,
            (mm : List (String × Formula)).lookup k =
              (mfold : List (String × Formula)).lookup k ∧
            k ∈ mm.map Prod.fst := by
          intro k hk
          refine ⟨merge_lookup_left mfold mc mm h k hk, ?_⟩
          obtain ⟨w, hw⟩ := glookup_isSome_of_mem_keys mfold k hk
          refine mem_keys_of_glookup _ k w ?_
          rw [merge_lookup_left mfold mc mm h k hk, hw]
        have hliftC : ∀ k ∈ mc.map Prod.fst,
            (mm : List (String × Formula)).lookup k =
              (mc : List (String × Formula)).lookup k ∧
            k ∈ mm.map Prod.fst := by
          intro k hk
          obtain ⟨w, hw⟩ := glookup_isSome_of_mem_keys mc k hk
          have h1 : (mm : List (String × Formula)).lookup k = some w :=
            merge_lookup_right mfold mc mm h k w hw
          refine ⟨by rw [h1, hw], mem_keys_of_glookup _ k w h1⟩
        have hconc : inst.conclusion = r.conclusion.substitute_variables mm := by
          rw [hce]
          refine substitute_variables_congr r.conclusion mc mm ?_
          intro v hv
          exact ((hliftC v (hcc v hv)).1).symm
        have hassum : inst.assumptions =
            r.assumptions.map (fun a => a.substitute_variables mm) := by
          refine zip_pairs_eq_map _ r.assumptions inst.assumptions hlen ?_
          intro q hq
          obtain ⟨he, hc2⟩ := hpairs q hq
          rw [he]
          refine substitute_variables_congr q.1 mfold mm ?_
          intro v hv
          exact ((hliftA v (hc2 v hv)).1).symm
        refine ⟨?_, ?_, ?_⟩
        · cases inst with
          | mk ia ic =>
            unfold InferenceRule.specialize
            simp only at hassum hconc
            rw [hassum, hconc]
        · intro a ha v hv
          have hq : (a, a.substitute_variables mm) ∈
              r.assumptions.zip inst.assumptions := by
            rw [hassum, zip_self_map]
            exact List.mem_map_of_mem _ ha
          obtain ⟨_, hc2⟩ := hpairs _ hq
          exact (hliftA v (hc2 v hv)).2
        · intro v hv
          exact (hliftC v (hcc v hv)).2
  · rw [if_neg hlen] at h
    simp at h

theorem is_specialization_of_specialize (r : InferenceRule)
    (σ : List (String × Formula))
    (hA : ∀ a ∈ r.assumptions, ∀ v ∈ a.variablesOf,
      ∃ w, σ.lookup v = some w)
    (hC : ∀ v ∈ r.conclusion.variablesOf, ∃ w, σ.lookup v = some w) :
    (r.specialize σ).is_specialization_of r = true := by
  unfold InferenceRule.is_specialization_of
  unfold InferenceRule.specialization_map
  have hlen : r.assumptions.length = (r.specialize σ).assumptions.length := by
    unfold InferenceRule.specialize
    simp
  rw [if_pos hlen]
  have hzip : r.assumptions.zip (r.specialize σ).assumptions =
      r.assumptions.map (fun a => (a, a.substitute_variables σ)) := by
    unfold InferenceRule.specialize
    exact zip_self_map _ r.assumptions
  rw [hzip]
  obtain ⟨mf, hfold, hmf⟩ := fold_merge_complete σ r.assumptions hA []
    (by intro k v hm; simp at hm)
  rw [hfold]
  have hcc : (r.specialize σ).conclusion =
      r.conclusion.substitute_variables σ := rfl
  rw [hcc]
  obtain ⟨mc, hfsm, hmc⟩ := fsm_complete r.conclusion σ hC
  rw [hfsm]
  obtain ⟨mm, hmerge, _⟩ := merge_succeeds σ mf mc hmf hmc
  rw [hmerge]
  rfl

theorem is_specialization_of_substitute (inst r : InferenceRule)
    (σ : List (String × Formula))
    (h : inst.is_specialization_of r = true) :
    (inst.specialize σ).is_specialization_of r = true := by
  unfold InferenceRule.is_specialization_of at h
  cases hmap : r.specialization_map inst with
  | none => rw [hmap] at h; simp at h
  | some mm =>
    obtain ⟨hinst, hA, hC⟩ := specialization_map_sound r inst mm hmap
    have hkey : (inst.specialize σ) = r.specialize
        (mm.map (fun kv => (kv.1, kv.2.substitute_variables σ))) := by
      rw [hinst]
      unfold InferenceRule.specialize
      simp only [List.map_map]
      congr 1
      · refine List.map_congr_left ?_
        intro a ha
        show (a.substitute_variables mm).substitute_variables σ = _
        exact substitute_variables_comp a mm σ (hA a ha)
      · exact substitute_variables_comp r.conclusion mm σ hC
    rw [hkey]
    refine is_specialization_of_specialize r _ ?_ ?_
    · intro a ha v hv
      have hk : v ∈ (mm.map
          (fun kv => (kv.1, kv.2.substitute_variables σ))).map Prod.fst := by
        simp only [List.map_map]
        simpa using hA a ha v hv
      exact glookup_isSome_of_mem_keys _ v hk
    · intro v hv
      have hk : v ∈ (mm.map
          (fun kv => (kv.1, kv.2.substitute_variables σ))).map Prod.fst := by
        simp only [List.map_map]
        simpa using hC v hv
      exact glookup_isSome_of_mem_keys _ v hk

/-! ## C6: `prove_specialization`, `inlineOnceBody`, `inline_proof`
(`propositions/proofs.py`) -/

/-- `prove_specialization`: substitute the statement's specialization map in
every line formula, keeping each line's rule and citations. The Python code
passes the raw return value of `specialization_map` (never `None` on the
asserted inputs); the embedding reads it with `.getD []`. -/
def prove_specialization (proof : Proof) (specialization : InferenceRule) :
    Proof :=
  ⟨specialization, proof.rules,
    proof.lines.map (fun l =>
      if l.is_assumption then
        ⟨l.formula.substitute_variables
          ((proof.statement.specialization_map specialization).getD
            ([] : List (String × Formula))), none⟩
      else
        ⟨l.formula.substitute_variables
          ((proof.statement.specialization_map specialization).getD
            ([] : List (String × Formula))), l.justification⟩)⟩

/-- The `proof_to_use` scan of `inlineOnceBody`: the last line before
`line_number` in the main proof that derives (not assumes) the formula. -/
def findProofToUse (main : Proof) (line_number : Nat) (f : Formula) :
    Option Line :=
  List.getLast? ((main.lines.take line_number).filter
    (fun pl => decide (pl.formula = f) && ! pl.is_assumption))

/-- Processing of one inserted lemma line in `inlineOnceBody`. In Python
the first branch tests `line in main_proof.statement.assumptions`, which
compares a `Line` object with the `Formula` elements of a tuple; no `Line`
ever equals a `Formula` (`Formula.__eq__` requires `isinstance(other,
Formula)` and `Line` has no `__eq__`), so that branch is dead and every
assumption line reaches the `proof_to_use` scan. -/
def inlineLemmaLine (main : Proof) (line_number : Nat) (l : Line) : Line :=
  match l.justification with
  | none =>
    match findProofToUse main line_number l.formula with
    | none => l
    | some pl => ⟨l.formula, pl.justification⟩
  | some (r, cits) =>
    ⟨l.formula, some (r, cits.map (fun c => c + line_number))⟩

/-- Citation re-indexing of the lines after the replaced one: indices at or
beyond `line_number` move by `add_lines - 1` (in ℕ; `add_lines` is at least 1
for every valid lemma proof, matching the Python integer arithmetic there). -/
def shiftSuffixLine (line_number add_lines : Nat) (l : Line) : Line :=
  match l.justification with
  | none => l
  | some (r, cits) =>
    ⟨l.formula, some (r, cits.map (fun c =>
      if line_number ≤ c then c + add_lines - 1 else c))⟩

/-- The body of `inline_proof_once` after its two leading `assert`
statements (modelled in `inline_proof_once` below): keep the lines before
`line_number`, splice in the specialized lemma lines (specialized to
`rule_for_line(line_number)`, read with `.getD` of a junk rule for the
never-taken `None` case), and shift the citations of the remaining lines;
the rules become the union (embedded as list append) of both rule sets. The
Python index loop never inserts when `line_number` is out of range, hence
the guard. -/
def inlineOnceBody (main : Proof) (line_number : Nat) (lem : Proof) :
    Proof :=
  let lemma_lines := prove_specialization lem
    ((main.rule_for_line line_number).getD ⟨[], default⟩)
  let add_lines := lemma_lines.lines.length
  if line_number < main.lines.length then
    ⟨main.statement, main.rules ++ lem.rules,
      main.lines.take line_number ++
        lemma_lines.lines.map (inlineLemmaLine main line_number) ++
        (main.lines.drop (line_number + 1)).map
          (shiftSuffixLine line_number add_lines)⟩
  else
    ⟨main.statement, main.rules ++ lem.rules, main.lines⟩

/-- One iteration body of the `inline_proof` loop: inline at `index` and
remove the lemma's statement from the rule set (`difference({statement})`
embedded as a filter). -/
def inlineStepBody (main : Proof) (index : Nat) (lem : Proof) : Proof :=
  ⟨(inlineOnceBody main index lem).statement,
    (inlineOnceBody main index lem).rules.filter
      (fun r => ! decide (r = lem.statement)),
    (inlineOnceBody main index lem).lines⟩

theorem prove_specialization_length (p : Proof) (s : InferenceRule) :
    (prove_specialization p s).lines.length = p.lines.length := by
  unfold prove_specialization
  simp

theorem inlineOnceBody_length (main : Proof) (ln : Nat) (lem : Proof)
    (h : ln < main.lines.length) :
    (inlineOnceBody main ln lem).lines.length =
      main.lines.length + lem.lines.length - 1 := by
  unfold inlineOnceBody
  rw [if_pos h]
  simp [prove_specialization_length]
  omega

/-- `inline_proof_once`, including its two leading `assert` statements:
`assert main_proof.lines[line_number].rule == lemma_proof.statement` (for an
assumption line Python compares `None` to an `InferenceRule`, which is
unequal, so the assert fails) and `assert lemma_proof.is_valid()`. A failing
assert — or an out-of-range `line_number`, where Python's indexing raises
`IndexError` — is `none`. -/
def inline_proof_once (main : Proof) (line_number : Nat) (lem : Proof) :
    Option Proof :=
  if line_number < main.lines.length then
    match (main.lines.getD line_number default).justification with
    | some (r, _) =>
      if r = lem.statement then
        if lem.is_valid? = some true then
          some (inlineOnceBody main line_number lem)
        else none
      else none
    | none => none
  else none

theorem inline_proof_once_some_len (main : Proof) (ln : Nat) (lem : Proof)
    (w : Proof) (h : inline_proof_once main ln lem = some w) :
    ln < main.lines.length ∧
      w.lines.length = main.lines.length + lem.lines.length - 1 := by
  unfold inline_proof_once at h
  by_cases hln : ln < main.lines.length
  · rw [if_pos hln] at h
    refine ⟨hln, ?_⟩
    cases hj : (main.lines.getD ln default).justification with
    | none =>
      rw [hj] at h
      exact absurd h (by simp)
    | some rc =>
      obtain ⟨r, cits⟩ := rc
      rw [hj] at h
      simp only at h
      by_cases h1 : r = lem.statement
      · rw [if_pos h1] at h
        by_cases h2 : lem.is_valid? = some true
        · rw [if_pos h2] at h
          injection h with h3
          rw [← h3]
          exact inlineOnceBody_length main ln lem hln
        · rw [if_neg h2] at h
          exact absurd h (by simp)
      · rw [if_neg h1] at h
        exact absurd h (by simp)
  · rw [if_neg hln] at h
    exact absurd h (by simp)

theorem inline_proof_once_succeeds (main : Proof) (ln : Nat) (lem : Proof)
    (hln : ln < main.lines.length) (r : InferenceRule) (cits : List Nat)
    (hj : (main.lines.getD ln default).justification = some (r, cits))
    (hr : r = lem.statement) (hlem : lem.is_valid? = some true) :
    inline_proof_once main ln lem = some (inlineOnceBody main ln lem) := by
  unfold inline_proof_once
  rw [if_pos hln, hj]
  show (if r = lem.statement then
      (if lem.is_valid? = some true then
        some (inlineOnceBody main ln lem)
      else none)
    else none) = some (inlineOnceBody main ln lem)
  rw [if_pos hr, if_pos hlem]

/-- The `while` loop of `inline_proof`: scan for a line whose
`rule_for_line` specializes the lemma's statement, inline there (an
`AssertionError` escaping `inline_proof_once` propagates out as `none`),
remove the lemma's statement from the rule set (`difference({statement})`
embedded as a filter), and jump ahead by the lemma's line count; terminates
because each step shortens the part of the proof at or after `index` by one
line. -/
def inlineLoop (lem : Proof) (main : Proof) (index : Nat) : Option Proof :=
  if h : index < main.lines.length then
    match main.rule_for_line index with
    | some inf =>
      if inf.is_specialization_of lem.statement then
        if hstep : (inline_proof_once main index lem).isSome then
          inlineLoop lem
            ⟨((inline_proof_once main index lem).getD
                ⟨⟨[], default⟩, [], []⟩).statement,
              ((inline_proof_once main index lem).getD
                ⟨⟨[], default⟩, [], []⟩).rules.filter
                (fun r => ! decide (r = lem.statement)),
              ((inline_proof_once main index lem).getD
                ⟨⟨[], default⟩, [], []⟩).lines⟩
            (index + lem.lines.length)
        else none
      else inlineLoop lem main (index + 1)
    | none => inlineLoop lem main (index + 1)
  else some main
termination_by main.lines.length - index
decreasing_by
  · obtain ⟨w, hw⟩ := Option.isSome_iff_exists.mp hstep
    obtain ⟨h1, h2⟩ := inline_proof_once_some_len main index lem w hw
    simp only [hw, Option.getD_some]
    omega
  · omega

/-- `inline_proof`: `none` models an uncaught exception. -/
def inline_proof (main lem : Proof) : Option Proof := inlineLoop lem main 0

theorem inlineLoop_stop (lem main : Proof) (idx : Nat)
    (h : ¬ idx < main.lines.length) :
    inlineLoop lem main idx = some main := by
  rw [inlineLoop]
  rw [dif_neg h]

theorem inlineLoop_skip_none (lem main : Proof) (idx : Nat)
    (h : idx < main.lines.length) (hrl : main.rule_for_line idx = none) :
    inlineLoop lem main idx = inlineLoop lem main (idx + 1) := by
  rw [inlineLoop]
  rw [dif_pos h, hrl]

theorem inlineLoop_skip_nospec (lem main : Proof) (idx : Nat)
    (h : idx < main.lines.length) (inf : InferenceRule)
    (hrl : main.rule_for_line idx = some inf)
    (hsp : inf.is_specialization_of lem.statement = false) :
    inlineLoop lem main idx = inlineLoop lem main (idx + 1) := by
  rw [inlineLoop]
  rw [dif_pos h, hrl]
  simp only [hsp]
  rfl

theorem inlineLoop_step_eq (lem main : Proof) (idx : Nat)
    (h : idx < main.lines.length) (inf : InferenceRule)
    (hrl : main.rule_for_line idx = some inf)
    (hsp : inf.is_specialization_of lem.statement = true)
    (r : InferenceRule) (cits : List Nat)
    (hj : (main.lines.getD idx default).justification = some (r, cits))
    (hr : r = lem.statement) (hlem : lem.is_valid? = some true) :
    inlineLoop lem main idx =
      inlineLoop lem (inlineStepBody main idx lem)
        (idx + lem.lines.length) := by
  have hsucc := inline_proof_once_succeeds main idx lem h r cits hj hr hlem
  have hsome : (inline_proof_once main idx lem).isSome = true := by
    rw [hsucc]
    rfl
  rw [inlineLoop]
  rw [dif_pos h, hrl]
  simp only
  rw [if_pos hsp]
  rw [dif_pos hsome]
  rw [hsucc]
  rfl

theorem inlineLoop_step_fail (lem main : Proof) (idx : Nat)
    (h : idx < main.lines.length) (inf : InferenceRule)
    (hrl : main.rule_for_line idx = some inf)
    (hsp : inf.is_specialization_of lem.statement = true)
    (hfail : inline_proof_once main idx lem = none) :
    inlineLoop lem main idx = none := by
  rw [inlineLoop]
  rw [dif_pos h, hrl]
  simp only
  rw [if_pos hsp]
  rw [dif_neg (by rw [hfail]; simp)]

/-- A rule `{} |- q` proved by a one-line proof that cites the rule itself:
a valid proof of one of its own allowed rules. -/
def selfRule : InferenceRule := ⟨[], Formula.var "q"⟩

/-- The self-citing proof: statement `{} |- q`, allowed rules `{selfRule}`,
one line deriving `q` by `selfRule` with no cited lines. It is valid, and it
is simultaneously a valid proof of one of its own allowed rules. -/
def selfProof : Proof :=
  ⟨selfRule, [selfRule], [⟨Formula.var "q", some (selfRule, [])⟩]⟩

theorem self_rfl0 : selfProof.rule_for_line 0 = some selfRule := by decide

theorem self_spec : selfRule.is_specialization_of selfRule = true := by decide

theorem self_once : inlineStepBody selfProof 0 selfProof =
    ⟨selfRule, [], [⟨Formula.var "q", some (selfRule, [])⟩]⟩ := by decide

theorem inline_self_eq : inline_proof selfProof selfProof =
    some ⟨selfRule, [], [⟨Formula.var "q", some (selfRule, [])⟩]⟩ := by
  unfold inline_proof
  rw [inlineLoop_step_eq selfProof selfProof 0 (by decide) selfRule
    self_rfl0 self_spec selfRule [] (by decide) rfl (by decide)]
  rw [self_once]
  rw [inlineLoop_stop _ _ _ (by decide)]

/-- C6 counterexample: `selfProof` is a valid proof, and it is a valid proof
of one of its own allowed rules (`selfRule ∈ selfProof.rules`), so
`inline_proof selfProof selfProof` falls under the claim; but the returned
proof is invalid (`is_valid()` is `False`), and it still contains a line
whose cited rule is the lemma's statement: inlining replaces the line by the
lemma's own line, which cites the lemma rule again, while the rule is removed
from the allowed set. -/
theorem claim_C6_counterexample :
    selfProof.is_valid? = some true ∧
    selfProof.statement = selfRule ∧
    selfRule ∈ selfProof.rules ∧
    ∃ p, inline_proof selfProof selfProof = some p ∧
      p.is_valid? = some false ∧
      ∃ l ∈ p.lines, ∃ cits, l.justification = some (selfRule, cits) := by
  refine ⟨by decide, rfl, by decide,
    ⟨selfRule, [], [⟨Formula.var "q", some (selfRule, [])⟩]⟩,
    inline_self_eq, by decide, ?_⟩
  exact ⟨⟨Formula.var "q", some (selfRule, [])⟩, by simp, [], rfl⟩

/-- A line is "OK modulo the lemma rule `L`": valid except that its cited
rule is allowed to be `L` even when `L` has been removed from the rule set.
During the `inline_proof` loop the intermediate proofs satisfy exactly this
(the loop removes `lemma_proof.statement` from the rules before handling the
later lines that may still cite it). -/
def LineOkL (L : InferenceRule) (p : Proof) (i : Nat) : Prop :=
  match (p.lines.getD i default).justification with
  | none => (p.lines.getD i default).formula ∈ p.statement.assumptions
  | some (r, cits) =>
    (r ∈ p.rules ∨ r = L) ∧ (∀ c ∈ cits, c < i) ∧
    InferenceRule.is_specialization_of
      ⟨cits.map (fun c => (p.lines.getD c default).formula),
        (p.lines.getD i default).formula⟩ r = true

theorem lineOkL_of_valid (L : InferenceRule) (p : Proof) (i : Nat)
    (h : p.is_line_valid i = true) : LineOkL L p i := by
  unfold LineOkL
  cases hj : (p.lines.getD i default).justification with
  | none => exact lineValidSpec_assumption_inv p i hj h
  | some rc =>
    obtain ⟨r, cits⟩ := rc
    obtain ⟨h1, h2, h3⟩ := lineValidSpec_derived_inv p i r cits hj h
    exact ⟨Or.inl h1, h2, h3⟩

theorem valid_of_lineOkL (L : InferenceRule) (p : Proof) (i : Nat)
    (hok : LineOkL L p i)
    (hno : ∀ r cits, (p.lines.getD i default).justification = some (r, cits) →
      r ≠ L) : p.is_line_valid i = true := by
  unfold LineOkL at hok
  cases hj : (p.lines.getD i default).justification with
  | none =>
    rw [hj] at hok
    exact lineValidSpec_assumption p i _ (by
      cases hline : p.lines.getD i default with
      | mk f j =>
        rw [hline] at hj
        simp only at hj
        rw [hj]) hok
  | some rc =>
    obtain ⟨r, cits⟩ := rc
    rw [hj] at hok
    obtain ⟨h1, h2, h3⟩ := hok
    have hr : r ∈ p.rules := by
      rcases h1 with h1 | h1
      · exact h1
      · exact absurd h1 (hno r cits hj)
    refine lineValidSpec_derived p i (p.lines.getD i default).formula r cits
      ?_ hr h2 h3
    cases hline : p.lines.getD i default with
    | mk f j =>
      rw [hline] at hj
      simp only at hj
      rw [hj]

theorem getD_drop {α : Type} [Inhabited α] (l : List α) (n k : Nat) :
    (l.drop n).getD k default = l.getD (n + k) default := by
  rw [List.getD_eq_getElem?_getD, List.getD_eq_getElem?_getD,
    List.getElem?_drop]

theorem getD_take_lt {α : Type} [Inhabited α] (l : List α) (n k : Nat)
    (hk : k < n) : (l.take n).getD k default = l.getD k default := by
  rw [List.getD_eq_getElem?_getD, List.getD_eq_getElem?_getD,
    List.getElem?_take_of_lt hk]

theorem getD_mem {α : Type} [Inhabited α] (l : List α) (i : Nat)
    (hi : i < l.length) : l.getD i default ∈ l := by
  rw [List.getD_eq_getElem l default hi]
  exact List.getElem_mem hi

theorem getLast_eq_getD {α : Type} [Inhabited α] (l : List α) (h : l ≠ []) :
    l.getLast h = l.getD (l.length - 1) default := by
  rw [List.getLast_eq_getElem, List.getD_eq_getElem l default
    (by cases l with
      | nil => exact absurd rfl h
      | cons a t => simp)]

theorem inlineLemmaLine_formula (main : Proof) (ln : Nat) (l : Line) :
    (inlineLemmaLine main ln l).formula = l.formula := by
  unfold inlineLemmaLine
  cases hj : l.justification with
  | none =>
    cases hf : findProofToUse main ln l.formula with
    | none => rfl
    | some pl => rfl
  | some rc =>
    obtain ⟨r, cits⟩ := rc
    rfl

theorem shiftSuffixLine_formula (ln a : Nat) (l : Line) :
    (shiftSuffixLine ln a l).formula = l.formula := by
  unfold shiftSuffixLine
  cases hj : l.justification with
  | none => rfl
  | some rc =>
    obtain ⟨r, cits⟩ := rc
    rfl

theorem once_statement (main : Proof) (ln : Nat) (lem : Proof) :
    (inlineOnceBody main ln lem).statement = main.statement := by
  unfold inlineOnceBody
  by_cases h : ln < main.lines.length
  · rw [if_pos h]
  · rw [if_neg h]

theorem once_rules (main : Proof) (ln : Nat) (lem : Proof) :
    (inlineOnceBody main ln lem).rules = main.rules ++ lem.rules := by
  unfold inlineOnceBody
  by_cases h : ln < main.lines.length
  · rw [if_pos h]
  · rw [if_neg h]

theorem once_lines (main : Proof) (ln : Nat) (lem : Proof)
    (h : ln < main.lines.length) :
    (inlineOnceBody main ln lem).lines =
      main.lines.take ln ++
        (prove_specialization lem
          ((main.rule_for_line ln).getD ⟨[], default⟩)).lines.map
          (inlineLemmaLine main ln) ++
        (main.lines.drop (ln + 1)).map
          (shiftSuffixLine ln lem.lines.length) := by
  unfold inlineOnceBody
  rw [if_pos h]
  rw [prove_specialization_length]

theorem lemSpec_getD (lem : Proof) (s : InferenceRule) (j : Nat)
    (hj : j < lem.lines.length) :
    (prove_specialization lem s).lines.getD j default =
      ⟨(lem.lines.getD j default).formula.substitute_variables
        ((lem.statement.specialization_map s).getD
          ([] : List (String × Formula))),
        (lem.lines.getD j default).justification⟩ := by
  unfold prove_specialization
  simp only
  rw [getD_map_lt _ lem.lines j hj]
  by_cases ha : (lem.lines.getD j default).is_assumption = true
  · rw [if_pos ha]
    unfold Line.is_assumption at ha
    rw [Option.isNone_iff_eq_none] at ha
    rw [ha]
  · rw [if_neg ha]

theorem once_getD_lt (main : Proof) (ln : Nat) (lem : Proof) (i : Nat)
    (hln : ln < main.lines.length) (hi : i < ln) :
    (inlineOnceBody main ln lem).lines.getD i default =
      main.lines.getD i default := by
  rw [once_lines main ln lem hln, List.append_assoc]
  rw [getD_append_lt _ _ i (by
    rw [List.length_take]
    omega)]
  exact getD_take_lt main.lines ln i hi

theorem once_getD_block (main : Proof) (ln : Nat) (lem : Proof) (j : Nat)
    (hln : ln < main.lines.length) (hj : j < lem.lines.length) :
    (inlineOnceBody main ln lem).lines.getD (ln + j) default =
      inlineLemmaLine main ln
        ((prove_specialization lem
          ((main.rule_for_line ln).getD ⟨[], default⟩)).lines.getD
            j default) := by
  rw [once_lines main ln lem hln, List.append_assoc]
  have hA : (main.lines.take ln).length = ln := by
    rw [List.length_take]
    omega
  rw [show ln + j = (main.lines.take ln).length + j by rw [hA]]
  rw [getD_append_idx _ _ default j (by
    rw [List.length_append, List.length_map, prove_specialization_length]
    omega)]
  rw [getD_append_lt _ _ j (by
    rw [List.length_map, prove_specialization_length]
    exact hj)]
  exact getD_map_lt _ _ j (by rw [prove_specialization_length]; exact hj)

theorem once_getD_suffix (main : Proof) (ln : Nat) (lem : Proof) (i : Nat)
    (hln : ln < main.lines.length) (hi1 : ln < i)
    (hi2 : i < main.lines.length) :
    (inlineOnceBody main ln lem).lines.getD
        (i + lem.lines.length - 1) default =
      shiftSuffixLine ln lem.lines.length (main.lines.getD i default) := by
  rw [once_lines main ln lem hln]
  have hAB : (main.lines.take ln ++
      (prove_specialization lem
        ((main.rule_for_line ln).getD ⟨[], default⟩)).lines.map
        (inlineLemmaLine main ln)).length = ln + lem.lines.length := by
    rw [List.length_append, List.length_take, List.length_map,
      prove_specialization_length]
    omega
  rw [show i + lem.lines.length - 1 =
    (ln + lem.lines.length) + (i - ln - 1) by omega]
  rw [← hAB]
  rw [getD_append_idx _ _ default (i - ln - 1) (by
    rw [List.length_map, List.length_drop]
    omega)]
  rw [getD_map_lt _ _ _ (by
    rw [List.length_drop]
    omega)]
  rw [getD_drop]
  rw [show ln + 1 + (i - ln - 1) = i by omega]

theorem rule_for_line_some_inv (p : Proof) (i : Nat) (inf : InferenceRule)
    (h : p.rule_for_line i = some inf) :
    ∃ rln cits, (p.lines.getD i default).justification = some (rln, cits) ∧
      inf = ⟨cits.map (fun c => (p.lines.getD c default).formula),
        (p.lines.getD i default).formula⟩ := by
  unfold Proof.rule_for_line at h
  cases hj : (p.lines.getD i default).justification with
  | none =>
    rw [hj] at h
    simp at h
  | some rc =>
    obtain ⟨rln, cits⟩ := rc
    rw [hj] at h
    simp only [Option.some.injEq] at h
    exact ⟨rln, cits, rfl, h.symm⟩

theorem rule_for_line_none_inv (p : Proof) (i : Nat)
    (h : p.rule_for_line i = none) :
    (p.lines.getD i default).justification = none := by
  unfold Proof.rule_for_line at h
  cases hj : (p.lines.getD i default).justification with
  | none => rfl
  | some rc =>
    obtain ⟨rln, cits⟩ := rc
    rw [hj] at h
    simp at h

theorem findProofToUse_some (main : Proof) (ln : Nat) (f : Formula)
    (pl : Line) (h : findProofToUse main ln f = some pl) :
    ∃ c, c < ln ∧ c < main.lines.length ∧
      main.lines.getD c default = pl ∧
      pl.is_assumption = false ∧ pl.formula = f := by
  unfold findProofToUse at h
  have hmem : pl ∈ (main.lines.take ln).filter
      (fun pl => decide (pl.formula = f) && ! pl.is_assumption) := by
    obtain ⟨hne, hEq⟩ := List.mem_getLast?_eq_getLast
      (x := pl) (by rw [Option.mem_def]; exact h)
    rw [hEq]
    exact List.getLast_mem hne
  have hpred := List.of_mem_filter hmem
  have htake : pl ∈ main.lines.take ln := List.mem_of_mem_filter hmem
  simp only [Bool.and_eq_true, decide_eq_true_eq, Bool.not_eq_true'] at hpred
  obtain ⟨c, hc, hEq⟩ := List.getElem_of_mem htake
  rw [List.length_take] at hc
  have hclen : c < main.lines.length := lt_of_lt_of_le hc (min_le_right _ _)
  have hcln : c < ln := lt_of_lt_of_le hc (min_le_left _ _)
  refine ⟨c, hcln, hclen, ?_, hpred.2, hpred.1⟩
  rw [List.getD_eq_getElem main.lines default hclen]
  rw [← hEq, List.getElem_take]

theorem findProofToUse_none (main : Proof) (ln : Nat) (f : Formula)
    (h : findProofToUse main ln f = none) :
    ∀ c, c < ln → c < main.lines.length →
      (main.lines.getD c default).formula = f →
      (main.lines.getD c default).is_assumption = true := by
  intro c hcln hclen hf
  by_contra hassum
  unfold findProofToUse at h
  rw [List.getLast?_eq_none_iff] at h
  have hmem : main.lines.getD c default ∈ main.lines.take ln := by
    have h1 : (main.lines.take ln).getD c default =
        main.lines.getD c default := getD_take_lt main.lines ln c hcln
    rw [← h1]
    refine getD_mem _ c ?_
    rw [List.length_take]
    omega
  have hin : main.lines.getD c default ∈ (main.lines.take ln).filter
      (fun pl => decide (pl.formula = f) && ! pl.is_assumption) := by
    refine List.mem_filter.mpr ⟨hmem, ?_⟩
    simp only [Bool.and_eq_true, decide_eq_true_eq, Bool.not_eq_true']
    exact ⟨hf, by simpa using hassum⟩
  rw [h] at hin
  simp at hin

theorem inlineStepBody_lines (main : Proof) (ln : Nat) (lem : Proof) :
    (inlineStepBody main ln lem).lines = (inlineOnceBody main ln lem).lines :=
  rfl

theorem inlineStepBody_statement (main : Proof) (ln : Nat) (lem : Proof) :
    (inlineStepBody main ln lem).statement = main.statement :=
  once_statement main ln lem

theorem inlineStepBody_rules (main : Proof) (ln : Nat) (lem : Proof) :
    (inlineStepBody main ln lem).rules = (main.rules ++ lem.rules).filter
      (fun r => ! decide (r = lem.statement)) := by
  unfold inlineStepBody
  rw [once_rules]

theorem mem_step_rules (main : Proof) (ln : Nat) (lem : Proof)
    (r : InferenceRule) (hr : r ∈ main.rules ∨ r ∈ lem.rules)
    (hne : r ≠ lem.statement) : r ∈ (inlineStepBody main ln lem).rules := by
  rw [inlineStepBody_rules]
  refine List.mem_filter.mpr ⟨List.mem_append.mpr hr, by simp [hne]⟩

theorem lem_valid_line (lem : Proof) (hlem : lem.is_valid? = some true)
    (j : Nat) (hj : j < lem.lines.length) : LineValidSpec lem j := by
  have hne : lem.lines ≠ [] := valid_lines_ne_nil lem hlem
  exact ((is_valid_iff lem hne).mp hlem).1 j hj

theorem lem_valid_last (lem : Proof) (hlem : lem.is_valid? = some true) :
    (lem.lines.getD (lem.lines.length - 1) default).formula =
      lem.statement.conclusion := by
  have hne : lem.lines ≠ [] := valid_lines_ne_nil lem hlem
  have h := ((is_valid_iff lem hne).mp hlem).2
  rw [getLast_eq_getD lem.lines hne] at h
  exact h

theorem line_eq_of_justification_none (l : Line)
    (h : l.justification = none) : l = ⟨l.formula, none⟩ := by
  cases l with
  | mk f j =>
    simp only at h
    rw [h]

theorem line_eq_of_justification_some (l : Line) (r : InferenceRule)
    (cits : List Nat) (h : l.justification = some (r, cits)) :
    l = ⟨l.formula, some (r, cits)⟩ := by
  cases l with
  | mk f j =>
    simp only at h
    rw [h]

theorem lineOkL_assumption (L : InferenceRule) (p : Proof) (i : Nat)
    (f : Formula) (hline : p.lines.getD i default = ⟨f, none⟩)
    (hmem : f ∈ p.statement.assumptions) : LineOkL L p i := by
  unfold LineOkL
  rw [hline]
  exact hmem

theorem lineOkL_derived (L : InferenceRule) (p : Proof) (i : Nat)
    (f : Formula) (r : InferenceRule) (cits : List Nat)
    (hline : p.lines.getD i default = ⟨f, some (r, cits)⟩)
    (hrule : r ∈ p.rules ∨ r = L) (hlt : ∀ c ∈ cits, c < i)
    (hspec : InferenceRule.is_specialization_of
      ⟨cits.map (fun c => (p.lines.getD c default).formula), f⟩ r = true) :
    LineOkL L p i := by
  unfold LineOkL
  rw [hline]
  exact ⟨hrule, hlt, hspec⟩

theorem lineOkL_assumption_inv (L : InferenceRule) (p : Proof) (i : Nat)
    (hj : (p.lines.getD i default).justification = none)
    (h : LineOkL L p i) :
    (p.lines.getD i default).formula ∈ p.statement.assumptions := by
  unfold LineOkL at h
  rw [hj] at h
  exact h

theorem lineOkL_derived_inv (L : InferenceRule) (p : Proof) (i : Nat)
    (r : InferenceRule) (cits : List Nat)
    (hj : (p.lines.getD i default).justification = some (r, cits))
    (h : LineOkL L p i) :
    (r ∈ p.rules ∨ r = L) ∧ (∀ c ∈ cits, c < i) ∧
    InferenceRule.is_specialization_of
      ⟨cits.map (fun c => (p.lines.getD c default).formula),
        (p.lines.getD i default).formula⟩ r = true := by
  unfold LineOkL at h
  rw [hj] at h
  exact h

theorem once_block_formula (main lem : Proof) (ln : Nat)
    (inf : InferenceRule) (hln : ln < main.lines.length)
    (hr : main.rule_for_line ln = some inf) (j : Nat)
    (hj : j < lem.lines.length) :
    ((inlineOnceBody main ln lem).lines.getD (ln + j) default).formula =
      (lem.lines.getD j default).formula.substitute_variables
        ((lem.statement.specialization_map inf).getD
          ([] : List (String × Formula))) := by
  have hgetD : (main.rule_for_line ln).getD ⟨[], default⟩ = inf := by
    rw [hr]
    rfl
  rw [once_getD_block main ln lem j hln hj, inlineLemmaLine_formula, hgetD,
    lemSpec_getD lem inf j hj]

theorem once_block_last (main lem : Proof) (ln : Nat)
    (inf : InferenceRule) (hlem : lem.is_valid? = some true)
    (hln : ln < main.lines.length)
    (hr : main.rule_for_line ln = some inf)
    (hs : inf.is_specialization_of lem.statement = true) :
    ((inlineOnceBody main ln lem).lines.getD
        (ln + (lem.lines.length - 1)) default).formula =
      (main.lines.getD ln default).formula := by
  have hpos : 0 < lem.lines.length :=
    List.length_pos.mpr (valid_lines_ne_nil lem hlem)
  rw [once_block_formula main lem ln inf hln hr (lem.lines.length - 1)
    (by omega)]
  rw [lem_valid_last lem hlem]
  unfold InferenceRule.is_specialization_of at hs
  obtain ⟨mymap, hmy⟩ := Option.isSome_iff_exists.mp hs
  obtain ⟨hinst, -, -⟩ := specialization_map_sound lem.statement inf mymap hmy
  rw [hmy]
  simp only [Option.getD_some]
  obtain ⟨rln, cits, hjln, hinfEq⟩ := rule_for_line_some_inv main ln inf hr
  have hc1 : inf.conclusion = (main.lines.getD ln default).formula := by
    rw [hinfEq]
  have hc2 : inf.conclusion =
      lem.statement.conclusion.substitute_variables mymap := by
    rw [hinst]
    rfl
  rw [← hc2, hc1]

theorem once_cit_formula (main lem : Proof) (ln : Nat)
    (inf : InferenceRule) (hlem : lem.is_valid? = some true)
    (hln : ln < main.lines.length)
    (hr : main.rule_for_line ln = some inf)
    (hs : inf.is_specialization_of lem.statement = true) :
    ∀ c, ln ≤ c → c < main.lines.length →
    ((inlineOnceBody main ln lem).lines.getD
        (c + lem.lines.length - 1) default).formula =
      (main.lines.getD c default).formula := by
  intro c h1 h2
  have hpos : 0 < lem.lines.length :=
    List.length_pos.mpr (valid_lines_ne_nil lem hlem)
  rcases eq_or_lt_of_le h1 with rfl | hlt
  · rw [show ln + lem.lines.length - 1 = ln + (lem.lines.length - 1)
      by omega]
    exact once_block_last main lem ln inf hlem h2 hr hs
  · rw [once_getD_suffix main ln lem c hln hlt h2, shiftSuffixLine_formula]

theorem inlineStepBody_lineOk_prefix (main lem : Proof) (ln : Nat)
    (hJ3 : ∀ i, i < main.lines.length → LineOkL lem.statement main i)
    (hJ4 : ∀ i, i < ln → ∀ r cits,
      (main.lines.getD i default).justification = some (r, cits) →
      r ≠ lem.statement)
    (hln : ln < main.lines.length) :
    ∀ i, i < ln → LineOkL lem.statement (inlineStepBody main ln lem) i := by
  intro i hi
  have hgl : (inlineStepBody main ln lem).lines.getD i default =
      main.lines.getD i default := by
    rw [inlineStepBody_lines]
    exact once_getD_lt main ln lem i hln hi
  have hok := hJ3 i (lt_trans hi hln)
  cases hjus : (main.lines.getD i default).justification with
  | none =>
    refine lineOkL_assumption _ _ i (main.lines.getD i default).formula
      ?_ ?_
    · rw [hgl]
      exact line_eq_of_justification_none _ hjus
    · rw [inlineStepBody_statement]
      exact lineOkL_assumption_inv _ main i hjus hok
  | some rc =>
    obtain ⟨r, cits⟩ := rc
    obtain ⟨hrule, hlt, hspec⟩ := lineOkL_derived_inv _ main i r cits hjus hok
    have hrne : r ≠ lem.statement := hJ4 i hi r cits hjus
    have hrmem : r ∈ main.rules := by
      rcases hrule with h | h
      · exact h
      · exact absurd h hrne
    refine lineOkL_derived lem.statement _ i
      (main.lines.getD i default).formula r cits ?_ ?_ hlt ?_
    · rw [hgl]
      exact line_eq_of_justification_some _ r cits hjus
    · exact Or.inl (mem_step_rules main ln lem r (Or.inl hrmem) hrne)
    · have hmapeq : cits.map
          (fun c => ((inlineStepBody main ln lem).lines.getD c default).formula)
          = cits.map (fun c => (main.lines.getD c default).formula) := by
        refine List.map_congr_left ?_
        intro c hc
        rw [inlineStepBody_lines,
          once_getD_lt main ln lem c hln (lt_trans (hlt c hc) hi)]
      rw [hmapeq]
      exact hspec

theorem inlineStepBody_lineOk_suffix (main lem : Proof) (ln : Nat)
    (inf : InferenceRule) (hlem : lem.is_valid? = some true)
    (hJ3 : ∀ i, i < main.lines.length → LineOkL lem.statement main i)
    (hln : ln < main.lines.length)
    (hr : main.rule_for_line ln = some inf)
    (hs : inf.is_specialization_of lem.statement = true) :
    ∀ i, ln < i → i < main.lines.length →
    LineOkL lem.statement (inlineStepBody main ln lem)
      (i + lem.lines.length - 1) := by
  intro i h1 h2
  have hpos : 0 < lem.lines.length :=
    List.length_pos.mpr (valid_lines_ne_nil lem hlem)
  have hgl : (inlineStepBody main ln lem).lines.getD
      (i + lem.lines.length - 1) default =
      shiftSuffixLine ln lem.lines.length (main.lines.getD i default) := by
    rw [inlineStepBody_lines]
    exact once_getD_suffix main ln lem i hln h1 h2
  have hok := hJ3 i h2
  cases hjus : (main.lines.getD i default).justification with
  | none =>
    have hshift : shiftSuffixLine ln lem.lines.length
        (main.lines.getD i default) = main.lines.getD i default := by
      unfold shiftSuffixLine
      rw [hjus]
    refine lineOkL_assumption _ _ _ (main.lines.getD i default).formula
      ?_ ?_
    · rw [hgl, hshift]
      exact line_eq_of_justification_none _ hjus
    · rw [inlineStepBody_statement]
      exact lineOkL_assumption_inv _ main i hjus hok
  | some rc =>
    obtain ⟨r, cits⟩ := rc
    obtain ⟨hrule, hlt, hspec⟩ := lineOkL_derived_inv _ main i r cits hjus hok
    have hshift : shiftSuffixLine ln lem.lines.length
        (main.lines.getD i default) =
        ⟨(main.lines.getD i default).formula,
          some (r, cits.map (fun c =>
            if ln ≤ c then c + lem.lines.length - 1 else c))⟩ := by
      unfold shiftSuffixLine
      rw [hjus]
    refine lineOkL_derived lem.statement _ _
      (main.lines.getD i default).formula r
      (cits.map (fun c => if ln ≤ c then c + lem.lines.length - 1 else c))
      ?_ ?_ ?_ ?_
    · rw [hgl, hshift]
    · rcases hrule with hmem | hL
      · by_cases hrL : r = lem.statement
        · exact Or.inr hrL
        · exact Or.inl (mem_step_rules main ln lem r (Or.inl hmem) hrL)
      · exact Or.inr hL
    · intro c' hc'
      obtain ⟨c, hc, hceq⟩ := List.mem_map.mp hc'
      have hci : c < i := hlt c hc
      subst hceq
      by_cases hcln : ln ≤ c
      · rw [if_pos hcln]
        omega
      · rw [if_neg hcln]
        omega
    · have hmapeq : (cits.map (fun c =>
          if ln ≤ c then c + lem.lines.length - 1 else c)).map
          (fun c => ((inlineStepBody main ln lem).lines.getD c default).formula)
          = cits.map (fun c => (main.lines.getD c default).formula) := by
        rw [List.map_map]
        refine List.map_congr_left ?_
        intro c hc
        have hci : c < i := hlt c hc
        simp only [Function.comp_apply]
        by_cases hcln : ln ≤ c
        · rw [if_pos hcln, inlineStepBody_lines]
          exact once_cit_formula main lem ln inf hlem hln hr hs c hcln
            (by omega)
        · rw [if_neg hcln, inlineStepBody_lines,
            once_getD_lt main ln lem c hln (by omega)]
      rw [hmapeq]
      exact hspec

theorem inlineLemmaLine_some_eq (main : Proof) (ln : Nat) (f : Formula)
    (r : InferenceRule) (cits : List Nat) :
    inlineLemmaLine main ln ⟨f, some (r, cits)⟩ =
      ⟨f, some (r, cits.map (fun c => c + ln))⟩ := rfl

theorem inlineLemmaLine_none_found (main : Proof) (ln : Nat) (f : Formula)
    (pl : Line) (h : findProofToUse main ln f = some pl) :
    inlineLemmaLine main ln ⟨f, none⟩ = ⟨f, pl.justification⟩ := by
  unfold inlineLemmaLine
  simp only
  rw [h]

theorem inlineLemmaLine_none_kept (main : Proof) (ln : Nat) (f : Formula)
    (h : findProofToUse main ln f = none) :
    inlineLemmaLine main ln ⟨f, none⟩ = ⟨f, none⟩ := by
  unfold inlineLemmaLine
  simp only
  rw [h]

theorem inlineStepBody_lineOk_block (main lem : Proof) (ln : Nat)
    (inf : InferenceRule)
    (hlem : lem.is_valid? = some true)
    (hno : ∀ l ∈ lem.lines, ∀ r cits, l.justification = some (r, cits) →
      r ≠ lem.statement)
    (hJ3 : ∀ i, i < main.lines.length → LineOkL lem.statement main i)
    (hJ4 : ∀ i, i < ln → ∀ r cits,
      (main.lines.getD i default).justification = some (r, cits) →
      r ≠ lem.statement)
    (hln : ln < main.lines.length)
    (hr : main.rule_for_line ln = some inf)
    (hs : inf.is_specialization_of lem.statement = true) :
    ∀ j, j < lem.lines.length →
    LineOkL lem.statement (inlineStepBody main ln lem) (ln + j) ∧
    (∀ r cits, ((inlineStepBody main ln lem).lines.getD (ln + j)
      default).justification = some (r, cits) → r ≠ lem.statement) := by
  intro j hj
  have hsome : (lem.statement.specialization_map inf).isSome = true := hs
  obtain ⟨mymap, hmy⟩ := Option.isSome_iff_exists.mp hsome
  obtain ⟨hinst, -, -⟩ := specialization_map_sound lem.statement inf mymap hmy
  have hgetD : (main.rule_for_line ln).getD ⟨[], default⟩ = inf := by
    rw [hr]
    rfl
  have hline0 : (inlineStepBody main ln lem).lines.getD (ln + j) default =
      inlineLemmaLine main ln
        ⟨(lem.lines.getD j default).formula.substitute_variables mymap,
          (lem.lines.getD j default).justification⟩ := by
    rw [inlineStepBody_lines, once_getD_block main ln lem j hln hj, hgetD,
      lemSpec_getD lem inf j hj, hmy]
    simp only [Option.getD_some]
  have hLVS := lem_valid_line lem hlem j hj
  have hmemLem : lem.lines.getD j default ∈ lem.lines := getD_mem _ j hj
  cases hjj : (lem.lines.getD j default).justification with
  | some rc =>
    obtain ⟨r, cits⟩ := rc
    rw [hjj] at hline0
    have hline1 : (inlineStepBody main ln lem).lines.getD (ln + j) default =
        ⟨(lem.lines.getD j default).formula.substitute_variables mymap,
          some (r, cits.map (fun c => c + ln))⟩ := by
      rw [hline0, inlineLemmaLine_some_eq]
    unfold LineValidSpec at hLVS
    rw [hjj] at hLVS
    obtain ⟨hrlem, hclem, hslem⟩ := hLVS
    have hrne : r ≠ lem.statement := hno _ hmemLem r cits hjj
    constructor
    · refine lineOkL_derived lem.statement _ _ _ r
        (cits.map (fun c => c + ln)) hline1 ?_ ?_ ?_
      · exact Or.inl (mem_step_rules main ln lem r (Or.inr hrlem) hrne)
      · intro c' hc'
        obtain ⟨c, hc, rfl⟩ := List.mem_map.mp hc'
        have := hclem c hc
        omega
      · have hmapeq : (cits.map (fun c => c + ln)).map
            (fun c =>
              ((inlineStepBody main ln lem).lines.getD c default).formula) =
            (cits.map (fun c => (lem.lines.getD c default).formula)).map
              (fun g => g.substitute_variables mymap) := by
          rw [List.map_map, List.map_map]
          refine List.map_congr_left ?_
          intro c hc
          simp only [Function.comp_apply]
          have hcj : c < j := hclem c hc
          rw [show c + ln = ln + c by omega]
          rw [inlineStepBody_lines,
            once_block_formula main lem ln inf hln hr c (by omega), hmy]
          simp only [Option.getD_some]
        rw [hmapeq]
        have hIeq : (⟨(cits.map
              (fun c => (lem.lines.getD c default).formula)).map
              (fun g => g.substitute_variables mymap),
            (lem.lines.getD j default).formula.substitute_variables
              mymap⟩ : InferenceRule) =
            InferenceRule.specialize
              ⟨cits.map (fun c => (lem.lines.getD c default).formula),
                (lem.lines.getD j default).formula⟩ mymap := rfl
        rw [hIeq]
        exact is_specialization_of_substitute _ r mymap hslem
    · intro r2 cits2 hj2
      rw [hline1] at hj2
      simp only [Option.some.injEq, Prod.mk.injEq] at hj2
      rw [← hj2.1]
      exact hrne
  | none =>
    rw [hjj] at hline0
    unfold LineValidSpec at hLVS
    rw [hjj] at hLVS
    have hfinf : (lem.lines.getD j default).formula.substitute_variables
        mymap ∈ inf.assumptions := by
      rw [hinst]
      show _ ∈ lem.statement.assumptions.map
        (fun a => a.substitute_variables mymap)
      exact List.mem_map_of_mem _ hLVS
    obtain ⟨rln, citsln, hjln, hinfEq⟩ := rule_for_line_some_inv main ln inf hr
    obtain ⟨-, hcitsln, -⟩ :=
      lineOkL_derived_inv _ main ln rln citsln hjln (hJ3 ln hln)
    have hinfA : inf.assumptions =
        citsln.map (fun c => (main.lines.getD c default).formula) := by
      rw [hinfEq]
    rw [hinfA] at hfinf
    obtain ⟨c0, hc0mem, hc0f⟩ := List.mem_map.mp hfinf
    have hc0ln : c0 < ln := hcitsln c0 hc0mem
    cases hfind : findProofToUse main ln
        ((lem.lines.getD j default).formula.substitute_variables mymap) with
    | some pl =>
      obtain ⟨c', hc'ln, hc'len, hgc', hpassum, hpf⟩ :=
        findProofToUse_some main ln _ pl hfind
      cases hpj : pl.justification with
      | none =>
        unfold Line.is_assumption at hpassum
        rw [hpj] at hpassum
        simp at hpassum
      | some rc' =>
        obtain ⟨r', cits'⟩ := rc'
        have hjc' : (main.lines.getD c' default).justification =
            some (r', cits') := by
          rw [hgc']
          exact hpj
        obtain ⟨hrule', hlt', hspec'⟩ :=
          lineOkL_derived_inv _ main c' r' cits' hjc' (hJ3 c' hc'len)
        have hr'ne : r' ≠ lem.statement := hJ4 c' hc'ln r' cits' hjc'
        have hr'mem : r' ∈ main.rules := by
          rcases hrule' with h | h
          · exact h
          · exact absurd h hr'ne
        have hline1 : (inlineStepBody main ln lem).lines.getD (ln + j)
            default =
            ⟨(lem.lines.getD j default).formula.substitute_variables mymap,
              some (r', cits')⟩ := by
          rw [hline0, inlineLemmaLine_none_found main ln _ pl hfind, hpj]
        constructor
        · refine lineOkL_derived lem.statement _ _ _ r' cits' hline1
            (Or.inl (mem_step_rules main ln lem r' (Or.inl hr'mem) hr'ne))
            ?_ ?_
          · intro c hc
            have := hlt' c hc
            omega
          · have hmapeq : cits'.map (fun c =>
                ((inlineStepBody main ln lem).lines.getD c default).formula) =
                cits'.map
                  (fun c => (main.lines.getD c default).formula) := by
              refine List.map_congr_left ?_
              intro c hc
              have hcc : c < c' := hlt' c hc
              rw [inlineStepBody_lines,
                once_getD_lt main ln lem c hln (by omega)]
            rw [hmapeq]
            have hceq : (main.lines.getD c' default).formula =
                (lem.lines.getD j default).formula.substitute_variables
                  mymap := by
              rw [hgc', hpf]
            rw [← hceq]
            exact hspec'
        · intro r2 cits2 hj2
          rw [hline1] at hj2
          simp only [Option.some.injEq, Prod.mk.injEq] at hj2
          rw [← hj2.1]
          exact hr'ne
    | none =>
      have hline1 : (inlineStepBody main ln lem).lines.getD (ln + j) default =
          ⟨(lem.lines.getD j default).formula.substitute_variables mymap,
            none⟩ := by
        rw [hline0, inlineLemmaLine_none_kept main ln _ hfind]
      have hass := findProofToUse_none main ln _ hfind c0 hc0ln
        (lt_trans hc0ln hln) hc0f
      have hjc0 : (main.lines.getD c0 default).justification = none := by
        unfold Line.is_assumption at hass
        exact Option.isNone_iff_eq_none.mp hass
      have hmem0 := lineOkL_assumption_inv lem.statement main c0 hjc0
        (hJ3 c0 (lt_trans hc0ln hln))
      rw [hc0f] at hmem0
      constructor
      · refine lineOkL_assumption _ _ _ _ hline1 ?_
        rw [inlineStepBody_statement]
        exact hmem0
      · intro r2 cits2 hj2
        rw [hline1] at hj2
        simp at hj2

theorem inlineStepBody_ok (main lem : Proof) (ln : Nat) (inf : InferenceRule)
    (hlem : lem.is_valid? = some true)
    (hno : ∀ l ∈ lem.lines, ∀ r cits, l.justification = some (r, cits) →
      r ≠ lem.statement)
    (hJ3 : ∀ i, i < main.lines.length → LineOkL lem.statement main i)
    (hJ4 : ∀ i, i < ln → ∀ r cits,
      (main.lines.getD i default).justification = some (r, cits) →
      r ≠ lem.statement)
    (hlast : (main.lines.getD (main.lines.length - 1) default).formula =
      main.statement.conclusion)
    (hln : ln < main.lines.length)
    (hr : main.rule_for_line ln = some inf)
    (hs : inf.is_specialization_of lem.statement = true) :
    (inlineStepBody main ln lem).statement = main.statement ∧
    (inlineStepBody main ln lem).lines.length =
      main.lines.length + lem.lines.length - 1 ∧
    ((inlineStepBody main ln lem).lines.getD
      ((inlineStepBody main ln lem).lines.length - 1) default).formula =
      main.statement.conclusion ∧
    (∀ i, i < (inlineStepBody main ln lem).lines.length →
      LineOkL lem.statement (inlineStepBody main ln lem) i) ∧
    (∀ i, i < ln + lem.lines.length → ∀ r cits,
      ((inlineStepBody main ln lem).lines.getD i default).justification =
        some (r, cits) → r ≠ lem.statement) := by
  have hpos : 0 < lem.lines.length :=
    List.length_pos.mpr (valid_lines_ne_nil lem hlem)
  have hlen : (inlineStepBody main ln lem).lines.length =
      main.lines.length + lem.lines.length - 1 := by
    rw [inlineStepBody_lines]
    exact inlineOnceBody_length main ln lem hln
  refine ⟨inlineStepBody_statement main ln lem, hlen, ?_, ?_, ?_⟩
  · rw [hlen]
    by_cases hcase : main.lines.length - 1 = ln
    · rw [show main.lines.length + lem.lines.length - 1 - 1 =
        ln + (lem.lines.length - 1) by omega]
      rw [inlineStepBody_lines,
        once_block_last main lem ln inf hlem hln hr hs]
      rw [show ln = main.lines.length - 1 from hcase.symm]
      exact hlast
    · have hgt : ln < main.lines.length - 1 := by omega
      rw [show main.lines.length + lem.lines.length - 1 - 1 =
        (main.lines.length - 1) + lem.lines.length - 1 by omega]
      rw [inlineStepBody_lines,
        once_cit_formula main lem ln inf hlem hln hr hs
          (main.lines.length - 1) (by omega) (by omega)]
      exact hlast
  · intro i hi
    rw [hlen] at hi
    rcases Nat.lt_or_ge i ln with h1 | h1
    · exact inlineStepBody_lineOk_prefix main lem ln hJ3 hJ4 hln i h1
    · rcases Nat.lt_or_ge i (ln + lem.lines.length) with h2 | h2
      · have hj : i - ln < lem.lines.length := by omega
        have := (inlineStepBody_lineOk_block main lem ln inf hlem hno hJ3 hJ4
          hln hr hs (i - ln) hj).1
        rw [show ln + (i - ln) = i by omega] at this
        exact this
      · have hold : ln < i - lem.lines.length + 1 := by omega
        have holdlen : i - lem.lines.length + 1 < main.lines.length := by
          omega
        have := inlineStepBody_lineOk_suffix main lem ln inf hlem hJ3 hln hr hs
          (i - lem.lines.length + 1) hold holdlen
        rw [show i - lem.lines.length + 1 + lem.lines.length - 1 = i
          by omega] at this
        exact this
  · intro i hi r cits hj
    rcases Nat.lt_or_ge i ln with h1 | h1
    · have hgl : (inlineStepBody main ln lem).lines.getD i default =
          main.lines.getD i default := by
        rw [inlineStepBody_lines]
        exact once_getD_lt main ln lem i hln h1
      rw [hgl] at hj
      exact hJ4 i h1 r cits hj
    · have hjj : i - ln < lem.lines.length := by omega
      have := (inlineStepBody_lineOk_block main lem ln inf hlem hno hJ3 hJ4
        hln hr hs (i - ln) hjj).2
      rw [show ln + (i - ln) = i by omega] at this
      exact this r cits hj

theorem loop_final (lem main : Proof)
    (hne : main.lines ≠ [])
    (hlast : (main.lines.getD (main.lines.length - 1) default).formula =
      main.statement.conclusion)
    (hJ3 : ∀ i, i < main.lines.length → LineOkL lem.statement main i)
    (hall : ∀ i, i < main.lines.length → ∀ r cits,
      (main.lines.getD i default).justification = some (r, cits) →
      r ≠ lem.statement) :
    main.is_valid? = some true ∧
    (∀ l ∈ main.lines, ∀ r cits, l.justification = some (r, cits) →
      r ≠ lem.statement) := by
  constructor
  · rw [is_valid_iff main hne]
    constructor
    · intro i hi
      rw [← is_line_valid_iff]
      exact valid_of_lineOkL lem.statement main i (hJ3 i hi) (hall i hi)
    · rw [getLast_eq_getD main.lines hne]
      exact hlast
  · intro l hl r cits hj
    obtain ⟨i, hi, hEq⟩ := List.getElem_of_mem hl
    refine hall i hi r cits ?_
    rw [List.getD_eq_getElem main.lines default hi, hEq]
    exact hj

/-- Propagation of the `assert`-matching invariant across one inline step:
if in `main` every line at or after `ln` whose `rule_for_line` instance
specializes the lemma's statement cites exactly the lemma's statement, the
same holds in `inlineStepBody main ln lem` for every line at or after
`ln + lem.lines.length` (each such line is a citation-shifted copy of a
line of `main` after `ln`, with the same rule, the same formula, and the
same cited formulas). -/
theorem inlineStepBody_assert (main lem : Proof) (ln : Nat)
    (inf : InferenceRule) (hlem : lem.is_valid? = some true)
    (hJ3 : ∀ i, i < main.lines.length → LineOkL lem.statement main i)
    (hA : ∀ i, ln ≤ i → i < main.lines.length → ∀ r cits,
      (main.lines.getD i default).justification = some (r, cits) →
      InferenceRule.is_specialization_of
        ⟨cits.map (fun c => (main.lines.getD c default).formula),
          (main.lines.getD i default).formula⟩ lem.statement = true →
      r = lem.statement)
    (hln : ln < main.lines.length)
    (hr : main.rule_for_line ln = some inf)
    (hs : inf.is_specialization_of lem.statement = true) :
    ∀ j, ln + lem.lines.length ≤ j →
      j < (inlineStepBody main ln lem).lines.length → ∀ r cits,
      ((inlineStepBody main ln lem).lines.getD j default).justification =
        some (r, cits) →
      InferenceRule.is_specialization_of
        ⟨cits.map (fun c =>
          ((inlineStepBody main ln lem).lines.getD c default).formula),
          ((inlineStepBody main ln lem).lines.getD j default).formula⟩
        lem.statement = true →
      r = lem.statement := by
  intro j hj1 hj2 r cits2 hjust hspec
  have hpos : 0 < lem.lines.length :=
    List.length_pos.mpr (valid_lines_ne_nil lem hlem)
  have hlen : (inlineStepBody main ln lem).lines.length =
      main.lines.length + lem.lines.length - 1 := by
    rw [inlineStepBody_lines]
    exact inlineOnceBody_length main ln lem hln
  rw [hlen] at hj2
  have hi1 : ln < j - lem.lines.length + 1 := by omega
  have hi2 : j - lem.lines.length + 1 < main.lines.length := by omega
  have hij : j = (j - lem.lines.length + 1) + lem.lines.length - 1 := by
    omega
  have hgl : (inlineStepBody main ln lem).lines.getD j default =
      shiftSuffixLine ln lem.lines.length
        (main.lines.getD (j - lem.lines.length + 1) default) := by
    conv_lhs => rw [hij]
    rw [inlineStepBody_lines]
    exact once_getD_suffix main ln lem _ hln hi1 hi2
  cases hjus : (main.lines.getD
      (j - lem.lines.length + 1) default).justification with
  | none =>
    have hkeep : shiftSuffixLine ln lem.lines.length
        (main.lines.getD (j - lem.lines.length + 1) default) =
        main.lines.getD (j - lem.lines.length + 1) default := by
      unfold shiftSuffixLine
      rw [hjus]
    rw [hgl, hkeep, hjus] at hjust
    exact absurd hjust (by simp)
  | some rc =>
    obtain ⟨r0, cits⟩ := rc
    have hshift : shiftSuffixLine ln lem.lines.length
        (main.lines.getD (j - lem.lines.length + 1) default) =
        ⟨(main.lines.getD (j - lem.lines.length + 1) default).formula,
          some (r0, cits.map (fun c =>
            if ln ≤ c then c + lem.lines.length - 1 else c))⟩ := by
      unfold shiftSuffixLine
      rw [hjus]
    rw [hgl, hshift] at hjust
    have hj2eq : (some (r0, cits.map (fun c =>
        if ln ≤ c then c + lem.lines.length - 1 else c)) :
        Option (InferenceRule × List Nat)) = some (r, cits2) := hjust
    injection hj2eq with hj3
    injection hj3 with hj4 hj5
    obtain ⟨-, hlt, -⟩ := lineOkL_derived_inv lem.statement main
      (j - lem.lines.length + 1) r0 cits hjus (hJ3 _ hi2)
    have hform : ((inlineStepBody main ln lem).lines.getD
        j default).formula =
        (main.lines.getD (j - lem.lines.length + 1) default).formula := by
      rw [hgl, hshift]
    have hmapeq : cits2.map (fun c =>
        ((inlineStepBody main ln lem).lines.getD c default).formula) =
        cits.map (fun c => (main.lines.getD c default).formula) := by
      rw [← hj5, List.map_map]
      refine List.map_congr_left ?_
      intro c hc
      have hci : c < j - lem.lines.length + 1 := hlt c hc
      simp only [Function.comp_apply]
      by_cases hcln : ln ≤ c
      · rw [if_pos hcln, inlineStepBody_lines]
        exact once_cit_formula main lem ln inf hlem hln hr hs c hcln
          (by omega)
      · rw [if_neg hcln, inlineStepBody_lines,
          once_getD_lt main ln lem c hln (by omega)]
    rw [hmapeq, hform] at hspec
    rw [← hj4]
    exact hA (j - lem.lines.length + 1) (by omega) hi2 r0 cits hjus hspec

theorem inlineLoop_ok : ∀ (N : Nat) (lem main : Proof) (index : Nat),
    main.lines.length - index ≤ N →
    lem.is_valid? = some true →
    (∀ l ∈ lem.lines, ∀ r cits, l.justification = some (r, cits) →
      r ≠ lem.statement) →
    main.lines ≠ [] →
    (main.lines.getD (main.lines.length - 1) default).formula =
      main.statement.conclusion →
    (∀ i, i < main.lines.length → LineOkL lem.statement main i) →
    (∀ i, i < index → ∀ r cits,
      (main.lines.getD i default).justification = some (r, cits) →
      r ≠ lem.statement) →
    (∀ i, index ≤ i → i < main.lines.length → ∀ r cits,
      (main.lines.getD i default).justification = some (r, cits) →
      InferenceRule.is_specialization_of
        ⟨cits.map (fun c => (main.lines.getD c default).formula),
          (main.lines.getD i default).formula⟩ lem.statement = true →
      r = lem.statement) →
    ∃ p, inlineLoop lem main index = some p ∧
    p.is_valid? = some true ∧
    p.statement = main.statement ∧
    (∀ l ∈ p.lines, ∀ r cits,
      l.justification = some (r, cits) → r ≠ lem.statement) := by
  intro N
  induction N with
  | zero =>
    intro lem main index hN hlem hno hne hlast hJ3 hJ4 hA
    have hstop : ¬ index < main.lines.length := by omega
    rw [inlineLoop_stop lem main index hstop]
    obtain ⟨h1, h2⟩ := loop_final lem main hne hlast hJ3
      (fun i hi => hJ4 i (by omega))
    exact ⟨main, rfl, h1, rfl, h2⟩
  | succ n ih =>
    intro lem main index hN hlem hno hne hlast hJ3 hJ4 hA
    by_cases hidx : index < main.lines.length
    · cases hrl : main.rule_for_line index with
      | none =>
        rw [inlineLoop_skip_none lem main index hidx hrl]
        refine ih lem main (index + 1) (by omega) hlem hno hne hlast hJ3
          ?_ ?_
        · intro i hi r cits hj
          rcases Nat.lt_or_ge i index with h | h
          · exact hJ4 i h r cits hj
          · have hieq : i = index := by omega
            subst hieq
            rw [rule_for_line_none_inv main i hrl] at hj
            simp at hj
        · intro i hi1 hi2
          exact hA i (by omega) hi2
      | some inf =>
        by_cases hsp : inf.is_specialization_of lem.statement = true
        · obtain ⟨rI, citsI, hjI, hinfEq⟩ :=
            rule_for_line_some_inv main index inf hrl
          have hrI : rI = lem.statement := by
            refine hA index le_rfl hidx rI citsI hjI ?_
            rw [← hinfEq]
            exact hsp
          rw [inlineLoop_step_eq lem main index hidx inf hrl hsp rI citsI
            hjI hrI hlem]
          obtain ⟨hstmt, hlen2, hlast2, hok2, hno2⟩ := inlineStepBody_ok
            main lem index inf hlem hno hJ3 hJ4 hlast hidx hrl hsp
          have hpos : 0 < lem.lines.length :=
            List.length_pos.mpr (valid_lines_ne_nil lem hlem)
          have hne2 : (inlineStepBody main index lem).lines ≠ [] :=
            List.length_pos.mp (by rw [hlen2]; omega)
          have hA2 := inlineStepBody_assert main lem index inf hlem hJ3 hA
            hidx hrl hsp
          obtain ⟨p, hp, hv, hst, hnl⟩ := ih lem
            (inlineStepBody main index lem) (index + lem.lines.length)
            (by rw [hlen2]; omega) hlem hno hne2
            (by rw [hstmt]; exact hlast2) hok2 hno2 hA2
          exact ⟨p, hp, hv, by rw [hst, hstmt], hnl⟩
        · have hsp2 : inf.is_specialization_of lem.statement = false :=
            Bool.eq_false_iff.mpr hsp
          rw [inlineLoop_skip_nospec lem main index hidx inf hrl hsp2]
          refine ih lem main (index + 1) (by omega) hlem hno hne hlast
            hJ3 ?_ ?_
          · intro i hi r cits hj
            rcases Nat.lt_or_ge i index with h | h
            · exact hJ4 i h r cits hj
            · have hieq : i = index := by omega
              subst hieq
              intro hrL
              subst hrL
              obtain ⟨-, -, hspec⟩ := lineOkL_derived_inv _ main i _ cits
                hj (hJ3 i hidx)
              obtain ⟨rln, cits2, hj2, hinfEq⟩ :=
                rule_for_line_some_inv main i inf hrl
              rw [hj] at hj2
              simp only [Option.some.injEq, Prod.mk.injEq] at hj2
              obtain ⟨hr1, hr2⟩ := hj2
              rw [← hr2] at hinfEq
              rw [← hinfEq] at hspec
              rw [hspec] at hsp2
              simp at hsp2
          · intro i hi1 hi2
            exact hA i (by omega) hi2
    · rw [inlineLoop_stop lem main index hidx]
      obtain ⟨h1, h2⟩ := loop_final lem main hne hlast hJ3
        (fun i hi => hJ4 i (by omega))
      exact ⟨main, rfl, h1, rfl, h2⟩

/-- C6 (amended): for every valid main proof and valid lemma proof of one
of the main proof's allowed rules such that (a) no line of the lemma proof
cites the lemma's own statement and (b) every line of the main proof whose
`rule_for_line` instance specializes the lemma's statement actually cites
the lemma's statement as its rule (so that the leading `assert` of
`inline_proof_once` holds at every line the `inline_proof` loop inlines),
`inline_proof(main, lemma)` returns (no exception escapes) a valid proof of
the main proof's statement in which no line's rule equals
`lemma.statement`. Without (a) the claim is false, see the counterexample:
a lemma proof that cites its own statement survives inlining while the rule
is removed from the allowed set. Without (b) it is also false: the loop
triggers on an `is_specialization_of` test while `inline_proof_once`
asserts literal rule equality, so a line citing a different rule whose
instance also specializes the lemma's statement makes `inline_proof` raise
`AssertionError` instead of returning. -/
theorem claim_C6 (main lem : Proof)
    (hmain : main.is_valid? = some true)
    (hlem : lem.is_valid? = some true)
    (hallowed : lem.statement ∈ main.rules)
    (hno : ∀ l ∈ lem.lines, ∀ r cits, l.justification = some (r, cits) →
      r ≠ lem.statement)
    (hassert : ∀ i, i < main.lines.length → ∀ r cits,
      (main.lines.getD i default).justification = some (r, cits) →
      InferenceRule.is_specialization_of
        ⟨cits.map (fun c => (main.lines.getD c default).formula),
          (main.lines.getD i default).formula⟩ lem.statement = true →
      r = lem.statement) :
    ∃ p, inline_proof main lem = some p ∧
    p.is_valid? = some true ∧
    p.statement = main.statement ∧
    (∀ l ∈ p.lines, ∀ r cits,
      l.justification = some (r, cits) → r ≠ lem.statement) := by
  unfold inline_proof
  have hne := valid_lines_ne_nil main hmain
  have hiff := (is_valid_iff main hne).mp hmain
  have hJ3 : ∀ i, i < main.lines.length → LineOkL lem.statement main i :=
    fun i hi => lineOkL_of_valid _ main i
      (by rw [is_line_valid_iff]; exact hiff.1 i hi)
  have hlast : (main.lines.getD (main.lines.length - 1) default).formula =
      main.statement.conclusion := by
    rw [← getLast_eq_getD main.lines hne]
    exact hiff.2
  exact inlineLoop_ok main.lines.length lem main 0 (by omega) hlem hno hne
    hlast hJ3 (fun i hi => absurd hi (by omega))
    (fun i _ hi2 => hassert i hi2)

/-- A one-line lemma proof of `p |- p` (an assumption line; it cites no rule
at all, in particular not its own statement). -/
def lemW : Proof :=
  ⟨⟨[Formula.var "p"], Formula.var "p"⟩, [], [⟨Formula.var "p", none⟩]⟩

/-- A two-line main proof of `q` from assumption `q` whose second line cites
the rule `p |- p` (the statement of `lemW`, so the `assert` of
`inline_proof_once` holds there). -/
def mainW : Proof :=
  ⟨⟨[Formula.var "q"], Formula.var "q"⟩,
    [⟨[Formula.var "p"], Formula.var "p"⟩],
    [⟨Formula.var "q", none⟩,
      ⟨Formula.var "q",
        some (⟨[Formula.var "p"], Formula.var "p"⟩, [0])⟩]⟩

/-- Witness for C6: the hypotheses hold at the concrete pair
(`mainW`, `lemW`) and the theorem applies. -/
theorem claim_C6_witness :
    mainW.is_valid? = some true ∧ lemW.is_valid? = some true ∧
    lemW.statement ∈ mainW.rules ∧
    (∃ p, inline_proof mainW lemW = some p ∧
     p.is_valid? = some true ∧
     p.statement = mainW.statement ∧
     (∀ l ∈ p.lines, ∀ r cits,
       l.justification = some (r, cits) → r ≠ lemW.statement)) :=
  ⟨by decide, by decide, by decide,
    claim_C6 mainW lemW (by decide) (by decide) (by decide)
      (by
        intro l hl r cits hj
        simp only [lemW, List.mem_singleton] at hl
        rw [hl] at hj
        simp at hj)
      (by
        intro i hi r cits hj hsp
        have hi2 : i < 2 := by simpa [mainW] using hi
        interval_cases i
        · rw [show (mainW.lines.getD 0 default).justification = none
            from rfl] at hj
          exact Option.noConfusion hj
        · rw [show (mainW.lines.getD 1 default).justification =
            some (⟨[Formula.var "p"], Formula.var "p"⟩, [0])
            from rfl] at hj
          injection hj with h1
          injection h1 with h2 h3
          rw [← h2]
          rfl)⟩

/-! ## C3: the parsers (`propositions/syntax.py`, `predicates/syntax.py`).
Python strings are embedded as their lists of characters; `s[a:b]` becomes
`pyslice`, which agrees with Python slicing for the non-negative in-range
indices that occur on all reachable paths. -/

def pyslice (s : List Char) (a b : Nat) : List Char := (s.drop a).take (b - a)

theorem pyslice_length_lt (s : List Char) (a b : Nat) (ha : 1 ≤ a)
    (hs : 0 < s.length) : (pyslice s a b).length < s.length := by
  unfold pyslice
  have h1 : (s.drop a).length = s.length - a := List.length_drop a s
  have h2 : (List.take (b - a) (s.drop a)).length =
      min (b - a) (s.drop a).length := List.length_take _ _
  have h3 : min (b - a) (s.drop a).length ≤ (s.drop a).length :=
    min_le_right _ _
  omega

/-- `str.isdigit()` over the ASCII strings of this code. -/
def charIsDigit (c : Char) : Bool := decide ('0' ≤ c ∧ c ≤ '9')

/-- Propositional `is_variable` restricted to a single character (how the
parser calls it on `to_parse[index]`). -/
def isPropVarChar (c : Char) : Bool := decide ('p' ≤ c ∧ c ≤ 'z')

/-- Propositional `is_variable` on a whole name: first character in
`p`..`z`, and the rest (if any) all digits. -/
def pvarOk (nm : List Char) : Bool :=
  match nm with
  | [] => false
  | c :: rest => isPropVarChar c && rest.all charIsDigit

/-- Well-formed propositional formulas: every variable name is accepted by
`is_variable` (the constructor's assertion). -/
def Formula.wfF : Formula → Bool
  | Formula.var nm => pvarOk nm.data
  | Formula.const _ => true
  | Formula.neg f => f.wfF
  | Formula.bin _ f g => f.wfF && g.wfF

/-- The character sequence of each binary operator. -/
def opChars : BinOp → List Char
  | BinOp.and => ['&']
  | BinOp.or => ['|']
  | BinOp.imp => ['-', '>']
  | BinOp.xor => ['+']
  | BinOp.iff => ['<', '-', '>']
  | BinOp.nand => ['-', '&']
  | BinOp.nor => ['-', '|']

/-- `Formula.__repr__`: the standard string representation, as a character
list. -/
def Formula.reprF : Formula → List Char
  | Formula.var nm => nm.data
  | Formula.const b => [if b then 'T' else 'F']
  | Formula.neg f => '~' :: f.reprF
  | Formula.bin op f g => '(' :: (f.reprF ++ opChars op ++ g.reprF ++ [')'])

/-- Propositional `is_binary` restricted to a single character: of the seven
operators only `&`, `|` and `+` are one character long. -/
def isBinaryChar (c : Char) : Bool := decide (c = '&' ∨ c = '|' ∨ c = '+')

/-- The counters of the scanning loop of the propositional
`Formula.parse_prefix`. -/
structure ScanSt where
  index : Nat
  openN : Nat
  closeN : Nat
  opN : Nat
  idxClose : Nat
  idxOp : Nat
  countPar : Int
deriving Repr, DecidableEq

/-- One iteration body (the `if`/`elif` chain) of the scanning loop of the
propositional `Formula.parse_prefix`; `error` models the two
`return None, "Not a valid operator"` exits. -/
def ppStep (s : List Char) (st : ScanSt) : Except String ScanSt :=
  let c := s.getD st.index ' '
  let c2 := s.getD (st.index + 1) ' '
  let c3 := s.getD (st.index + 2) ' '
  if c = '(' then
    .ok {st with openN := st.openN + 1, countPar := st.countPar + 1}
  else if c = ')' then
    .ok {st with closeN := st.closeN + 1, countPar := st.countPar - 1,
                 idxClose := st.index}
  else if isBinaryChar c then
    .ok {st with opN := st.opN + 1,
                 idxOp := if st.countPar = 1 then st.index else st.idxOp}
  else if st.index + 1 < s.length ∧ c = '-' ∧
      (c2 = '>' ∨ c2 = '&' ∨ c2 = '|') then
    .ok {st with opN := st.opN + 1, index := st.index + 1,
                 idxOp := if st.countPar = 1 then st.index + 1
                          else st.idxOp}
  else if st.index + 2 < s.length ∧ c = '<' ∧ c2 = '-' ∧ c3 = '>' then
    .ok {st with opN := st.opN + 1, index := st.index + 1,
                 idxOp := if st.countPar = 1 then st.index + 1
                          else st.idxOp}
  else if st.index + 1 < s.length ∧ c = '-' then
    .error "Not a valid operator"
  else if st.index + 2 < s.length ∧ c = '<' ∧ ¬ (c2 = '-' ∧ c3 = '>') then
    .error "Not a valid operator"
  else
    .ok st

theorem ppStep_index_ge (s : List Char) (st st1 : ScanSt)
    (h : ppStep s st = .ok st1) : st.index ≤ st1.index ∧
      st1.index ≤ st.index + 1 := by
  obtain ⟨i1, o1, c1, p1, ic1, io1, cp1⟩ := st1
  unfold ppStep at h
  simp only at h
  split_ifs at h <;>
    first
      | (simp only [Except.ok.injEq, ScanSt.mk.injEq] at h
         simp
         omega)
      | (simp only [Except.ok.injEq] at h
         subst h
         simp)
      | simp at h

/-- The scanning `while` loop of the propositional `Formula.parse_prefix`.
Returns the final state and whether the loop exited through the
`open_number == close_number` `break`. -/
def ppScan (s : List Char) (st : ScanSt) : Except String (ScanSt × Bool) :=
  if h : st.index < s.length then
    match hstep : ppStep s st with
    | .error e => .error e
    | .ok st1 =>
      let st2 : ScanSt := {st1 with index := st1.index + 1}
      if st2.openN = st2.closeN then .ok (st2, true)
      else ppScan s st2
  else .ok (st, false)
termination_by s.length - st.index
decreasing_by
  have h2 := ppStep_index_ge s st st1 hstep
  change s.length - (st1.index + 1) < s.length - st.index
  omega

/-- The root characters accepted by the `Formula` constructor as a binary
operator of one character. -/
def binOpOfChar (c : Char) : Option BinOp :=
  if c = '&' then some BinOp.and
  else if c = '|' then some BinOp.or
  else if c = '+' then some BinOp.xor
  else none

/-- Propositional `Formula.parse_prefix`. `none` covers both the explicit
`(None, message)` returns and the paths on which the Python code would crash
(constructing a `Formula` with a `None` operand or an invalid root). -/
def parsePfx (s : List Char) : Option Formula × List Char :=
  if h0 : s.length = 0 then (none, "Empty string".data)
  else if h1 : s.length = 1 then
    let c := s.getD 0 ' '
    if isPropVarChar c ∨ c = 'T' ∨ c = 'F' then
      (some (if isPropVarChar c then Formula.var (String.mk [c])
             else Formula.const (c = 'T')), [])
    else (none, "Invalid variable".data)
  else if hu : s.getD 0 ' ' = '~' then
    match parsePfx (s.drop 1) with
    | (none, _) => (none, "Unary signe is alone".data)
    | (some f, rest) => (some (Formula.neg f), rest)
  else if isPropVarChar (s.getD 0 ' ') then
    let nd := ((s.drop 1).takeWhile charIsDigit).length
    (some (Formula.var (String.mk (s.take (1 + nd)))), s.drop (1 + nd))
  else if s.getD 0 ' ' = 'T' ∨ s.getD 0 ' ' = 'F' then
    (some (Formula.const (s.getD 0 ' ' = 'T')), s.drop 1)
  else
    match ppScan s ⟨0, 0, 0, 0, 0, 0, 0⟩ with
    | .error e => (none, e.data)
    | .ok (st, broke) =>
      if st.openN ≠ st.opN ∨ st.closeN ≠ st.opN then
        (none, "Not same operator number than () number".data)
      else
        let ret := if broke ∨ st.idxClose ≠ s.length - 1 then
          s.drop (st.idxClose + 1) else []
        let cop := s.getD st.idxOp ' '
        if cop = '>' then
          match (parsePfx (pyslice s 1 (st.idxOp - 1))).1,
              (parsePfx (pyslice s (st.idxOp + 1) st.idxClose)).1 with
          | some f1, some f2 => (some (Formula.bin BinOp.imp f1 f2), ret)
          | _, _ => (none, "operand crash".data)
        else if cop = '-' then
          match (parsePfx (pyslice s 1 (st.idxOp - 1))).1,
              (parsePfx (pyslice s (st.idxOp + 2) st.idxClose)).1 with
          | some f1, some f2 => (some (Formula.bin BinOp.iff f1 f2), ret)
          | _, _ => (none, "operand crash".data)
        else if cop = '&' ∧ s.getD (st.idxOp - 1) ' ' = '-' then
          match (parsePfx (pyslice s 1 (st.idxOp - 1))).1,
              (parsePfx (pyslice s (st.idxOp + 1) st.idxClose)).1 with
          | some f1, some f2 => (some (Formula.bin BinOp.nand f1 f2), ret)
          | _, _ => (none, "operand crash".data)
        else if cop = '|' ∧ s.getD (st.idxOp - 1) ' ' = '-' then
          match (parsePfx (pyslice s 1 (st.idxOp - 1))).1,
              (parsePfx (pyslice s (st.idxOp + 1) st.idxClose)).1 with
          | some f1, some f2 => (some (Formula.bin BinOp.nor f1 f2), ret)
          | _, _ => (none, "operand crash".data)
        else
          match binOpOfChar cop with
          | none => (none, "invalid root".data)
          | some op =>
            match (parsePfx (pyslice s 1 st.idxOp)).1,
                (parsePfx (pyslice s (st.idxOp + 1) st.idxClose)).1 with
            | some f1, some f2 => (some (Formula.bin op f1 f2), ret)
            | _, _ => (none, "operand crash".data)
termination_by s.length
decreasing_by
  all_goals
    first
      | (exact pyslice_length_lt s _ _ (by omega) (by omega))
      | (simp only [List.length_drop]
         omega)

theorem getD_of_drop_at (s : List Char) (i k : Nat) (l : List Char)
    (h : s.drop i = l) (hk : k < l.length) :
    s.getD (i + k) ' ' = l.getD k ' ' := by
  rw [List.getD_eq_getElem?_getD, List.getD_eq_getElem?_getD]
  rw [← h, List.getElem?_drop]

theorem getD_of_drop (s : List Char) (i : Nat) (c : Char)
    (rest : List Char) (h : s.drop i = c :: rest) : s.getD i ' ' = c := by
  have h0 := getD_of_drop_at s i 0 (c :: rest) h (by simp)
  simpa using h0

theorem drop_advance (s X Y : List Char) (i : Nat)
    (h : s.drop i = X ++ Y) : s.drop (i + X.length) = Y := by
  rw [← List.drop_drop X.length i s, h, List.drop_left]

theorem drop_succ_of_cons (s : List Char) (i : Nat) (c : Char)
    (T : List Char) (h : s.drop i = c :: T) : s.drop (i + 1) = T := by
  have := drop_advance s [c] T i (by simpa using h)
  simpa using this

theorem index_lt_of_drop (s : List Char) (i : Nat) (c : Char)
    (T : List Char) (h : s.drop i = c :: T) : i < s.length := by
  by_contra hge
  rw [List.drop_eq_nil_of_le (by omega)] at h
  simp at h

/-- "Plain" characters: the scanning loop does nothing on them. -/
def plainCharB (c : Char) : Bool :=
  !(c = '(' : Bool) && !(c = ')' : Bool) && !isBinaryChar c &&
    !(c = '-' : Bool) && !(c = '<' : Bool)

theorem plain_of_alnum (c : Char)
    (h : ('0' ≤ c ∧ c ≤ '9') ∨ ('a' ≤ c ∧ c ≤ 'z') ∨
      ('A' ≤ c ∧ c ≤ 'Z')) : plainCharB c = true := by
  unfold plainCharB isBinaryChar
  rcases h with ⟨h1, h2⟩ | ⟨h1, h2⟩ | ⟨h1, h2⟩ <;>
    (simp only [Bool.and_eq_true, Bool.not_eq_true', decide_eq_false_iff_not,
      decide_eq_true_eq]
     refine ⟨⟨⟨⟨?_, ?_⟩, ?_⟩, ?_⟩, ?_⟩ <;>
       (first
         | (rintro rfl
            revert h1 h2
            decide)
         | (rintro (rfl | rfl | rfl) <;>
            revert h1 h2 <;>
            decide)))

theorem ppStep_plain (s : List Char) (st : ScanSt)
    (h : plainCharB (s.getD st.index ' ') = true) : ppStep s st = .ok st := by
  unfold plainCharB at h
  simp only [Bool.and_eq_true, Bool.not_eq_true', decide_eq_false_iff_not,
    Bool.not_eq_true] at h
  obtain ⟨⟨⟨⟨h1, h2⟩, h3⟩, h4⟩, h5⟩ := h
  unfold ppStep
  simp only
  rw [if_neg h1, if_neg h2, if_neg (by rw [h3]; simp),
    if_neg (by rintro ⟨-, hc, -⟩; exact h4 hc),
    if_neg (by rintro ⟨-, hc, -⟩; exact h5 hc),
    if_neg (by rintro ⟨-, hc⟩; exact h4 hc),
    if_neg (by rintro ⟨-, hc, -⟩; exact h5 hc)]

theorem ppStep_open (s : List Char) (st : ScanSt)
    (h : s.getD st.index ' ' = '(') :
    ppStep s st = .ok {st with openN := st.openN + 1, countPar := st.countPar + 1} := by
  unfold ppStep
  simp only
  rw [if_pos h]

theorem ppStep_close (s : List Char) (st : ScanSt)
    (h : s.getD st.index ' ' = ')') :
    ppStep s st = .ok {st with closeN := st.closeN + 1, countPar := st.countPar - 1, idxClose := st.index} := by
  unfold ppStep
  simp only
  rw [if_neg (by rw [h]; decide), if_pos h]

theorem ppStep_single (s : List Char) (st : ScanSt)
    (h : isBinaryChar (s.getD st.index ' ') = true) :
    ppStep s st = .ok {st with opN := st.opN + 1, idxOp := if st.countPar = 1 then st.index else st.idxOp} := by
  have h1 : ¬ s.getD st.index ' ' = '(' := by
    intro hc
    rw [hc] at h
    simp [isBinaryChar] at h
  have h2 : ¬ s.getD st.index ' ' = ')' := by
    intro hc
    rw [hc] at h
    simp [isBinaryChar] at h
  unfold ppStep
  simp only
  rw [if_neg h1, if_neg h2, if_pos h]

theorem ppStep_dash (s : List Char) (st : ScanSt)
    (h : s.getD st.index ' ' = '-') (hlen : st.index + 1 < s.length)
    (h2 : s.getD (st.index + 1) ' ' = '>' ∨
      s.getD (st.index + 1) ' ' = '&' ∨ s.getD (st.index + 1) ' ' = '|') :
    ppStep s st = .ok {st with opN := st.opN + 1, index := st.index + 1, idxOp := if st.countPar = 1 then st.index + 1 else st.idxOp} := by
  unfold ppStep
  simp only
  rw [if_neg (by rw [h]; decide), if_neg (by rw [h]; decide),
    if_neg (by rw [h]; decide), if_pos ⟨hlen, h, h2⟩]

theorem ppStep_langle (s : List Char) (st : ScanSt)
    (h : s.getD st.index ' ' = '<') (hlen : st.index + 2 < s.length)
    (h2 : s.getD (st.index + 1) ' ' = '-')
    (h3 : s.getD (st.index + 2) ' ' = '>') :
    ppStep s st = .ok {st with opN := st.opN + 1, index := st.index + 1, idxOp := if st.countPar = 1 then st.index + 1 else st.idxOp} := by
  unfold ppStep
  simp only
  rw [if_neg (by rw [h]; decide), if_neg (by rw [h]; decide),
    if_neg (by rw [h]; decide),
    if_neg (by rintro ⟨-, hc, -⟩; rw [h] at hc; exact absurd hc (by decide)),
    if_pos ⟨hlen, h, h2, h3⟩]

theorem ppScan_unfold_ok (s : List Char) (st st1 : ScanSt)
    (hidx : st.index < s.length) (hstep : ppStep s st = .ok st1) :
    ppScan s st = if st1.openN = st1.closeN then
        .ok ({st1 with index := st1.index + 1}, true)
      else ppScan s {st1 with index := st1.index + 1} := by
  rw [ppScan]
  rw [dif_pos hidx]
  rw [hstep]

/-- Number of binary nodes of a formula: equals both the number of `(` and
the number of binary operators in its standard representation. -/
def Formula.numBins : Formula → Nat
  | Formula.var _ => 0
  | Formula.const _ => 0
  | Formula.neg f => f.numBins
  | Formula.bin _ f g => f.numBins + g.numBins + 1

theorem scan_skip_plain_run : ∀ (chunk : List Char),
    chunk.all plainCharB = true →
    ∀ (s : List Char) (st : ScanSt) (rest : List Char),
    s.drop st.index = chunk ++ rest →
    st.openN ≠ st.closeN →
    ppScan s st = ppScan s {st with index := st.index + chunk.length} := by
  intro chunk
  induction chunk with
  | nil =>
    intro _ s st rest _ _
    rfl
  | cons c ck ih =>
    intro hall s st rest hdrop hne
    simp only [List.all_cons, Bool.and_eq_true] at hall
    have hdrop2 : s.drop st.index = c :: (ck ++ rest) := by
      simpa using hdrop
    have hidx := index_lt_of_drop s st.index c (ck ++ rest) hdrop2
    have hc : s.getD st.index ' ' = c := getD_of_drop s st.index c _ hdrop2
    have hstep : ppStep s st = .ok st := by
      refine ppStep_plain s st ?_
      rw [hc]
      exact hall.1
    rw [ppScan_unfold_ok s st st hidx hstep, if_neg hne]
    have hdrop3 : s.drop (st.index + 1) = ck ++ rest :=
      drop_succ_of_cons s st.index c _ hdrop2
    have hrec := ih hall.2 s {st with index := st.index + 1} rest hdrop3 hne
    rw [hrec]
    have harith : st.index + 1 + ck.length = st.index + (c :: ck).length := by
      simp only [List.length_cons]
      omega
    rw [show ({st with index := st.index + 1 + ck.length} : ScanSt) =
      {st with index := st.index + (c :: ck).length} from by rw [harith]]

theorem pvar_chars_plain (nm : List Char) (h : pvarOk nm = true) :
    nm.all plainCharB = true := by
  cases nm with
  | nil => simp [pvarOk] at h
  | cons c rest =>
    unfold pvarOk at h
    simp only [Bool.and_eq_true] at h
    obtain ⟨h1, h2⟩ := h
    unfold isPropVarChar at h1
    simp only [decide_eq_true_eq] at h1
    rw [List.all_cons, Bool.and_eq_true]
    refine ⟨?_, ?_⟩
    · refine plain_of_alnum c (Or.inr (Or.inl ⟨?_, h1.2⟩))
      exact le_trans (by decide : ('a' : Char) ≤ 'p') h1.1
    · rw [List.all_eq_true] at h2 ⊢
      intro x hx
      have hd := h2 x hx
      unfold charIsDigit at hd
      simp only [decide_eq_true_eq] at hd
      exact plain_of_alnum x (Or.inl hd)

attribute [ext] ScanSt

theorem length_drop_eq (s l : List Char) (i : Nat) (h : s.drop i = l) :
    s.length - i = l.length := by
  rw [← h, List.length_drop]

theorem scan_skip_op (op : BinOp) (s : List Char) (st : ScanSt)
    (rest : List Char)
    (hdrop : s.drop st.index = opChars op ++ rest)
    (hinv : st.countPar = (st.openN : Int) - (st.closeN : Int))
    (hdiff : 2 ≤ (st.openN : Int) - (st.closeN : Int)) :
    ppScan s st = ppScan s
      {st with index := st.index + (opChars op).length,
               opN := st.opN + 1} := by
  have hne : st.openN ≠ st.closeN := by
    intro hEq
    rw [hEq] at hdiff
    omega
  have hcp : ¬ st.countPar = 1 := by omega
  cases op with
  | and =>
    have hc : s.getD st.index ' ' = '&' :=
      getD_of_drop s st.index '&' rest (by simpa [opChars] using hdrop)
    have hidx := index_lt_of_drop s st.index '&' rest
      (by simpa [opChars] using hdrop)
    rw [ppScan_unfold_ok s st _ hidx (ppStep_single s st (by rw [hc]; decide)),
      if_neg hne, if_neg hcp]
    rfl
  | or =>
    have hc : s.getD st.index ' ' = '|' :=
      getD_of_drop s st.index '|' rest (by simpa [opChars] using hdrop)
    have hidx := index_lt_of_drop s st.index '|' rest
      (by simpa [opChars] using hdrop)
    rw [ppScan_unfold_ok s st _ hidx (ppStep_single s st (by rw [hc]; decide)),
      if_neg hne, if_neg hcp]
    rfl
  | xor =>
    have hc : s.getD st.index ' ' = '+' :=
      getD_of_drop s st.index '+' rest (by simpa [opChars] using hdrop)
    have hidx := index_lt_of_drop s st.index '+' rest
      (by simpa [opChars] using hdrop)
    rw [ppScan_unfold_ok s st _ hidx (ppStep_single s st (by rw [hc]; decide)),
      if_neg hne, if_neg hcp]
    rfl
  | imp =>
    have hlen := length_drop_eq s _ st.index hdrop
    simp only [List.length_append, opChars, List.length_cons,
      List.length_nil] at hlen
    have hc : s.getD st.index ' ' = '-' :=
      getD_of_drop_at s st.index 0 _ hdrop (by simp [opChars])
    have hc2 : s.getD (st.index + 1) ' ' = '>' :=
      getD_of_drop_at s st.index 1 _ hdrop (by simp [opChars])
    rw [ppScan_unfold_ok s st _ (by omega)
      (ppStep_dash s st hc (by omega) (Or.inl hc2)), if_neg hne, if_neg hcp]
    rfl
  | nand =>
    have hlen := length_drop_eq s _ st.index hdrop
    simp only [List.length_append, opChars, List.length_cons,
      List.length_nil] at hlen
    have hc : s.getD st.index ' ' = '-' :=
      getD_of_drop_at s st.index 0 _ hdrop (by simp [opChars])
    have hc2 : s.getD (st.index + 1) ' ' = '&' :=
      getD_of_drop_at s st.index 1 _ hdrop (by simp [opChars])
    rw [ppScan_unfold_ok s st _ (by omega)
      (ppStep_dash s st hc (by omega) (Or.inr (Or.inl hc2))), if_neg hne,
      if_neg hcp]
    rfl
  | nor =>
    have hlen := length_drop_eq s _ st.index hdrop
    simp only [List.length_append, opChars, List.length_cons,
      List.length_nil] at hlen
    have hc : s.getD st.index ' ' = '-' :=
      getD_of_drop_at s st.index 0 _ hdrop (by simp [opChars])
    have hc2 : s.getD (st.index + 1) ' ' = '|' :=
      getD_of_drop_at s st.index 1 _ hdrop (by simp [opChars])
    rw [ppScan_unfold_ok s st _ (by omega)
      (ppStep_dash s st hc (by omega) (Or.inr (Or.inr hc2))), if_neg hne,
      if_neg hcp]
    rfl
  | iff =>
    have hlen := length_drop_eq s _ st.index hdrop
    simp only [List.length_append, opChars, List.length_cons,
      List.length_nil] at hlen
    have hc : s.getD st.index ' ' = '<' :=
      getD_of_drop_at s st.index 0 _ hdrop (by simp [opChars])
    have hc2 : s.getD (st.index + 1) ' ' = '-' :=
      getD_of_drop_at s st.index 1 _ hdrop (by simp [opChars])
    have hc3 : s.getD (st.index + 2) ' ' = '>' :=
      getD_of_drop_at s st.index 2 _ hdrop (by simp [opChars])
    rw [ppScan_unfold_ok s st _ (by omega)
      (ppStep_langle s st hc (by omega) hc2 hc3), if_neg hne, if_neg hcp]
    have hcplain : s.getD (st.index + 1 + 1) ' ' = '>' := by
      rw [show st.index + 1 + 1 = st.index + 2 by omega]
      exact hc3
    rw [ppScan_unfold_ok s _ _ (by change st.index + 1 + 1 < s.length; omega)
      (ppStep_plain s _ (by rw [hcplain]; decide)), if_neg hne]
    have e1 : st.index + 1 + 1 + 1 = st.index + (opChars BinOp.iff).length := by
      simp [opChars]
    rw [show ({st with opN := st.opN + 1, index := st.index + 1 + 1 + 1}
      : ScanSt) =
      {st with index := st.index + (opChars BinOp.iff).length,
               opN := st.opN + 1} from by rw [e1]]

theorem scan_skip : ∀ (f : Formula), f.wfF = true →
    ∀ (s : List Char) (st : ScanSt) (rest : List Char),
    s.drop st.index = f.reprF ++ rest →
    st.countPar = (st.openN : Int) - (st.closeN : Int) →
    1 ≤ (st.openN : Int) - (st.closeN : Int) →
    ∃ ic, ppScan s st = ppScan s
      {st with index := st.index + (f.reprF).length,
               openN := st.openN + f.numBins,
               closeN := st.closeN + f.numBins,
               opN := st.opN + f.numBins,
               idxClose := ic} := by
  intro f
  induction f with
  | var nm =>
    intro hwf s st rest hdrop hinv hdiff
    have hne : st.openN ≠ st.closeN := by omega
    refine ⟨st.idxClose, ?_⟩
    have h := scan_skip_plain_run nm.data (pvar_chars_plain nm.data hwf)
      s st rest hdrop hne
    exact h
  | const b =>
    intro hwf s st rest hdrop hinv hdiff
    have hne : st.openN ≠ st.closeN := by omega
    refine ⟨st.idxClose, ?_⟩
    have hplain : (Formula.const b).reprF.all plainCharB = true := by
      cases b <;> decide
    exact scan_skip_plain_run _ hplain s st rest hdrop hne
  | neg f1 ih =>
    intro hwf s st rest hdrop hinv hdiff
    have hne : st.openN ≠ st.closeN := by omega
    have hdrop1 : s.drop st.index = ['~'] ++ (f1.reprF ++ rest) := by
      simpa [Formula.reprF] using hdrop
    have h1 := scan_skip_plain_run ['~'] (by decide) s st _ hdrop1 hne
    have hdrop2 : s.drop (st.index + 1) = f1.reprF ++ rest :=
      drop_advance s ['~'] _ st.index hdrop1
    obtain ⟨ic, h2⟩ := ih hwf s {st with index := st.index + 1} rest
      hdrop2 hinv hdiff
    refine ⟨ic, ?_⟩
    rw [show st.index + ['~'].length = st.index + 1 from rfl] at h1
    rw [h1, h2]
    have e1 : st.index + 1 + f1.reprF.length =
        st.index + (Formula.neg f1).reprF.length := by
      simp [Formula.reprF]
      omega
    rw [show ({st with index := st.index + 1 + f1.reprF.length,
                       openN := st.openN + Formula.numBins f1,
                       closeN := st.closeN + Formula.numBins f1,
                       opN := st.opN + Formula.numBins f1,
                       idxClose := ic} : ScanSt) =
      {st with index := st.index + (Formula.neg f1).reprF.length,
               openN := st.openN + (Formula.neg f1).numBins,
               closeN := st.closeN + (Formula.neg f1).numBins,
               opN := st.opN + (Formula.neg f1).numBins,
               idxClose := ic} from by rw [e1]; rfl]
  | bin op f1 f2 ih1 ih2 =>
    intro hwf s st rest hdrop hinv hdiff
    simp only [Formula.wfF, Bool.and_eq_true] at hwf
    have hne : st.openN ≠ st.closeN := by omega
    have hdrop1 : s.drop st.index = '(' ::
        (f1.reprF ++ (opChars op ++ (f2.reprF ++ ([')'] ++ rest)))) := by
      simpa [Formula.reprF, List.append_assoc] using hdrop
    have hidx0 := index_lt_of_drop s st.index '(' _ hdrop1
    have hc0 : s.getD st.index ' ' = '(' := getD_of_drop s st.index '(' _
      hdrop1
    -- step over '('
    rw [ppScan_unfold_ok s st _ hidx0 (ppStep_open s st hc0),
      if_neg (by change ¬ (st.openN + 1 = st.closeN); omega)]
    -- skip f1
    have hdropA : s.drop (st.index + 1) =
        f1.reprF ++ (opChars op ++ (f2.reprF ++ ([')'] ++ rest))) :=
      drop_succ_of_cons s st.index '(' _ hdrop1
    obtain ⟨ic1, hA⟩ := ih1 hwf.1 s
      {st with openN := st.openN + 1, countPar := st.countPar + 1,
               index := st.index + 1} _ hdropA
      (by change st.countPar + 1 = ((st.openN + 1 : Nat) : Int) - st.closeN
          push_cast
          omega)
      (by change 1 ≤ ((st.openN + 1 : Nat) : Int) - st.closeN
          push_cast
          omega)
    rw [hA]
    -- step over the operator
    have hdropOp : s.drop (st.index + 1 + f1.reprF.length) =
        opChars op ++ (f2.reprF ++ ([')'] ++ rest)) :=
      drop_advance s f1.reprF _ (st.index + 1) hdropA
    have hOp := scan_skip_op op s
      {st with countPar := st.countPar + 1,
               index := st.index + 1 + f1.reprF.length,
               openN := st.openN + 1 + f1.numBins,
               closeN := st.closeN + f1.numBins,
               opN := st.opN + f1.numBins, idxClose := ic1} _ hdropOp
      (by push_cast; omega) (by push_cast; omega)
    rw [hOp]
    -- skip f2
    have hdropB : s.drop (st.index + 1 + f1.reprF.length +
        (opChars op).length) = f2.reprF ++ ([')'] ++ rest) :=
      drop_advance s (opChars op) _ (st.index + 1 + f1.reprF.length) hdropOp
    obtain ⟨ic2, hB⟩ := ih2 hwf.2 s
      {st with countPar := st.countPar + 1,
               index := st.index + 1 + f1.reprF.length + (opChars op).length,
               openN := st.openN + 1 + f1.numBins,
               closeN := st.closeN + f1.numBins,
               opN := st.opN + f1.numBins + 1, idxClose := ic1} _ hdropB
      (by push_cast; omega) (by push_cast; omega)
    rw [hB]
    -- step over ')'
    have hdropC : s.drop (st.index + 1 + f1.reprF.length +
        (opChars op).length + f2.reprF.length) = [')'] ++ rest :=
      drop_advance s f2.reprF _ _ hdropB
    have hidxC := index_lt_of_drop s _ ')' rest (by simpa using hdropC)
    have hcC : s.getD (st.index + 1 + f1.reprF.length + (opChars op).length
        + f2.reprF.length) ' ' = ')' := getD_of_drop s _ ')' rest
      (by simpa using hdropC)
    rw [ppScan_unfold_ok s _ _ hidxC (ppStep_close s _ hcC),
      if_neg (by
        change ¬ (st.openN + 1 + f1.numBins + f2.numBins =
          st.closeN + f1.numBins + (f2.numBins + 1))
        omega)]
    -- assemble
    refine ⟨st.index + 1 + f1.reprF.length + (opChars op).length +
      f2.reprF.length, ?_⟩
    have elen : st.index + 1 + f1.reprF.length + (opChars op).length +
        f2.reprF.length + 1 = st.index + (Formula.bin op f1 f2).reprF.length
        := by
      simp [Formula.reprF]
      omega
    have ecp : st.countPar + 1 - 1 = st.countPar := by omega
    congr 1
    ext
    · change st.index + 1 + f1.reprF.length + (opChars op).length +
        f2.reprF.length + 1 = st.index + (Formula.bin op f1 f2).reprF.length
      exact elen
    · change st.openN + 1 + f1.numBins + f2.numBins =
        st.openN + (Formula.bin op f1 f2).numBins
      simp [Formula.numBins]
      omega
    · change st.closeN + f1.numBins + (f2.numBins + 1) =
        st.closeN + (Formula.bin op f1 f2).numBins
      simp [Formula.numBins]
      omega
    · change st.opN + f1.numBins + 1 + f2.numBins =
        st.opN + (Formula.bin op f1 f2).numBins
      simp [Formula.numBins]
      omega
    · rfl
    · rfl
    · change st.countPar + 1 - 1 = st.countPar
      omega

theorem reprF_length_pos (f : Formula) (hwf : f.wfF = true) :
    1 ≤ f.reprF.length := by
  induction f with
  | var nm =>
    unfold Formula.wfF pvarOk at hwf
    cases hd : nm.data with
    | nil => rw [hd] at hwf; simp at hwf
    | cons c t =>
      show 1 ≤ nm.data.length
      rw [hd]
      simp
  | const b => cases b <;> simp [Formula.reprF]
  | neg f1 ih => simp [Formula.reprF]
  | bin op f1 f2 ih1 ih2 => simp [Formula.reprF]

theorem takeWhile_all_eq {p : Char → Bool} : ∀ (l : List Char),
    l.all p = true → l.takeWhile p = l := by
  intro l
  induction l with
  | nil => intro _; rfl
  | cons c t ih =>
    intro h
    simp only [List.all_cons, Bool.and_eq_true] at h
    simp [List.takeWhile_cons, h.1, ih h.2]

theorem reprF_last_not_dash (f : Formula) (hwf : f.wfF = true) :
    f.reprF.getD (f.reprF.length - 1) ' ' ≠ '-' := by
  induction f with
  | var nm =>
    show nm.data.getD (nm.data.length - 1) ' ' ≠ '-'
    unfold Formula.wfF pvarOk at hwf
    cases hd : nm.data with
    | nil => rw [hd] at hwf; simp at hwf
    | cons c t =>
      rw [hd] at hwf
      simp only [Bool.and_eq_true] at hwf
      cases ht : t.reverse with
      | nil =>
        have ht0 : t = [] := by simpa using congrArg List.reverse ht
        subst ht0
        unfold isPropVarChar at hwf
        simp only [decide_eq_true_eq] at hwf
        intro hc
        have hc2 : c = '-' := by simpa using hc
        rw [hc2] at hwf
        exact absurd hwf.1.1 (by decide)
      | cons d dr =>
        have htt : t = dr.reverse ++ [d] := by
          have := congrArg List.reverse ht
          simpa using this
        have hmem : d ∈ t := by rw [htt]; simp
        have hdd := hwf.2
        rw [List.all_eq_true] at hdd
        have hdig := hdd d hmem
        unfold charIsDigit at hdig
        simp only [decide_eq_true_eq] at hdig
        have hlen : (c :: t).length - 1 = dr.reverse.length + 1 := by
          rw [htt]
          simp
        rw [hlen]
        have : (c :: t).getD (dr.reverse.length + 1) ' ' = d := by
          rw [htt]
          rw [show (c :: (dr.reverse ++ [d])) = (c :: dr.reverse) ++ [d]
            from by simp]
          have := getD_append_idx (c :: dr.reverse) [d] ' ' 0 (by simp)
          simpa using this
        rw [this]
        intro hc
        rw [hc] at hdig
        exact absurd hdig (by decide)
  | const b =>
    cases b <;> decide
  | neg f1 ih =>
    have h := ih hwf
    show (('~' :: f1.reprF).getD (('~' :: f1.reprF).length - 1) ' ') ≠ '-'
    have hpos := reprF_length_pos f1 hwf
    rw [show ('~' :: f1.reprF).length - 1 = (f1.reprF.length - 1) + 1 by
      simp only [List.length_cons]; omega]
    rw [List.getD_cons_succ]
    exact h
  | bin op f1 f2 ih1 ih2 =>
    show ((Formula.bin op f1 f2).reprF.getD
      ((Formula.bin op f1 f2).reprF.length - 1) ' ') ≠ '-'
    have hshape : (Formula.bin op f1 f2).reprF =
        ('(' :: (f1.reprF ++ opChars op ++ f2.reprF)) ++ [')'] := by
      simp [Formula.reprF]
    rw [hshape]
    rw [show (('(' :: (f1.reprF ++ opChars op ++ f2.reprF)) ++ [')']).length
      - 1 = ('(' :: (f1.reprF ++ opChars op ++ f2.reprF)).length + 0 by
        simp
        omega]
    rw [getD_append_idx _ [')'] ' ' 0 (by simp)]
    decide

/-- Position (relative to the operator's first character) at which the
scanning loop records `index_operator` for each operator. -/
def idxOpOff : BinOp → Nat
  | BinOp.and => 0
  | BinOp.or => 0
  | BinOp.xor => 0
  | _ => 1

theorem scan_top_op (op : BinOp) (s : List Char) (st : ScanSt)
    (rest : List Char)
    (hdrop : s.drop st.index = opChars op ++ rest)
    (hcp : st.countPar = 1)
    (hne : st.openN ≠ st.closeN) :
    ppScan s st = ppScan s
      {st with index := st.index + (opChars op).length,
               opN := st.opN + 1,
               idxOp := st.index + idxOpOff op} := by
  cases op with
  | and =>
    have hc : s.getD st.index ' ' = '&' :=
      getD_of_drop s st.index '&' rest (by simpa [opChars] using hdrop)
    have hidx := index_lt_of_drop s st.index '&' rest
      (by simpa [opChars] using hdrop)
    rw [ppScan_unfold_ok s st _ hidx (ppStep_single s st (by rw [hc]; decide)),
      if_neg hne, if_pos hcp]
    rfl
  | or =>
    have hc : s.getD st.index ' ' = '|' :=
      getD_of_drop s st.index '|' rest (by simpa [opChars] using hdrop)
    have hidx := index_lt_of_drop s st.index '|' rest
      (by simpa [opChars] using hdrop)
    rw [ppScan_unfold_ok s st _ hidx (ppStep_single s st (by rw [hc]; decide)),
      if_neg hne, if_pos hcp]
    rfl
  | xor =>
    have hc : s.getD st.index ' ' = '+' :=
      getD_of_drop s st.index '+' rest (by simpa [opChars] using hdrop)
    have hidx := index_lt_of_drop s st.index '+' rest
      (by simpa [opChars] using hdrop)
    rw [ppScan_unfold_ok s st _ hidx (ppStep_single s st (by rw [hc]; decide)),
      if_neg hne, if_pos hcp]
    rfl
  | imp =>
    have hlen := length_drop_eq s _ st.index hdrop
    simp only [List.length_append, opChars, List.length_cons,
      List.length_nil] at hlen
    have hc : s.getD st.index ' ' = '-' :=
      getD_of_drop_at s st.index 0 _ hdrop (by simp [opChars])
    have hc2 : s.getD (st.index + 1) ' ' = '>' :=
      getD_of_drop_at s st.index 1 _ hdrop (by simp [opChars])
    rw [ppScan_unfold_ok s st _ (by omega)
      (ppStep_dash s st hc (by omega) (Or.inl hc2)), if_neg hne, if_pos hcp]
    rfl
  | nand =>
    have hlen := length_drop_eq s _ st.index hdrop
    simp only [List.length_append, opChars, List.length_cons,
      List.length_nil] at hlen
    have hc : s.getD st.index ' ' = '-' :=
      getD_of_drop_at s st.index 0 _ hdrop (by simp [opChars])
    have hc2 : s.getD (st.index + 1) ' ' = '&' :=
      getD_of_drop_at s st.index 1 _ hdrop (by simp [opChars])
    rw [ppScan_unfold_ok s st _ (by omega)
      (ppStep_dash s st hc (by omega) (Or.inr (Or.inl hc2))), if_neg hne,
      if_pos hcp]
    rfl
  | nor =>
    have hlen := length_drop_eq s _ st.index hdrop
    simp only [List.length_append, opChars, List.length_cons,
      List.length_nil] at hlen
    have hc : s.getD st.index ' ' = '-' :=
      getD_of_drop_at s st.index 0 _ hdrop (by simp [opChars])
    have hc2 : s.getD (st.index + 1) ' ' = '|' :=
      getD_of_drop_at s st.index 1 _ hdrop (by simp [opChars])
    rw [ppScan_unfold_ok s st _ (by omega)
      (ppStep_dash s st hc (by omega) (Or.inr (Or.inr hc2))), if_neg hne,
      if_pos hcp]
    rfl
  | iff =>
    have hlen := length_drop_eq s _ st.index hdrop
    simp only [List.length_append, opChars, List.length_cons,
      List.length_nil] at hlen
    have hc : s.getD st.index ' ' = '<' :=
      getD_of_drop_at s st.index 0 _ hdrop (by simp [opChars])
    have hc2 : s.getD (st.index + 1) ' ' = '-' :=
      getD_of_drop_at s st.index 1 _ hdrop (by simp [opChars])
    have hc3 : s.getD (st.index + 2) ' ' = '>' :=
      getD_of_drop_at s st.index 2 _ hdrop (by simp [opChars])
    rw [ppScan_unfold_ok s st _ (by omega)
      (ppStep_langle s st hc (by omega) hc2 hc3), if_neg hne, if_pos hcp]
    have hcplain : s.getD (st.index + 1 + 1) ' ' = '>' := by
      rw [show st.index + 1 + 1 = st.index + 2 by omega]
      exact hc3
    rw [ppScan_unfold_ok s _ _ (by change st.index + 1 + 1 < s.length; omega)
      (ppStep_plain s _ (by rw [hcplain]; decide)), if_neg hne]
    have e1 : st.index + 1 + 1 + 1 = st.index + (opChars BinOp.iff).length
      := by simp [opChars]
    rw [show ({st with opN := st.opN + 1, idxOp := st.index + 1,
                       index := st.index + 1 + 1 + 1} : ScanSt) =
      {st with index := st.index + (opChars BinOp.iff).length,
               opN := st.opN + 1,
               idxOp := st.index + idxOpOff BinOp.iff} from by
        rw [e1]
        rfl]

theorem ppScan_bin_total (op : BinOp) (f1 f2 : Formula)
    (h1 : f1.wfF = true) (h2 : f2.wfF = true) :
    ppScan (Formula.bin op f1 f2).reprF ⟨0, 0, 0, 0, 0, 0, 0⟩ =
      .ok (⟨(Formula.bin op f1 f2).reprF.length,
            (Formula.bin op f1 f2).numBins,
            (Formula.bin op f1 f2).numBins,
            (Formula.bin op f1 f2).numBins,
            (Formula.bin op f1 f2).reprF.length - 1,
            1 + f1.reprF.length + idxOpOff op,
            0⟩, true) := by
  set s := (Formula.bin op f1 f2).reprF with hs
  have hshape : s = '(' :: (f1.reprF ++ (opChars op ++ (f2.reprF ++
      ([')'] ++ [])))) := by
    rw [hs]
    simp [Formula.reprF]
  have hslen : s.length = 1 + f1.reprF.length + (opChars op).length +
      f2.reprF.length + 1 := by
    rw [hshape]
    simp
    omega
  have hdrop0 : s.drop 0 = '(' :: (f1.reprF ++ (opChars op ++ (f2.reprF ++
      ([')'] ++ [])))) := by
    rw [List.drop_zero]
    exact hshape
  have hc0 : s.getD 0 ' ' = '(' := getD_of_drop s 0 '(' _ hdrop0
  rw [ppScan_unfold_ok s _ _ (by change (0 : Nat) < s.length; omega)
    (ppStep_open s _ hc0), if_neg (by decide)]
  have hdropA : s.drop 1 = f1.reprF ++ (opChars op ++ (f2.reprF ++
      ([')'] ++ []))) := drop_succ_of_cons s 0 '(' _ hdrop0
  obtain ⟨ic1, hA⟩ := scan_skip f1 h1 s
    {(⟨0, 0, 0, 0, 0, 0, 0⟩ : ScanSt) with openN := 0 + 1, countPar := 0 + 1, index := 0 + 1}
    _ (by exact hdropA) (by decide) (by decide)
  rw [hA]
  have hdropOp : s.drop (0 + 1 + f1.reprF.length) = opChars op ++
      (f2.reprF ++ ([')'] ++ [])) := by
    have := drop_advance s f1.reprF _ 1 hdropA
    simpa using this
  have hOp := scan_top_op op s
    {(⟨0, 0, 0, 0, 0, 0, 0⟩ : ScanSt) with countPar := 0 + 1, index := 0 + 1 + f1.reprF.length, openN := 0 + 1 + f1.numBins, closeN := 0 + f1.numBins, opN := 0 + f1.numBins, idxClose := ic1}
    _ (by exact hdropOp) rfl
    (by change 0 + 1 + f1.numBins ≠ 0 + f1.numBins; omega)
  rw [hOp]
  have hdropB : s.drop (0 + 1 + f1.reprF.length + (opChars op).length) =
      f2.reprF ++ ([')'] ++ []) := by
    have := drop_advance s (opChars op) _ (0 + 1 + f1.reprF.length) hdropOp
    simpa using this
  obtain ⟨ic2, hB⟩ := scan_skip f2 h2 s
    {(⟨0, 0, 0, 0, 0, 0, 0⟩ : ScanSt) with countPar := 0 + 1, index := 0 + 1 + f1.reprF.length + (opChars op).length, openN := 0 + 1 + f1.numBins, closeN := 0 + f1.numBins, opN := 0 + f1.numBins + 1, idxClose := ic1, idxOp := 0 + 1 + f1.reprF.length + idxOpOff op}
    _ (by exact hdropB)
    (by change (0 : Int) + 1 = ((0 + 1 + f1.numBins : Nat) : Int) -
          ((0 + f1.numBins : Nat) : Int)
        push_cast
        omega)
    (by change (1 : Int) ≤ ((0 + 1 + f1.numBins : Nat) : Int) -
          ((0 + f1.numBins : Nat) : Int)
        push_cast
        omega)
  rw [hB]
  have hdropC : s.drop (0 + 1 + f1.reprF.length + (opChars op).length +
      f2.reprF.length) = [')'] ++ [] := by
    have := drop_advance s f2.reprF _
      (0 + 1 + f1.reprF.length + (opChars op).length) hdropB
    simpa using this
  have hcC : s.getD (0 + 1 + f1.reprF.length + (opChars op).length +
      f2.reprF.length) ' ' = ')' := getD_of_drop s _ ')' []
    (by simpa using hdropC)
  have hidxC : 0 + 1 + f1.reprF.length + (opChars op).length +
      f2.reprF.length < s.length := by omega
  rw [ppScan_unfold_ok s _ _ hidxC (ppStep_close s _ hcC),
    if_pos (by
      change 0 + 1 + f1.numBins + f2.numBins =
        0 + f1.numBins + f2.numBins + 1
      omega)]
  congr 1
  congr 1
  ext
  · change 0 + 1 + f1.reprF.length + (opChars op).length +
      f2.reprF.length + 1 = s.length
    omega
  · change 0 + 1 + f1.numBins + f2.numBins =
      (Formula.bin op f1 f2).numBins
    simp only [Formula.numBins]
    omega
  · change 0 + f1.numBins + f2.numBins + 1 =
      (Formula.bin op f1 f2).numBins
    simp only [Formula.numBins]
    omega
  · change 0 + f1.numBins + 1 + f2.numBins =
      (Formula.bin op f1 f2).numBins
    simp only [Formula.numBins]
    omega
  · change 0 + 1 + f1.reprF.length + (opChars op).length +
      f2.reprF.length = s.length - 1
    omega
  · change 0 + 1 + f1.reprF.length + idxOpOff op =
      1 + f1.reprF.length + idxOpOff op
    omega
  · change (0 : Int) + 1 - 1 = 0
    omega

theorem string_mk_data (nm : String) : String.mk nm.data = nm := rfl

theorem parsePfx_round : ∀ f : Formula, f.wfF = true →
    parsePfx f.reprF = (some f, []) := by
  intro f
  induction f with
  | var nm =>
    intro hwf
    show parsePfx nm.data = (some (Formula.var nm), [])
    have hwf2 : pvarOk nm.data = true := hwf
    cases hd : nm.data with
    | nil => rw [hd] at hwf2; simp [pvarOk] at hwf2
    | cons c t =>
      rw [hd] at hwf2
      unfold pvarOk at hwf2
      simp only [Bool.and_eq_true] at hwf2
      have hc0 : nm.data.getD 0 ' ' = c := by rw [hd]; rfl
      have hvarc : isPropVarChar (nm.data.getD 0 ' ') = true := by
        rw [hc0]; exact hwf2.1
      have hrange : 'p' ≤ c ∧ c ≤ 'z' := by
        have := hwf2.1
        unfold isPropVarChar at this
        simpa using this
      cases ht : t with
      | nil =>
        rw [parsePfx]
        rw [dif_neg (by simp), dif_pos (by simp)]
        simp only [List.getD_cons_zero]
        rw [if_pos (Or.inl hwf2.1), if_pos hwf2.1]
        rw [← string_mk_data nm, hd, ht]
      | cons d dr =>
        rw [parsePfx]
        rw [dif_neg (by simp), dif_neg (by simp)]
        rw [dif_neg (by
          intro hEq
          have hcEq : c = '~' := hEq
          rw [hcEq] at hrange
          exact absurd hrange.2 (by decide))]
        simp only [List.getD_cons_zero]
        rw [if_pos hwf2.1]
        have htw : ((c :: d :: dr).drop 1).takeWhile charIsDigit =
            d :: dr := by
          rw [show (c :: d :: dr).drop 1 = d :: dr from rfl]
          exact takeWhile_all_eq (d :: dr) (ht ▸ hwf2.2)
        rw [htw]
        have htake : (c :: d :: dr).take (1 + (d :: dr).length) =
            c :: d :: dr := by
          refine List.take_of_length_le ?_
          simp only [List.length_cons]
          omega
        have hdropAll : (c :: d :: dr).drop (1 + (d :: dr).length) = [] := by
          refine List.drop_eq_nil_of_le ?_
          simp only [List.length_cons]
          omega
        rw [htake, hdropAll]
        rw [← string_mk_data nm, hd, ht]
  | const b =>
    intro _
    cases b with
    | true =>
      show parsePfx ['T'] = (some (Formula.const true), [])
      rw [parsePfx]
      rw [dif_neg (by decide), dif_pos (by decide),
        if_pos (by right; left; rfl), if_neg (by decide)]
      rfl
    | false =>
      show parsePfx ['F'] = (some (Formula.const false), [])
      rw [parsePfx]
      rw [dif_neg (by decide), dif_pos (by decide),
        if_pos (by right; right; rfl), if_neg (by decide)]
      rfl
  | neg f1 ih =>
    intro hwf
    have h1 := ih hwf
    have hpos := reprF_length_pos f1 hwf
    show parsePfx ('~' :: f1.reprF) = (some (Formula.neg f1), [])
    rw [parsePfx]
    rw [dif_neg (by simp), dif_neg (by simp only [List.length_cons]; omega),
      dif_pos (by rfl)]
    rw [show ('~' :: f1.reprF).drop 1 = f1.reprF from rfl, h1]
  | bin op f1 f2 ih1 ih2 =>
    intro hwf
    simp only [Formula.wfF, Bool.and_eq_true] at hwf
    have h1 := ih1 hwf.1
    have h2 := ih2 hwf.2
    have hp1 := reprF_length_pos f1 hwf.1
    have hp2 := reprF_length_pos f2 hwf.2
    set s := (Formula.bin op f1 f2).reprF with hs
    have hshape : s = '(' :: (f1.reprF ++ (opChars op ++ (f2.reprF ++
        ([')'] ++ [])))) := by
      rw [hs]
      simp [Formula.reprF]
    have hoplen : 1 ≤ (opChars op).length := by cases op <;> simp [opChars]
    have hslen : s.length = 1 + f1.reprF.length + (opChars op).length +
        f2.reprF.length + 1 := by
      rw [hshape]
      simp
      omega
    have hc0 : s.getD 0 ' ' = '(' :=
      getD_of_drop s 0 '(' _ (by rw [List.drop_zero]; exact hshape)
    have hdropA : s.drop 1 = f1.reprF ++ (opChars op ++ (f2.reprF ++
        ([')'] ++ []))) :=
      drop_succ_of_cons s 0 '(' _ (by rw [List.drop_zero]; exact hshape)
    have hdropOp : s.drop (1 + f1.reprF.length) = opChars op ++
        (f2.reprF ++ ([')'] ++ [])) := by
      have := drop_advance s f1.reprF _ 1 hdropA
      simpa using this
    have hdropB : s.drop (1 + f1.reprF.length + (opChars op).length) =
        f2.reprF ++ ([')'] ++ []) := by
      have := drop_advance s (opChars op) _ (1 + f1.reprF.length) hdropOp
      simpa using this
    -- the left slice
    have hsliceA : pyslice s 1 (1 + f1.reprF.length) = f1.reprF := by
      unfold pyslice
      rw [hdropA, show 1 + f1.reprF.length - 1 = f1.reprF.length by omega]
      exact List.take_left f1.reprF _
    -- the right slice
    have hsliceB : pyslice s (1 + f1.reprF.length + (opChars op).length)
        (s.length - 1) = f2.reprF := by
      unfold pyslice
      rw [hdropB, show s.length - 1 -
        (1 + f1.reprF.length + (opChars op).length) = f2.reprF.length by
          omega]
      exact List.take_left f2.reprF _
    -- the character before the operator is the last character of f1's
    -- representation, never '-'
    have hprev : s.getD (f1.reprF.length) ' ' =
        f1.reprF.getD (f1.reprF.length - 1) ' ' := by
      have := getD_of_drop_at s 1 (f1.reprF.length - 1) _ hdropA
        (by rw [List.length_append]; omega)
      rw [show 1 + (f1.reprF.length - 1) = f1.reprF.length by omega] at this
      rw [this]
      rw [List.getD_eq_getElem?_getD, List.getD_eq_getElem?_getD,
        List.getElem?_append_left (by omega)]
    have hprevne : s.getD (f1.reprF.length) ' ' ≠ '-' := by
      rw [hprev]
      exact reprF_last_not_dash f1 hwf.1
    rw [parsePfx]
    rw [dif_neg (by omega), dif_neg (by omega)]
    rw [dif_neg (by rw [hc0]; decide), if_neg (by rw [hc0]; decide),
      if_neg (by rw [hc0]; decide)]
    rw [ppScan_bin_total op f1 f2 hwf.1 hwf.2]
    simp only
    rw [if_neg (by
      push_neg
      exact ⟨rfl, rfl⟩)]
    have hdropLen : s.drop (s.length - 1 + 1) = [] := by
      refine List.drop_eq_nil_of_le ?_
      omega
    cases op with
    | and =>
      have hcop : s.getD (1 + f1.reprF.length + idxOpOff BinOp.and) ' '
          = '&' := by
        have := getD_of_drop_at s (1 + f1.reprF.length) 0 _ hdropOp
          (by simp [opChars])
        simpa [idxOpOff, opChars] using this
      rw [← hs]
      rw [if_pos (Or.inl trivial), hdropLen]
      rw [if_neg (by rw [hcop]; decide), if_neg (by rw [hcop]; decide)]
      rw [if_neg (by
        rintro ⟨-, hdash⟩
        rw [show 1 + f1.reprF.length + idxOpOff BinOp.and - 1 =
          f1.reprF.length by simp [idxOpOff]] at hdash
        exact hprevne hdash)]
      rw [if_neg (by rintro ⟨hbar, -⟩; rw [hcop] at hbar; revert hbar; decide)]
      rw [hcop]
      simp only [binOpOfChar]
      rw [if_true]
      rw [show 1 + f1.reprF.length + idxOpOff BinOp.and =
        1 + f1.reprF.length by simp [idxOpOff]]
      rw [hsliceA]
      rw [show 1 + f1.reprF.length + 1 =
        1 + f1.reprF.length + (opChars BinOp.and).length by simp [opChars]]
      rw [hsliceB, h1, h2]
    | or =>
      have hcop : s.getD (1 + f1.reprF.length + idxOpOff BinOp.or) ' '
          = '|' := by
        have := getD_of_drop_at s (1 + f1.reprF.length) 0 _ hdropOp
          (by simp [opChars])
        simpa [idxOpOff, opChars] using this
      rw [← hs]
      rw [if_pos (Or.inl trivial), hdropLen]
      rw [if_neg (by rw [hcop]; decide), if_neg (by rw [hcop]; decide)]
      rw [if_neg (by rintro ⟨hamp, -⟩; rw [hcop] at hamp; revert hamp; decide)]
      rw [if_neg (by
        rintro ⟨-, hdash⟩
        rw [show 1 + f1.reprF.length + idxOpOff BinOp.or - 1 =
          f1.reprF.length by simp [idxOpOff]] at hdash
        exact hprevne hdash)]
      rw [hcop]
      simp only [binOpOfChar]
      rw [if_neg (by decide), if_true]
      rw [show 1 + f1.reprF.length + idxOpOff BinOp.or =
        1 + f1.reprF.length by simp [idxOpOff]]
      rw [hsliceA]
      rw [show 1 + f1.reprF.length + 1 =
        1 + f1.reprF.length + (opChars BinOp.or).length by simp [opChars]]
      rw [hsliceB, h1, h2]
    | xor =>
      have hcop : s.getD (1 + f1.reprF.length + idxOpOff BinOp.xor) ' '
          = '+' := by
        have := getD_of_drop_at s (1 + f1.reprF.length) 0 _ hdropOp
          (by simp [opChars])
        simpa [idxOpOff, opChars] using this
      rw [← hs]
      rw [if_pos (Or.inl trivial), hdropLen]
      rw [if_neg (by rw [hcop]; decide), if_neg (by rw [hcop]; decide)]
      rw [if_neg (by rintro ⟨hamp, -⟩; rw [hcop] at hamp; revert hamp; decide)]
      rw [if_neg (by rintro ⟨hbar, -⟩; rw [hcop] at hbar; revert hbar; decide)]
      rw [hcop]
      simp only [binOpOfChar]
      rw [if_neg (by decide), if_neg (by decide), if_true]
      rw [show 1 + f1.reprF.length + idxOpOff BinOp.xor =
        1 + f1.reprF.length by simp [idxOpOff]]
      rw [hsliceA]
      rw [show 1 + f1.reprF.length + 1 =
        1 + f1.reprF.length + (opChars BinOp.xor).length by simp [opChars]]
      rw [hsliceB, h1, h2]
    | imp =>
      have hcop : s.getD (1 + f1.reprF.length + idxOpOff BinOp.imp) ' '
          = '>' := by
        have := getD_of_drop_at s (1 + f1.reprF.length) 1 _ hdropOp
          (by simp [opChars])
        simpa [idxOpOff, opChars] using this
      rw [← hs]
      rw [if_pos (Or.inl trivial), hdropLen]
      rw [if_pos hcop]
      rw [show 1 + f1.reprF.length + idxOpOff BinOp.imp - 1 =
        1 + f1.reprF.length by simp [idxOpOff]]
      rw [hsliceA]
      rw [show 1 + f1.reprF.length + idxOpOff BinOp.imp + 1 =
        1 + f1.reprF.length + (opChars BinOp.imp).length by
          simp [idxOpOff, opChars]]
      rw [hsliceB, h1, h2]
    | iff =>
      have hcop : s.getD (1 + f1.reprF.length + idxOpOff BinOp.iff) ' '
          = '-' := by
        have := getD_of_drop_at s (1 + f1.reprF.length) 1 _ hdropOp
          (by simp [opChars])
        simpa [idxOpOff, opChars] using this
      rw [← hs]
      rw [if_pos (Or.inl trivial), hdropLen]
      rw [if_neg (by rw [hcop]; decide), if_pos hcop]
      rw [show 1 + f1.reprF.length + idxOpOff BinOp.iff - 1 =
        1 + f1.reprF.length by simp [idxOpOff]]
      rw [hsliceA]
      rw [show 1 + f1.reprF.length + idxOpOff BinOp.iff + 2 =
        1 + f1.reprF.length + (opChars BinOp.iff).length by
          simp [idxOpOff, opChars]]
      rw [hsliceB, h1, h2]
    | nand =>
      have hcop : s.getD (1 + f1.reprF.length + idxOpOff BinOp.nand) ' '
          = '&' := by
        have := getD_of_drop_at s (1 + f1.reprF.length) 1 _ hdropOp
          (by simp [opChars])
        simpa [idxOpOff, opChars] using this
      have hcprev : s.getD (1 + f1.reprF.length + idxOpOff BinOp.nand - 1)
          ' ' = '-' := by
        have := getD_of_drop_at s (1 + f1.reprF.length) 0 _ hdropOp
          (by simp [opChars])
        simpa [idxOpOff, opChars] using this
      rw [← hs]
      rw [if_pos (Or.inl trivial), hdropLen]
      rw [if_neg (by rw [hcop]; decide), if_neg (by rw [hcop]; decide)]
      rw [if_pos ⟨hcop, hcprev⟩]
      rw [show 1 + f1.reprF.length + idxOpOff BinOp.nand - 1 =
        1 + f1.reprF.length by simp [idxOpOff]]
      rw [hsliceA]
      rw [show 1 + f1.reprF.length + idxOpOff BinOp.nand + 1 =
        1 + f1.reprF.length + (opChars BinOp.nand).length by
          simp [idxOpOff, opChars]]
      rw [hsliceB, h1, h2]
    | nor =>
      have hcop : s.getD (1 + f1.reprF.length + idxOpOff BinOp.nor) ' '
          = '|' := by
        have := getD_of_drop_at s (1 + f1.reprF.length) 1 _ hdropOp
          (by simp [opChars])
        simpa [idxOpOff, opChars] using this
      have hcprev : s.getD (1 + f1.reprF.length + idxOpOff BinOp.nor - 1)
          ' ' = '-' := by
        have := getD_of_drop_at s (1 + f1.reprF.length) 0 _ hdropOp
          (by simp [opChars])
        simpa [idxOpOff, opChars] using this
      rw [← hs]
      rw [if_pos (Or.inl trivial), hdropLen]
      rw [if_neg (by rw [hcop]; decide), if_neg (by rw [hcop]; decide)]
      rw [if_neg (by rintro ⟨hamp, -⟩; rw [hcop] at hamp; revert hamp; decide)]
      rw [if_pos ⟨hcop, hcprev⟩]
      rw [show 1 + f1.reprF.length + idxOpOff BinOp.nor - 1 =
        1 + f1.reprF.length by simp [idxOpOff]]
      rw [hsliceA]
      rw [show 1 + f1.reprF.length + idxOpOff BinOp.nor + 1 =
        1 + f1.reprF.length + (opChars BinOp.nor).length by
          simp [idxOpOff, opChars]]
      rw [hsliceB, h1, h2]

/-! ## First-order parsing (`predicates/syntax.py`, claim C3)

The remaining parsers of claim C3: `Term.parse_prefix` and
`Formula.parse_prefix` of `predicates/syntax.py`, embedded over `List Char`
like the propositional parser above.  `none` models every path on which the
Python code would crash (an index error on an empty string, `find` returning
`-1`, or a constructor assertion failure). -/

/-- `is_equality(s)` from `predicates/syntax.py`. -/
def is_equality (s : String) : Bool := decide (s = "=")

/-- `is_relation(s)` from `predicates/syntax.py`. -/
def is_relation (s : String) : Bool :=
  decide (('F' ≤ strHead s ∧ strHead s ≤ 'T') ∧ isAlnumStr s = true)

/-- `is_unary(s)` from `predicates/syntax.py`. -/
def is_unary (s : String) : Bool := decide (s = "~")

/-- `is_binary(s)` from `predicates/syntax.py`. -/
def is_binary (s : String) : Bool :=
  decide (s = "&" ∨ s = "|" ∨ s = "->")

/-- `is_quantifier(s)` from `predicates/syntax.py`. -/
def is_quantifier (s : String) : Bool := decide (s = "A" ∨ s = "E")

mutual
/-- The constructor invariants of the Python `Term` class: a leaf carries a
constant or variable name, a `func` node a function name applied to a
non-empty argument list. -/
def PTerm.wfT : PTerm → Bool
  | PTerm.leaf r => is_constant r || is_variable r
  | PTerm.func r args => is_function r && !args.isEmpty && wfTList args
def wfTList : List PTerm → Bool
  | [] => true
  | t :: ts => PTerm.wfT t && wfTList ts
end

/-- The constructor invariants of the Python first-order `Formula` class. -/
def PFormula.wfP : PFormula → Bool
  | PFormula.eq t1 t2 => t1.wfT && t2.wfT
  | PFormula.rel name args => is_relation name && wfTList args
  | PFormula.unary f => f.wfP
  | PFormula.binary op f g =>
    decide (op = "&" ∨ op = "|" ∨ op = "->") && f.wfP && g.wfP
  | PFormula.quant q v p =>
    decide (q = "A" ∨ q = "E") && is_variable v && p.wfP

/-- First-order `Formula.__repr__` (the relation case joins the arguments
with commas exactly as `Term.__repr__` does, i.e. `reprArgs`). -/
def PFormula.reprP : PFormula → String
  | PFormula.eq t1 t2 => PTerm.reprT t1 ++ "=" ++ PTerm.reprT t2
  | PFormula.rel name args => name ++ "(" ++ reprArgs args ++ ")"
  | PFormula.unary f => "~" ++ f.reprP
  | PFormula.binary op f g => "(" ++ f.reprP ++ op ++ g.reprP ++ ")"
  | PFormula.quant q v p => q ++ v ++ "[" ++ p.reprP ++ "]"

mutual
/-- `Term.parse_prefix`.  The variable and constant branches munch the
alphanumeric run after the first character (`flag`/`index` loop); the
function branch finds the first `(`, runs the comma-splitting scan
(`termLoop` below), parses the final argument slice and rebuilds the
term. -/
def termParsePfx (s : List Char) : Option PTerm × List Char :=
  if h0 : s.length = 0 then (none, "term index error".data)
  else if is_variable (String.mk [s.getD 0 ' ']) then
    if s.length = 1 then (some (PTerm.leaf (String.mk [s.getD 0 ' '])), [])
    else
      let nd := ((s.drop 1).takeWhile charIsAlnum).length
      if 1 + nd = s.length then (some (PTerm.leaf (String.mk s)), [])
      else (some (PTerm.leaf (String.mk (s.take (1 + nd)))), s.drop (1 + nd))
  else if is_constant (String.mk [s.getD 0 ' ']) then
    if s.length = 1 then (some (PTerm.leaf (String.mk [s.getD 0 ' '])), [])
    else if s.getD 0 ' ' = '_' then (some (PTerm.leaf "_"), s.drop 1)
    else
      let nd := ((s.drop 1).takeWhile charIsAlnum).length
      if 1 + nd = s.length then (some (PTerm.leaf (String.mk s)), [])
      else (some (PTerm.leaf (String.mk (s.take (1 + nd)))), s.drop (1 + nd))
  else
    match s.findIdx? (fun c => c = '(') with
    | none => (none, "term find error".data)
    | some io =>
      match termLoop s (io + 1) 1 [io] [] io [] with
      | none => (none, "term argument error".data)
      | some (i, lo, tms) =>
        match (termParsePfx (pyslice s (lo + 1) i)).1 with
        | none => (none, "term argument error".data)
        | some t =>
          if is_function (String.mk (s.take io)) then
            (some (PTerm.func (String.mk (s.take io)) (tms ++ [t])),
              s.drop (i + 1))
          else (none, "term root error".data)
termination_by (s.length, 1, 0)
decreasing_by
  · apply Prod.Lex.right
    apply Prod.Lex.left
    omega
  · apply Prod.Lex.left
    exact pyslice_length_lt s (lo + 1) i (by omega) (by omega)

/-- The `while` loop of the function branch of `Term.parse_prefix`:
counts parentheses, splits on commas whose `len(opens) < len(closed) + 2`,
parses each comma-delimited slice, and stops (returning the current index,
`last_one` and the collected terms) when the counter reaches zero.  `none`
models a crash while parsing a slice. -/
def termLoop (s : List Char) (i : Nat) (counter : Int)
    (opens closed : List Nat) (last_one : Nat) (terms : List PTerm) :
    Option (Nat × Nat × List PTerm) :=
  if hi : i < s.length then
    if s.getD i ' ' = '(' then
      if counter + 1 = 0 then some (i, last_one, terms)
      else termLoop s (i + 1) (counter + 1) (opens ++ [i]) closed last_one
        terms
    else if s.getD i ' ' = ')' then
      if counter - 1 = 0 then some (i, last_one, terms)
      else termLoop s (i + 1) (counter - 1) opens (closed ++ [i]) last_one
        terms
    else if s.getD i ' ' = ',' ∧ opens.length < closed.length + 2 then
      match (termParsePfx (pyslice s (last_one + 1) i)).1 with
      | none => none
      | some t =>
        if counter = 0 then some (i, i, terms ++ [t])
        else termLoop s (i + 1) counter opens closed i (terms ++ [t])
    else
      if counter = 0 then some (i, last_one, terms)
      else termLoop s (i + 1) counter opens closed last_one terms
  else some (i, last_one, terms)
termination_by (s.length, 0, s.length - i)
decreasing_by
  · apply Prod.Lex.right
    apply Prod.Lex.right
    omega
  · apply Prod.Lex.right
    apply Prod.Lex.right
    omega
  · apply Prod.Lex.left
    exact pyslice_length_lt s (last_one + 1) i (by omega) (by omega)
  · apply Prod.Lex.right
    apply Prod.Lex.right
    omega
  · apply Prod.Lex.right
    apply Prod.Lex.right
    omega
end

/-- `Term.parse`: `Term.parse_prefix(s)[0]`. -/
def termParse (s : List Char) : Option PTerm := (termParsePfx s).1

/-- The relation-argument `while` loop of `Formula.parse_prefix`.  It is the
same scan as `termLoop` except that it appends the (now fixed) outer `index`
value to `opens`/`closed` instead of the loop variable — the lists are only
ever read through `len`. -/
def relScan (s : List Char) (idxVal : Nat) (i : Nat) (counter : Int)
    (opens closed : List Nat) (last_one : Nat) (terms : List PTerm) :
    Option (Nat × Nat × List PTerm) :=
  if hi : i < s.length then
    if s.getD i ' ' = '(' then
      if counter + 1 = 0 then some (i, last_one, terms)
      else relScan s idxVal (i + 1) (counter + 1) (opens ++ [idxVal]) closed
        last_one terms
    else if s.getD i ' ' = ')' then
      if counter - 1 = 0 then some (i, last_one, terms)
      else relScan s idxVal (i + 1) (counter - 1) opens (closed ++ [idxVal])
        last_one terms
    else if s.getD i ' ' = ',' ∧ opens.length < closed.length + 2 then
      match (termParsePfx (pyslice s (last_one + 1) i)).1 with
      | none => none
      | some t =>
        if counter = 0 then some (i, i, terms ++ [t])
        else relScan s idxVal (i + 1) counter opens closed i (terms ++ [t])
    else
      if counter = 0 then some (i, last_one, terms)
      else relScan s idxVal (i + 1) counter opens closed last_one terms
  else some (i, last_one, terms)
termination_by s.length - i

/-- One iteration of the parenthesis/operator scan of
`Formula.parse_prefix`: parentheses update the counters and `index_close`,
a single-character binary operator or the two-character `->` updates the
operator count and (at `count_par == 1`) `index_operator`.  The square
bracket counters of the Python code are omitted: they are never changed, so
the `square_open == square_close` conjunct of the stop condition is always
true. -/
def foStep (s : List Char) (st : ScanSt) : ScanSt :=
  if s.getD st.index ' ' = '(' then
    {st with index := st.index + 1, openN := st.openN + 1,
             countPar := st.countPar + 1}
  else if s.getD st.index ' ' = ')' then
    {st with index := st.index + 1, closeN := st.closeN + 1,
             countPar := st.countPar - 1, idxClose := st.index}
  else if is_binary (String.mk [s.getD st.index ' ']) then
    if st.countPar = 1 then
      {st with index := st.index + 1, opN := st.opN + 1, idxOp := st.index}
    else {st with index := st.index + 1, opN := st.opN + 1}
  else if st.index + 1 < s.length ∧
      pyslice s st.index (st.index + 2) = ['-', '>'] then
    if st.countPar = 1 then
      {st with index := st.index + 2, opN := st.opN + 1,
               idxOp := st.index + 1}
    else {st with index := st.index + 2, opN := st.opN + 1}
  else {st with index := st.index + 1}

/-- The scan `while` loop of `Formula.parse_prefix`: step until
`open_number == close_number` (checked after every iteration) or the end of
the string. -/
def foScan (s : List Char) (st : ScanSt) : ScanSt :=
  if hi : st.index < s.length then
    if (foStep s st).openN = (foStep s st).closeN then foStep s st
    else foScan s (foStep s st)
  else st
termination_by s.length - st.index
decreasing_by
  have hx : st.index + 1 ≤ (foStep s st).index := by
    unfold foStep
    split_ifs <;> simp <;> omega
  omega

/-- Python `s.split("=")`. -/
def pySplitEq : List Char → List (List Char)
  | [] => [[]]
  | c :: cs =>
    if c = '=' then [] :: pySplitEq cs
    else
      match pySplitEq cs with
      | [] => [[c]]
      | p :: ps => (c :: p) :: ps

/-- First-order `Formula.parse_prefix`.  The unary and quantifier branches
recurse directly; otherwise a relation prefix (if any) is split off at the
first `(`; a leading parenthesis (relative to that index) runs the scan and
dispatches on relation arguments / `->` / a single-character binary root;
anything else is the equality branch, which splits the whole string on `=`,
parses both sides, and re-parses the printed forms of the results.  `none`
models every path on which the Python code would crash (`find` returning
`-1`, a missing `=`, or a constructor assertion failure). -/
def foParsePfx (s : List Char) : Option PFormula × List Char :=
  if h0 : s.length = 0 then (none, "formula index error".data)
  else if is_unary (String.mk [s.getD 0 ' ']) then
    match foParsePfx (s.drop 1) with
    | (none, _) => (none, "unary operand error".data)
    | (some f, r) => (some (PFormula.unary f), r)
  else if is_quantifier (String.mk [s.getD 0 ' ']) then
    match s.findIdx? (fun c => c = '[') with
    | none => (none, "quantifier find error".data)
    | some ib =>
      match foParsePfx (s.drop (ib + 1)) with
      | (none, _) => (none, "predicate error".data)
      | (some p, r) =>
        if is_variable (String.mk (pyslice s 1 ib)) then
          (some (PFormula.quant (String.mk [s.getD 0 ' '])
            (String.mk (pyslice s 1 ib)) p), r.drop 1)
        else (none, "quantified variable error".data)
  else
    match (if is_relation (String.mk [s.getD 0 ' ']) then
             (s.findIdx? (fun c => c = '(')).map
               (fun ip => ((some (String.mk (s.take ip)) : Option String),
                 ip))
           else some (none, 0)) with
    | none => (none, "relation find error".data)
    | some (relation, index) =>
      if s.getD index ' ' = '(' then
        -- the scan loop; `to_return` equals `s[index_close+1:]` on every
        -- path (set at the break, re-set or left as the empty suffix by
        -- the post-loop check)
        match relation with
        | some rname =>
          -- `last_one = s.find("(")` is recomputed by the Python code; in
          -- this branch it equals `index`
          match relScan s (foScan s ⟨index, 0, 0, 0, 0, 0, 0⟩).index index 0
              [] [] index [] with
          | none => (none, "relation argument error".data)
          | some (i, lo, tms) =>
            if pyslice s (lo + 1) i = [] then
              if is_relation rname then
                (some (PFormula.rel rname tms),
                  s.drop ((foScan s ⟨index, 0, 0, 0, 0, 0, 0⟩).idxClose + 1))
              else (none, "relation root error".data)
            else
              match (termParsePfx (pyslice s (lo + 1) i)).1 with
              | none => (none, "relation argument error".data)
              | some t =>
                if is_relation rname then
                  (some (PFormula.rel rname (tms ++ [t])),
                    s.drop
                      ((foScan s ⟨index, 0, 0, 0, 0, 0, 0⟩).idxClose + 1))
                else (none, "relation root error".data)
        | none =>
          if s.getD (foScan s ⟨index, 0, 0, 0, 0, 0, 0⟩).idxOp ' ' = '>' then
            match (foParsePfx (pyslice s 1
                ((foScan s ⟨index, 0, 0, 0, 0, 0, 0⟩).idxOp - 1))).1,
              (foParsePfx (pyslice s
                ((foScan s ⟨index, 0, 0, 0, 0, 0, 0⟩).idxOp + 1)
                (foScan s ⟨index, 0, 0, 0, 0, 0, 0⟩).idxClose)).1 with
            | some f1, some f2 =>
              (some (PFormula.binary "->" f1 f2),
                s.drop ((foScan s ⟨index, 0, 0, 0, 0, 0, 0⟩).idxClose + 1))
            | _, _ => (none, "operand error".data)
          else
            match (foParsePfx (pyslice s 1
                (foScan s ⟨index, 0, 0, 0, 0, 0, 0⟩).idxOp)).1,
              (foParsePfx (pyslice s
                ((foScan s ⟨index, 0, 0, 0, 0, 0, 0⟩).idxOp + 1)
                (foScan s ⟨index, 0, 0, 0, 0, 0, 0⟩).idxClose)).1 with
            | some f1, some f2 =>
              if is_binary (String.mk
                  [s.getD (foScan s ⟨index, 0, 0, 0, 0, 0, 0⟩).idxOp ' ']) then
                (some (PFormula.binary (String.mk
                    [s.getD (foScan s ⟨index, 0, 0, 0, 0, 0, 0⟩).idxOp ' '])
                  f1 f2),
                  s.drop ((foScan s ⟨index, 0, 0, 0, 0, 0, 0⟩).idxClose + 1))
              else (none, "root error".data)
            | _, _ => (none, "operand error".data)
      else
        match pySplitEq s with
        | p0 :: p1 :: prest =>
          match (termParsePfx p0).1 with
          | none => (none, "equality term error".data)
          | some first =>
            match termParsePfx p1 with
            | (none, _) => (none, "equality term error".data)
            | (some scd, ret0) =>
              match (termParsePfx (PTerm.reprT first).data).1,
                (termParsePfx (PTerm.reprT scd).data).1 with
              | some a, some b =>
                (some (PFormula.eq a b),
                  if 2 < (p0 :: p1 :: prest).length then
                    prest.foldl (fun acc p => acc ++ '=' :: p) ret0
                  else ret0)
              | _, _ => (none, "equality reparse error".data)
        | _ => (none, "equality split error".data)
termination_by s.length
decreasing_by
  · simp only [List.length_drop]
    omega
  · simp only [List.length_drop]
    omega
  · exact pyslice_length_lt s 1 _ (by omega) (by omega)
  · exact pyslice_length_lt s _ _ (by omega) (by omega)
  · exact pyslice_length_lt s 1 _ (by omega) (by omega)
  · exact pyslice_length_lt s _ _ (by omega) (by omega)

end Propositions

namespace Propositions

theorem findIdx_first (p : Char → Bool) :
    ∀ (A : List Char) (c : Char) (B : List Char) (k : Nat),
    (∀ x ∈ A, p x = false) → p c = true →
    List.findIdx? p (A ++ c :: B) k = some (k + A.length) := by
  intro A
  induction A with
  | nil =>
    intro c B k _ hc
    simp [List.findIdx?, hc]
  | cons a A ih =>
    intro c B k hA hc
    have ha := hA a (by simp)
    simp only [List.cons_append, List.findIdx?, ha]
    rw [if_neg (by simp), List.append_eq,
      ih c B (k + 1) (fun x hx => hA x (by simp [hx])) hc]
    simp only [List.length_cons]
    congr 1
    omega

/-- The function-branch scan treats every character other than the three
special ones uniformly. -/
def tPlain (c : Char) : Prop := c ≠ '(' ∧ c ≠ ')' ∧ c ≠ ','

/-- Alphanumeric characters are none of the characters any of the
first-order scans react to. -/
theorem alnum_fo (c : Char) (h : charIsAlnum c = true) :
    c ≠ '(' ∧ c ≠ ')' ∧ c ≠ ',' ∧ c ≠ '=' ∧ c ≠ '[' ∧ c ≠ ']' ∧
    c ≠ '-' ∧ c ≠ '>' ∧ c ≠ '&' ∧ c ≠ '|' ∧ c ≠ '~' ∧ c ≠ '_' := by
  refine ⟨?_, ?_, ?_, ?_, ?_, ?_, ?_, ?_, ?_, ?_, ?_, ?_⟩ <;>
    (rintro rfl; revert h; decide)

theorem isAlnumStr_ne_nil (r : String) (h : isAlnumStr r = true) :
    r.data ≠ [] := by
  unfold isAlnumStr at h
  simp only [Bool.and_eq_true, decide_eq_true_eq] at h
  exact h.1

theorem isAlnumStr_mem (r : String) (h : isAlnumStr r = true) :
    ∀ c ∈ r.data, charIsAlnum c = true := by
  unfold isAlnumStr at h
  simp only [Bool.and_eq_true, decide_eq_true_eq, List.all_eq_true] at h
  exact h.2

theorem reprT_func_data (r : String) (args : List PTerm) :
    (PTerm.reprT (PTerm.func r args)).data =
    r.data ++ '(' :: ((reprArgs args).data ++ [')']) := by
  show (r ++ "(" ++ reprArgs args ++ ")").data = _
  simp [String.data_append]

theorem reprArgs_cons2 (a b : PTerm) (more : List PTerm) :
    reprArgs (a :: b :: more) = PTerm.reprT a ++ "," ++ reprArgs (b :: more)
    := rfl

theorem reprArgs_one (a : PTerm) : reprArgs [a] = PTerm.reprT a := rfl

theorem reprArgs_cons2_data (a b : PTerm) (more : List PTerm) :
    (reprArgs (a :: b :: more)).data =
    (PTerm.reprT a).data ++ ',' :: (reprArgs (b :: more)).data := by
  rw [reprArgs_cons2]
  simp [String.data_append]

theorem wfT_leaf_cases (r : String) (h : PTerm.wfT (PTerm.leaf r) = true) :
    is_constant r = true ∨ is_variable r = true := by
  unfold PTerm.wfT at h
  simpa using h

theorem wfT_func_parts (r : String) (args : List PTerm)
    (h : PTerm.wfT (PTerm.func r args) = true) :
    is_function r = true ∧ args ≠ [] ∧ wfTList args = true := by
  unfold PTerm.wfT at h
  simp only [Bool.and_eq_true] at h
  refine ⟨h.1.1, ?_, h.2⟩
  have h2 := h.1.2
  simpa using h2

theorem wfTList_mem : ∀ (args : List PTerm), wfTList args = true →
    ∀ t ∈ args, PTerm.wfT t = true := by
  intro args
  induction args with
  | nil => intro _ t ht; simp at ht
  | cons a more ih =>
    intro h t ht
    unfold wfTList at h
    simp only [Bool.and_eq_true] at h
    rcases List.mem_cons.mp ht with h3 | h3
    · exact h3 ▸ h.1
    · exact ih h.2 t h3

theorem name_chars_variable (r : String) (h : is_variable r = true) :
    ∀ c ∈ r.data, charIsAlnum c = true := by
  unfold is_variable at h
  simp only [decide_eq_true_eq] at h
  exact isAlnumStr_mem r h.2

theorem name_chars_function (r : String) (h : is_function r = true) :
    ∀ c ∈ r.data, charIsAlnum c = true := by
  unfold is_function at h
  simp only [decide_eq_true_eq] at h
  exact isAlnumStr_mem r h.2

/-- Characters of a constant name: alphanumeric, or the name is `"_"`. -/
theorem name_chars_constant (r : String) (h : is_constant r = true) :
    (∀ c ∈ r.data, charIsAlnum c = true) ∨ r = "_" := by
  unfold is_constant at h
  simp only [decide_eq_true_eq] at h
  rcases h with h | h
  · exact Or.inl (isAlnumStr_mem r h.2)
  · exact Or.inr h

/-- Every character of a well-formed leaf name is scan-inert. -/
theorem leafName_tPlain (r : String) (h : PTerm.wfT (PTerm.leaf r) = true) :
    ∀ c ∈ r.data, tPlain c := by
  intro c hc
  rcases wfT_leaf_cases r h with h1 | h1
  · rcases name_chars_constant r h1 with h2 | h2
    · have := alnum_fo c (h2 c hc)
      exact ⟨this.1, this.2.1, this.2.2.1⟩
    · subst h2
      simp only [show ("_" : String).data = ['_'] from rfl,
        List.mem_singleton] at hc
      subst hc
      refine ⟨by decide, by decide, by decide⟩
  · have := alnum_fo c (name_chars_variable r h1 c hc)
    exact ⟨this.1, this.2.1, this.2.2.1⟩

theorem reprT_length_pos (t : PTerm) (h : PTerm.wfT t = true) :
    1 ≤ (PTerm.reprT t).data.length := by
  cases t with
  | leaf r =>
    show 1 ≤ r.data.length
    rcases wfT_leaf_cases r h with h1 | h1
    · rcases name_chars_constant r h1 with h2 | h2
      · unfold is_constant at h1
        simp only [decide_eq_true_eq] at h1
        rcases h1 with h3 | h3
        · have := isAlnumStr_ne_nil r h3.2
          cases hr : r.data with
          | nil => exact absurd hr this
          | cons a l => simp
        · subst h3; decide
      · subst h2; decide
    · unfold is_variable at h1
      simp only [decide_eq_true_eq] at h1
      have := isAlnumStr_ne_nil r h1.2
      cases hr : r.data with
      | nil => exact absurd hr this
      | cons a l => simp
  | func r args =>
    rw [reprT_func_data]
    simp only [List.length_append, List.length_cons]
    omega

end Propositions
namespace Propositions

theorem termLoop_end (s : List Char) (i : Nat) (counter : Int)
    (opens closed : List Nat) (lo : Nat) (tms : List PTerm)
    (hge : ¬ i < s.length) :
    termLoop s i counter opens closed lo tms = some (i, lo, tms) := by
  rw [termLoop, dif_neg hge]

theorem termLoop_plain (s : List Char) (i : Nat) (counter : Int)
    (opens closed : List Nat) (lo : Nat) (tms : List PTerm)
    (hi : i < s.length)
    (h1 : s.getD i ' ' ≠ '(') (h2 : s.getD i ' ' ≠ ')')
    (h3 : s.getD i ' ' = ',' → ¬ opens.length < closed.length + 2)
    (hc : counter ≠ 0) :
    termLoop s i counter opens closed lo tms =
    termLoop s (i + 1) counter opens closed lo tms := by
  rw [termLoop]
  rw [dif_pos hi, if_neg h1, if_neg h2,
    if_neg (by rintro ⟨ha, hb⟩; exact h3 ha hb), if_neg hc]

theorem termLoop_open (s : List Char) (i : Nat) (counter : Int)
    (opens closed : List Nat) (lo : Nat) (tms : List PTerm)
    (hi : i < s.length) (h : s.getD i ' ' = '(')
    (hc : counter + 1 ≠ 0) :
    termLoop s i counter opens closed lo tms =
    termLoop s (i + 1) (counter + 1) (opens ++ [i]) closed lo tms := by
  rw [termLoop]
  rw [dif_pos hi, if_pos h, if_neg hc]

theorem termLoop_close_cont (s : List Char) (i : Nat) (counter : Int)
    (opens closed : List Nat) (lo : Nat) (tms : List PTerm)
    (hi : i < s.length) (h : s.getD i ' ' = ')')
    (hc : counter - 1 ≠ 0) :
    termLoop s i counter opens closed lo tms =
    termLoop s (i + 1) (counter - 1) opens (closed ++ [i]) lo tms := by
  rw [termLoop]
  rw [dif_pos hi, if_neg (by rw [h]; decide), if_pos h, if_neg hc]

theorem termLoop_close_stop (s : List Char) (i : Nat) (counter : Int)
    (opens closed : List Nat) (lo : Nat) (tms : List PTerm)
    (hi : i < s.length) (h : s.getD i ' ' = ')')
    (hc : counter - 1 = 0) :
    termLoop s i counter opens closed lo tms = some (i, lo, tms) := by
  rw [termLoop]
  rw [dif_pos hi, if_neg (by rw [h]; decide), if_pos h, if_pos hc]

theorem termLoop_comma (s : List Char) (i : Nat) (counter : Int)
    (opens closed : List Nat) (lo : Nat) (tms : List PTerm) (t : PTerm)
    (hi : i < s.length) (h : s.getD i ' ' = ',')
    (hlen : opens.length < closed.length + 2)
    (hparse : (termParsePfx (pyslice s (lo + 1) i)).1 = some t)
    (hc : counter ≠ 0) :
    termLoop s i counter opens closed lo tms =
    termLoop s (i + 1) counter opens closed i (tms ++ [t]) := by
  rw [termLoop]
  rw [dif_pos hi, if_neg (by rw [h]; decide), if_neg (by rw [h]; decide),
    if_pos ⟨h, hlen⟩, hparse]
  simp only
  rw [if_neg hc]

theorem termLoop_run : ∀ (chunk : List Char), (∀ c ∈ chunk, tPlain c) →
    ∀ (s : List Char) (i : Nat) (counter : Int) (opens closed : List Nat)
      (lo : Nat) (tms : List PTerm) (rest : List Char),
    s.drop i = chunk ++ rest → counter ≠ 0 →
    termLoop s i counter opens closed lo tms =
    termLoop s (i + chunk.length) counter opens closed lo tms := by
  intro chunk
  induction chunk with
  | nil =>
    intro _ s i counter opens closed lo tms rest _ _
    simp
  | cons c ch ih =>
    intro hpl s i counter opens closed lo tms rest hdrop hc
    have hi := index_lt_of_drop s i c (ch ++ rest) (by simpa using hdrop)
    have hgd := getD_of_drop s i c (ch ++ rest) (by simpa using hdrop)
    have hp := hpl c (by simp)
    rw [termLoop_plain s i counter opens closed lo tms hi
      (by rw [hgd]; exact hp.1) (by rw [hgd]; exact hp.2.1)
      (by rw [hgd]; intro hx; exact absurd hx hp.2.2) hc]
    have hdrop2 : s.drop (i + 1) = ch ++ rest :=
      drop_succ_of_cons s i c (ch ++ rest) (by simpa using hdrop)
    rw [ih (fun x hx => hpl x (by simp [hx])) s (i + 1) counter opens closed
      lo tms rest hdrop2 hc]
    congr 1
    simp
    omega

theorem termLoop_skipT_main : ∀ n : Nat,
    (∀ t, PTerm.psize t ≤ n → PTerm.wfT t = true →
      ∀ (s : List Char) (i : Nat) (counter : Int)
        (opens closed : List Nat) (lo : Nat) (tms : List PTerm)
        (rest : List Char),
      s.drop i = (PTerm.reprT t).data ++ rest → 1 ≤ counter →
      closed.length + 1 ≤ opens.length →
      ∃ X Y : List Nat, X.length = Y.length ∧
        termLoop s i counter opens closed lo tms =
        termLoop s (i + (PTerm.reprT t).data.length) counter (opens ++ X)
          (closed ++ Y) lo tms) ∧
    (∀ args, psizeList args ≤ n → wfTList args = true →
      ∀ (s : List Char) (i : Nat) (counter : Int)
        (opens closed : List Nat) (lo : Nat) (tms : List PTerm)
        (rest : List Char),
      s.drop i = (reprArgs args).data ++ rest → 2 ≤ counter →
      closed.length + 2 ≤ opens.length →
      ∃ X Y : List Nat, X.length = Y.length ∧
        termLoop s i counter opens closed lo tms =
        termLoop s (i + (reprArgs args).data.length) counter (opens ++ X)
          (closed ++ Y) lo tms) := by
  intro n
  induction n with
  | zero =>
    constructor
    · intro t hsz
      have := psize_pos t
      omega
    · intro args hsz hwf s i counter opens closed lo tms rest hdrop _ _
      cases args with
      | nil =>
        refine ⟨[], [], rfl, ?_⟩
        simp only [show (reprArgs []).data = [] from rfl, List.length_nil,
          Nat.add_zero, List.append_nil]
      | cons a more =>
        have := psize_pos a
        simp only [psizeList] at hsz
        omega
  | succ n ih =>
    have hA : ∀ t, PTerm.psize t ≤ n + 1 → PTerm.wfT t = true →
        ∀ (s : List Char) (i : Nat) (counter : Int)
          (opens closed : List Nat) (lo : Nat) (tms : List PTerm)
          (rest : List Char),
        s.drop i = (PTerm.reprT t).data ++ rest → 1 ≤ counter →
        closed.length + 1 ≤ opens.length →
        ∃ X Y : List Nat, X.length = Y.length ∧
          termLoop s i counter opens closed lo tms =
          termLoop s (i + (PTerm.reprT t).data.length) counter (opens ++ X)
            (closed ++ Y) lo tms := by
      intro t hsz hwf s i counter opens closed lo tms rest hdrop hc hlen
      cases t with
      | leaf r =>
        refine ⟨[], [], rfl, ?_⟩
        simp only [List.append_nil]
        exact termLoop_run (PTerm.reprT (PTerm.leaf r)).data
          (leafName_tPlain r hwf) s i counter opens closed lo tms rest hdrop
          (by omega)
      | func r args =>
        obtain ⟨hfn, hne, hwargs⟩ := wfT_func_parts r args hwf
        rw [reprT_func_data] at hdrop
        have hdropN : s.drop i =
            r.data ++ ('(' :: ((reprArgs args).data ++ ([')'] ++ rest))) := by
          rw [hdrop]
          simp [List.append_assoc]
        -- skip the function name
        have hrun := termLoop_run r.data
          (fun c hcm => by
            have := alnum_fo c (name_chars_function r hfn c hcm)
            exact ⟨this.1, this.2.1, this.2.2.1⟩)
          s i counter opens closed lo tms
          ('(' :: ((reprArgs args).data ++ ([')'] ++ rest)))
          hdropN (by omega)
        -- the opening parenthesis
        have hdrop1 : s.drop (i + r.data.length) =
            '(' :: ((reprArgs args).data ++ ([')'] ++ rest)) :=
          drop_advance s r.data
            ('(' :: ((reprArgs args).data ++ ([')'] ++ rest))) i hdropN
        have hi1 := index_lt_of_drop s (i + r.data.length) '(' _ hdrop1
        have hopen := termLoop_open s (i + r.data.length) counter opens
          closed lo tms hi1 (getD_of_drop s _ '(' _ hdrop1) (by omega)
        -- the argument list
        have hdrop2 : s.drop (i + r.data.length + 1) =
            (reprArgs args).data ++ ([')'] ++ rest) :=
          drop_succ_of_cons s (i + r.data.length) '(' _ hdrop1
        have hsz2 : psizeList args ≤ n := by
          simp only [PTerm.psize] at hsz
          omega
        obtain ⟨X2, Y2, hXY2, hargs⟩ := ih.2 args hsz2 hwargs s
          (i + r.data.length + 1) (counter + 1) (opens ++ [i + r.data.length])
          closed lo tms ([')'] ++ rest) hdrop2 (by omega)
          (by simp; omega)
        -- the closing parenthesis
        have hdrop3 : s.drop (i + r.data.length + 1 +
            (reprArgs args).data.length) = [')'] ++ rest :=
          drop_advance s (reprArgs args).data ([')'] ++ rest) _ hdrop2
        have hi3 := index_lt_of_drop s _ ')' rest (by simpa using hdrop3)
        have hclose := termLoop_close_cont s
          (i + r.data.length + 1 + (reprArgs args).data.length) (counter + 1)
          (opens ++ [i + r.data.length] ++ X2) (closed ++ Y2) lo tms hi3
          (getD_of_drop s _ ')' rest (by simpa using hdrop3)) (by omega)
        refine ⟨[i + r.data.length] ++ X2, Y2 ++
          [i + r.data.length + 1 + (reprArgs args).data.length], by
            simp only [List.length_append, List.length_cons, List.length_nil]
            omega, ?_⟩
        rw [hrun, hopen, hargs, hclose]
        rw [show counter + 1 - 1 = counter by omega]
        rw [show i + (PTerm.reprT (PTerm.func r args)).data.length =
          i + r.data.length + 1 + (reprArgs args).data.length + 1 from by
            rw [reprT_func_data]
            simp only [List.length_append, List.length_cons, List.length_nil]
            omega]
        simp only [List.append_assoc]
    refine ⟨hA, ?_⟩
    intro args hsz hwf s i counter opens closed lo tms rest hdrop hc hlen
    cases args with
    | nil =>
      refine ⟨[], [], rfl, ?_⟩
      simp only [show (reprArgs []).data = [] from rfl, List.length_nil,
        Nat.add_zero, List.append_nil]
    | cons a more =>
      have hwa : PTerm.wfT a = true := by
        unfold wfTList at hwf
        simp only [Bool.and_eq_true] at hwf
        exact hwf.1
      have hwmore : wfTList more = true := by
        unfold wfTList at hwf
        simp only [Bool.and_eq_true] at hwf
        exact hwf.2
      cases more with
      | nil =>
        obtain ⟨X, Y, hXY, hres⟩ := hA a (by
            simp only [psizeList] at hsz
            omega) hwa s i counter opens closed lo tms rest
          (by rw [show reprArgs [a] = PTerm.reprT a from rfl] at hdrop
              exact hdrop) (by omega) (by omega)
        exact ⟨X, Y, hXY, by
          rw [show reprArgs [a] = PTerm.reprT a from rfl]
          exact hres⟩
      | cons b more2 =>
        rw [reprArgs_cons2_data] at hdrop
        obtain ⟨X1, Y1, hXY1, hres1⟩ := hA a (by
            have := psize_head_le a (b :: more2)
            simp only [psizeList] at hsz
            have h2 := psize_pos b
            omega) hwa s i counter opens closed lo tms
          (',' :: (reprArgs (b :: more2)).data ++ rest)
          (by rw [hdrop]; simp) (by omega) (by omega)
        have hdrop1 : s.drop (i + (PTerm.reprT a).data.length) =
            ',' :: ((reprArgs (b :: more2)).data ++ rest) := by
          have := drop_advance s (PTerm.reprT a).data
            (',' :: (reprArgs (b :: more2)).data ++ rest) i
            (by rw [hdrop]; simp)
          rw [this]
          simp
        have hi1 := index_lt_of_drop s _ ',' _ hdrop1
        have hcomma := termLoop_plain s (i + (PTerm.reprT a).data.length)
          counter (opens ++ X1) (closed ++ Y1) lo tms hi1
          (by rw [getD_of_drop s _ ',' _ hdrop1]; decide)
          (by rw [getD_of_drop s _ ',' _ hdrop1]; decide)
          (by intro _
              simp only [List.length_append]
              omega)
          (by omega)
        have hdrop2 : s.drop (i + (PTerm.reprT a).data.length + 1) =
            (reprArgs (b :: more2)).data ++ rest :=
          drop_succ_of_cons s _ ',' _ hdrop1
        have hsz2 : psizeList (b :: more2) ≤ n := by
          simp only [psizeList] at hsz ⊢
          have := psize_pos a
          omega
        obtain ⟨X2, Y2, hXY2, hres2⟩ := ih.2 (b :: more2) hsz2 hwmore s
          (i + (PTerm.reprT a).data.length + 1) counter (opens ++ X1)
          (closed ++ Y1) lo tms rest hdrop2 (by omega)
          (by simp only [List.length_append]; omega)
        refine ⟨X1 ++ X2, Y1 ++ Y2, by
          simp only [List.length_append]; omega, ?_⟩
        rw [hres1, hcomma, hres2]
        rw [show i + (reprArgs (a :: b :: more2)).data.length =
          i + (PTerm.reprT a).data.length + 1 +
            (reprArgs (b :: more2)).data.length from by
            rw [reprArgs_cons2_data]
            simp only [List.length_append, List.length_cons]
            omega]
        simp only [List.append_assoc]

end Propositions
namespace Propositions

theorem pyslice_from_drop (s A B : List Char) (i : Nat)
    (h : s.drop i = A ++ B) : pyslice s i (i + A.length) = A := by
  unfold pyslice
  rw [h, show i + A.length - i = A.length by omega]
  exact List.take_left A B

theorem takeWhile_append_of_all {p : Char → Bool} :
    ∀ (A B : List Char), (∀ x ∈ A, p x = true) →
    (A ++ B).takeWhile p = A ++ B.takeWhile p := by
  intro A
  induction A with
  | nil => intro B _; simp
  | cons a A ih =>
    intro B hA
    have ha := hA a (by simp)
    simp only [List.cons_append, List.takeWhile_cons, ha]
    rw [ih B (fun x hx => hA x (by simp [hx]))]
    simp

theorem takeWhile_head_false {p : Char → Bool} (B : List Char)
    (h : B ≠ [] → p (B.headD ' ') = false) : B.takeWhile p = [] := by
  cases B with
  | nil => rfl
  | cons b B2 =>
    have hb := h (by simp)
    simp only [List.headD_cons] at hb
    simp [List.takeWhile_cons, hb]

theorem psizeList_mem_le : ∀ (args : List PTerm) (a : PTerm), a ∈ args →
    PTerm.psize a ≤ psizeList args := by
  intro args
  induction args with
  | nil => intro a ha; simp at ha
  | cons b more ih =>
    intro a ha
    rcases List.mem_cons.mp ha with h | h
    · subst h
      exact psize_head_le a more
    · have := ih a h
      simp only [psizeList]
      have hp := psize_pos b
      omega

theorem reprArgs_last_le : ∀ (initA : List PTerm) (lastA : PTerm),
    (PTerm.reprT lastA).data.length ≤
    (reprArgs (initA ++ [lastA])).data.length := by
  intro initA
  induction initA with
  | nil => intro lastA; simp [reprArgs_one]
  | cons x more ih =>
    intro lastA
    cases hm : more ++ [lastA] with
    | nil => simp at hm
    | cons y ys =>
      have h2 : (reprArgs (x :: (more ++ [lastA]))).data =
          (PTerm.reprT x).data ++ ',' :: (reprArgs (more ++ [lastA])).data
          := by
        rw [hm, reprArgs_cons2_data, ← hm]
      rw [show (x :: more) ++ [lastA] = x :: (more ++ [lastA]) from rfl, h2]
      simp only [List.length_append, List.length_cons]
      have := ih lastA
      omega

theorem termLoop_args : ∀ (args : List PTerm), wfTList args = true →
    args ≠ [] →
    (∀ a ∈ args, ∀ rest2 : List Char,
      (rest2 ≠ [] → charIsAlnum (rest2.headD ' ') = false) →
      termParsePfx ((PTerm.reprT a).data ++ rest2) = (some a, rest2)) →
    ∀ (s : List Char) (i : Nat) (opens closed : List Nat)
      (tms : List PTerm) (rest : List Char),
    s.drop i = (reprArgs args).data ++ ')' :: rest →
    opens.length = closed.length + 1 → 1 ≤ i →
    ∃ lastA initA, args = initA ++ [lastA] ∧
      termLoop s i 1 opens closed (i - 1) tms =
        some (i + (reprArgs args).data.length,
          i + (reprArgs args).data.length -
            (PTerm.reprT lastA).data.length - 1,
          tms ++ initA) ∧
      s.drop (i + (reprArgs args).data.length -
        (PTerm.reprT lastA).data.length) =
        (PTerm.reprT lastA).data ++ ')' :: rest := by
  intro args
  induction args with
  | nil => intro _ hne; exact absurd rfl hne
  | cons a more ih =>
    intro hwf _ hP s i opens closed tms rest hdrop hlen hi1
    have hwa : PTerm.wfT a = true := by
      unfold wfTList at hwf
      simp only [Bool.and_eq_true] at hwf
      exact hwf.1
    have hwmore : wfTList more = true := by
      unfold wfTList at hwf
      simp only [Bool.and_eq_true] at hwf
      exact hwf.2
    cases more with
    | nil =>
      -- single argument: skip it, then the closing parenthesis stops
      rw [show reprArgs [a] = PTerm.reprT a from rfl] at hdrop ⊢
      obtain ⟨X, Y, hXY, hres⟩ :=
        (termLoop_skipT_main (PTerm.psize a)).1 a le_rfl hwa s i 1 opens
        closed (i - 1) tms (')' :: rest) hdrop (by omega) (by omega)
      have hdropC : s.drop (i + (PTerm.reprT a).data.length) = ')' :: rest :=
        drop_advance s (PTerm.reprT a).data (')' :: rest) i hdrop
      have hiC := index_lt_of_drop s _ ')' rest hdropC
      refine ⟨a, [], rfl, ?_, ?_⟩
      · rw [hres, termLoop_close_stop s _ 1 (opens ++ X) (closed ++ Y)
          (i - 1) tms hiC (getD_of_drop s _ ')' rest hdropC) (by omega)]
        rw [show i + (PTerm.reprT a).data.length -
          (PTerm.reprT a).data.length - 1 = i - 1 by omega]
        rw [List.append_nil]
      · rw [show i + (PTerm.reprT a).data.length -
          (PTerm.reprT a).data.length = i by omega]
        exact hdrop
    | cons b more2 =>
      rw [reprArgs_cons2_data] at hdrop
      have hdropN : s.drop i = (PTerm.reprT a).data ++
          (',' :: ((reprArgs (b :: more2)).data ++ ')' :: rest)) := by
        rw [hdrop]
        simp
      obtain ⟨X, Y, hXY, hres⟩ :=
        (termLoop_skipT_main (PTerm.psize a)).1 a le_rfl hwa s i 1 opens
        closed (i - 1) tms _ hdropN (by omega) (by omega)
      have hdropC : s.drop (i + (PTerm.reprT a).data.length) =
          ',' :: ((reprArgs (b :: more2)).data ++ ')' :: rest) :=
        drop_advance s (PTerm.reprT a).data _ i hdropN
      have hiC := index_lt_of_drop s _ ',' _ hdropC
      have hslice : pyslice s ((i - 1) + 1) (i + (PTerm.reprT a).data.length)
          = (PTerm.reprT a).data := by
        rw [show (i - 1) + 1 = i by omega]
        exact pyslice_from_drop s (PTerm.reprT a).data _ i hdropN
      have hparse : (termParsePfx (pyslice s ((i - 1) + 1)
          (i + (PTerm.reprT a).data.length))).1 = some a := by
        rw [hslice, show (PTerm.reprT a).data =
          (PTerm.reprT a).data ++ [] from by simp,
          hP a (by simp) [] (by intro h; exact absurd rfl h)]
      have hcomma := termLoop_comma s (i + (PTerm.reprT a).data.length) 1
        (opens ++ X) (closed ++ Y) (i - 1) tms a hiC
        (getD_of_drop s _ ',' _ hdropC)
        (by simp only [List.length_append]; omega) hparse (by omega)
      have hdropT : s.drop (i + (PTerm.reprT a).data.length + 1) =
          (reprArgs (b :: more2)).data ++ ')' :: rest :=
        drop_succ_of_cons s _ ',' _ hdropC
      obtain ⟨lastA, initA, hsplit, hres2, hdrop2⟩ := ih hwmore (by simp)
        (fun x hx => hP x (by simp [hx])) s
        (i + (PTerm.reprT a).data.length + 1) (opens ++ X) (closed ++ Y)
        (tms ++ [a]) rest hdropT
        (by simp only [List.length_append]; omega) (by omega)
      rw [show i + (PTerm.reprT a).data.length + 1 - 1 =
        i + (PTerm.reprT a).data.length by omega] at hres2
      have hLrw : (reprArgs (a :: b :: more2)).data.length =
          (PTerm.reprT a).data.length + 1 +
          (reprArgs (b :: more2)).data.length := by
        rw [reprArgs_cons2_data]
        simp only [List.length_append, List.length_cons]
        omega
      refine ⟨lastA, a :: initA, by rw [hsplit]; rfl, ?_, ?_⟩
      · rw [hres, hcomma, hres2,
          show i + (reprArgs (a :: b :: more2)).data.length =
            i + (PTerm.reprT a).data.length + 1 +
              (reprArgs (b :: more2)).data.length from by rw [hLrw]; omega,
          show i + (PTerm.reprT a).data.length + 1 +
              (reprArgs (b :: more2)).data.length -
              (PTerm.reprT lastA).data.length - 1 =
            i + (PTerm.reprT a).data.length + 1 +
              (reprArgs (b :: more2)).data.length -
              (PTerm.reprT lastA).data.length - 1 from rfl]
        simp
      · rw [show i + (reprArgs (a :: b :: more2)).data.length -
            (PTerm.reprT lastA).data.length =
          i + (PTerm.reprT a).data.length + 1 +
            (reprArgs (b :: more2)).data.length -
            (PTerm.reprT lastA).data.length from by rw [hLrw]; omega]
        exact hdrop2

end Propositions
namespace Propositions

theorem alnum_of_lower (c : Char) (h1 : 'a' ≤ c) (h2 : c ≤ 'z') :
    charIsAlnum c = true := by
  unfold charIsAlnum
  simp only [decide_eq_true_eq]
  exact Or.inr (Or.inl ⟨h1, h2⟩)

theorem alnum_of_digit (c : Char) (h1 : '0' ≤ c) (h2 : c ≤ '9') :
    charIsAlnum c = true := by
  unfold charIsAlnum
  simp only [decide_eq_true_eq]
  exact Or.inl ⟨h1, h2⟩

theorem is_variable_single (c : Char) :
    is_variable (String.mk [c]) = true ↔ ('u' ≤ c ∧ c ≤ 'z') := by
  unfold is_variable
  simp only [decide_eq_true_eq]
  constructor
  · rintro ⟨⟨h1, h2⟩, -⟩
    exact ⟨h1, h2⟩
  · rintro ⟨h1, h2⟩
    refine ⟨⟨h1, h2⟩, ?_⟩
    unfold isAlnumStr
    simp only [Bool.and_eq_true, decide_eq_true_eq]
    refine ⟨by simp, ?_⟩
    simp only [List.all_cons, List.all_nil, Bool.and_true]
    exact alnum_of_lower c (le_trans (by decide) h1) h2

theorem is_constant_single (c : Char) :
    is_constant (String.mk [c]) = true ↔
    (('0' ≤ c ∧ c ≤ '9') ∨ ('a' ≤ c ∧ c ≤ 'd') ∨ c = '_') := by
  unfold is_constant
  simp only [decide_eq_true_eq]
  constructor
  · rintro (⟨h1, -⟩ | h1)
    · rcases h1 with h1 | h1
      · exact Or.inl h1
      · exact Or.inr (Or.inl h1)
    · refine Or.inr (Or.inr ?_)
      have : (String.mk [c]).data = ("_" : String).data := by rw [h1]
      simpa using this
  · rintro (h1 | h1 | h1)
    · refine Or.inl ⟨Or.inl h1, ?_⟩
      unfold isAlnumStr
      simp only [Bool.and_eq_true, decide_eq_true_eq]
      exact ⟨by simp, by
        simp only [List.all_cons, List.all_nil, Bool.and_true]
        exact alnum_of_digit c h1.1 h1.2⟩
    · refine Or.inl ⟨Or.inr h1, ?_⟩
      unfold isAlnumStr
      simp only [Bool.and_eq_true, decide_eq_true_eq]
      exact ⟨by simp, by
        simp only [List.all_cons, List.all_nil, Bool.and_true]
        exact alnum_of_lower c h1.1 (le_trans h1.2 (by decide))⟩
    · subst h1
      exact Or.inr rfl

theorem is_variable_parts (r : String) (h : is_variable r = true) :
    ∃ c cr, r.data = c :: cr ∧ 'u' ≤ c ∧ c ≤ 'z' ∧
      (∀ x ∈ r.data, charIsAlnum x = true) := by
  have hmem := name_chars_variable r h
  unfold is_variable at h
  simp only [decide_eq_true_eq] at h
  obtain ⟨⟨h1, h2⟩, h3⟩ := h
  have hne := isAlnumStr_ne_nil r h3
  unfold strHead at h1 h2
  cases hd : r.data with
  | nil => exact absurd hd hne
  | cons c cr =>
    rw [hd] at h1 h2
    simp only [List.headD_cons] at h1 h2
    exact ⟨c, cr, rfl, h1, h2, fun x hx => hmem x (by rw [hd]; exact hx)⟩

theorem is_constant_parts (r : String) (h : is_constant r = true) :
    r = "_" ∨
    ∃ c cr, r.data = c :: cr ∧
      (('0' ≤ c ∧ c ≤ '9') ∨ ('a' ≤ c ∧ c ≤ 'd')) ∧
      (∀ x ∈ r.data, charIsAlnum x = true) := by
  unfold is_constant at h
  simp only [decide_eq_true_eq] at h
  rcases h with ⟨h1, h3⟩ | h1
  · have hmem := isAlnumStr_mem r h3
    have hne := isAlnumStr_ne_nil r h3
    unfold strHead at h1
    right
    cases hd : r.data with
    | nil => exact absurd hd hne
    | cons c cr =>
      rw [hd] at h1
      simp only [List.headD_cons] at h1
      exact ⟨c, cr, rfl, h1, fun x hx => hmem x (by rw [hd]; exact hx)⟩
  · exact Or.inl h1

theorem is_function_parts (r : String) (h : is_function r = true) :
    ∃ c cr, r.data = c :: cr ∧ 'f' ≤ c ∧ c ≤ 't' ∧
      (∀ x ∈ r.data, charIsAlnum x = true) := by
  have hmem := name_chars_function r h
  unfold is_function at h
  simp only [decide_eq_true_eq] at h
  obtain ⟨⟨h1, h2⟩, h3⟩ := h
  have hne := isAlnumStr_ne_nil r h3
  unfold strHead at h1 h2
  cases hd : r.data with
  | nil => exact absurd hd hne
  | cons c cr =>
    rw [hd] at h1 h2
    simp only [List.headD_cons] at h1 h2
    exact ⟨c, cr, rfl, h1, h2, fun x hx => hmem x (by rw [hd]; exact hx)⟩

/-- The restriction the round trip places on what may follow a printed
term: either nothing, or a character that cannot extend a name. -/
def restT (rest : List Char) : Prop :=
  rest ≠ [] → charIsAlnum (rest.headD ' ') = false

theorem termParsePfx_round_leaf (r : String)
    (hwf : PTerm.wfT (PTerm.leaf r) = true) (rest : List Char)
    (hrest : restT rest) :
    termParsePfx (r.data ++ rest) = (some (PTerm.leaf r), rest) := by
  rcases wfT_leaf_cases r hwf with hk | hk
  · -- constant name
    rcases is_constant_parts r hk with hu | ⟨c, cr, hd, hc, hall⟩
    · -- the underscore constant
      subst hu
      show termParsePfx ('_' :: rest) = (some (PTerm.leaf "_"), rest)
      cases rest with
      | nil =>
        rw [termParsePfx]
        rw [dif_neg (by simp)]
        rw [show (['_'] : List Char).getD 0 ' ' = '_' from rfl]
        rw [if_neg (by
          intro hcon
          exact absurd ((is_variable_single '_').mp hcon) (by decide))]
        rw [if_pos ((is_constant_single '_').mpr (by decide))]
        rw [if_pos (by decide)]
      | cons r0 rr =>
        rw [termParsePfx]
        rw [dif_neg (by simp)]
        rw [show ('_' :: r0 :: rr).getD 0 ' ' = '_' from rfl]
        rw [if_neg (by
          intro hcon
          exact absurd ((is_variable_single '_').mp hcon) (by decide))]
        rw [if_pos ((is_constant_single '_').mpr (by decide))]
        rw [if_neg (by simp)]
        rw [if_pos rfl]
        rfl
    · -- an alphanumeric constant name
      have hvarF : ¬ is_variable (String.mk [c]) = true := by
        intro hcon
        have h2 := (is_variable_single c).mp hcon
        rcases hc with hcd | hcd
        · exact absurd (le_trans h2.1 hcd.2) (by decide)
        · exact absurd (le_trans h2.1 hcd.2) (by decide)
      have hconT : is_constant (String.mk [c]) = true :=
        (is_constant_single c).mpr (by
          rcases hc with hcd | hcd
          · exact Or.inl hcd
          · exact Or.inr (Or.inl hcd))
      have hcne : c ≠ '_' := by
        intro hcon
        subst hcon
        rcases hc with hcd | hcd
        · exact absurd hcd.2 (by decide)
        · exact absurd hcd.1 (by decide)
      have hallcr : ∀ x ∈ cr, charIsAlnum x = true := by
        intro x hx
        exact hall x (by rw [hd]; simp [hx])
      cases cr with
      | nil =>
        cases rest with
        | nil =>
          rw [hd, List.append_nil, termParsePfx]
          rw [dif_neg (by simp)]
          rw [show ([c] : List Char).getD 0 ' ' = c from rfl]
          rw [if_neg hvarF, if_pos hconT, if_pos (by simp)]
          rw [show String.mk [c] = r from by rw [← string_mk_data r, hd]]
        | cons r0 rr =>
          rw [hd, show ([c] : List Char) ++ r0 :: rr = c :: r0 :: rr
            from rfl, termParsePfx]
          rw [dif_neg (by simp)]
          rw [show (c :: r0 :: rr).getD 0 ' ' = c from rfl]
          rw [if_neg hvarF, if_pos hconT, if_neg (by simp), if_neg hcne]
          have htw : List.takeWhile charIsAlnum
              (List.drop 1 (c :: r0 :: rr)) = [] := by
            rw [show List.drop 1 (c :: r0 :: rr) = r0 :: rr from rfl]
            exact takeWhile_head_false (r0 :: rr) hrest
          rw [htw]
          rw [if_neg (by simp)]
          rw [show (1 : Nat) + List.length ([] : List Char) = 1 from rfl]
          rw [show (c :: r0 :: rr).take 1 = [c] from rfl,
            show (c :: r0 :: rr).drop 1 = r0 :: rr from rfl]
          rw [show String.mk [c] = r from by rw [← string_mk_data r, hd]]
      | cons c1 cr1 =>
        have hall1 : ∀ x ∈ c1 :: cr1, charIsAlnum x = true := hallcr
        cases rest with
        | nil =>
          rw [hd, List.append_nil, termParsePfx]
          rw [dif_neg (by simp)]
          rw [show (c :: c1 :: cr1).getD 0 ' ' = c from rfl]
          rw [if_neg hvarF, if_pos hconT, if_neg (by simp), if_neg hcne]
          have htw : List.takeWhile charIsAlnum
              (List.drop 1 (c :: c1 :: cr1)) = c1 :: cr1 := by
            rw [show List.drop 1 (c :: c1 :: cr1) = c1 :: cr1 from rfl]
            exact takeWhile_all_eq (c1 :: cr1)
              (by rw [List.all_eq_true]; exact hall1)
          rw [htw]
          rw [if_pos (by simp only [List.length_cons]; omega)]
          rw [show String.mk (c :: c1 :: cr1) = r from by
            rw [← string_mk_data r, hd]]
        | cons r0 rr =>
          rw [hd, termParsePfx]
          rw [dif_neg (by simp)]
          rw [show ((c :: c1 :: cr1) ++ r0 :: rr).getD 0 ' ' = c from rfl]
          rw [if_neg hvarF, if_pos hconT, if_neg (by simp), if_neg hcne]
          have htw : List.takeWhile charIsAlnum
              (List.drop 1 ((c :: c1 :: cr1) ++ r0 :: rr)) = c1 :: cr1 := by
            rw [show List.drop 1 ((c :: c1 :: cr1) ++ r0 :: rr) =
              (c1 :: cr1) ++ r0 :: rr from rfl]
            rw [takeWhile_append_of_all (c1 :: cr1) (r0 :: rr) hall1,
              takeWhile_head_false (r0 :: rr) hrest, List.append_nil]
          rw [htw]
          rw [if_neg (by
            simp only [List.length_cons, List.length_append]
            omega)]
          rw [show (1 : Nat) + (c1 :: cr1).length = (c :: c1 :: cr1).length
            from by simp only [List.length_cons]; omega]
          rw [List.take_left, List.drop_left]
          rw [show String.mk (c :: c1 :: cr1) = r from by
            rw [← string_mk_data r, hd]]
  · -- a variable name
    obtain ⟨c, cr, hd, hu, hz, hall⟩ := is_variable_parts r hk
    have hvarT : is_variable (String.mk [c]) = true :=
      (is_variable_single c).mpr ⟨hu, hz⟩
    have hallcr : ∀ x ∈ cr, charIsAlnum x = true := by
      intro x hx
      exact hall x (by rw [hd]; simp [hx])
    cases cr with
    | nil =>
      cases rest with
      | nil =>
        rw [hd, List.append_nil, termParsePfx]
        rw [dif_neg (by simp)]
        rw [show ([c] : List Char).getD 0 ' ' = c from rfl]
        rw [if_pos hvarT, if_pos (by simp)]
        rw [show String.mk [c] = r from by rw [← string_mk_data r, hd]]
      | cons r0 rr =>
        rw [hd, show ([c] : List Char) ++ r0 :: rr = c :: r0 :: rr from rfl,
          termParsePfx]
        rw [dif_neg (by simp)]
        rw [show (c :: r0 :: rr).getD 0 ' ' = c from rfl]
        rw [if_pos hvarT, if_neg (by simp)]
        have htw : List.takeWhile charIsAlnum
            (List.drop 1 (c :: r0 :: rr)) = [] := by
          rw [show List.drop 1 (c :: r0 :: rr) = r0 :: rr from rfl]
          exact takeWhile_head_false (r0 :: rr) hrest
        rw [htw]
        rw [if_neg (by simp)]
        rw [show (1 : Nat) + List.length ([] : List Char) = 1 from rfl]
        rw [show (c :: r0 :: rr).take 1 = [c] from rfl,
          show (c :: r0 :: rr).drop 1 = r0 :: rr from rfl]
        rw [show String.mk [c] = r from by rw [← string_mk_data r, hd]]
    | cons c1 cr1 =>
      have hall1 : ∀ x ∈ c1 :: cr1, charIsAlnum x = true := hallcr
      cases rest with
      | nil =>
        rw [hd, List.append_nil, termParsePfx]
        rw [dif_neg (by simp)]
        rw [show (c :: c1 :: cr1).getD 0 ' ' = c from rfl]
        rw [if_pos hvarT, if_neg (by simp)]
        have htw : List.takeWhile charIsAlnum
            (List.drop 1 (c :: c1 :: cr1)) = c1 :: cr1 := by
          rw [show List.drop 1 (c :: c1 :: cr1) = c1 :: cr1 from rfl]
          exact takeWhile_all_eq (c1 :: cr1)
            (by rw [List.all_eq_true]; exact hall1)
        rw [htw]
        rw [if_pos (by simp only [List.length_cons]; omega)]
        rw [show String.mk (c :: c1 :: cr1) = r from by
          rw [← string_mk_data r, hd]]
      | cons r0 rr =>
        rw [hd, termParsePfx]
        rw [dif_neg (by simp)]
        rw [show ((c :: c1 :: cr1) ++ r0 :: rr).getD 0 ' ' = c from rfl]
        rw [if_pos hvarT, if_neg (by simp)]
        have htw : List.takeWhile charIsAlnum
            (List.drop 1 ((c :: c1 :: cr1) ++ r0 :: rr)) = c1 :: cr1 := by
          rw [show List.drop 1 ((c :: c1 :: cr1) ++ r0 :: rr) =
            (c1 :: cr1) ++ r0 :: rr from rfl]
          rw [takeWhile_append_of_all (c1 :: cr1) (r0 :: rr) hall1,
            takeWhile_head_false (r0 :: rr) hrest, List.append_nil]
        rw [htw]
        rw [if_neg (by
          simp only [List.length_cons, List.length_append]
          omega)]
        rw [show (1 : Nat) + (c1 :: cr1).length = (c :: c1 :: cr1).length
          from by simp only [List.length_cons]; omega]
        rw [List.take_left, List.drop_left]
        rw [show String.mk (c :: c1 :: cr1) = r from by
          rw [← string_mk_data r, hd]]

end Propositions
namespace Propositions

theorem termParsePfx_round_main : ∀ n : Nat, ∀ t : PTerm,
    PTerm.psize t ≤ n → PTerm.wfT t = true →
    ∀ rest : List Char, restT rest →
    termParsePfx ((PTerm.reprT t).data ++ rest) = (some t, rest) := by
  intro n
  induction n with
  | zero =>
    intro t h
    have := psize_pos t
    omega
  | succ n ih =>
    intro t hsz hwf rest hrest
    cases t with
    | leaf r => exact termParsePfx_round_leaf r hwf rest hrest
    | func r args =>
      obtain ⟨hfn, hne, hwargs⟩ := wfT_func_parts r args hwf
      obtain ⟨c, cr, hd, hf1, hf2, hall⟩ := is_function_parts r hfn
      have hshape : (PTerm.reprT (PTerm.func r args)).data ++ rest =
          r.data ++ ('(' :: ((reprArgs args).data ++ ')' :: rest)) := by
        rw [reprT_func_data]
        simp [List.append_assoc]
      rw [hshape]
      have hgd : (r.data ++
          ('(' :: ((reprArgs args).data ++ ')' :: rest))).getD 0 ' ' = c :=
        by rw [hd]; rfl
      rw [termParsePfx]
      rw [dif_neg (by rw [hd]; simp)]
      rw [hgd]
      rw [if_neg (by
        intro hcon
        obtain ⟨hu, -⟩ := (is_variable_single c).mp hcon
        exact absurd (le_trans hu hf2) (by decide))]
      rw [if_neg (by
        intro hcon
        rcases (is_constant_single c).mp hcon with hx | hx | hx
        · exact absurd (le_trans hf1 hx.2) (by decide)
        · exact absurd (le_trans hf1 hx.2) (by decide)
        · subst hx
          exact absurd hf1 (by decide))]
      rw [findIdx_first _ r.data '(' _ 0
        (fun x hx => by
          simp only [decide_eq_false_iff_not]
          exact (alnum_fo x (hall x hx)).1)
        (by decide)]
      simp only [Nat.zero_add]
      have hdrop0 : (r.data ++
          ('(' :: ((reprArgs args).data ++ ')' :: rest))).drop
          r.data.length = '(' :: ((reprArgs args).data ++ ')' :: rest) := by
        rw [List.drop_left]
      have hdrop1 : (r.data ++
          ('(' :: ((reprArgs args).data ++ ')' :: rest))).drop
          (r.data.length + 1) = (reprArgs args).data ++ ')' :: rest :=
        drop_succ_of_cons _ _ '(' _ hdrop0
      have hP : ∀ a ∈ args, ∀ rest2 : List Char,
          (rest2 ≠ [] → charIsAlnum (rest2.headD ' ') = false) →
          termParsePfx ((PTerm.reprT a).data ++ rest2) = (some a, rest2) := by
        intro a ha rest2 hr2
        have h1 := psizeList_mem_le args a ha
        have h2 : PTerm.psize a ≤ n := by
          simp only [PTerm.psize] at hsz
          omega
        exact ih a h2 (wfTList_mem args hwargs a ha) rest2 hr2
      obtain ⟨lastA, initA, hsplit, hres, hdropLast⟩ := termLoop_args args
        hwargs hne hP _ (r.data.length + 1) [r.data.length] [] [] rest
        hdrop1 (by simp) (by omega)
      simp only [Nat.add_sub_cancel] at hres
      rw [hres]
      simp only
      have hLlast : (PTerm.reprT lastA).data.length ≤
          (reprArgs args).data.length := by
        have := reprArgs_last_le initA lastA
        rw [← hsplit] at this
        exact this
      have hiF : r.data.length + 1 + (reprArgs args).data.length -
          (PTerm.reprT lastA).data.length +
          (PTerm.reprT lastA).data.length =
          r.data.length + 1 + (reprArgs args).data.length := by omega
      have hpy := pyslice_from_drop _ (PTerm.reprT lastA).data (')' :: rest)
        (r.data.length + 1 + (reprArgs args).data.length -
          (PTerm.reprT lastA).data.length) hdropLast
      rw [hiF] at hpy
      have hsl : pyslice (r.data ++
          ('(' :: ((reprArgs args).data ++ ')' :: rest)))
          (r.data.length + 1 + (reprArgs args).data.length -
            (PTerm.reprT lastA).data.length - 1 + 1)
          (r.data.length + 1 + (reprArgs args).data.length) =
          (PTerm.reprT lastA).data := by
        rw [show r.data.length + 1 + (reprArgs args).data.length -
            (PTerm.reprT lastA).data.length - 1 + 1 =
          r.data.length + 1 + (reprArgs args).data.length -
            (PTerm.reprT lastA).data.length from by omega]
        exact hpy
      rw [hsl]
      have hlastP : termParsePfx (PTerm.reprT lastA).data =
          (some lastA, []) := by
        have h1 := hP lastA (by rw [hsplit]; simp) []
          (fun h => absurd rfl h)
        rwa [List.append_nil] at h1
      rw [hlastP]
      simp only
      rw [if_pos (by
        rw [List.take_left, string_mk_data]
        exact hfn)]
      have hdropC : (r.data ++
          ('(' :: ((reprArgs args).data ++ ')' :: rest))).drop
          (r.data.length + 1 + (reprArgs args).data.length) = ')' :: rest
          := by
        have := drop_advance _ (PTerm.reprT lastA).data (')' :: rest) _
          hdropLast
        rwa [hiF] at this
      have hdropF : (r.data ++
          ('(' :: ((reprArgs args).data ++ ')' :: rest))).drop
          (r.data.length + 1 + (reprArgs args).data.length + 1) = rest :=
        drop_succ_of_cons _ _ ')' _ hdropC
      rw [hdropF]
      rw [show String.mk ((r.data ++
          ('(' :: ((reprArgs args).data ++ ')' :: rest))).take
          r.data.length) = r from by rw [List.take_left, string_mk_data]]
      simp only [List.nil_append]
      rw [← hsplit]

end Propositions
namespace Propositions

theorem termParsePfx_round (t : PTerm) (hwf : PTerm.wfT t = true)
    (rest : List Char) (hrest : restT rest) :
    termParsePfx ((PTerm.reprT t).data ++ rest) = (some t, rest) :=
  termParsePfx_round_main (PTerm.psize t) t le_rfl hwf rest hrest

theorem termParsePfx_round_nil (t : PTerm) (hwf : PTerm.wfT t = true) :
    termParsePfx (PTerm.reprT t).data = (some t, []) := by
  have h := termParsePfx_round t hwf [] (fun h => absurd rfl h)
  rwa [List.append_nil] at h

/-- The relation-argument loop of `Formula.parse_prefix` behaves exactly
like the loop of `Term.parse_prefix`: the stored entries of `opens` and
`closed` are never read, only their lengths. -/
theorem relScan_eq_termLoop : ∀ (k : Nat) (s : List Char) (iv i : Nat)
    (c : Int) (op cl op2 cl2 : List Nat) (lo : Nat) (tms : List PTerm),
    s.length - i ≤ k → op.length = op2.length → cl.length = cl2.length →
    relScan s iv i c op cl lo tms = termLoop s i c op2 cl2 lo tms := by
  intro k
  induction k with
  | zero =>
    intro s iv i c op cl op2 cl2 lo tms hk _ _
    rw [relScan, termLoop, dif_neg (by omega), dif_neg (by omega)]
  | succ k ih =>
    intro s iv i c op cl op2 cl2 lo tms hk hlo hlc
    by_cases hi : i < s.length
    · rw [relScan, termLoop, dif_pos hi, dif_pos hi]
      by_cases h1 : s.getD i ' ' = '('
      · rw [if_pos h1, if_pos h1]
        by_cases h2 : c + 1 = 0
        · rw [if_pos h2, if_pos h2]
        · rw [if_neg h2, if_neg h2]
          exact ih s iv (i + 1) (c + 1) (op ++ [iv]) cl (op2 ++ [i]) cl2 lo
            tms (by omega) (by simp [hlo]) hlc
      · rw [if_neg h1, if_neg h1]
        by_cases h2 : s.getD i ' ' = ')'
        · rw [if_pos h2, if_pos h2]
          by_cases h3 : c - 1 = 0
          · rw [if_pos h3, if_pos h3]
          · rw [if_neg h3, if_neg h3]
            exact ih s iv (i + 1) (c - 1) op (cl ++ [iv]) op2 (cl2 ++ [i]) lo
              tms (by omega) hlo (by simp [hlc])
        · rw [if_neg h2, if_neg h2]
          by_cases h3 : s.getD i ' ' = ',' ∧ op.length < cl.length + 2
          · rw [if_pos h3, if_pos (by rw [← hlo, ← hlc]; exact h3)]
            cases hp : (termParsePfx (pyslice s (lo + 1) i)).1 with
            | none => rfl
            | some t =>
              simp only
              by_cases h4 : c = 0
              · rw [if_pos h4, if_pos h4]
              · rw [if_neg h4, if_neg h4]
                exact ih s iv (i + 1) c op cl op2 cl2 i (tms ++ [t])
                  (by omega) hlo hlc
          · rw [if_neg h3, if_neg (show ¬(s.getD i ' ' = ',' ∧
                op2.length < cl2.length + 2) from by
              intro hx
              exact h3 (by rw [hlo, hlc]; exact hx))]
            by_cases h4 : c = 0
            · rw [if_pos h4, if_pos h4]
            · rw [if_neg h4, if_neg h4]
              exact ih s iv (i + 1) c op cl op2 cl2 lo tms (by omega) hlo hlc
    · rw [relScan, termLoop, dif_neg hi, dif_neg hi]

end Propositions
namespace Propositions

theorem is_binary_single (c : Char) :
    is_binary (String.mk [c]) = true ↔ (c = '&' ∨ c = '|') := by
  unfold is_binary
  simp only [decide_eq_true_eq]
  constructor
  · rintro (h | h | h)
    · left
      have : (String.mk [c]).data = ("&" : String).data := by rw [h]
      simpa using this
    · right
      have : (String.mk [c]).data = ("|" : String).data := by rw [h]
      simpa using this
    · have : (String.mk [c]).data = ("->" : String).data := by rw [h]
      simp at this
  · rintro (rfl | rfl)
    · exact Or.inl rfl
    · exact Or.inr (Or.inl rfl)

theorem foStep_open (s : List Char) (st : ScanSt)
    (h : s.getD st.index ' ' = '(') :
    foStep s st =
      {st with index := st.index + 1, openN := st.openN + 1,
               countPar := st.countPar + 1} := by
  unfold foStep
  rw [if_pos h]

theorem foStep_close (s : List Char) (st : ScanSt)
    (h : s.getD st.index ' ' = ')') :
    foStep s st =
      {st with index := st.index + 1, closeN := st.closeN + 1,
               countPar := st.countPar - 1, idxClose := st.index} := by
  unfold foStep
  rw [if_neg (by rw [h]; decide), if_pos h]

theorem foStep_bin_top (s : List Char) (st : ScanSt) (c : Char)
    (h : s.getD st.index ' ' = c) (hb : c = '&' ∨ c = '|')
    (hcp : st.countPar = 1) :
    foStep s st =
      {st with index := st.index + 1, opN := st.opN + 1,
               idxOp := st.index} := by
  unfold foStep
  rw [h]
  rcases hb with rfl | rfl <;>
    rw [if_neg (by decide), if_neg (by decide),
      if_pos ((is_binary_single _).mpr (by simp)), if_pos hcp]

theorem foStep_bin_deep (s : List Char) (st : ScanSt) (c : Char)
    (h : s.getD st.index ' ' = c) (hb : c = '&' ∨ c = '|')
    (hcp : ¬ st.countPar = 1) :
    foStep s st = {st with index := st.index + 1, opN := st.opN + 1} := by
  unfold foStep
  rw [h]
  rcases hb with rfl | rfl <;>
    rw [if_neg (by decide), if_neg (by decide),
      if_pos ((is_binary_single _).mpr (by simp)), if_neg hcp]

theorem foStep_arrow (s : List Char) (st : ScanSt) (tail : List Char)
    (hdrop : s.drop st.index = '-' :: '>' :: tail) :
    foStep s st = (if st.countPar = 1 then
      {st with index := st.index + 2, opN := st.opN + 1,
               idxOp := st.index + 1}
      else {st with index := st.index + 2, opN := st.opN + 1}) := by
  have hc := getD_of_drop s st.index '-' _ hdrop
  have hlen : st.index + 1 < s.length := by
    have := length_drop_eq s _ st.index hdrop
    simp only [List.length_cons] at this
    omega
  have hsl : pyslice s st.index (st.index + 2) = ['-', '>'] := by
    unfold pyslice
    rw [hdrop, show st.index + 2 - st.index = 2 from by omega]
    rfl
  unfold foStep
  rw [if_neg (by rw [hc]; decide), if_neg (by rw [hc]; decide),
    if_neg (by
      rw [hc]
      intro hcon
      rcases (is_binary_single '-').mp hcon with h | h <;> simp at h),
    if_pos ⟨hlen, hsl⟩]

theorem foStep_plain (s : List Char) (st : ScanSt)
    (h1 : s.getD st.index ' ' ≠ '(') (h2 : s.getD st.index ' ' ≠ ')')
    (h3 : ¬ is_binary (String.mk [s.getD st.index ' ']) = true)
    (h4 : s.getD st.index ' ' ≠ '-') :
    foStep s st = {st with index := st.index + 1} := by
  unfold foStep
  rw [if_neg h1, if_neg h2, if_neg h3, if_neg (by
    rintro ⟨-, hsl⟩
    unfold pyslice at hsl
    rw [show st.index + 2 - st.index = 2 from by omega] at hsl
    cases hds : s.drop st.index with
    | nil => rw [hds] at hsl; simp at hsl
    | cons a tl =>
      rw [hds] at hsl
      cases tl with
      | nil => simp at hsl
      | cons b tl2 =>
        simp only [List.take_succ_cons, List.take_zero, List.cons.injEq]
          at hsl
        exact h4 (by rw [getD_of_drop s st.index a _ hds, hsl.1]))]

theorem foScan_halt (s : List Char) (st : ScanSt)
    (hge : ¬ st.index < s.length) : foScan s st = st := by
  rw [foScan, dif_neg hge]

theorem foScan_stop (s : List Char) (st : ScanSt)
    (hi : st.index < s.length)
    (heq : (foStep s st).openN = (foStep s st).closeN) :
    foScan s st = foStep s st := by
  rw [foScan, dif_pos hi, if_pos heq]

theorem foScan_cont (s : List Char) (st : ScanSt)
    (hi : st.index < s.length)
    (hne : ¬ (foStep s st).openN = (foStep s st).closeN) :
    foScan s st = foScan s (foStep s st) := by
  rw [foScan, dif_pos hi, if_neg hne]

/-- Characters the first-order scan steps over without any effect. -/
def foPlain (c : Char) : Prop :=
  c ≠ '(' ∧ c ≠ ')' ∧ ¬(c = '&' ∨ c = '|') ∧ c ≠ '-'

theorem foPlain_alnum (c : Char) (h : charIsAlnum c = true) : foPlain c := by
  obtain ⟨u1, u2, u3, u4, u5, u6, u7, u8, u9, u10, u11, u12⟩ := alnum_fo c h
  refine ⟨u1, u2, ?_, u7⟩
  rintro (rfl | rfl)
  · exact absurd rfl u9
  · exact absurd rfl u10

theorem foScan_run : ∀ (chunk : List Char), (∀ c ∈ chunk, foPlain c) →
    ∀ (s : List Char) (st : ScanSt) (rest : List Char),
    s.drop st.index = chunk ++ rest → st.openN ≠ st.closeN →
    foScan s st = foScan s {st with index := st.index + chunk.length} := by
  intro chunk
  induction chunk with
  | nil =>
    intro _ s st rest _ _
    rfl
  | cons c ck ih =>
    intro hall s st rest hdrop hne
    have hdrop2 : s.drop st.index = c :: (ck ++ rest) := by simpa using hdrop
    have hidx := index_lt_of_drop s st.index c _ hdrop2
    have hc : s.getD st.index ' ' = c := getD_of_drop s st.index c _ hdrop2
    have hpl := hall c (by simp)
    have hstep : foStep s st = {st with index := st.index + 1} :=
      foStep_plain s st (by rw [hc]; exact hpl.1) (by rw [hc]; exact hpl.2.1)
        (by rw [hc]; intro hcon
            exact hpl.2.2.1 ((is_binary_single c).mp hcon))
        (by rw [hc]; exact hpl.2.2.2)
    rw [foScan_cont s st hidx (by rw [hstep]; exact hne)]
    rw [hstep]
    have hdrop3 : s.drop (st.index + 1) = ck ++ rest :=
      drop_succ_of_cons s st.index c _ hdrop2
    rw [ih (fun x hx => hall x (by simp [hx])) s
      {st with index := st.index + 1} rest hdrop3 hne]
    rw [show st.index + 1 + ck.length = st.index + (c :: ck).length from by
      simp only [List.length_cons]; omega]

end Propositions
namespace Propositions

theorem foPlain_underscore : foPlain '_' := by
  refine ⟨by decide, by decide, ?_, by decide⟩
  rintro (h | h) <;> exact absurd h (by decide)

theorem foPlain_comma : foPlain ',' := by
  refine ⟨by decide, by decide, ?_, by decide⟩
  rintro (h | h) <;> exact absurd h (by decide)

theorem leafName_foPlain (r : String) (h : PTerm.wfT (PTerm.leaf r) = true) :
    ∀ c ∈ r.data, foPlain c := by
  intro c hc
  rcases wfT_leaf_cases r h with h1 | h1
  · rcases name_chars_constant r h1 with h2 | h2
    · exact foPlain_alnum c (h2 c hc)
    · subst h2
      simp only [show ("_" : String).data = ['_'] from rfl,
        List.mem_singleton] at hc
      subst hc
      exact foPlain_underscore
  · exact foPlain_alnum c (name_chars_variable r h1 c hc)

theorem foScan_skipT_main : ∀ n : Nat,
    (∀ t, PTerm.psize t ≤ n → PTerm.wfT t = true →
      ∀ (s : List Char) (st : ScanSt) (rest : List Char),
      s.drop st.index = (PTerm.reprT t).data ++ rest →
      st.closeN < st.openN →
      ∃ k ic, foScan s st = foScan s
        {st with index := st.index + (PTerm.reprT t).data.length,
                 openN := st.openN + k, closeN := st.closeN + k,
                 idxClose := ic}) ∧
    (∀ args, psizeList args ≤ n → wfTList args = true →
      ∀ (s : List Char) (st : ScanSt) (rest : List Char),
      s.drop st.index = (reprArgs args).data ++ rest →
      st.closeN < st.openN →
      ∃ k ic, foScan s st = foScan s
        {st with index := st.index + (reprArgs args).data.length,
                 openN := st.openN + k, closeN := st.closeN + k,
                 idxClose := ic}) := by
  intro n
  induction n with
  | zero =>
    constructor
    · intro t hsz
      have := psize_pos t
      omega
    · intro args hsz hwf s st rest hdrop hne
      cases args with
      | nil =>
        refine ⟨0, st.idxClose, ?_⟩
        rfl
      | cons a more =>
        have := psize_pos a
        simp only [psizeList] at hsz
        omega
  | succ n ih =>
    have hA : ∀ t, PTerm.psize t ≤ n + 1 → PTerm.wfT t = true →
        ∀ (s : List Char) (st : ScanSt) (rest : List Char),
        s.drop st.index = (PTerm.reprT t).data ++ rest →
        st.closeN < st.openN →
        ∃ k ic, foScan s st = foScan s
          {st with index := st.index + (PTerm.reprT t).data.length,
                   openN := st.openN + k, closeN := st.closeN + k,
                   idxClose := ic} := by
      intro t hsz hwf s st rest hdrop hne
      cases t with
      | leaf r =>
        refine ⟨0, st.idxClose, ?_⟩
        rw [foScan_run (PTerm.reprT (PTerm.leaf r)).data
          (leafName_foPlain r hwf) s st rest hdrop (by omega)]
        simp
      | func r args =>
        obtain ⟨hfn, hne2, hwargs⟩ := wfT_func_parts r args hwf
        rw [reprT_func_data] at hdrop
        have hdropN : s.drop st.index =
            r.data ++ ('(' :: ((reprArgs args).data ++ ([')'] ++ rest)))
            := by
          rw [hdrop]
          simp [List.append_assoc]
        -- the function name
        have hrun := foScan_run r.data
          (fun c hcm => foPlain_alnum c (name_chars_function r hfn c hcm))
          s st _ hdropN (by omega)
        -- the opening parenthesis
        have hdrop1 : s.drop (st.index + r.data.length) =
            '(' :: ((reprArgs args).data ++ ([')'] ++ rest)) :=
          drop_advance s r.data _ st.index hdropN
        have hi1 : st.index + r.data.length < s.length :=
          index_lt_of_drop s _ '(' _ hdrop1
        have hop := foStep_open s {st with index := st.index + r.data.length}
          (getD_of_drop s _ '(' _ hdrop1)
        have hdrop2 : s.drop (st.index + r.data.length + 1) =
            (reprArgs args).data ++ ([')'] ++ rest) :=
          drop_succ_of_cons s _ '(' _ hdrop1
        have hsz2 : psizeList args ≤ n := by
          simp only [PTerm.psize] at hsz
          omega
        obtain ⟨k2, ic2, hargs⟩ := ih.2 args hsz2 hwargs s
          {st with index := st.index + r.data.length + 1,
                   openN := st.openN + 1, countPar := st.countPar + 1}
          ([')'] ++ rest) hdrop2 (by simp only []; omega)
        have hdrop3 : s.drop (st.index + r.data.length + 1 +
            (reprArgs args).data.length) = [')'] ++ rest := by
          exact drop_advance s (reprArgs args).data _ _ hdrop2
        have hi3 : st.index + r.data.length + 1 +
            (reprArgs args).data.length < s.length :=
          index_lt_of_drop s _ ')' rest (by simpa using hdrop3)
        have hcl := foStep_close s
          {st with index := st.index + r.data.length + 1 +
                     (reprArgs args).data.length,
                   openN := st.openN + 1 + k2,
                   closeN := st.closeN + k2,
                   countPar := st.countPar + 1, idxClose := ic2}
          (getD_of_drop s _ ')' rest (by simpa using hdrop3))
        refine ⟨1 + k2,
          st.index + r.data.length + 1 + (reprArgs args).data.length, ?_⟩
        rw [hrun]
        rw [foScan_cont s _ hi1 (by rw [hop]; simp only []; omega)]
        rw [hop]
        simp only []
        rw [hargs]
        rw [foScan_cont s _ hi3 (by rw [hcl]; simp only []; omega)]
        rw [hcl]
        congr 1
        refine ScanSt.ext ?_ ?_ ?_ ?_ ?_ ?_ ?_ <;> simp only [] <;>
          first
          | (rw [reprT_func_data]; simp only [List.length_append,
              List.length_cons, List.length_nil]; omega)
          | omega
          | rfl
    refine ⟨hA, ?_⟩
    intro args hsz hwf s st rest hdrop hne
    cases args with
    | nil =>
      refine ⟨0, st.idxClose, ?_⟩
      rfl
    | cons a more =>
      have hwa : PTerm.wfT a = true := by
        unfold wfTList at hwf
        simp only [Bool.and_eq_true] at hwf
        exact hwf.1
      have hwmore : wfTList more = true := by
        unfold wfTList at hwf
        simp only [Bool.and_eq_true] at hwf
        exact hwf.2
      cases more with
      | nil =>
        obtain ⟨k, ic, hres⟩ := hA a (by
            simp only [psizeList] at hsz
            omega) hwa s st rest
          (by rw [show reprArgs [a] = PTerm.reprT a from rfl] at hdrop
              exact hdrop) hne
        exact ⟨k, ic, by
          rw [show reprArgs [a] = PTerm.reprT a from rfl]
          exact hres⟩
      | cons b more2 =>
        rw [reprArgs_cons2_data] at hdrop
        have hdropN : s.drop st.index = (PTerm.reprT a).data ++
            (',' :: ((reprArgs (b :: more2)).data ++ rest)) := by
          rw [hdrop]
          simp
        obtain ⟨k1, ic1, hres1⟩ := hA a (by
            simp only [psizeList] at hsz
            have := psize_pos b
            omega) hwa s st _ hdropN hne
        have hdropC : s.drop (st.index + (PTerm.reprT a).data.length) =
            ',' :: ((reprArgs (b :: more2)).data ++ rest) :=
          drop_advance s (PTerm.reprT a).data _ st.index hdropN
        have hiC := index_lt_of_drop s _ ',' _ hdropC
        have hstC := foStep_plain s
          {st with index := st.index + (PTerm.reprT a).data.length,
                   openN := st.openN + k1, closeN := st.closeN + k1,
                   idxClose := ic1}
          (by rw [getD_of_drop s _ ',' _ hdropC]; decide)
          (by rw [getD_of_drop s _ ',' _ hdropC]; decide)
          (by rw [getD_of_drop s _ ',' _ hdropC]
              intro hcon
              rcases (is_binary_single ',').mp hcon with h | h <;>
                simp at h)
          (by rw [getD_of_drop s _ ',' _ hdropC]; decide)
        have hdropT : s.drop (st.index + (PTerm.reprT a).data.length + 1) =
            (reprArgs (b :: more2)).data ++ rest :=
          drop_succ_of_cons s _ ',' _ hdropC
        have hsz2 : psizeList (b :: more2) ≤ n := by
          simp only [psizeList] at hsz ⊢
          have := psize_pos a
          omega
        obtain ⟨k2, ic2, hres2⟩ := ih.2 (b :: more2) hsz2 hwmore s
          {st with index := st.index + (PTerm.reprT a).data.length + 1,
                   openN := st.openN + k1, closeN := st.closeN + k1,
                   idxClose := ic1}
          rest hdropT (by simp only []; omega)
        refine ⟨k1 + k2, ic2, ?_⟩
        rw [hres1]
        rw [foScan_cont s _ hiC (by rw [hstC]; simp only []; omega)]
        rw [hstC]
        simp only []
        rw [hres2]
        congr 1
        refine ScanSt.ext ?_ ?_ ?_ ?_ ?_ ?_ ?_ <;> simp only [] <;>
          first
          | (rw [reprArgs_cons2_data]; simp only [List.length_append,
              List.length_cons, List.length_nil]; omega)
          | omega
          | rfl

end Propositions
namespace Propositions

theorem wfP_eq_parts (t1 t2 : PTerm)
    (h : PFormula.wfP (PFormula.eq t1 t2) = true) :
    PTerm.wfT t1 = true ∧ PTerm.wfT t2 = true := by
  unfold PFormula.wfP at h
  simpa using h

theorem wfP_rel_parts (name : String) (args : List PTerm)
    (h : PFormula.wfP (PFormula.rel name args) = true) :
    is_relation name = true ∧ wfTList args = true := by
  unfold PFormula.wfP at h
  simpa using h

theorem wfP_un_parts (f : PFormula)
    (h : PFormula.wfP (PFormula.unary f) = true) : PFormula.wfP f = true :=
  h

theorem wfP_bin_parts (op : String) (f g : PFormula)
    (h : PFormula.wfP (PFormula.binary op f g) = true) :
    (op = "&" ∨ op = "|" ∨ op = "->") ∧ PFormula.wfP f = true ∧
      PFormula.wfP g = true := by
  unfold PFormula.wfP at h
  simp only [Bool.and_eq_true, decide_eq_true_eq] at h
  exact ⟨h.1.1, h.1.2, h.2⟩

theorem wfP_quant_parts (q v : String) (p : PFormula)
    (h : PFormula.wfP (PFormula.quant q v p) = true) :
    (q = "A" ∨ q = "E") ∧ is_variable v = true ∧ PFormula.wfP p = true := by
  unfold PFormula.wfP at h
  simp only [Bool.and_eq_true, decide_eq_true_eq] at h
  exact ⟨h.1.1, h.1.2, h.2⟩

theorem reprP_eq_data (t1 t2 : PTerm) :
    (PFormula.reprP (PFormula.eq t1 t2)).data =
    (PTerm.reprT t1).data ++ ('=' :: (PTerm.reprT t2).data) := by
  show (PTerm.reprT t1 ++ "=" ++ PTerm.reprT t2).data = _
  simp [String.data_append]

theorem reprP_rel_data (name : String) (args : List PTerm) :
    (PFormula.reprP (PFormula.rel name args)).data =
    name.data ++ ('(' :: ((reprArgs args).data ++ [')'])) := by
  show (name ++ "(" ++ reprArgs args ++ ")").data = _
  simp [String.data_append]

theorem reprP_un_data (f : PFormula) :
    (PFormula.reprP (PFormula.unary f)).data =
    '~' :: (PFormula.reprP f).data := by
  show ("~" ++ PFormula.reprP f).data = _
  simp [String.data_append]

theorem reprP_bin_data (op : String) (f g : PFormula) :
    (PFormula.reprP (PFormula.binary op f g)).data =
    '(' :: ((PFormula.reprP f).data ++
      (op.data ++ ((PFormula.reprP g).data ++ [')']))) := by
  show ("(" ++ PFormula.reprP f ++ op ++ PFormula.reprP g ++ ")").data = _
  simp [String.data_append]

theorem reprP_quant_data (q v : String) (p : PFormula) :
    (PFormula.reprP (PFormula.quant q v p)).data =
    q.data ++ (v.data ++ ('[' :: ((PFormula.reprP p).data ++ [']']))) := by
  show (q ++ v ++ "[" ++ PFormula.reprP p ++ "]").data = _
  simp [String.data_append]

theorem foScan_skipF : ∀ f : PFormula, PFormula.wfP f = true →
    ∀ (s : List Char) (st : ScanSt) (rest : List Char),
    s.drop st.index = (PFormula.reprP f).data ++ rest →
    st.closeN < st.openN → 1 ≤ st.countPar →
    ∃ k m ic, foScan s st = foScan s
      {st with index := st.index + (PFormula.reprP f).data.length,
               openN := st.openN + k, closeN := st.closeN + k,
               opN := st.opN + m, idxClose := ic} := by
  intro f
  induction f with
  | eq t1 t2 =>
    intro hwf s st rest hdrop hne hcp
    obtain ⟨hw1, hw2⟩ := wfP_eq_parts t1 t2 hwf
    rw [reprP_eq_data] at hdrop
    have hdropN : s.drop st.index = (PTerm.reprT t1).data ++
        ('=' :: ((PTerm.reprT t2).data ++ rest)) := by
      rw [hdrop]
      simp
    obtain ⟨k1, ic1, h1⟩ := (foScan_skipT_main (PTerm.psize t1)).1 t1 le_rfl
      hw1 s st _ hdropN hne
    have hdropE : s.drop (st.index + (PTerm.reprT t1).data.length) =
        '=' :: ((PTerm.reprT t2).data ++ rest) :=
      drop_advance s (PTerm.reprT t1).data _ st.index hdropN
    have hiE := index_lt_of_drop s _ '=' _ hdropE
    have hstE := foStep_plain s
      {st with index := st.index + (PTerm.reprT t1).data.length,
               openN := st.openN + k1, closeN := st.closeN + k1,
               idxClose := ic1}
      (by rw [getD_of_drop s _ '=' _ hdropE]; decide)
      (by rw [getD_of_drop s _ '=' _ hdropE]; decide)
      (by rw [getD_of_drop s _ '=' _ hdropE]
          intro hcon
          rcases (is_binary_single '=').mp hcon with h | h <;> simp at h)
      (by rw [getD_of_drop s _ '=' _ hdropE]; decide)
    have hdropT2 : s.drop (st.index + (PTerm.reprT t1).data.length + 1) =
        (PTerm.reprT t2).data ++ rest :=
      drop_succ_of_cons s _ '=' _ hdropE
    obtain ⟨k2, ic2, h2⟩ := (foScan_skipT_main (PTerm.psize t2)).1 t2 le_rfl
      hw2 s
      {st with index := st.index + (PTerm.reprT t1).data.length + 1,
               openN := st.openN + k1, closeN := st.closeN + k1,
               idxClose := ic1}
      rest hdropT2 (by simp only []; omega)
    refine ⟨k1 + k2, 0, ic2, ?_⟩
    rw [h1]
    rw [foScan_cont s _ hiE (by rw [hstE]; simp only []; omega)]
    rw [hstE]
    simp only []
    rw [h2]
    congr 1
    refine ScanSt.ext ?_ ?_ ?_ ?_ ?_ ?_ ?_ <;> simp only [] <;>
      first
      | (rw [reprP_eq_data]; simp only [List.length_append,
          List.length_cons, List.length_nil]; omega)
      | omega
      | rfl
  | rel name args =>
    intro hwf s st rest hdrop hne hcp
    obtain ⟨hrel, hwargs⟩ := wfP_rel_parts name args hwf
    rw [reprP_rel_data] at hdrop
    have hdropN : s.drop st.index = name.data ++
        ('(' :: ((reprArgs args).data ++ (')' :: rest))) := by
      rw [hdrop]
      simp [List.append_assoc]
    have hrun := foScan_run name.data
      (fun c hcm => foPlain_alnum c
        (isAlnumStr_mem name (by
          unfold is_relation at hrel
          simp only [decide_eq_true_eq] at hrel
          exact hrel.2) c hcm))
      s st _ hdropN (by omega)
    have hdrop1 : s.drop (st.index + name.data.length) =
        '(' :: ((reprArgs args).data ++ (')' :: rest)) :=
      drop_advance s name.data _ st.index hdropN
    have hi1 := index_lt_of_drop s _ '(' _ hdrop1
    have hop := foStep_open s {st with index := st.index + name.data.length}
      (getD_of_drop s _ '(' _ hdrop1)
    have hdrop2 : s.drop (st.index + name.data.length + 1) =
        (reprArgs args).data ++ (')' :: rest) :=
      drop_succ_of_cons s _ '(' _ hdrop1
    obtain ⟨k2, ic2, hargs⟩ := (foScan_skipT_main (psizeList args)).2 args
      le_rfl hwargs s
      {st with index := st.index + name.data.length + 1,
               openN := st.openN + 1, countPar := st.countPar + 1}
      (')' :: rest) hdrop2 (by simp only []; omega)
    have hdrop3 : s.drop (st.index + name.data.length + 1 +
        (reprArgs args).data.length) = ')' :: rest :=
      drop_advance s (reprArgs args).data _ _ hdrop2
    have hi3 := index_lt_of_drop s _ ')' rest hdrop3
    have hcl := foStep_close s
      {st with index := st.index + name.data.length + 1 +
                 (reprArgs args).data.length,
               openN := st.openN + 1 + k2, closeN := st.closeN + k2,
               countPar := st.countPar + 1, idxClose := ic2}
      (getD_of_drop s _ ')' rest hdrop3)
    refine ⟨1 + k2, 0,
      st.index + name.data.length + 1 + (reprArgs args).data.length, ?_⟩
    rw [hrun]
    rw [foScan_cont s _ hi1 (by rw [hop]; simp only []; omega)]
    rw [hop]
    simp only []
    rw [hargs]
    rw [foScan_cont s _ hi3 (by rw [hcl]; simp only []; omega)]
    rw [hcl]
    congr 1
    refine ScanSt.ext ?_ ?_ ?_ ?_ ?_ ?_ ?_ <;> simp only [] <;>
      first
      | (rw [reprP_rel_data]; simp only [List.length_append,
          List.length_cons, List.length_nil]; omega)
      | omega
      | rfl
  | unary f ihf =>
    intro hwf s st rest hdrop hne hcp
    rw [reprP_un_data] at hdrop
    have hiT := index_lt_of_drop s _ '~' _ hdrop
    have hstT := foStep_plain s st
      (by rw [getD_of_drop s _ '~' _ hdrop]; decide)
      (by rw [getD_of_drop s _ '~' _ hdrop]; decide)
      (by rw [getD_of_drop s _ '~' _ hdrop]
          intro hcon
          rcases (is_binary_single '~').mp hcon with h | h <;> simp at h)
      (by rw [getD_of_drop s _ '~' _ hdrop]; decide)
    have hdrop1 : s.drop (st.index + 1) = (PFormula.reprP f).data ++ rest :=
      drop_succ_of_cons s _ '~' _ hdrop
    obtain ⟨k, m, ic, hf⟩ := ihf (wfP_un_parts f hwf) s
      {st with index := st.index + 1} rest hdrop1 (by simp only []; omega)
      (by simp only []; omega)
    refine ⟨k, m, ic, ?_⟩
    rw [foScan_cont s st hiT (by rw [hstT]; simp only []; omega)]
    rw [hstT]
    rw [hf]
    congr 1
    refine ScanSt.ext ?_ ?_ ?_ ?_ ?_ ?_ ?_ <;> simp only [] <;>
      first
      | (rw [reprP_un_data]; simp only [List.length_cons]; omega)
      | omega
      | rfl
  | binary op f g ihf ihg =>
    intro hwf s st rest hdrop hne hcp
    obtain ⟨hop, hwf1, hwf2⟩ := wfP_bin_parts op f g hwf
    rw [reprP_bin_data] at hdrop
    have hdropN : s.drop st.index = '(' :: ((PFormula.reprP f).data ++
        (op.data ++ ((PFormula.reprP g).data ++ (')' :: rest)))) := by
      rw [hdrop]
      simp [List.append_assoc]
    have hi0 := index_lt_of_drop s _ '(' _ hdropN
    have hst0 := foStep_open s st (getD_of_drop s _ '(' _ hdropN)
    have hdropA : s.drop (st.index + 1) = (PFormula.reprP f).data ++
        (op.data ++ ((PFormula.reprP g).data ++ (')' :: rest))) :=
      drop_succ_of_cons s _ '(' _ hdropN
    obtain ⟨kA, mA, icA, hA⟩ := ihf hwf1 s
      {st with index := st.index + 1, openN := st.openN + 1,
               countPar := st.countPar + 1}
      _ hdropA (by simp only []; omega) (by simp only []; omega)
    have hdropOp : s.drop (st.index + 1 + (PFormula.reprP f).data.length) =
        op.data ++ ((PFormula.reprP g).data ++ (')' :: rest)) :=
      drop_advance s (PFormula.reprP f).data _ _ hdropA
    -- handle the operator: one step for & and |, a double step for ->
    have hopstep : ∃ stmid : ScanSt,
        foScan s {st with
          index := st.index + 1 + (PFormula.reprP f).data.length,
          openN := st.openN + 1 + kA, closeN := st.closeN + kA,
          opN := st.opN + mA, countPar := st.countPar + 1,
          idxClose := icA} = foScan s stmid ∧
        stmid = {st with
          index := st.index + 1 + (PFormula.reprP f).data.length +
            op.data.length,
          openN := st.openN + 1 + kA, closeN := st.closeN + kA,
          opN := st.opN + mA + 1, countPar := st.countPar + 1,
          idxClose := icA} := by
      rcases hop with rfl | rfl | rfl
      · have hgd := getD_of_drop s _ '&' _ (by simpa using hdropOp)
        have hiOp := index_lt_of_drop s _ '&' _ (by simpa using hdropOp)
        have hst := foStep_bin_deep s
          {st with index := st.index + 1 + (PFormula.reprP f).data.length,
                   openN := st.openN + 1 + kA, closeN := st.closeN + kA,
                   opN := st.opN + mA, countPar := st.countPar + 1,
                   idxClose := icA} '&' hgd (Or.inl rfl)
          (by simp only []; omega)
        refine ⟨_, foScan_cont s _ hiOp (by rw [hst]; simp only []; omega),
          ?_⟩
        rw [hst]
        rfl
      · have hgd := getD_of_drop s _ '|' _ (by simpa using hdropOp)
        have hiOp := index_lt_of_drop s _ '|' _ (by simpa using hdropOp)
        have hst := foStep_bin_deep s
          {st with index := st.index + 1 + (PFormula.reprP f).data.length,
                   openN := st.openN + 1 + kA, closeN := st.closeN + kA,
                   opN := st.opN + mA, countPar := st.countPar + 1,
                   idxClose := icA} '|' hgd (Or.inr rfl)
          (by simp only []; omega)
        refine ⟨_, foScan_cont s _ hiOp (by rw [hst]; simp only []; omega),
          ?_⟩
        rw [hst]
        rfl
      · have hdrop2 : s.drop (st.index + 1 +
            (PFormula.reprP f).data.length) =
            '-' :: '>' :: ((PFormula.reprP g).data ++ (')' :: rest)) := by
          simpa using hdropOp
        have hiOp := index_lt_of_drop s _ '-' _ hdrop2
        have hst := foStep_arrow s
          {st with index := st.index + 1 + (PFormula.reprP f).data.length,
                   openN := st.openN + 1 + kA, closeN := st.closeN + kA,
                   opN := st.opN + mA, countPar := st.countPar + 1,
                   idxClose := icA} _ hdrop2
        rw [if_neg (by simp only []; omega)] at hst
        refine ⟨_, foScan_cont s _ hiOp (by rw [hst]; simp only []; omega),
          ?_⟩
        rw [hst]
        rfl
    obtain ⟨stmid, hmid1, hmid2⟩ := hopstep
    have hdropB : s.drop (st.index + 1 + (PFormula.reprP f).data.length +
        op.data.length) = (PFormula.reprP g).data ++ (')' :: rest) :=
      drop_advance s op.data _ _ hdropOp
    obtain ⟨kB, mB, icB, hB⟩ := ihg hwf2 s
      {st with index := st.index + 1 + (PFormula.reprP f).data.length +
                 op.data.length,
               openN := st.openN + 1 + kA, closeN := st.closeN + kA,
               opN := st.opN + mA + 1, countPar := st.countPar + 1,
               idxClose := icA}
      _ hdropB (by simp only []; omega) (by simp only []; omega)
    have hdropC : s.drop (st.index + 1 + (PFormula.reprP f).data.length +
        op.data.length + (PFormula.reprP g).data.length) = ')' :: rest :=
      drop_advance s (PFormula.reprP g).data _ _ hdropB
    have hiC := index_lt_of_drop s _ ')' rest hdropC
    have hcl := foStep_close s
      {st with index := st.index + 1 + (PFormula.reprP f).data.length +
                 op.data.length + (PFormula.reprP g).data.length,
               openN := st.openN + 1 + kA + kB,
               closeN := st.closeN + kA + kB,
               opN := st.opN + mA + 1 + mB, countPar := st.countPar + 1,
               idxClose := icB}
      (getD_of_drop s _ ')' rest hdropC)
    refine ⟨1 + kA + kB, mA + 1 + mB,
      st.index + 1 + (PFormula.reprP f).data.length + op.data.length +
        (PFormula.reprP g).data.length, ?_⟩
    rw [foScan_cont s st hi0 (by rw [hst0]; simp only []; omega)]
    rw [hst0]
    rw [hA, hmid1, hmid2, hB]
    rw [foScan_cont s _ hiC (by rw [hcl]; simp only []; omega)]
    rw [hcl]
    congr 1
    refine ScanSt.ext ?_ ?_ ?_ ?_ ?_ ?_ ?_ <;> simp only [] <;>
      first
      | (rw [reprP_bin_data]; simp only [List.length_append,
          List.length_cons, List.length_nil]; omega)
      | omega
      | rfl
  | quant q v p ihp =>
    intro hwf s st rest hdrop hne hcp
    obtain ⟨hq, hv, hwp⟩ := wfP_quant_parts q v p hwf
    rw [reprP_quant_data] at hdrop
    have hdropN : s.drop st.index = (q.data ++ (v.data ++ ['['])) ++
        ((PFormula.reprP p).data ++ (']' :: rest)) := by
      rw [hdrop]
      simp [List.append_assoc]
    have hrun := foScan_run (q.data ++ (v.data ++ ['[']))
      (by
        intro c hcm
        rcases List.mem_append.mp hcm with hcm | hcm
        · rcases hq with rfl | rfl <;>
            (simp only [show ("A" : String).data = ['A'] from rfl,
              show ("E" : String).data = ['E'] from rfl,
              List.mem_singleton] at hcm) <;>
            (subst hcm
             refine ⟨by decide, by decide, ?_, by decide⟩
             rintro (h | h) <;> exact absurd h (by decide))
        · rcases List.mem_append.mp hcm with hcm | hcm
          · exact foPlain_alnum c (name_chars_variable v hv c hcm)
          · simp only [List.mem_singleton] at hcm
            subst hcm
            refine ⟨by decide, by decide, ?_, by decide⟩
            rintro (h | h) <;> exact absurd h (by decide))
      s st _ hdropN (by omega)
    have hdropP : s.drop (st.index + (q.data ++ (v.data ++ ['['])).length) =
        (PFormula.reprP p).data ++ (']' :: rest) :=
      drop_advance s (q.data ++ (v.data ++ ['['])) _ st.index hdropN
    obtain ⟨k, m, ic, hp2⟩ := ihp hwp s
      {st with index := st.index + (q.data ++ (v.data ++ ['['])).length}
      _ hdropP (by simp only []; omega) (by simp only []; omega)
    have hdropE : s.drop (st.index + (q.data ++ (v.data ++ ['['])).length +
        (PFormula.reprP p).data.length) = ']' :: rest :=
      drop_advance s (PFormula.reprP p).data _ _ hdropP
    have hiE := index_lt_of_drop s _ ']' rest hdropE
    have hstE := foStep_plain s
      {st with index := st.index + (q.data ++ (v.data ++ ['['])).length +
                 (PFormula.reprP p).data.length,
               openN := st.openN + k, closeN := st.closeN + k,
               opN := st.opN + m, idxClose := ic}
      (by rw [getD_of_drop s _ ']' rest hdropE]; decide)
      (by rw [getD_of_drop s _ ']' rest hdropE]; decide)
      (by rw [getD_of_drop s _ ']' rest hdropE]
          intro hcon
          rcases (is_binary_single ']').mp hcon with h | h <;> simp at h)
      (by rw [getD_of_drop s _ ']' rest hdropE]; decide)
    refine ⟨k, m, ic, ?_⟩
    rw [hrun, hp2]
    rw [foScan_cont s _ hiE (by rw [hstE]; simp only []; omega)]
    rw [hstE]
    congr 1
    refine ScanSt.ext ?_ ?_ ?_ ?_ ?_ ?_ ?_ <;> simp only [] <;>
      first
      | (rw [reprP_quant_data]; simp only [List.length_append,
          List.length_cons, List.length_nil]; omega)
      | omega
      | rfl

end Propositions
namespace Propositions

theorem foScan_rel_total (args : List PTerm) (hwargs : wfTList args = true)
    (s : List Char) (i0 : Nat) (rest : List Char)
    (hdrop : s.drop i0 = '(' :: ((reprArgs args).data ++ (')' :: rest))) :
    ∃ k, foScan s ⟨i0, 0, 0, 0, 0, 0, 0⟩ =
      ⟨i0 + 1 + (reprArgs args).data.length + 1, k, k, 0,
       i0 + 1 + (reprArgs args).data.length, 0, 0⟩ := by
  have hi0 : i0 < s.length := index_lt_of_drop s _ '(' _ hdrop
  have hst0 := foStep_open s ⟨i0, 0, 0, 0, 0, 0, 0⟩
    (getD_of_drop s _ '(' _ hdrop)
  have hdrop1 : s.drop (i0 + 1) = (reprArgs args).data ++ (')' :: rest) :=
    drop_succ_of_cons s _ '(' _ hdrop
  obtain ⟨k, ic, hargs⟩ := (foScan_skipT_main (psizeList args)).2 args le_rfl
    hwargs s ⟨i0 + 1, 1, 0, 0, 0, 0, 1⟩ (')' :: rest) hdrop1 (by simp)
  have hdrop2 : s.drop (i0 + 1 + (reprArgs args).data.length) =
      ')' :: rest := drop_advance s (reprArgs args).data _ _ hdrop1
  have hi2 := index_lt_of_drop s _ ')' rest hdrop2
  have hcl := foStep_close s
    ⟨i0 + 1 + (reprArgs args).data.length, 1 + k, 0 + k, 0, ic, 0, 1⟩
    (getD_of_drop s _ ')' rest hdrop2)
  refine ⟨1 + k, ?_⟩
  rw [foScan_cont s _ hi0 (by rw [hst0]; simp only []; omega)]
  rw [hst0]
  rw [show ({(⟨i0, 0, 0, 0, 0, 0, 0⟩ : ScanSt) with
      index := i0 + 1, openN := 0 + 1, countPar := 0 + 1} : ScanSt) =
    ⟨i0 + 1, 1, 0, 0, 0, 0, 1⟩ from rfl]
  rw [hargs]
  rw [show ({(⟨i0 + 1, 1, 0, 0, 0, 0, 1⟩ : ScanSt) with
      index := i0 + 1 + (reprArgs args).data.length,
      openN := 1 + k, closeN := 0 + k, idxClose := ic} : ScanSt) =
    ⟨i0 + 1 + (reprArgs args).data.length, 1 + k, 0 + k, 0, ic, 0, 1⟩
    from rfl]
  rw [foScan_stop s _ hi2 (by rw [hcl]; simp only []; omega)]
  rw [hcl]
  refine ScanSt.ext ?_ ?_ ?_ ?_ ?_ ?_ ?_ <;> simp only [] <;>
    first
    | omega
    | rfl

theorem foScan_bin_total (op : String) (f g : PFormula)
    (hop : op = "&" ∨ op = "|" ∨ op = "->")
    (hwf1 : PFormula.wfP f = true) (hwf2 : PFormula.wfP g = true)
    (s : List Char) (i0 : Nat) (rest : List Char)
    (hdrop : s.drop i0 =
      (PFormula.reprP (PFormula.binary op f g)).data ++ rest) :
    ∃ k m, foScan s ⟨i0, 0, 0, 0, 0, 0, 0⟩ =
      ⟨i0 + 1 + (PFormula.reprP f).data.length + op.data.length +
         (PFormula.reprP g).data.length + 1, k, k, m,
       i0 + 1 + (PFormula.reprP f).data.length + op.data.length +
         (PFormula.reprP g).data.length,
       i0 + 1 + (PFormula.reprP f).data.length + (op.data.length - 1),
       0⟩ := by
  rw [reprP_bin_data] at hdrop
  have hdropN : s.drop i0 = '(' :: ((PFormula.reprP f).data ++
      (op.data ++ ((PFormula.reprP g).data ++ (')' :: rest)))) := by
    rw [hdrop]
    simp [List.append_assoc]
  have hi0 : i0 < s.length := index_lt_of_drop s _ '(' _ hdropN
  have hst0 := foStep_open s ⟨i0, 0, 0, 0, 0, 0, 0⟩
    (getD_of_drop s _ '(' _ hdropN)
  have hdropA : s.drop (i0 + 1) = (PFormula.reprP f).data ++
      (op.data ++ ((PFormula.reprP g).data ++ (')' :: rest))) :=
    drop_succ_of_cons s _ '(' _ hdropN
  obtain ⟨kA, mA, icA, hA⟩ := foScan_skipF f hwf1 s
    ⟨i0 + 1, 1, 0, 0, 0, 0, 1⟩ _ hdropA (by simp) (by simp)
  have hdropOp : s.drop (i0 + 1 + (PFormula.reprP f).data.length) =
      op.data ++ ((PFormula.reprP g).data ++ (')' :: rest)) :=
    drop_advance s (PFormula.reprP f).data _ _ hdropA
  -- the operator occurrence
  have hopstep : foScan s
      ⟨i0 + 1 + (PFormula.reprP f).data.length, 1 + kA, 0 + kA, 0 + mA,
       icA, 0, 1⟩ = foScan s
      ⟨i0 + 1 + (PFormula.reprP f).data.length + op.data.length, 1 + kA,
       0 + kA, 0 + mA + 1,
       icA, i0 + 1 + (PFormula.reprP f).data.length + (op.data.length - 1),
       1⟩ := by
    rcases hop with rfl | rfl | rfl
    · have hgd := getD_of_drop s _ '&' _ (by simpa using hdropOp)
      have hiOp := index_lt_of_drop s _ '&' _ (by simpa using hdropOp)
      have hst := foStep_bin_top s
        ⟨i0 + 1 + (PFormula.reprP f).data.length, 1 + kA, 0 + kA, 0 + mA,
         icA, 0, 1⟩ '&' hgd (Or.inl rfl) rfl
      rw [foScan_cont s _ hiOp (by rw [hst]; simp only []; omega)]
      rw [hst]
      rfl
    · have hgd := getD_of_drop s _ '|' _ (by simpa using hdropOp)
      have hiOp := index_lt_of_drop s _ '|' _ (by simpa using hdropOp)
      have hst := foStep_bin_top s
        ⟨i0 + 1 + (PFormula.reprP f).data.length, 1 + kA, 0 + kA, 0 + mA,
         icA, 0, 1⟩ '|' hgd (Or.inr rfl) rfl
      rw [foScan_cont s _ hiOp (by rw [hst]; simp only []; omega)]
      rw [hst]
      rfl
    · have hdrop2 : s.drop (i0 + 1 + (PFormula.reprP f).data.length) =
          '-' :: '>' :: ((PFormula.reprP g).data ++ (')' :: rest)) := by
        simpa using hdropOp
      have hiOp := index_lt_of_drop s _ '-' _ hdrop2
      have hst := foStep_arrow s
        ⟨i0 + 1 + (PFormula.reprP f).data.length, 1 + kA, 0 + kA, 0 + mA,
         icA, 0, 1⟩ _ hdrop2
      rw [if_pos rfl] at hst
      rw [foScan_cont s _ hiOp (by rw [hst]; simp only []; omega)]
      rw [hst]
      rfl
  have hdropB : s.drop (i0 + 1 + (PFormula.reprP f).data.length +
      op.data.length) = (PFormula.reprP g).data ++ (')' :: rest) :=
    drop_advance s op.data _ _ hdropOp
  obtain ⟨kB, mB, icB, hB⟩ := foScan_skipF g hwf2 s
    ⟨i0 + 1 + (PFormula.reprP f).data.length + op.data.length, 1 + kA,
     0 + kA, 0 + mA + 1,
     icA, i0 + 1 + (PFormula.reprP f).data.length + (op.data.length - 1),
     1⟩ _ hdropB (by simp) (by simp)
  have hdropC : s.drop (i0 + 1 + (PFormula.reprP f).data.length +
      op.data.length + (PFormula.reprP g).data.length) = ')' :: rest :=
    drop_advance s (PFormula.reprP g).data _ _ hdropB
  have hiC := index_lt_of_drop s _ ')' rest hdropC
  have hcl := foStep_close s
    ⟨i0 + 1 + (PFormula.reprP f).data.length + op.data.length +
       (PFormula.reprP g).data.length, 1 + kA + kB, 0 + kA + kB,
     0 + mA + 1 + mB, icB,
     i0 + 1 + (PFormula.reprP f).data.length + (op.data.length - 1), 1⟩
    (getD_of_drop s _ ')' rest hdropC)
  refine ⟨1 + kA + kB, mA + 1 + mB, ?_⟩
  rw [foScan_cont s _ hi0 (by rw [hst0]; simp only []; omega)]
  rw [hst0]
  rw [show ({(⟨i0, 0, 0, 0, 0, 0, 0⟩ : ScanSt) with
      index := i0 + 1, openN := 0 + 1, countPar := 0 + 1} : ScanSt) =
    ⟨i0 + 1, 1, 0, 0, 0, 0, 1⟩ from rfl]
  rw [hA]
  rw [show ({(⟨i0 + 1, 1, 0, 0, 0, 0, 1⟩ : ScanSt) with
      index := i0 + 1 + (PFormula.reprP f).data.length,
      openN := 1 + kA, closeN := 0 + kA, opN := 0 + mA, idxClose := icA}
      : ScanSt) =
    ⟨i0 + 1 + (PFormula.reprP f).data.length, 1 + kA, 0 + kA, 0 + mA,
     icA, 0, 1⟩ from rfl]
  rw [hopstep, hB]
  rw [show ({(⟨i0 + 1 + (PFormula.reprP f).data.length + op.data.length,
      1 + kA, 0 + kA, 0 + mA + 1, icA,
      i0 + 1 + (PFormula.reprP f).data.length + (op.data.length - 1), 1⟩
      : ScanSt) with
      index := i0 + 1 + (PFormula.reprP f).data.length + op.data.length +
        (PFormula.reprP g).data.length,
      openN := 1 + kA + kB, closeN := 0 + kA + kB, opN := 0 + mA + 1 + mB,
      idxClose := icB} : ScanSt) =
    ⟨i0 + 1 + (PFormula.reprP f).data.length + op.data.length +
       (PFormula.reprP g).data.length, 1 + kA + kB, 0 + kA + kB,
     0 + mA + 1 + mB, icB,
     i0 + 1 + (PFormula.reprP f).data.length + (op.data.length - 1), 1⟩
    from rfl]
  rw [foScan_stop s _ hiC (by rw [hcl]; simp only []; omega)]
  rw [hcl]
  refine ScanSt.ext ?_ ?_ ?_ ?_ ?_ ?_ ?_ <;> simp only [] <;>
    first
    | omega
    | rfl

end Propositions
namespace Propositions

theorem pySplitEq_no_eq : ∀ (B : List Char), (∀ c ∈ B, c ≠ '=') →
    pySplitEq B = [B] := by
  intro B
  induction B with
  | nil => intro _; rfl
  | cons c cs ih =>
    intro h
    unfold pySplitEq
    rw [if_neg (h c (by simp))]
    rw [ih (fun x hx => h x (by simp [hx]))]

theorem pySplitEq_append : ∀ (A B : List Char), (∀ c ∈ A, c ≠ '=') →
    pySplitEq (A ++ '=' :: B) = A :: pySplitEq B := by
  intro A
  induction A with
  | nil =>
    intro B _
    show pySplitEq ('=' :: B) = [] :: pySplitEq B
    conv_lhs => rw [pySplitEq]
    rw [if_pos rfl]
  | cons a as ih =>
    intro B h
    show pySplitEq (a :: (as ++ '=' :: B)) = (a :: as) :: pySplitEq B
    conv_lhs => rw [pySplitEq]
    rw [if_neg (h a (by simp))]
    rw [ih B (fun x hx => h x (by simp [hx]))]

/-- The characters occurring in a printed term. -/
def termCharP (c : Char) : Prop :=
  charIsAlnum c = true ∨ c = '_' ∨ c = '(' ∨ c = ')' ∨ c = ','

theorem termCharP_ne_eq (c : Char) (h : termCharP c) : c ≠ '=' := by
  rcases h with h | h | h | h | h
  · exact (alnum_fo c h).2.2.2.1
  · subst h; decide
  · subst h; decide
  · subst h; decide
  · subst h; decide

theorem reprT_chars_main : ∀ n : Nat,
    (∀ t, PTerm.psize t ≤ n → PTerm.wfT t = true →
      ∀ c ∈ (PTerm.reprT t).data, termCharP c) ∧
    (∀ args, psizeList args ≤ n → wfTList args = true →
      ∀ c ∈ (reprArgs args).data, termCharP c) := by
  intro n
  induction n with
  | zero =>
    constructor
    · intro t hsz
      have := psize_pos t
      omega
    · intro args hsz hwf c hc
      cases args with
      | nil => simp [show (reprArgs []).data = [] from rfl] at hc
      | cons a more =>
        have := psize_pos a
        simp only [psizeList] at hsz
        omega
  | succ n ih =>
    have hA : ∀ t, PTerm.psize t ≤ n + 1 → PTerm.wfT t = true →
        ∀ c ∈ (PTerm.reprT t).data, termCharP c := by
      intro t hsz hwf c hc
      cases t with
      | leaf r =>
        rcases wfT_leaf_cases r hwf with hk | hk
        · rcases name_chars_constant r hk with h2 | h2
          · exact Or.inl (h2 c hc)
          · subst h2
            simp only [show (PTerm.reprT (PTerm.leaf "_")).data = ['_']
              from rfl, List.mem_singleton] at hc
            subst hc
            exact Or.inr (Or.inl rfl)
        · exact Or.inl (name_chars_variable r hk c hc)
      | func r args =>
        obtain ⟨hfn, hne, hwargs⟩ := wfT_func_parts r args hwf
        rw [reprT_func_data] at hc
        rcases List.mem_append.mp hc with hc | hc
        · exact Or.inl (name_chars_function r hfn c hc)
        · rcases List.mem_cons.mp hc with rfl | hc
          · exact Or.inr (Or.inr (Or.inl rfl))
          · rcases List.mem_append.mp hc with hc | hc
            · refine ih.2 args (by
                simp only [PTerm.psize] at hsz
                omega) hwargs c hc
            · simp only [List.mem_singleton] at hc
              subst hc
              exact Or.inr (Or.inr (Or.inr (Or.inl rfl)))
    refine ⟨hA, ?_⟩
    intro args hsz hwf c hc
    cases args with
    | nil => simp [show (reprArgs []).data = [] from rfl] at hc
    | cons a more =>
      have hwa : PTerm.wfT a = true := by
        unfold wfTList at hwf
        simp only [Bool.and_eq_true] at hwf
        exact hwf.1
      have hwmore : wfTList more = true := by
        unfold wfTList at hwf
        simp only [Bool.and_eq_true] at hwf
        exact hwf.2
      cases more with
      | nil =>
        rw [show reprArgs [a] = PTerm.reprT a from rfl] at hc
        exact hA a (by simp only [psizeList] at hsz; omega) hwa c hc
      | cons b more2 =>
        rw [reprArgs_cons2_data] at hc
        rcases List.mem_append.mp hc with hc | hc
        · exact hA a (by
            simp only [psizeList] at hsz
            have := psize_pos b
            omega) hwa c hc
        · rcases List.mem_cons.mp hc with rfl | hc
          · exact Or.inr (Or.inr (Or.inr (Or.inr rfl)))
          · refine ih.2 (b :: more2) (by
              simp only [psizeList] at hsz ⊢
              have := psize_pos a
              omega) hwmore c hc

theorem reprT_chars (t : PTerm) (hwf : PTerm.wfT t = true) :
    ∀ c ∈ (PTerm.reprT t).data, termCharP c :=
  (reprT_chars_main (PTerm.psize t)).1 t le_rfl hwf

theorem reprT_head (t : PTerm) (hwf : PTerm.wfT t = true) :
    ∃ c tl, (PTerm.reprT t).data = c :: tl ∧
      (('0' ≤ c ∧ c ≤ '9') ∨ ('a' ≤ c ∧ c ≤ 'z') ∨ c = '_') := by
  cases t with
  | leaf r =>
    rcases wfT_leaf_cases r hwf with hk | hk
    · rcases is_constant_parts r hk with hu | ⟨c, cr, hd, hc, -⟩
      · subst hu
        exact ⟨'_', [], rfl, Or.inr (Or.inr rfl)⟩
      · refine ⟨c, cr, hd, ?_⟩
        rcases hc with hc | hc
        · exact Or.inl hc
        · exact Or.inr (Or.inl ⟨hc.1, le_trans hc.2 (by decide)⟩)
    · obtain ⟨c, cr, hd, hu, hz, -⟩ := is_variable_parts r hk
      exact ⟨c, cr, hd, Or.inr (Or.inl ⟨le_trans (by decide) hu, hz⟩)⟩
  | func r args =>
    obtain ⟨hfn, -, -⟩ := wfT_func_parts r args hwf
    obtain ⟨c, cr, hd, hf1, hf2, -⟩ := is_function_parts r hfn
    rw [reprT_func_data, hd]
    exact ⟨c, cr ++ '(' :: ((reprArgs args).data ++ [')']), rfl,
      Or.inr (Or.inl ⟨le_trans (by decide) hf1,
        le_trans hf2 (by decide)⟩)⟩

theorem is_unary_single (c : Char) :
    is_unary (String.mk [c]) = true ↔ c = '~' := by
  unfold is_unary
  simp only [decide_eq_true_eq]
  constructor
  · intro h
    have : (String.mk [c]).data = ("~" : String).data := by rw [h]
    simpa using this
  · rintro rfl
    rfl

theorem is_quantifier_single (c : Char) :
    is_quantifier (String.mk [c]) = true ↔ (c = 'A' ∨ c = 'E') := by
  unfold is_quantifier
  simp only [decide_eq_true_eq]
  constructor
  · rintro (h | h)
    · left
      have : (String.mk [c]).data = ("A" : String).data := by rw [h]
      simpa using this
    · right
      have : (String.mk [c]).data = ("E" : String).data := by rw [h]
      simpa using this
  · rintro (rfl | rfl)
    · exact Or.inl rfl
    · exact Or.inr rfl

theorem is_relation_single (c : Char) :
    is_relation (String.mk [c]) = true ↔ ('F' ≤ c ∧ c ≤ 'T') := by
  unfold is_relation
  simp only [decide_eq_true_eq]
  constructor
  · rintro ⟨⟨h1, h2⟩, -⟩
    exact ⟨h1, h2⟩
  · rintro ⟨h1, h2⟩
    refine ⟨⟨h1, h2⟩, ?_⟩
    unfold isAlnumStr
    simp only [Bool.and_eq_true, decide_eq_true_eq]
    refine ⟨by simp, ?_⟩
    simp only [List.all_cons, List.all_nil, Bool.and_true]
    unfold charIsAlnum
    simp only [decide_eq_true_eq]
    exact Or.inr (Or.inr ⟨le_trans (by decide) h1,
      le_trans h2 (by decide)⟩)

/-- Head-character dispatch facts for a printed term: the first-order
formula parser sees none of its special head classes. -/
theorem termHead_dispatch (c : Char)
    (h : ('0' ≤ c ∧ c ≤ '9') ∨ ('a' ≤ c ∧ c ≤ 'z') ∨ c = '_') :
    ¬ is_unary (String.mk [c]) = true ∧
    ¬ is_quantifier (String.mk [c]) = true ∧
    ¬ is_relation (String.mk [c]) = true ∧ c ≠ '(' := by
  refine ⟨?_, ?_, ?_, ?_⟩
  · intro hcon
    have := (is_unary_single c).mp hcon
    subst this
    rcases h with h | h | h
    · exact absurd h.2 (by decide)
    · exact absurd h.2 (by decide)
    · simp at h
  · intro hcon
    rcases (is_quantifier_single c).mp hcon with rfl | rfl <;>
      rcases h with h | h | h <;>
      first
      | exact absurd h.1 (by decide)
      | exact absurd h.2 (by decide)
      | simp at h
  · intro hcon
    obtain ⟨h1, h2⟩ := (is_relation_single c).mp hcon
    rcases h with h | h | h
    · exact absurd (le_trans h1 h.2) (by decide)
    · exact absurd (le_trans h.1 h2) (by decide)
    · subst h
      exact absurd h2 (by decide)
  · intro hcon
    subst hcon
    rcases h with h | h | h
    · exact absurd h.1 (by decide)
    · exact absurd h.1 (by decide)
    · simp at h

theorem restF_restT (rest : List Char) (h : ∀ c ∈ rest, c = ']') :
    restT rest := by
  intro hne
  cases rest with
  | nil => exact absurd rfl hne
  | cons r0 rr =>
    simp only [List.headD_cons]
    rw [h r0 (by simp)]
    decide

end Propositions
namespace Propositions

theorem is_relation_parts (r : String) (h : is_relation r = true) :
    ∃ c cr, r.data = c :: cr ∧ 'F' ≤ c ∧ c ≤ 'T' ∧
      (∀ x ∈ r.data, charIsAlnum x = true) := by
  unfold is_relation at h
  simp only [decide_eq_true_eq] at h
  obtain ⟨⟨h1, h2⟩, h3⟩ := h
  have hmem := isAlnumStr_mem r h3
  have hne := isAlnumStr_ne_nil r h3
  unfold strHead at h1 h2
  cases hd : r.data with
  | nil => exact absurd hd hne
  | cons c cr =>
    rw [hd] at h1 h2
    simp only [List.headD_cons] at h1 h2
    exact ⟨c, cr, rfl, h1, h2, fun x hx => hmem x (by rw [hd]; exact hx)⟩

theorem foParsePfx_round : ∀ f : PFormula, PFormula.wfP f = true →
    ∀ rest : List Char, (∀ c ∈ rest, c = ']') →
    foParsePfx ((PFormula.reprP f).data ++ rest) = (some f, rest) := by
  intro f
  induction f with
  | eq t1 t2 =>
    intro hwf rest hrest
    obtain ⟨hw1, hw2⟩ := wfP_eq_parts t1 t2 hwf
    obtain ⟨c, tl, hd1, hhead⟩ := reprT_head t1 hw1
    obtain ⟨hnu, hnq, hnr, hnp⟩ := termHead_dispatch c hhead
    rw [reprP_eq_data]
    rw [show ((PTerm.reprT t1).data ++ ('=' :: (PTerm.reprT t2).data)) ++
        rest = (PTerm.reprT t1).data ++
        ('=' :: ((PTerm.reprT t2).data ++ rest)) from by simp]
    rw [foParsePfx]
    rw [dif_neg (by rw [hd1]; simp)]
    rw [show ((PTerm.reprT t1).data ++
      ('=' :: ((PTerm.reprT t2).data ++ rest))).getD 0 ' ' = c from by
        rw [hd1]; rfl]
    rw [if_neg hnu, if_neg hnq, if_neg hnr]
    simp only
    rw [if_neg (by
      rw [show ((PTerm.reprT t1).data ++
        ('=' :: ((PTerm.reprT t2).data ++ rest))).getD 0 ' ' = c from by
          rw [hd1]; rfl]
      exact hnp)]
    rw [pySplitEq_append (PTerm.reprT t1).data _
      (fun x hx => termCharP_ne_eq x (reprT_chars t1 hw1 x hx))]
    rw [pySplitEq_no_eq ((PTerm.reprT t2).data ++ rest) (by
      intro x hx
      rcases List.mem_append.mp hx with hx | hx
      · exact termCharP_ne_eq x (reprT_chars t2 hw2 x hx)
      · rw [hrest x hx]; decide)]
    simp only
    rw [termParsePfx_round_nil t1 hw1]
    simp only
    rw [termParsePfx_round t2 hw2 rest (restF_restT rest hrest)]
    simp only
    rw [termParsePfx_round_nil t1 hw1, termParsePfx_round_nil t2 hw2]
    simp only
    rw [if_neg (by simp)]
  | rel name args =>
    intro hwf rest hrest
    obtain ⟨hrel, hwargs⟩ := wfP_rel_parts name args hwf
    obtain ⟨c, tl, hd, hF, hT, hall⟩ := is_relation_parts name hrel
    rw [reprP_rel_data]
    rw [show (name.data ++ ('(' :: ((reprArgs args).data ++ [')']))) ++
        rest = name.data ++
        ('(' :: ((reprArgs args).data ++ (')' :: rest))) from by simp]
    rw [foParsePfx]
    rw [dif_neg (by rw [hd]; simp)]
    rw [show (name.data ++
      ('(' :: ((reprArgs args).data ++ (')' :: rest)))).getD 0 ' ' = c
      from by rw [hd]; rfl]
    rw [if_neg (by
      intro hcon
      have := (is_unary_single c).mp hcon
      subst this
      exact absurd hT (by decide))]
    rw [if_neg (by
      intro hcon
      rcases (is_quantifier_single c).mp hcon with rfl | rfl <;>
        exact absurd hF (by decide))]
    rw [if_pos ((is_relation_single c).mpr ⟨hF, hT⟩)]
    rw [findIdx_first _ name.data '(' _ 0
      (fun x hx => by
        simp only [decide_eq_false_iff_not]
        exact (alnum_fo x (hall x hx)).1)
      (by decide)]
    simp only [Nat.zero_add, Option.map_some']
    have hdropPar : (name.data ++
        ('(' :: ((reprArgs args).data ++ (')' :: rest)))).drop
        name.data.length =
        '(' :: ((reprArgs args).data ++ (')' :: rest)) := List.drop_left _ _
    rw [List.take_left, string_mk_data]
    rw [if_pos (getD_of_drop _ _ '(' _ hdropPar)]
    obtain ⟨k, hscan⟩ := foScan_rel_total args hwargs _ name.data.length
      rest hdropPar
    rw [hscan]
    simp only
    have hiPar : name.data.length < (name.data ++
        ('(' :: ((reprArgs args).data ++ (')' :: rest)))).length :=
      index_lt_of_drop _ _ '(' _ hdropPar
    rw [relScan]
    rw [dif_pos hiPar, if_pos (getD_of_drop _ _ '(' _ hdropPar),
      if_neg (by decide)]
    rw [relScan_eq_termLoop (name.data ++
        ('(' :: ((reprArgs args).data ++ (')' :: rest)))).length _ _ _
      ((0 : Int) + 1) ([] ++ [name.data.length + 1 +
        (reprArgs args).data.length + 1]) [] ([] ++ [name.data.length + 1 +
        (reprArgs args).data.length + 1]) [] _ [] (by omega) rfl rfl]
    rw [show ((0 : Int) + 1) = 1 from by omega]
    have hdropArgs : (name.data ++
        ('(' :: ((reprArgs args).data ++ (')' :: rest)))).drop
        (name.data.length + 1) = (reprArgs args).data ++ (')' :: rest) :=
      drop_succ_of_cons _ _ '(' _ hdropPar
    cases args with
    | nil =>
      have hdropA2 : (name.data ++
          ('(' :: ((reprArgs []).data ++ (')' :: rest)))).drop
          (name.data.length + 1) = ')' :: rest := by
        rw [hdropArgs]
        rfl
      have hiC := index_lt_of_drop _ _ ')' rest hdropA2
      rw [termLoop_close_stop _ _ 1 _ _ _ [] hiC
        (getD_of_drop _ _ ')' rest hdropA2) (by decide)]
      simp only
      rw [if_pos (show pyslice (name.data ++
          ('(' :: ((reprArgs []).data ++ (')' :: rest))))
          (name.data.length + 1) (name.data.length + 1) = [] from by
        unfold pyslice
        simp)]
      rw [if_pos hrel]
      rw [show name.data.length + 1 + (reprArgs []).data.length + 1 =
        name.data.length + 1 + 1 from by
          rw [show (reprArgs []).data = [] from rfl]
          simp]
      rw [drop_succ_of_cons _ _ ')' rest hdropA2]
    | cons a margs =>
      have hP : ∀ x ∈ a :: margs, ∀ rest2 : List Char,
          (rest2 ≠ [] → charIsAlnum (rest2.headD ' ') = false) →
          termParsePfx ((PTerm.reprT x).data ++ rest2) = (some x, rest2) :=
        fun x hx rest2 hr2 =>
          termParsePfx_round x (wfTList_mem _ hwargs x hx) rest2 hr2
      obtain ⟨lastA, initA, hsplit, hres, hdropLast⟩ :=
        termLoop_args (a :: margs) hwargs (by simp) hP _
        (name.data.length + 1) ([] ++ [name.data.length + 1 +
          (reprArgs (a :: margs)).data.length + 1]) [] [] rest hdropArgs
        (by simp) (by omega)
      simp only [Nat.add_sub_cancel] at hres
      rw [hres]
      simp only
      have hwlast : PTerm.wfT lastA = true :=
        wfTList_mem _ hwargs lastA (by rw [hsplit]; simp)
      have hLlast : (PTerm.reprT lastA).data.length ≤
          (reprArgs (a :: margs)).data.length := by
        have := reprArgs_last_le initA lastA
        rw [← hsplit] at this
        exact this
      have hiF : name.data.length + 1 + (reprArgs (a :: margs)).data.length
          - (PTerm.reprT lastA).data.length +
          (PTerm.reprT lastA).data.length =
          name.data.length + 1 + (reprArgs (a :: margs)).data.length := by
        omega
      have hpy := pyslice_from_drop _ (PTerm.reprT lastA).data (')' :: rest)
        (name.data.length + 1 + (reprArgs (a :: margs)).data.length -
          (PTerm.reprT lastA).data.length) hdropLast
      rw [hiF] at hpy
      have hsl : pyslice (name.data ++
          ('(' :: ((reprArgs (a :: margs)).data ++ (')' :: rest))))
          (name.data.length + 1 + (reprArgs (a :: margs)).data.length -
            (PTerm.reprT lastA).data.length - 1 + 1)
          (name.data.length + 1 + (reprArgs (a :: margs)).data.length) =
          (PTerm.reprT lastA).data := by
        rw [show name.data.length + 1 +
            (reprArgs (a :: margs)).data.length -
            (PTerm.reprT lastA).data.length - 1 + 1 =
          name.data.length + 1 + (reprArgs (a :: margs)).data.length -
            (PTerm.reprT lastA).data.length from by
            have hp := reprT_length_pos lastA hwlast
            omega]
        exact hpy
      rw [hsl]
      rw [if_neg (by
        intro hcon
        have hp := reprT_length_pos lastA hwlast
        rw [hcon] at hp
        simp at hp)]
      rw [termParsePfx_round_nil lastA hwlast]
      simp only
      rw [if_pos hrel]
      have hdropC : (name.data ++
          ('(' :: ((reprArgs (a :: margs)).data ++ (')' :: rest)))).drop
          (name.data.length + 1 + (reprArgs (a :: margs)).data.length) =
          ')' :: rest := by
        have := drop_advance _ (PTerm.reprT lastA).data (')' :: rest) _
          hdropLast
        rwa [hiF] at this
      rw [drop_succ_of_cons _ _ ')' rest hdropC]
      simp only [List.nil_append]
      rw [← hsplit]
  | unary f ihf =>
    intro hwf rest hrest
    rw [reprP_un_data]
    rw [show ('~' :: (PFormula.reprP f).data) ++ rest =
      '~' :: ((PFormula.reprP f).data ++ rest) from rfl]
    rw [foParsePfx]
    rw [dif_neg (by simp)]
    rw [show ('~' :: ((PFormula.reprP f).data ++ rest)).getD 0 ' ' = '~'
      from rfl]
    rw [if_pos ((is_unary_single '~').mpr rfl)]
    rw [show ('~' :: ((PFormula.reprP f).data ++ rest)).drop 1 =
      (PFormula.reprP f).data ++ rest from rfl]
    rw [ihf (wfP_un_parts f hwf) rest hrest]
  | binary op f g ihf ihg =>
    intro hwf rest hrest
    obtain ⟨hop, hwf1, hwf2⟩ := wfP_bin_parts op f g hwf
    have hfF : foParsePfx (PFormula.reprP f).data = (some f, []) := by
      have := ihf hwf1 [] (by simp)
      rwa [List.append_nil] at this
    have hfG : foParsePfx (PFormula.reprP g).data = (some g, []) := by
      have := ihg hwf2 [] (by simp)
      rwa [List.append_nil] at this
    rw [show (PFormula.reprP (PFormula.binary op f g)).data ++ rest =
      '(' :: ((PFormula.reprP f).data ++ (op.data ++
        ((PFormula.reprP g).data ++ (')' :: rest)))) from by
      rw [reprP_bin_data]
      simp [List.append_assoc]]
    rw [foParsePfx]
    rw [dif_neg (by simp)]
    rw [show ('(' :: ((PFormula.reprP f).data ++ (op.data ++
      ((PFormula.reprP g).data ++ (')' :: rest))))).getD 0 ' ' = '('
      from rfl]
    rw [if_neg (by
      intro hcon
      exact absurd ((is_unary_single '(').mp hcon) (by decide))]
    rw [if_neg (by
      intro hcon
      rcases (is_quantifier_single '(').mp hcon with h | h <;>
        exact absurd h (by decide))]
    rw [if_neg (by
      intro hcon
      obtain ⟨h1, -⟩ := (is_relation_single '(').mp hcon
      exact absurd h1 (by decide))]
    simp only
    rw [show ('(' :: ((PFormula.reprP f).data ++ (op.data ++
      ((PFormula.reprP g).data ++ (')' :: rest))))).getD 0 ' ' = '('
      from rfl]
    rw [if_pos rfl]
    have hdrop0 : ('(' :: ((PFormula.reprP f).data ++ (op.data ++
        ((PFormula.reprP g).data ++ (')' :: rest))))).drop 0 =
        (PFormula.reprP (PFormula.binary op f g)).data ++ rest := by
      rw [List.drop_zero, reprP_bin_data]
      simp [List.append_assoc]
    obtain ⟨k, m, hscan⟩ := foScan_bin_total op f g hop hwf1 hwf2 _ 0 rest
      hdrop0
    simp only [Nat.zero_add] at hscan
    rw [hscan]
    simp only
    have hdropA : ('(' :: ((PFormula.reprP f).data ++ (op.data ++
        ((PFormula.reprP g).data ++ (')' :: rest))))).drop 1 =
        (PFormula.reprP f).data ++ (op.data ++
          ((PFormula.reprP g).data ++ (')' :: rest))) := rfl
    have hdropOp : ('(' :: ((PFormula.reprP f).data ++ (op.data ++
        ((PFormula.reprP g).data ++ (')' :: rest))))).drop
        (1 + (PFormula.reprP f).data.length) =
        op.data ++ ((PFormula.reprP g).data ++ (')' :: rest)) :=
      drop_advance _ (PFormula.reprP f).data _ 1 hdropA
    have hsliceA : pyslice ('(' :: ((PFormula.reprP f).data ++ (op.data ++
        ((PFormula.reprP g).data ++ (')' :: rest))))) 1
        (1 + (PFormula.reprP f).data.length) = (PFormula.reprP f).data :=
      pyslice_from_drop _ (PFormula.reprP f).data _ 1 hdropA
    rcases hop with rfl | rfl | rfl
    · -- the & operator
      have hdropAmp : ('(' :: ((PFormula.reprP f).data ++
          (("&" : String).data ++
          ((PFormula.reprP g).data ++ (')' :: rest))))).drop
          (1 + (PFormula.reprP f).data.length) =
          '&' :: ((PFormula.reprP g).data ++ (')' :: rest)) := by
        simpa using hdropOp
      have hgdOp : ('(' :: ((PFormula.reprP f).data ++
          (("&" : String).data ++
          ((PFormula.reprP g).data ++ (')' :: rest))))).getD
          (1 + (PFormula.reprP f).data.length +
            (("&" : String).data.length - 1)) ' ' = '&' := by
        rw [show (1 : Nat) + (PFormula.reprP f).data.length +
          (("&" : String).data.length - 1) =
          1 + (PFormula.reprP f).data.length from rfl]
        exact getD_of_drop _ _ '&' _ hdropAmp
      rw [hgdOp]
      rw [if_neg (by decide)]
      rw [show (1 : Nat) + (PFormula.reprP f).data.length +
        (("&" : String).data.length - 1) =
        1 + (PFormula.reprP f).data.length from rfl]
      rw [hsliceA, hfF]
      have hdropB : ('(' :: ((PFormula.reprP f).data ++
          (("&" : String).data ++
          ((PFormula.reprP g).data ++ (')' :: rest))))).drop
          (1 + (PFormula.reprP f).data.length + 1) =
          (PFormula.reprP g).data ++ (')' :: rest) :=
        drop_succ_of_cons _ _ '&' _ hdropAmp
      have hsliceB := pyslice_from_drop _ (PFormula.reprP g).data
        (')' :: rest) (1 + (PFormula.reprP f).data.length + 1) hdropB
      rw [show (1 : Nat) + (PFormula.reprP f).data.length +
        ("&" : String).data.length + (PFormula.reprP g).data.length =
        1 + (PFormula.reprP f).data.length + 1 +
          (PFormula.reprP g).data.length from rfl]
      rw [hsliceB, hfG]
      simp only
      rw [if_pos ((is_binary_single '&').mpr (Or.inl rfl))]
      have hdropC := drop_succ_of_cons _ _ ')' rest
        (drop_advance _ (PFormula.reprP g).data _ _ hdropB)
      have hdropC2 : List.drop (1 + (PFormula.reprP f).data.length + 1 +
          (PFormula.reprP g).data.length + 1)
          ('(' :: ((PFormula.reprP f).data ++ (['&'] ++
            ((PFormula.reprP g).data ++ (')' :: rest))))) = rest := by
        simpa using hdropC
      rw [hdropC2]
    · -- the | operator
      have hdropAmp : ('(' :: ((PFormula.reprP f).data ++
          (("|" : String).data ++
          ((PFormula.reprP g).data ++ (')' :: rest))))).drop
          (1 + (PFormula.reprP f).data.length) =
          '|' :: ((PFormula.reprP g).data ++ (')' :: rest)) := by
        simpa using hdropOp
      have hgdOp : ('(' :: ((PFormula.reprP f).data ++
          (("|" : String).data ++
          ((PFormula.reprP g).data ++ (')' :: rest))))).getD
          (1 + (PFormula.reprP f).data.length +
            (("|" : String).data.length - 1)) ' ' = '|' := by
        rw [show (1 : Nat) + (PFormula.reprP f).data.length +
          (("|" : String).data.length - 1) =
          1 + (PFormula.reprP f).data.length from rfl]
        exact getD_of_drop _ _ '|' _ hdropAmp
      rw [hgdOp]
      rw [if_neg (by decide)]
      rw [show (1 : Nat) + (PFormula.reprP f).data.length +
        (("|" : String).data.length - 1) =
        1 + (PFormula.reprP f).data.length from rfl]
      rw [hsliceA, hfF]
      have hdropB : ('(' :: ((PFormula.reprP f).data ++
          (("|" : String).data ++
          ((PFormula.reprP g).data ++ (')' :: rest))))).drop
          (1 + (PFormula.reprP f).data.length + 1) =
          (PFormula.reprP g).data ++ (')' :: rest) :=
        drop_succ_of_cons _ _ '|' _ hdropAmp
      have hsliceB := pyslice_from_drop _ (PFormula.reprP g).data
        (')' :: rest) (1 + (PFormula.reprP f).data.length + 1) hdropB
      rw [show (1 : Nat) + (PFormula.reprP f).data.length +
        ("|" : String).data.length + (PFormula.reprP g).data.length =
        1 + (PFormula.reprP f).data.length + 1 +
          (PFormula.reprP g).data.length from rfl]
      rw [hsliceB, hfG]
      simp only
      rw [if_pos ((is_binary_single '|').mpr (Or.inr rfl))]
      have hdropC := drop_succ_of_cons _ _ ')' rest
        (drop_advance _ (PFormula.reprP g).data _ _ hdropB)
      have hdropC2 : List.drop (1 + (PFormula.reprP f).data.length + 1 +
          (PFormula.reprP g).data.length + 1)
          ('(' :: ((PFormula.reprP f).data ++ (['|'] ++
            ((PFormula.reprP g).data ++ (')' :: rest))))) = rest := by
        simpa using hdropC
      rw [hdropC2]
    · -- the -> operator
      have hdropArr : ('(' :: ((PFormula.reprP f).data ++
          (("->" : String).data ++
          ((PFormula.reprP g).data ++ (')' :: rest))))).drop
          (1 + (PFormula.reprP f).data.length) =
          '-' :: '>' :: ((PFormula.reprP g).data ++ (')' :: rest)) := by
        simpa using hdropOp
      have hgdOp : ('(' :: ((PFormula.reprP f).data ++
          (("->" : String).data ++
          ((PFormula.reprP g).data ++ (')' :: rest))))).getD
          (1 + (PFormula.reprP f).data.length +
            (("->" : String).data.length - 1)) ' ' = '>' := by
        rw [show (1 : Nat) + (PFormula.reprP f).data.length +
          (("->" : String).data.length - 1) =
          1 + (PFormula.reprP f).data.length + 1 from rfl]
        have := getD_of_drop_at _ (1 + (PFormula.reprP f).data.length) 1 _
          hdropArr (by simp)
        simpa using this
      rw [hgdOp]
      rw [if_pos rfl]
      rw [show (1 : Nat) + (PFormula.reprP f).data.length +
        (("->" : String).data.length - 1) - 1 =
        1 + (PFormula.reprP f).data.length from rfl]
      rw [hsliceA, hfF]
      have hdropB : ('(' :: ((PFormula.reprP f).data ++
          (("->" : String).data ++
          ((PFormula.reprP g).data ++ (')' :: rest))))).drop
          (1 + (PFormula.reprP f).data.length + 2) =
          (PFormula.reprP g).data ++ (')' :: rest) := by
        have := drop_advance _ (("->" : String).data)
          ((PFormula.reprP g).data ++ (')' :: rest)) _ hdropOp
        rwa [show (1 : Nat) + (PFormula.reprP f).data.length +
          ("->" : String).data.length =
          1 + (PFormula.reprP f).data.length + 2 from rfl] at this
      have hsliceB := pyslice_from_drop _ (PFormula.reprP g).data
        (')' :: rest) (1 + (PFormula.reprP f).data.length + 2) hdropB
      rw [show (1 : Nat) + (PFormula.reprP f).data.length +
        (("->" : String).data.length - 1) + 1 =
        1 + (PFormula.reprP f).data.length + 2 from rfl]
      rw [show (1 : Nat) + (PFormula.reprP f).data.length +
        ("->" : String).data.length + (PFormula.reprP g).data.length =
        1 + (PFormula.reprP f).data.length + 2 +
          (PFormula.reprP g).data.length from rfl]
      rw [hsliceB, hfG]
      simp only
      have hdropC := drop_succ_of_cons _ _ ')' rest
        (drop_advance _ (PFormula.reprP g).data _ _ hdropB)
      have hdropC2 : List.drop (1 + (PFormula.reprP f).data.length + 2 +
          (PFormula.reprP g).data.length + 1)
          ('(' :: ((PFormula.reprP f).data ++ (['-', '>'] ++
            ((PFormula.reprP g).data ++ (')' :: rest))))) = rest := by
        simpa using hdropC
      rw [hdropC2]
  | quant q v p ihp =>
    intro hwf rest hrest
    obtain ⟨hq, hv, hwp⟩ := wfP_quant_parts q v p hwf
    obtain ⟨qc, hqc, hqd⟩ : ∃ qc, (qc = 'A' ∨ qc = 'E') ∧ q.data = [qc] :=
      by
        rcases hq with rfl | rfl
        · exact ⟨'A', Or.inl rfl, rfl⟩
        · exact ⟨'E', Or.inr rfl, rfl⟩
    rw [reprP_quant_data, hqd]
    rw [show ([qc] ++ (v.data ++ ('[' :: ((PFormula.reprP p).data ++
        [']'])))) ++ rest = (qc :: v.data) ++
        ('[' :: ((PFormula.reprP p).data ++ (']' :: rest))) from by simp]
    rw [foParsePfx]
    rw [dif_neg (by simp)]
    rw [show ((qc :: v.data) ++
      ('[' :: ((PFormula.reprP p).data ++ (']' :: rest)))).getD 0 ' ' = qc
      from rfl]
    rw [if_neg (by
      intro hcon
      have := (is_unary_single qc).mp hcon
      rcases hqc with rfl | rfl <;> simp at this)]
    rw [if_pos ((is_quantifier_single qc).mpr hqc)]
    rw [findIdx_first _ (qc :: v.data) '[' _ 0
      (by
        intro x hx
        simp only [decide_eq_false_iff_not]
        rcases List.mem_cons.mp hx with rfl | hx
        · rcases hqc with rfl | rfl <;> decide
        · have := alnum_fo x (name_chars_variable v hv x hx)
          exact this.2.2.2.2.1)
      (by decide)]
    simp only [Nat.zero_add, List.length_cons]
    have hdropP : ((qc :: v.data) ++
        ('[' :: ((PFormula.reprP p).data ++ (']' :: rest)))).drop
        (v.data.length + 1 + 1) =
        (PFormula.reprP p).data ++ (']' :: rest) := by
      have h0 : ((qc :: v.data) ++
          ('[' :: ((PFormula.reprP p).data ++ (']' :: rest)))).drop
          (v.data.length + 1) =
          '[' :: ((PFormula.reprP p).data ++ (']' :: rest)) := by
        rw [show v.data.length + 1 = (qc :: v.data).length from by simp]
        exact List.drop_left _ _
      exact drop_succ_of_cons _ _ '[' _ h0
    rw [hdropP]
    rw [ihp hwp (']' :: rest) (by
      intro x hx
      rcases List.mem_cons.mp hx with rfl | hx
      · rfl
      · exact hrest x hx)]
    simp only
    have hsl : pyslice ((qc :: v.data) ++
        ('[' :: ((PFormula.reprP p).data ++ (']' :: rest)))) 1
        (v.data.length + 1) = v.data := by
      have h1 : ((qc :: v.data) ++
          ('[' :: ((PFormula.reprP p).data ++ (']' :: rest)))).drop 1 =
          v.data ++ ('[' :: ((PFormula.reprP p).data ++ (']' :: rest)))
          := rfl
      have := pyslice_from_drop _ v.data _ 1 h1
      rwa [show 1 + v.data.length = v.data.length + 1 from by omega]
        at this
    rw [hsl, string_mk_data]
    rw [if_pos hv]
    rw [show (']' :: rest).drop 1 = rest from rfl]
    congr 2
    rcases hqc with rfl | rfl <;> (rcases hq with rfl | rfl) <;>
      first
      | rfl
      | (exfalso
         simp only [show ("E" : String).data = ['E'] from rfl,
           show ("A" : String).data = ['A'] from rfl] at hqd
         simp at hqd)

end Propositions

namespace Propositions

/-- Claim C3: the canonical printer is the inverse of the parser. For every
string that is the standard representation of a well-formed syntax tree,
parsing it succeeds, consumes the whole string, and reprinting the resulting
tree yields exactly the original string — for the propositional
`Formula.parse_prefix`, the first-order `Term.parse_prefix`, and the
first-order `Formula.parse_prefix`. -/
theorem claim_C3 :
    (∀ s : List Char, (∃ f : Formula, Formula.wfF f = true ∧
        Formula.reprF f = s) →
      ∃ f : Formula, parsePfx s = (some f, []) ∧ Formula.reprF f = s) ∧
    (∀ s : List Char, (∃ t : PTerm, PTerm.wfT t = true ∧
        (PTerm.reprT t).data = s) →
      ∃ t : PTerm, termParsePfx s = (some t, []) ∧
        (PTerm.reprT t).data = s) ∧
    (∀ s : List Char, (∃ f : PFormula, PFormula.wfP f = true ∧
        (PFormula.reprP f).data = s) →
      ∃ f : PFormula, foParsePfx s = (some f, []) ∧
        (PFormula.reprP f).data = s) := by
  refine ⟨?_, ?_, ?_⟩
  · rintro s ⟨f, hwf, rfl⟩
    exact ⟨f, parsePfx_round f hwf, rfl⟩
  · rintro s ⟨t, hwf, rfl⟩
    exact ⟨t, termParsePfx_round_nil t hwf, rfl⟩
  · rintro s ⟨f, hwf, rfl⟩
    refine ⟨f, ?_, rfl⟩
    have h := foParsePfx_round f hwf [] (by simp)
    rwa [List.append_nil] at h

theorem claim_C3_witness :
    (∃ f : Formula, parsePfx ("(p&q)" : String).data = (some f, []) ∧
      Formula.reprF f = ("(p&q)" : String).data) ∧
    (∃ t : PTerm, termParsePfx ("f(x,c1)" : String).data = (some t, []) ∧
      (PTerm.reprT t).data = ("f(x,c1)" : String).data) ∧
    (∃ f : PFormula, foParsePfx ("Ax[x=c]" : String).data = (some f, []) ∧
      (PFormula.reprP f).data = ("Ax[x=c]" : String).data) :=
  ⟨claim_C3.1 _ ⟨Formula.bin BinOp.and (Formula.var "p") (Formula.var "q"),
      by decide, rfl⟩,
   claim_C3.2.1 _ ⟨PTerm.func "f" [PTerm.leaf "x", PTerm.leaf "c1"],
      by decide, rfl⟩,
   claim_C3.2.2 _ ⟨PFormula.quant "A" "x"
        (PFormula.eq (PTerm.leaf "x") (PTerm.leaf "c")),
      by decide, rfl⟩⟩

end Propositions
